import Mathlib

/-!
The redis-graph module: hexastore commands, pattern-graph builder and pattern
executor.

A shallow embedding of `src/module.c` and `src/query_executor.c`.

* Byte strings (`RedisModuleString`, `char*`) are lists of byte values.
* The host's keyspace is a function from key names to stored values; a sorted
  set whose members all have score `0.0` is the list of its members in
  ascending byte order.
* Pointers into the pattern graph are indices into its node and edge vectors;
  a `NULL` pointer is `none`.
* A buffer is the list of its bytes; a read or write outside it, like the
  dereference of a `NULL` pointer, ends a run with a fault.
* A `char*` is read as the C string at the pointer, the bytes before the first
  NUL. Where the code reads on behind the terminator of a string whose buffer
  was allocated by code that is not among the sources, the bytes it finds
  there are a parameter.
* Code of the repository that is not part of the two files (the parser, the
  label stores, the group cache, the aggregation functions) is a parameter of
  the function that calls it, or is modelled from the specification where a
  doc comment says so.
-/

namespace RedisGraph

/-! # Definitions -/

/-! ## Byte strings -/

/-- A byte string; every element stands for one byte. -/
abbrev Bytes := List Nat

/-- The bytes of a string literal. -/
def str (s : String) : Bytes := s.toList.map Char.toNat

/-- The separator byte `':'` of the key encoding. -/
abbrev COLON : Nat := 58

/-- Byte-wise comparison of two members (`memcmp`, the shorter string first on
a tie): the order of a sorted set whose scores are all equal. -/
def lexLt : Bytes → Bytes → Bool
  | [], [] => false
  | [], _ :: _ => true
  | _ :: _, [] => false
  | a :: as, b :: bs => decide (a < b) || (decide (a = b) && lexLt as bs)

/-! ## The storage host: keys and sorted sets -/

/-- A value stored under a key of the host. -/
inductive RedisValue where
  /-- A sorted set, as the list of its members in ascending order. -/
  | zset (members : List Bytes)
  /-- A value of any other type (string, list, hash, set, ...). -/
  | other (keytype : Nat)
  deriving DecidableEq, Repr

/-- The keyspace: `none` is a key that does not exist
(`REDISMODULE_KEYTYPE_EMPTY`). -/
abbrev KeySpace := Bytes → Option RedisValue

/-- Key types reported by `RedisModule_KeyType`. -/
inductive KeyType where
  | EMPTY
  | ZSET
  | OTHER
  deriving DecidableEq, Repr

/-- The type of the value an open key refers to. -/
def RedisModule_KeyType : Option RedisValue → KeyType
  | none => .EMPTY
  | some (.zset _) => .ZSET
  | some (.other _) => .OTHER

/-- Insertion of a new member at its place in the byte order. -/
def zslInsert (m : Bytes) : List Bytes → List Bytes
  | [] => [m]
  | x :: xs => if lexLt m x then m :: x :: xs else x :: zslInsert m xs

/-- The members of the sorted set under an open key (none for an empty key). -/
def zsetMembers : Option RedisValue → List Bytes
  | some (.zset l) => l
  | _ => []

/-- Adding a member with score `SCORE` to an open key that is empty or a sorted
set: an empty key becomes a sorted set, a member that is already present only
has its (equal) score rewritten. -/
def RedisModule_ZsetAdd (v : Option RedisValue) (m : Bytes) : Option RedisValue :=
  match v with
  | none => some (.zset [m])
  | some (.zset l) => some (.zset (if m ∈ l then l else zslInsert m l))
  | some (.other t) => some (.other t)

/-- Removing a member from an open sorted-set key; the flag is the `deleted`
out-parameter. The host deletes a sorted set that becomes empty. -/
def RedisModule_ZsetRem (v : Option RedisValue) (m : Bytes) : Option RedisValue × Nat :=
  match v with
  | some (.zset l) =>
    if m ∈ l then
      ((if l.erase m = [] then none else some (.zset (l.erase m))), 1)
    else (some (.zset l), 0)
  | w => (w, 0)

/-- The cardinality of the value under an open key, as `RedisModule_ValueLength`
reports it for sorted sets and empty keys. -/
def RedisModule_ValueLength (v : Option RedisValue) : Nat := (zsetMembers v).length

/-- Writing back the value of the key opened under `name`. -/
def setKey (db : KeySpace) (name : Bytes) (v : Option RedisValue) : KeySpace :=
  fun k => if k = name then v else db k

/-- The representation invariant of a sorted set: strictly ascending members. -/
def ZSetWF (l : List Bytes) : Prop := l.Pairwise (fun a b => lexLt a b = true)

/-- The representation invariant of a stored value. -/
def ValueWF : Option RedisValue → Prop
  | some (.zset l) => ZSetWF l ∧ l ≠ []
  | _ => True

/-! ## Triplets and their six keys -/

/-- A triplet of subject, predicate and object (`char*` fields); a field that
is `NULL` is a wildcard. -/
structure Triplet where
  subject : Option Bytes
  predicate : Option Bytes
  object : Option Bytes
  deriving DecidableEq, Repr

/-- The C string a byte sequence holds: its bytes before the first NUL. -/
def cString (b : Bytes) : Bytes := b.takeWhile (fun x => decide (x ≠ 0))

/-- Modelled from the spec: `NewTriplet` of `triplet.c`, which is not among the
sources; a triplet is an immutable `(subject, predicate, object)`. The
arguments are `const char*`: each coordinate is the C string at its pointer,
so that of a byte string with a NUL only the part before the NUL is taken. -/
def NewTriplet (s p o : Option Bytes) : Triplet :=
  ⟨s.map cString, p.map cString, o.map cString⟩

/-- One key `<tag>:<a>:<b>:<c>`. -/
def permutationKey (tag : String) (a b c : Bytes) : Bytes :=
  str tag ++ [COLON] ++ a ++ [COLON] ++ b ++ [COLON] ++ c

/-- Modelled from the spec: `GetTripletPermutations` of `triplet.c`, which is
not among the sources; the six keys `<tag>:<a>:<b>:<c>` in the fixed order
SPO, SOP, PSO, POS, OSP, OPS, with three lowercase letters as tag. -/
def GetTripletPermutations (t : Triplet) : List Bytes :=
  let s := t.subject.getD []
  let p := t.predicate.getD []
  let o := t.object.getD []
  [ permutationKey "spo" s p o,
    permutationKey "sop" s o p,
    permutationKey "pso" p s o,
    permutationKey "pos" p o s,
    permutationKey "osp" o s p,
    permutationKey "ops" o p s ]

/-- The host's `RedisModule_CreateString(ctx, ptr, len)` for a pointer to a C
string: the `len` bytes found at the pointer, which are the bytes of the
string, its terminator, and then the bytes `beyond` that lie behind the
terminator. -/
def RedisModule_CreateString (cstr : Bytes) (beyond : Nat → Nat) (len : Nat) : Bytes :=
  (cstr ++ 0 :: (List.range len).map beyond).take len

/-- The loop of `hexastoreTriplets` from permutation `i` on: each permutation is
copied into a host string of `bufLen` bytes. -/
def copyPermutations (beyond : Nat → Nat → Nat) (bufLen : Nat) : Nat → List Bytes → List Bytes
  | _, [] => []
  | i, permutation :: rest =>
    RedisModule_CreateString permutation (beyond i) bufLen ::
      copyPermutations beyond bufLen (i + 1) rest

/-- Source `hexastoreTriplets`: the triplet is made of the three `char*`, and
every permutation is copied into a host string of
`bufLen = 6 + sLen + pLen + oLen` bytes, where the lengths are those of the
arguments. When a coordinate holds a NUL, a permutation is shorter than
`bufLen`, and the copy takes in its terminator and `beyond i`, the bytes
behind the terminator of permutation `i`. -/
def hexastoreTriplets (beyond : Nat → Nat → Nat) (subject predicate object : Bytes) :
    List Bytes :=
  let bufLen := 6 + subject.length + predicate.length + object.length
  let triplet := NewTriplet (some subject) (some predicate) (some object)
  let permutations := GetTripletPermutations triplet
  copyPermutations beyond bufLen 0 permutations

/-! ## Replies and the mutation commands -/

/-- A reply sent to the client. -/
inductive Reply where
  | wrongArity
  | error (msg : String)
  | longLong (n : Nat)
  /-- One record of a result set. -/
  | record (fields : List (Option Bytes))
  /-- The execution-time trailer of a query. -/
  | executionTime
  deriving DecidableEq, Repr

/-- The host's `REDISMODULE_ERRORMSG_WRONGTYPE`. -/
def REDISMODULE_ERRORMSG_WRONGTYPE : String :=
  "WRONGTYPE Operation against a key holding the wrong kind of value"

/-- Source `MGraph_AddEdge`; `argv` holds the command name and its arguments,
`argc` is its length, `beyond` the bytes behind the six permutation strings
of this call. -/
def MGraph_AddEdge (beyond : Nat → Nat → Nat) (db : KeySpace) (argv : List Bytes) :
    KeySpace × Reply :=
  match argv with
  | [_, graph, subject, predicate, object] =>
    let key := db graph
    let keytype := RedisModule_KeyType key
    if keytype ≠ .ZSET ∧ keytype ≠ .EMPTY then
      (db, .error REDISMODULE_ERRORMSG_WRONGTYPE)
    else
      let triplets := hexastoreTriplets beyond subject predicate object
      let key := triplets.foldl RedisModule_ZsetAdd key
      let newlen := RedisModule_ValueLength key
      (setKey db graph key, .longLong newlen)
  | _ => (db, .wrongArity)

/-- The loop of `MGraph_RemoveEdge` over the six keys: the open key and the
running `reply`. -/
def removeLoop (acc : Option RedisValue × Nat) (triplet : Bytes) : Option RedisValue × Nat :=
  let r := RedisModule_ZsetRem acc.1 triplet
  (r.1, acc.2 + r.2)

/-- Source `MGraph_RemoveEdge`; `beyond` holds the bytes behind the six
permutation strings of this call. -/
def MGraph_RemoveEdge (beyond : Nat → Nat → Nat) (db : KeySpace) (argv : List Bytes) :
    KeySpace × Reply :=
  match argv with
  | [_, graph, subject, predicate, object] =>
    let key := db graph
    let keytype := RedisModule_KeyType key
    if keytype = .ZSET then
      let triplets := hexastoreTriplets beyond subject predicate object
      let r := triplets.foldl removeLoop (key, 0)
      (setKey db graph r.1, .longLong r.2)
    else
      (db, .longLong 0)
  | _ => (db, .wrongArity)

/-- Source `MGraph_DeleteGraph`. -/
def MGraph_DeleteGraph (db : KeySpace) (argv : List Bytes) : KeySpace × Reply :=
  match argv with
  | [_, graph] =>
    let key := db graph
    let keytype := RedisModule_KeyType key
    if keytype = .ZSET then
      (setKey db graph none, .longLong 1)
    else
      (db, .longLong 0)
  | _ => (db, .wrongArity)

/-- The keyspace in which no key exists. -/
def emptyDb : KeySpace := fun _ => none

/-- The keyspace after `ADDEDGE graph s p o` for every edge of a list, in
order; `beyond k` holds the bytes behind the permutation strings of call `k`. -/
def addEdges (beyond : Nat → Nat → Nat → Nat) (db : KeySpace) (graph : Bytes) :
    List (Bytes × Bytes × Bytes) → KeySpace
  | [] => db
  | e :: rest =>
    addEdges (fun k => beyond (k + 1))
      (MGraph_AddEdge (beyond 0) db [str "graph.ADDEDGE", graph, e.1, e.2.1, e.2.2]).1 graph rest

/-- Memory in which every byte behind a permutation string is NUL. -/
def noBytes : Nat → Nat → Nat → Nat := fun _ _ _ => 0

/-- The six keys of the edge `(s, p, o)`, written out. -/
def sixKeys (s p o : Bytes) : List Bytes :=
  [ str "spo:" ++ s ++ str ":" ++ p ++ str ":" ++ o,
    str "sop:" ++ s ++ str ":" ++ o ++ str ":" ++ p,
    str "pso:" ++ p ++ str ":" ++ s ++ str ":" ++ o,
    str "pos:" ++ p ++ str ":" ++ o ++ str ":" ++ s,
    str "osp:" ++ o ++ str ":" ++ s ++ str ":" ++ p,
    str "ops:" ++ o ++ str ":" ++ p ++ str ":" ++ s ]

/-- Colon-free coordinates: no coordinate of the edge contains the separator. -/
def ColonFree (e : Bytes × Bytes × Bytes) : Prop :=
  COLON ∉ e.1 ∧ COLON ∉ e.2.1 ∧ COLON ∉ e.2.2

/-- NUL-free coordinates: every coordinate of the edge is a C string as it
stands. -/
def NulFree (e : Bytes × Bytes × Bytes) : Prop :=
  0 ∉ e.1 ∧ 0 ∉ e.2.1 ∧ 0 ∉ e.2.2

instance (e : Bytes × Bytes × Bytes) : Decidable (NulFree e) := by
  unfold NulFree
  infer_instance


/-- The index after `ADDEDGE g a loves c` on an empty keyspace. -/
def lovesDb : KeySpace := addEdges noBytes emptyDb (str "g") [(str "a", str "loves", str "c")]

/-- The index after `ADDEDGE g a\0x r b` on an empty keyspace, where the subject
is the three bytes `a`, NUL, `x`. -/
def nulEdgeDb : KeySpace := addEdges noBytes emptyDb (str "g") [([97, 0, 120], str "r", str "b")]

/-! ## Outcomes of code that may dereference an invalid pointer -/

/-- What a run ends with: a result, the dereference of a `NULL` or unset
pointer, or an exhausted recursion budget of the model. -/
inductive Outcome (α : Type) where
  | ok (a : α)
  | fault
  | outOfFuel
  deriving DecidableEq, Repr

/-! ## The AST -/

/-- A constant of the query language (`SIValue`). -/
inductive SIValue where
  | stringval (s : String)
  | numval (n : Int)
  deriving DecidableEq, Repr

/-- The `stringval` member of a constant, which `BuildGraph` and
`inlineProperties` read from a property key. -/
def SIValue.keyName : SIValue → String
  | .stringval s => s
  | .numval n => toString n

/-- The kind of a graph entity of the match clause. -/
inductive AST_GraphEntityType where
  | N_ENTITY
  | N_LINK
  deriving DecidableEq, Repr

/-- The direction flag of a link entity. -/
inductive AST_LinkDirection where
  | N_LEFT_TO_RIGHT
  | N_RIGHT_TO_LEFT
  | N_DIR_UNKNOWN
  deriving DecidableEq, Repr

/-- A node or link entity of a clause; `direction` is read for links only
(`AST_LinkEntity`), `properties` is the flat vector key, value, key, value. -/
structure AST_GraphEntity where
  alias_ : Option String
  label : Option String
  properties : Option (List SIValue)
  t : AST_GraphEntityType
  direction : AST_LinkDirection
  deriving DecidableEq, Repr

/-- Comparison operators of a predicate. -/
inductive CompOp where
  | EQ | GT | GE | LT | LE | NE
  deriving DecidableEq, Repr

/-- Connectives of a condition. -/
inductive CondOp where
  | AND | OR
  deriving DecidableEq, Repr

/-- The filter tree of a where clause. -/
inductive AST_FilterNode where
  | constantPredicate (alias_ property : String) (op : CompOp) (constVal : SIValue)
  | varyingPredicate (lAlias lProperty : String) (op : CompOp) (rAlias rProperty : String)
  | condition (left : AST_FilterNode) (op : CondOp) (right : AST_FilterNode)
  deriving DecidableEq, Repr

/-- The constructor `New_AST_ConstantPredicateNode` of a constant predicate. -/
def New_AST_ConstantPredicateNode (alias_ property : String) (op : CompOp) (v : SIValue) :
    AST_FilterNode := .constantPredicate alias_ property op v

/-- The constructor `New_AST_ConditionNode` of a condition. -/
def New_AST_ConditionNode (left : AST_FilterNode) (op : CondOp) (right : AST_FilterNode) :
    AST_FilterNode := .condition left op right

/-- An arithmetic expression: an operand (constant or `alias[.property]`) or
the application of a function to argument expressions. -/
inductive AST_ArithmeticExpressionNode where
  | constant (v : SIValue)
  | variadic (alias_ : String) (property : Option String)
  | op (function : String) (args : List AST_ArithmeticExpressionNode)

/-- One element of the return clause. -/
structure AST_ReturnElementNode where
  exp : AST_ArithmeticExpressionNode
  alias_ : Option String

/-- The match clause. -/
structure AST_MatchNode where
  graphEntities : List AST_GraphEntity
  deriving DecidableEq, Repr

/-- The create clause. -/
structure AST_CreateNode where
  graphEntities : List AST_GraphEntity
  deriving DecidableEq, Repr

/-- The where clause. -/
structure AST_WhereNode where
  filters : AST_FilterNode
  deriving DecidableEq, Repr

/-- The delete clause. -/
structure AST_DeleteNode where
  graphEntities : List String
  deriving DecidableEq, Repr

/-- The return clause. -/
structure AST_ReturnNode where
  returnElements : List AST_ReturnElementNode

/-- The constructor `New_AST_WhereNode` of a where clause. -/
def New_AST_WhereNode (filters : AST_FilterNode) : AST_WhereNode := ⟨filters⟩

/-- A query expression with its five optional clauses. -/
structure AST_QueryExpressionNode where
  matchNode : Option AST_MatchNode
  whereNode : Option AST_WhereNode
  createNode : Option AST_CreateNode
  deleteNode : Option AST_DeleteNode
  returnNode : Option AST_ReturnNode

/-! ## AST rewrites of `ParseQuery` -/

/-- Source `_nameAnonymousNodes`: the entities and the counter after the loop. -/
def _nameAnonymousNodes : List AST_GraphEntity → Nat → List AST_GraphEntity × Nat
  | [], entity_id => ([], entity_id)
  | entity :: rest, entity_id =>
    if entity.alias_ = none then
      let r := _nameAnonymousNodes rest (entity_id + 1)
      ({ entity with alias_ := some ("anon_" ++ toString entity_id) } :: r.1, r.2)
    else
      let r := _nameAnonymousNodes rest entity_id
      (entity :: r.1, r.2)

/-- Source `nameAnonymousNodes`. -/
def nameAnonymousNodes (ast : AST_QueryExpressionNode) : AST_QueryExpressionNode :=
  let entity_id := 0
  let m := match ast.matchNode with
    | some matchNode =>
      let r := _nameAnonymousNodes matchNode.graphEntities entity_id
      (some (AST_MatchNode.mk r.1), r.2)
    | none => (none, entity_id)
  let c := match ast.createNode with
    | some createNode =>
      some (AST_CreateNode.mk (_nameAnonymousNodes createNode.graphEntities m.2).1)
    | none => none
  { ast with matchNode := m.1, createNode := c }

/-- The pairs of a flat property vector; the loops over it step by two. The
parser pushes a key together with its value, so that the vector has an even
size; a last key without a value is left unpaired. -/
def propertyPairs : List SIValue → List (SIValue × SIValue)
  | key :: value :: rest => (key, value) :: propertyPairs rest
  | _ => []

/-- The inner loop of `inlineProperties` over the properties of one entity. A
`NULL` alias, which `nameAnonymousNodes` has replaced by the time this pass
runs, is passed on as the empty string. -/
def inlineEntityProperties (alias_ : Option String) (whereNode : Option AST_WhereNode)
    (pair : SIValue × SIValue) : Option AST_WhereNode :=
  let filterNode := New_AST_ConstantPredicateNode (alias_.getD "") pair.1.keyName .EQ pair.2
  match whereNode with
  | none => some (New_AST_WhereNode filterNode)
  | some w => some ⟨New_AST_ConditionNode w.filters .AND filterNode⟩

/-- Source `inlineProperties`. -/
def inlineProperties (ast : AST_QueryExpressionNode) : AST_QueryExpressionNode :=
  match ast.matchNode with
  | none => ast
  | some matchNode =>
    let whereNode := matchNode.graphEntities.foldl
      (fun w entity =>
        match entity.properties with
        | none => w
        | some properties => (propertyPairs properties).foldl (inlineEntityProperties entity.alias_) w)
      ast.whereNode
    { ast with whereNode := whereNode }

/-- Source `ParseQuery`; the generated parser `Query_Parse` is a parameter. -/
def ParseQuery (Query_Parse : Bytes → Option AST_QueryExpressionNode) (query : Bytes) :
    Option AST_QueryExpressionNode :=
  match Query_Parse query with
  | none => none
  | some ast => some (inlineProperties (nameAnonymousNodes ast))

/-! ## The pattern graph -/

/-- A pattern node. `alias` is the alias it is registered under, `id` the
binding of the traversal (`NULL` when unbound), the edge lists hold edge
indices. -/
structure Node where
  alias_ : Option String
  label : Option String
  id : Option Bytes
  properties : List (String × SIValue)
  outgoingEdges : List Nat
  incomingEdges : List Nat
  deriving DecidableEq, Repr

/-- A pattern edge. `src` and `dest` are node pointers (`none` is `NULL`),
`relationship` is the binding of the traversal. -/
structure Edge where
  alias_ : Option String
  src : Option Nat
  dest : Option Nat
  label : Option String
  relationship : Option Bytes
  properties : List (String × SIValue)
  deriving DecidableEq, Repr

/-- The pattern graph: its node and edge vectors. -/
structure Graph where
  nodes : List Node
  edges : List Edge
  deriving DecidableEq, Repr

/-- Modelled from the spec: `NewGraph` of `graph.c`, which is not among the
sources; the pattern graph without nodes and edges. -/
def NewGraph : Graph := ⟨[], []⟩

/-- Modelled from the spec: `NewNode` of `node.c`, which is not among the
sources; a node with an optional label, an unbound id (`INVALID_ENTITY_ID`)
and no properties and edges yet. -/
def NewNode (id : Option Bytes) (label : Option String) : Node :=
  ⟨none, label, id, [], [], []⟩

/-- Modelled from the spec: `NewEdge` of `edge.c`, which is not among the
sources; an edge between two pattern nodes whose optional label is the
predicate to match, so that it is the initial relationship binding. -/
def NewEdge (_id : Option Bytes) (src dest : Option Nat) (label : Option String) : Edge :=
  ⟨none, src, dest, label, label.map str, []⟩

/-- Modelled from the spec: `Node_Add_Properties` of `node.c`, which is not
among the sources; one more property of the node. -/
def Node_Add_Properties (n : Node) (k : String) (value : SIValue) : Node :=
  { n with properties := n.properties ++ [(k, value)] }

/-- Modelled from the spec: `Edge_Add_Properties` of `edge.c`, which is not
among the sources; one more property of the edge. -/
def Edge_Add_Properties (e : Edge) (k : String) (value : SIValue) : Edge :=
  { e with properties := e.properties ++ [(k, value)] }

/-- Modelled from the spec: `Graph_GetNodeByAlias` of `graph.c`, which is not
among the sources; the pattern node registered under the alias, `NULL` when
there is none. -/
def Graph_GetNodeByAlias (g : Graph) (alias_ : Option String) : Option Nat :=
  g.nodes.findIdx? (fun n => decide (n.alias_ = alias_))

/-- Modelled from the spec: `Graph_GetEdgeByAlias` of `graph.c`, which is not
among the sources; the pattern edge registered under the alias, `NULL` when
there is none. -/
def Graph_GetEdgeByAlias (g : Graph) (alias_ : Option String) : Option Nat :=
  g.edges.findIdx? (fun e => decide (e.alias_ = alias_))

/-- Modelled from the spec: `Graph_AddNode` of `graph.c`, which is not among
the sources; registers the node under its alias. -/
def Graph_AddNode (g : Graph) (n : Node) (alias_ : Option String) : Graph :=
  { g with nodes := g.nodes ++ [{ n with alias_ := alias_ }] }

/-- The node vector after applying `f` to the node a pointer refers to. -/
def updateNode (nodes : List Node) (p : Option Nat) (f : Node → Node) : List Node :=
  match p with
  | none => nodes
  | some i =>
    match nodes[i]? with
    | none => nodes
    | some n => nodes.set i (f n)

/-- Modelled from the spec: `Graph_ConnectNodes` of `graph.c`, which is not
among the sources; registers the edge under its alias and connects src → dest:
the edge joins the outgoing list of `src` and the incoming list of `dest`. -/
def Graph_ConnectNodes (g : Graph) (src dest : Option Nat) (e : Edge) (alias_ : Option String) :
    Graph :=
  let idx := g.edges.length
  let nodes := updateNode g.nodes src (fun n => { n with outgoingEdges := n.outgoingEdges ++ [idx] })
  let nodes := updateNode nodes dest (fun n => { n with incomingEdges := n.incomingEdges ++ [idx] })
  { nodes := nodes, edges := g.edges ++ [{ e with alias_ := alias_ }] }

/-- Modelled from the spec: `Graph_GetNDegreeNodes` of `graph.c`, which is not
among the sources; the nodes of the given in-degree, in node order. -/
def Graph_GetNDegreeNodes (g : Graph) (degree : Nat) : List Nat :=
  (List.range g.nodes.length).filter
    (fun i => match g.nodes[i]? with
      | some n => decide (n.incomingEdges.length = degree)
      | none => false)

/-- The first loop of `BuildGraph`, for one entity. -/
def introduceNode (graph : Graph) (entity : AST_GraphEntity) : Graph :=
  if entity.t ≠ .N_ENTITY then graph
  else if (Graph_GetNodeByAlias graph entity.alias_).isSome then graph
  else
    let n := NewNode none entity.label
    let n := match entity.properties with
      | none => n
      | some properties =>
        (propertyPairs properties).foldl (fun n kv => Node_Add_Properties n kv.1.keyName kv.2) n
    Graph_AddNode graph n entity.alias_

/-- The second loop of `BuildGraph`, for the entity at position `i`. A
neighbour that `Vector_Get` cannot deliver leaves the pointer unset. -/
def introduceEdge (entities : List AST_GraphEntity) (graph : Graph) (i : Nat) :
    Outcome Graph :=
  match entities[i]? with
  | none => .ok graph
  | some entity =>
    if entity.t ≠ .N_LINK then .ok graph
    else if (Graph_GetEdgeByAlias graph entity.alias_).isSome then .ok graph
    else
      let before := if i = 0 then none else entities[i - 1]?
      let after := entities[i + 1]?
      let src_node := if entity.direction = .N_LEFT_TO_RIGHT then before else after
      let dest_node := if entity.direction = .N_LEFT_TO_RIGHT then after else before
      match src_node, dest_node with
      | some src_node, some dest_node =>
        let src := Graph_GetNodeByAlias graph src_node.alias_
        let dest := Graph_GetNodeByAlias graph dest_node.alias_
        let e := NewEdge none src dest entity.label
        let e := match entity.properties with
          | none => e
          | some properties =>
            (propertyPairs properties).foldl (fun e kv => Edge_Add_Properties e kv.1.keyName kv.2) e
        .ok (Graph_ConnectNodes graph src dest e entity.alias_)
      | _, _ => .fault

/-- The second loop of `BuildGraph` over the positions still to visit. -/
def introduceEdges (entities : List AST_GraphEntity) : List Nat → Graph → Outcome Graph
  | [], graph => .ok graph
  | i :: rest, graph =>
    match introduceEdge entities graph i with
    | .ok graph => introduceEdges entities rest graph
    | .fault => .fault
    | .outOfFuel => .outOfFuel

/-- Source `BuildGraph`: nodes first, then edges. -/
def BuildGraph (graph : Graph) (entities : List AST_GraphEntity) : Outcome Graph :=
  introduceEdges entities (List.range entities.length) (entities.foldl introduceNode graph)

/-! ## The hexastore cursor -/

/-- Modelled from the spec: `TripletToString` of `triplet.c`, which is not
among the sources; the encoding whose tag is the first permutation of the
fixed order whose leading coordinates are the bound ones, cut before the first
wildcard (`spo:antirez:is-friend-of:` in the comment of `queryTriplet`). The
coordinates are `char*` and the result is a C string: of every coordinate the
part before its first NUL goes into it. -/
def TripletToString (t : Triplet) : Bytes :=
  match t.subject, t.predicate, t.object with
  | some s, some p, some o =>
    str "spo:" ++ cString s ++ str ":" ++ cString p ++ str ":" ++ cString o
  | some s, some p, none => str "spo:" ++ cString s ++ str ":" ++ cString p ++ str ":"
  | some s, none, some o => str "sop:" ++ cString s ++ str ":" ++ cString o ++ str ":"
  | none, some p, some o => str "pos:" ++ cString p ++ str ":" ++ cString o ++ str ":"
  | some s, none, none => str "spo:" ++ cString s ++ str ":"
  | none, some p, none => str "pso:" ++ cString p ++ str ":"
  | none, none, some o => str "osp:" ++ cString o ++ str ":"
  | none, none, none => str "spo:"

/-- The id a node pointer is bound to. -/
def nodeId (g : Graph) (p : Option Nat) : Option Bytes :=
  match p with
  | none => none
  | some i =>
    match g.nodes[i]? with
    | none => none
    | some n => n.id

/-- Modelled from the spec: `TripletFromEdge` of `triplet.c`, which is not
among the sources; the bound ids of the source node, the edge and the
destination node, a wildcard where one is unbound. -/
def TripletFromEdge (g : Graph) (edge : Edge) : Triplet :=
  NewTriplet (nodeId g edge.src) edge.relationship (nodeId g edge.dest)

/-- A bound of a lexicographic range, as the host parses it. -/
inductive LexBound where
  | inclusive (b : Bytes)
  | exclusive (b : Bytes)
  | minusInfinity
  | plusInfinity
  deriving DecidableEq, Repr

/-- The host's parsing of a range bound: `[` and `(` followed by the string,
or `-` and `+` alone. -/
def parseLexBound : Bytes → Option LexBound
  | 91 :: b => some (.inclusive b)
  | 40 :: b => some (.exclusive b)
  | [45] => some .minusInfinity
  | [43] => some .plusInfinity
  | _ => none

/-- Whether a member is at or above a lower bound. -/
def aboveMin (min : LexBound) (m : Bytes) : Bool :=
  match min with
  | .inclusive b => !lexLt m b
  | .exclusive b => lexLt b m
  | .minusInfinity => true
  | .plusInfinity => false

/-- Whether a member is at or below an upper bound. -/
def belowMax (max : LexBound) (m : Bytes) : Bool :=
  match max with
  | .inclusive b => !lexLt b m
  | .exclusive b => lexLt m b
  | .minusInfinity => false
  | .plusInfinity => true

/-- The host's `RedisModule_ZsetFirstInLexRange` with the iteration it starts:
the members of the range in ascending order, `none` for `REDISMODULE_ERR` (the
key is not a sorted set, or a bound does not parse). -/
def RedisModule_ZsetFirstInLexRange (v : Option RedisValue) (min max : Bytes) :
    Option (List Bytes) :=
  match v, parseLexBound min, parseLexBound max with
  | some (.zset l), some lo, some hi => some (l.filter (fun m => aboveMin lo m && belowMax hi m))
  | _, _, _ => none

/-- Source `queryTriplet`: the members the cursor runs through; a `NULL`
cursor yields nothing. `tripletStr` is a C string, so that `strlen` is its
length and `sprintf` copies all of it. `max` is created from
`bufLen = strlen + 3` bytes of the buffer, which are `[`, the string, `0xFF`
and the terminator. -/
def queryTriplet (db : KeySpace) (graph : Bytes) (triplet : Triplet) : List Bytes :=
  let tripletStr := TripletToString triplet
  let min := [91] ++ tripletStr
  let max := [91] ++ tripletStr ++ [255, 0]
  match RedisModule_ZsetFirstInLexRange (db graph) min max with
  | none => []
  | some cursor => cursor

/-- The part of a string before its first `':'` and the part after it. -/
def cutAtColon : Bytes → Option (Bytes × Bytes)
  | [] => none
  | x :: xs =>
    if x = COLON then some ([], xs)
    else match cutAtColon xs with
      | none => none
      | some r => some (x :: r.1, r.2)

/-- Modelled from the spec: the parsing step of `TripletCursorNext` of
`hexastore.c`, which is not among the sources; the key is parsed back into
subject, predicate and object according to its permutation tag. The result is
a triplet of `char*`, so that a coordinate ends at its first NUL. -/
def tripletOfKey (key : Bytes) : Option Triplet :=
  match cutAtColon key with
  | none => none
  | some (tag, r1) =>
    match cutAtColon r1 with
    | none => none
    | some (a, r2) =>
      match cutAtColon r2 with
      | none => none
      | some (b, c) =>
        if tag = str "spo" then some (NewTriplet (some a) (some b) (some c))
        else if tag = str "sop" then some (NewTriplet (some a) (some c) (some b))
        else if tag = str "pso" then some (NewTriplet (some b) (some a) (some c))
        else if tag = str "pos" then some (NewTriplet (some c) (some a) (some b))
        else if tag = str "osp" then some (NewTriplet (some b) (some c) (some a))
        else if tag = str "ops" then some (NewTriplet (some c) (some b) (some a))
        else none

/-! ## The result set -/

/-- A record of a result set. -/
abbrev Record := List (Option Bytes)

/-- Modelled from the spec: the result set of `resultset.c`, which is not
among the sources; an ordered sequence of records with a capacity (`none` when
unbounded) and the aggregation flag of the query. -/
structure ResultSet where
  records : List Record
  limit : Option Nat
  aggregated : Bool
  deriving DecidableEq, Repr

/-- Modelled from the spec: `ResultSet_Full` of `resultset.c`, which is not
among the sources; the result set is at capacity. -/
def ResultSet_Full (set : ResultSet) : Bool :=
  match set.limit with
  | none => false
  | some limit => decide (limit ≤ set.records.length)

/-- Modelled from the spec: `ResultSet_AddRecord` of `resultset.c`, which is
not among the sources; appends the record. -/
def ResultSet_AddRecord (set : ResultSet) (record : Record) : ResultSet :=
  { set with records := set.records ++ [record] }

/-! ## The pattern executor -/

/-- What `QueryNode` receives besides the pattern graph and the node: the
keyspace, the graph name, the filter tree (`none` is `NULL`), the return tree,
and the functions of the filter, projection and aggregation modules, which
read the current bindings of the pattern graph. -/
structure QueryCtx (F R C : Type) where
  db : KeySpace
  graphName : Bytes
  filterTree : Option F
  returnTree : R
  applyFilters : Graph → F → Bool
  ReturnClause_RetrivePropValues : R → Graph → Record
  _aggregateRecord : R → Graph → C → C

/-- What `QueryNode` mutates: the bindings of the pattern graph, the
entry-points stack, the result set and the group cache. -/
structure QueryState (C : Type) where
  g : Graph
  entryPoints : List Nat
  returnedSet : ResultSet
  cache : C

/-- Assignment to `n->id`. -/
def Graph.setNodeId (g : Graph) (n : Nat) (id : Option Bytes) : Graph :=
  { g with nodes := updateNode g.nodes (some n) (fun nd => { nd with id := id }) }

/-- Assignment to `edge->relationship`. -/
def Graph.setRelationship (g : Graph) (e : Nat) (relationship : Option Bytes) : Graph :=
  match g.edges[e]? with
  | none => g
  | some ed => { g with edges := g.edges.set e { ed with relationship := relationship } }

/-- The body of the cursor loop after the ids are bound: recursion into the
destination, recursion into a popped entry point, or the end of the graph. -/
def advance {F R C : Type} (ctx : QueryCtx F R C)
    (recur : Nat → QueryState C → Outcome (QueryState C))
    (dest : Nat) (st : QueryState C) : Outcome (QueryState C) :=
  match st.g.nodes[dest]? with
  | none => .fault
  | some destNode =>
    if destNode.outgoingEdges.length > 0 then recur dest st
    else if st.entryPoints.length > 0 then
      match st.entryPoints.getLast? with
      | none => .fault
      | some entryPoint =>
        match recur entryPoint { st with entryPoints := st.entryPoints.dropLast } with
        | .ok st' => .ok { st' with entryPoints := st'.entryPoints ++ [entryPoint] }
        | .fault => .fault
        | .outOfFuel => .outOfFuel
    else
      let pass := match ctx.filterTree with
        | none => true
        | some filterTree => ctx.applyFilters st.g filterTree
      if pass then
        if st.returnedSet.aggregated then
          .ok { st with cache := ctx._aggregateRecord ctx.returnTree st.g st.cache }
        else
          let record := ctx.ReturnClause_RetrivePropValues ctx.returnTree st.g
          .ok { st with returnedSet := ResultSet_AddRecord st.returnedSet record }
      else .ok st

/-- The cursor loop of `QueryNode` over the members still ahead of the
cursor. -/
def cursorLoop {F R C : Type} (ctx : QueryCtx F R C)
    (recur : Nat → QueryState C → Outcome (QueryState C)) (src edge dest : Nat) :
    List Bytes → QueryState C → Outcome (QueryState C)
  | [], st => .ok st
  | key :: cursor, st =>
    if ResultSet_Full st.returnedSet then .ok st
    else
      match tripletOfKey key with
      | none => .ok st
      | some result =>
        let g := ((st.g.setNodeId src result.subject).setRelationship edge
          result.predicate).setNodeId dest result.object
        match advance ctx recur dest { st with g := g } with
        | .ok st' => cursorLoop ctx recur src edge dest cursor st'
        | .fault => .fault
        | .outOfFuel => .outOfFuel

/-- The loop of `QueryNode` over the outgoing edges still to visit; the vector
of outgoing edges is not modified during a traversal. -/
def edgeLoop {F R C : Type} (ctx : QueryCtx F R C)
    (recur : Nat → QueryState C → Outcome (QueryState C)) (src : Nat) :
    List Nat → QueryState C → Outcome (QueryState C)
  | [], st => .ok st
  | edge :: rest, st =>
    if ResultSet_Full st.returnedSet then .ok st
    else
      match st.g.edges[edge]? with
      | none => .fault
      | some e =>
        match e.dest with
        | none => .fault
        | some dest =>
          match st.g.nodes[src]?, st.g.nodes[dest]? with
          | some srcNode, some destNode =>
            let triplet := TripletFromEdge st.g e
            let cursor := queryTriplet ctx.db ctx.graphName triplet
            let srcOriginalID := srcNode.id
            let edgeOriginalID := e.relationship
            let destOriginalID := destNode.id
            match cursorLoop ctx recur src edge dest cursor st with
            | .ok st' =>
              let g := ((st'.g.setNodeId src srcOriginalID).setRelationship edge
                edgeOriginalID).setNodeId dest destOriginalID
              edgeLoop ctx recur src rest { st' with g := g }
            | .fault => .fault
            | .outOfFuel => .outOfFuel
          | _, _ => .fault

/-- Source `QueryNode`; the first argument bounds the recursion depth. -/
def QueryNode {F R C : Type} (ctx : QueryCtx F R C) :
    Nat → Nat → QueryState C → Outcome (QueryState C)
  | 0, _, _ => .outOfFuel
  | fuel + 1, n, st =>
    match st.g.nodes[n]? with
    | none => .fault
    | some src => edgeLoop ctx (QueryNode ctx fuel) n src.outgoingEdges st

/-- Lines 377 to 385 of `MGraph_Query`: the in-degree-0 nodes are the entry
points, the one popped first is the start node. -/
def startTraversal {F R C : Type} (ctx : QueryCtx F R C) (fuel : Nat) (graph : Graph)
    (resultSet : ResultSet) (cache : C) : Outcome (QueryState C) :=
  let entryPoints := Graph_GetNDegreeNodes graph 0
  match entryPoints.getLast? with
  | none => .fault
  | some startNode =>
    QueryNode ctx fuel startNode ⟨graph, entryPoints.dropLast, resultSet, cache⟩

/-- The collaborators of `MGraph_Query` that are not among the sources: the
generated parser, the filter-tree builder and evaluator, the projection, the
aggregation with its group cache, and the result set. -/
structure QueryHost (F C : Type) where
  Query_Parse : Bytes → Option AST_QueryExpressionNode
  BuildFiltersTree : AST_FilterNode → F
  applyFilters : KeySpace → Graph → F → Bool
  ReturnClause_RetrivePropValues : KeySpace → Option AST_ReturnNode → Graph → Record
  _aggregateRecord : KeySpace → Option AST_ReturnNode → Graph → C → C
  CacheGroupClear : C
  NewResultSet : AST_QueryExpressionNode → ResultSet
  ResultSet_Replay : ResultSet → C → List Reply
  /-- The time between the two calls of `clock`, in microseconds. -/
  elapsedMicros : Nat

/-- What `%f` prints for a number of milliseconds given in microseconds: the
integral part in decimal, a point, and six decimals. -/
def printElapsed (micros : Nat) : Bytes :=
  str (toString (micros / 1000)) ++ str "." ++
    [48 + micros / 100 % 10, 48 + micros / 10 % 10, 48 + micros % 10, 48, 48, 48]

/-- Lines 392 to 396 of `MGraph_Query`: the buffer `strElapsed` has
`strlen("Query internal execution time: miliseconds") + 8` bytes, and `sprintf`
writes the report and its terminator into it; `true` when the write stays
inside the buffer. -/
def reportFits (micros : Nat) : Bool :=
  let size := (str "Query internal execution time: miliseconds").length + 8
  let written := str "Query internal execution time: " ++ printElapsed micros ++
    str " miliseconds" ++ [0]
  decide (written.length ≤ size)

/-- Source `MGraph_Query`: the replies sent, in order. -/
def MGraph_Query {F C : Type} (h : QueryHost F C) (fuel : Nat) (db : KeySpace)
    (argv : List Bytes) : Outcome (List Reply) :=
  if argv.length < 2 then .ok [.wrongArity]
  else
    match argv[1]?, argv[2]? with
    | some graphName, some query =>
      match ParseQuery h.Query_Parse query with
      | none => .fault
      | some parseTree =>
        match parseTree.matchNode with
        | none => .fault
        | some matchNode =>
          match BuildGraph NewGraph matchNode.graphEntities with
          | .ok graph =>
            let filterTree := match parseTree.whereNode with
              | none => none
              | some whereNode => some (h.BuildFiltersTree whereNode.filters)
            let ctx : QueryCtx F (Option AST_ReturnNode) C :=
              ⟨db, graphName, filterTree, parseTree.returnNode, h.applyFilters db,
                h.ReturnClause_RetrivePropValues db, h._aggregateRecord db⟩
            match startTraversal ctx fuel graph (h.NewResultSet parseTree) h.CacheGroupClear with
            | .ok st =>
              if reportFits h.elapsedMicros then
                .ok (h.ResultSet_Replay st.returnedSet st.cache ++ [.executionTime])
              else .fault
            | .fault => .fault
            | .outOfFuel => .outOfFuel
          | .fault => .fault
          | .outOfFuel => .outOfFuel
    | _, _ => .fault


/-! ## Vocabulary of the statements about `BuildGraph` -/

/-- The aliases the pattern nodes are registered under, in node order. -/
def nodeAliases (g : Graph) : List (Option String) := g.nodes.map (fun n => n.alias_)

/-- The aliases the pattern edges are registered under, in edge order. -/
def edgeAliases (g : Graph) : List (Option String) := g.edges.map (fun e => e.alias_)

/-- A flat match sequence that alternates node, link, node, ..., node. -/
def alternates : List AST_GraphEntity → Bool
  | [] => false
  | [n] => decide (n.t = .N_ENTITY)
  | n :: l :: rest => decide (n.t = .N_ENTITY) && decide (l.t = .N_LINK) && alternates rest

/-- The properties `BuildGraph` gives to the node or edge of an entity. -/
def entityProperties (entity : AST_GraphEntity) : List (String × SIValue) :=
  match entity.properties with
  | none => []
  | some properties => (propertyPairs properties).map (fun kv => (kv.1.keyName, kv.2))

/-- A node entity with an alias and nothing else. -/
def nodeEntity (a : String) : AST_GraphEntity := ⟨some a, none, none, .N_ENTITY, .N_DIR_UNKNOWN⟩

/-- A link entity with an alias, an optional label and a direction. -/
def linkEntity (a : String) (label : Option String) (d : AST_LinkDirection) : AST_GraphEntity :=
  ⟨some a, label, none, .N_LINK, d⟩

/-- The alias of the pattern node a pointer refers to (`none` for no node). -/
def aliasAt (g : Graph) (p : Option Nat) : Option (Option String) :=
  match p with
  | none => none
  | some i =>
    match g.nodes[i]? with
    | none => none
    | some n => some n.alias_

/-- A host for `MGraph_Query` whose parser accepts no query. -/
def rejectingHost : QueryHost Unit Unit :=
  ⟨fun _ => none, fun _ => (), fun _ _ _ => true, fun _ _ _ => [], fun _ _ _ c => c, (),
    fun _ => ⟨[], none, false⟩, fun set _ => set.records.map Reply.record, 0⟩

/-- The fields of a pattern node that `BuildGraph` fixes when it creates the
node: alias, label, id and properties. -/
def nodeCore (n : Node) : Option String × Option String × Option Bytes × List (String × SIValue) :=
  (n.alias_, n.label, n.id, n.properties)

/-- The entity at position `i` is the first of its kind with its alias. -/
def FirstOccurrence (entities : List AST_GraphEntity) (t : AST_GraphEntityType) (i : Nat)
    (x : AST_GraphEntity) : Prop :=
  entities[i]? = some x ∧ x.t = t ∧
    ∀ j y, j < i → entities[j]? = some y → y.t = t → y.alias_ ≠ x.alias_

/-- The alias of the entity a link takes as its source: the predecessor when
the direction is `N_LEFT_TO_RIGHT`, the successor otherwise. -/
def srcAlias (link before after : AST_GraphEntity) : Option String :=
  if link.direction = .N_LEFT_TO_RIGHT then before.alias_ else after.alias_

/-- The alias of the entity a link takes as its destination. -/
def destAlias (link before after : AST_GraphEntity) : Option String :=
  if link.direction = .N_LEFT_TO_RIGHT then after.alias_ else before.alias_

/-- The pattern edge the second loop of `BuildGraph` creates for a link entity
between its two neighbours, with the node lookups done in the graph `g`. -/
def edgeOfLink (g : Graph) (link before after : AST_GraphEntity) : Edge :=
  ⟨link.alias_, Graph_GetNodeByAlias g (srcAlias link before after),
    Graph_GetNodeByAlias g (destAlias link before after), link.label, link.label.map str,
    entityProperties link⟩

/-- What holds after the second loop of `BuildGraph` has visited the positions
below `k`, where `g1` is the graph the first loop left. -/
def EdgePassInv (entities : List AST_GraphEntity) (g1 : Graph) (k : Nat) (g : Graph) : Prop :=
  g.nodes.map nodeCore = g1.nodes.map nodeCore ∧ (edgeAliases g).Nodup ∧
    (∀ e ∈ g.edges, ∃ i x before after, i < k ∧ FirstOccurrence entities .N_LINK i x ∧ 0 < i ∧
      entities[i - 1]? = some before ∧ entities[i + 1]? = some after ∧
      e = edgeOfLink g1 x before after) ∧
    (∀ i x, i < k → entities[i]? = some x → x.t = .N_LINK → x.alias_ ∈ edgeAliases g)

/-- What holds after the first loop has run over a prefix of the entities. -/
def NodePassInv (pre : List AST_GraphEntity) (g : Graph) : Prop :=
  (nodeAliases g).Nodup ∧ g.edges = [] ∧
    (∀ n ∈ g.nodes, ∃ k x, FirstOccurrence pre .N_ENTITY k x ∧
      n = ⟨x.alias_, x.label, none, entityProperties x, [], []⟩) ∧
    (∀ x ∈ pre, x.t = .N_ENTITY → x.alias_ ∈ nodeAliases g)


/-- The pattern `(a)-[e]->(b)-[e]->(c)`, whose two links share the alias `e`. -/
def duplicateLinkPattern : List AST_GraphEntity :=
  [nodeEntity "a", linkEntity "e" none .N_LEFT_TO_RIGHT, nodeEntity "b",
    linkEntity "e" none .N_LEFT_TO_RIGHT, nodeEntity "c"]

/-- The pattern `(a)<-[e1]-(b)-[e2]->(c)`. -/
def forkPattern : List AST_GraphEntity :=
  [nodeEntity "a", linkEntity "e1" none .N_RIGHT_TO_LEFT, nodeEntity "b",
    linkEntity "e2" none .N_LEFT_TO_RIGHT, nodeEntity "c"]

/-- The pattern `(x)-[x]->(b)`, whose link carries the alias of its first node. -/
def sharedAliasPattern : List AST_GraphEntity :=
  [nodeEntity "x", linkEntity "x" none .N_LEFT_TO_RIGHT, nodeEntity "b"]

/-! ## Vocabulary of the statements about `QueryNode` -/

/-- A coordinate the key encoding can carry: it contains neither the separator
`':'` nor a NUL byte nor the byte `0xFF`, and all its elements are bytes. -/
def CleanBytes (b : Bytes) : Prop := ∀ x ∈ b, x ≠ COLON ∧ 0 < x ∧ x < 255

instance (b : Bytes) : Decidable (CleanBytes b) := by
  unfold CleanBytes
  infer_instance

/-- A triple of coordinates the key encoding can carry. -/
def CleanTriple (t : Bytes × Bytes × Bytes) : Prop :=
  CleanBytes t.1 ∧ CleanBytes t.2.1 ∧ CleanBytes t.2.2

instance (t : Bytes × Bytes × Bytes) : Decidable (CleanTriple t) := by
  unfold CleanTriple
  infer_instance

/-- The index under the graph key is the hexastore of the edges `T`: its
members are the six keys of every edge of `T` and nothing else. -/
def IsHexastore (db : KeySpace) (graph : Bytes) (T : List (Bytes × Bytes × Bytes)) : Prop :=
  RedisModule_KeyType (db graph) ≠ .OTHER ∧
    ∀ k, k ∈ zsetMembers (db graph) ↔ ∃ t ∈ T, k ∈ sixKeys t.1 t.2.1 t.2.2

/-- The node vector with the id of the node at position `i + j` set to
`ν (i + j)`. -/
def bindNodes (ν : Nat → Option Bytes) : Nat → List Node → List Node
  | _, [] => []
  | i, n :: rest => { n with id := ν i } :: bindNodes ν (i + 1) rest

/-- The edge vector with the relationship of the edge at position `i + j` set
to `ρ (i + j)`. -/
def bindEdges (ρ : Nat → Option Bytes) : Nat → List Edge → List Edge
  | _, [] => []
  | i, e :: rest => { e with relationship := ρ i } :: bindEdges ρ (i + 1) rest

/-- The pattern graph with the id binding of every node `i` replaced by `ν i`
and the relationship binding of every edge `j` replaced by `ρ j`. -/
def withBindings (g : Graph) (ν ρ : Nat → Option Bytes) : Graph :=
  ⟨bindNodes ν 0 g.nodes, bindEdges ρ 0 g.edges⟩

/-- The id binding of node `i`. -/
def idOf (g : Graph) (i : Nat) : Option Bytes := nodeId g (some i)

/-- The relationship binding of edge `j`. -/
def relOf (g : Graph) (j : Nat) : Option Bytes :=
  match g.edges[j]? with
  | none => none
  | some e => e.relationship

/-- The bindings after the cursor loop has copied a result into the graph:
`src->id`, `edge->relationship`, then `dest->id`. -/
def bindEnv (env : (Nat → Option Bytes) × (Nat → Option Bytes)) (src edge dest : Nat)
    (result : Triplet) : (Nat → Option Bytes) × (Nat → Option Bytes) :=
  (Function.update (Function.update env.1 src result.subject) dest result.object,
    Function.update env.2 edge result.predicate)

/-- A chain in the pattern graph: from node `n` one outgoing edge leads to the
next node, and so on along the list of (edge, destination) pairs; the last node
has no outgoing edge. -/
def IsChainFrom (g : Graph) : Nat → List (Nat × Nat) → Prop
  | n, [] => ∃ nd, g.nodes[n]? = some nd ∧ nd.outgoingEdges = []
  | n, (e, d) :: rest =>
    ∃ nd ed, g.nodes[n]? = some nd ∧ nd.outgoingEdges = [e] ∧ g.edges[e]? = some ed ∧
      ed.src = some n ∧ ed.dest = some d ∧ IsChainFrom g d rest

/-- The bindings at the ends of all paths the traversal takes along a chain,
in the order it takes them. -/
def chainEnvs (db : KeySpace) (graph : Bytes) :
    Nat → List (Nat × Nat) → (Nat → Option Bytes) × (Nat → Option Bytes) →
      List ((Nat → Option Bytes) × (Nat → Option Bytes))
  | _, [], env => [env]
  | n, (e, d) :: rest, env =>
    ((queryTriplet db graph ⟨env.1 n, env.2 e, env.1 d⟩).filterMap tripletOfKey).flatMap
      (fun t => chainEnvs db graph d rest (bindEnv env n e d t))

/-- The bindings at the ends of all paths the traversal takes through a list
of chains, one chain after the other, in the order it takes them. -/
def forestEnvs (db : KeySpace) (graph : Bytes) :
    List (Nat × List (Nat × Nat)) → (Nat → Option Bytes) × (Nat → Option Bytes) →
      List ((Nat → Option Bytes) × (Nat → Option Bytes))
  | [], env => [env]
  | (p, chain) :: rest, env =>
    (chainEnvs db graph p chain env).flatMap (forestEnvs db graph rest)

/-- The nodes of a list of chains, each chain given by its first node and its
(edge, destination) pairs. -/
def forestNodes (chains : List (Nat × List (Nat × Nat))) : List Nat :=
  chains.flatMap (fun pc => pc.1 :: pc.2.map Prod.snd)

/-- The edges of a list of chains. -/
def forestEdges (chains : List (Nat × List (Nat × Nat))) : List Nat :=
  chains.flatMap (fun pc => pc.2.map Prod.fst)

/-- Whether the complete assignment held by the graph passes the filter
(`filterTree == NULL || applyFilters(...)`). -/
def passesFilter {F R C : Type} (ctx : QueryCtx F R C) (g : Graph) : Bool :=
  match ctx.filterTree with
  | none => true
  | some filterTree => ctx.applyFilters g filterTree

/-- The records a non-aggregated query appends for a list of bindings. -/
def emitted {F R C : Type} (ctx : QueryCtx F R C) (g : Graph)
    (envs : List ((Nat → Option Bytes) × (Nat → Option Bytes))) : List Record :=
  (envs.filter (fun env => passesFilter ctx (withBindings g env.1 env.2))).map
    (fun env => ctx.ReturnClause_RetrivePropValues ctx.returnTree (withBindings g env.1 env.2))

/-- Two bindings that differ at most in the ids of `src` and `dest` and in the
relationship of `edge`. -/
def AgreeOff (env env' : (Nat → Option Bytes) × (Nat → Option Bytes)) (src edge dest : Nat) :
    Prop :=
  (∀ i, i ≠ src → i ≠ dest → env'.1 i = env.1 i) ∧ (∀ j, j ≠ edge → env'.2 j = env.2 j)

/-- The triplet of bound coordinates of an edge of the hexastore. -/
def tripletOf (t : Bytes × Bytes × Bytes) : Triplet := ⟨some t.1, some t.2.1, some t.2.2⟩

/-- The bindings after every edge of the chain has been bound, in order, to
its triple of the assignment. -/
def assignEnv : Nat → List (Nat × Nat) → List (Bytes × Bytes × Bytes) →
    (Nat → Option Bytes) × (Nat → Option Bytes) → (Nat → Option Bytes) × (Nat → Option Bytes)
  | n, (e, d) :: rest, t :: ts, env => assignEnv d rest ts (bindEnv env n e d (tripletOf t))
  | _, _, _, env => env

/-- The pattern graph after every edge of the chain has been bound, in order,
to its triple of the assignment, the way the cursor loop binds it. -/
def assignChain : Nat → List (Nat × Nat) → List (Bytes × Bytes × Bytes) → Graph → Graph
  | n, (e, d) :: rest, t :: ts, g =>
    assignChain d rest ts
      (((g.setNodeId n (some t.1)).setRelationship e (some t.2.1)).setNodeId d (some t.2.2))
  | _, _, _, g => g

/-- The bindings after the edges of every chain of a list have been bound to
the triples of its assignment, chain after chain. -/
def assignForestEnv : List (Nat × List (Nat × Nat)) → List (List (Bytes × Bytes × Bytes)) →
    (Nat → Option Bytes) × (Nat → Option Bytes) → (Nat → Option Bytes) × (Nat → Option Bytes)
  | (p, chain) :: rest, A :: As, env => assignForestEnv rest As (assignEnv p chain A env)
  | _, _, env => env

/-- The pattern graph after the edges of every chain of a list have been bound
to the triples of its assignment, chain after chain. -/
def assignForest : List (Nat × List (Nat × Nat)) → List (List (Bytes × Bytes × Bytes)) →
    Graph → Graph
  | (p, chain) :: rest, A :: As, g => assignForest rest As (assignChain p chain A g)
  | _, _, g => g

/-- An assignment the traversal of a chain can reach from given bindings: every
triple is an edge of the hexastore and agrees with what is bound already. -/
def ValidPath (T : List (Bytes × Bytes × Bytes)) :
    Nat → List (Nat × Nat) → List (Bytes × Bytes × Bytes) →
      (Nat → Option Bytes) × (Nat → Option Bytes) → Prop
  | _, [], [], _ => True
  | n, (e, d) :: rest, t :: ts, env =>
    t ∈ T ∧ (env.1 n = none ∨ env.1 n = some t.1) ∧ (env.2 e = none ∨ env.2 e = some t.2.1) ∧
      ValidPath T d rest ts (bindEnv env n e d (tripletOf t))
  | _, _, _, _ => False

/-- The triples of neighbouring edges meet in the node the edges share: the
object of one is the subject of the next. -/
def Meets : List (Bytes × Bytes × Bytes) → Prop
  | t :: u :: rest => t.2.2 = u.1 ∧ Meets (u :: rest)
  | _ => True

/-- An assignment gives one triple to every edge of the chain, and the
predicate of the triple is the relationship the edge is bound to from the
start (its label), where it is bound. -/
def MatchesLabels (ρ : Nat → Option Bytes) :
    List (Nat × Nat) → List (Bytes × Bytes × Bytes) → Prop
  | [], [] => True
  | (e, _) :: rest, t :: ts => (ρ e = none ∨ ρ e = some t.2.1) ∧ MatchesLabels ρ rest ts
  | _, _ => False

/-- An assignment the traversal of a list of chains can reach from given
bindings: one valid assignment per chain, each from the bindings the chains
before it have left. -/
def ValidForest (T : List (Bytes × Bytes × Bytes)) :
    List (Nat × List (Nat × Nat)) → List (List (Bytes × Bytes × Bytes)) →
      (Nat → Option Bytes) × (Nat → Option Bytes) → Prop
  | [], [], _ => True
  | (p, chain) :: rest, A :: As, env =>
    ValidPath T p chain A env ∧ ValidForest T rest As (assignEnv p chain A env)
  | _, _, _ => False

/-- An assignment gives every chain of a list as many triples as the chain has
edges, neighbouring triples meeting in the node they share. -/
def FitsForest : List (Nat × List (Nat × Nat)) → List (List (Bytes × Bytes × Bytes)) → Prop
  | [], [] => True
  | (_, chain) :: rest, A :: As => A.length = chain.length ∧ Meets A ∧ FitsForest rest As
  | _, _ => False

/-- The predicate of every triple of an assignment to a list of chains is the
label of its pattern edge, where the edge has one. -/
def MatchesForest (ρ : Nat → Option Bytes) :
    List (Nat × List (Nat × Nat)) → List (List (Bytes × Bytes × Bytes)) → Prop
  | [], [] => True
  | (_, chain) :: rest, A :: As => MatchesLabels ρ chain A ∧ MatchesForest ρ rest As
  | _, _ => False

/-- The bindings are ready for the traversal of a chain from `n`: what is
bound is clean, and the nodes further down the chain are unbound. -/
def Ready (env : (Nat → Option Bytes) × (Nat → Option Bytes)) (n : Nat)
    (chain : List (Nat × Nat)) : Prop :=
  (∀ x, env.1 n = some x → CleanBytes x) ∧
    ∀ ed ∈ chain, env.1 ed.2 = none ∧ ∀ x, env.2 ed.1 = some x → CleanBytes x

/-- The nodes of a chain are pairwise distinct, and so are its edges. -/
def Distinct (n : Nat) (chain : List (Nat × Nat)) : Prop :=
  (n :: chain.map Prod.snd).Nodup ∧ (chain.map Prod.fst).Nodup

/-- The projection that returns every binding of the pattern graph: the ids of
all nodes, then the relationships of all edges. -/
def snapshot (g : Graph) : Record :=
  g.nodes.map (fun n => n.id) ++ g.edges.map (fun e => e.relationship)

/-- A non-filtering context whose projection is `snapshot`. -/
def snapshotCtx (db : KeySpace) (graph : Bytes) : QueryCtx Unit Unit Unit :=
  ⟨db, graph, none, (), fun _ _ => true, fun _ g => snapshot g, fun _ _ c => c⟩

/-- The index after `ADDEDGE g x r y` on an empty keyspace. -/
def oneEdgeDb : KeySpace := addEdges noBytes emptyDb (str "g") [(str "x", str "r", str "y")]

/-- The index after `ADDEDGE g a r b`, `ADDEDGE g b r c`, `ADDEDGE g a r c`. -/
def threeEdgeDb : KeySpace :=
  addEdges noBytes emptyDb (str "g")
    [(str "a", str "r", str "b"), (str "b", str "r", str "c"), (str "a", str "r", str "c")]

/-- The pattern `(x)-[e1:r]->(y)-[e2:r]->(z)`. -/
def twoHopPattern : List AST_GraphEntity :=
  [nodeEntity "x", linkEntity "e1" (some "r") .N_LEFT_TO_RIGHT, nodeEntity "y",
    linkEntity "e2" (some "r") .N_LEFT_TO_RIGHT, nodeEntity "z"]

/-- The pattern graph `BuildGraph` makes of `twoHopPattern`. -/
def twoHopGraph : Graph :=
  ⟨[⟨some "x", none, none, [], [0], []⟩, ⟨some "y", none, none, [], [1], [0]⟩,
      ⟨some "z", none, none, [], [], [1]⟩],
    [⟨some "e1", some 0, some 1, some "r", some (str "r"), []⟩,
      ⟨some "e2", some 1, some 2, some "r", some (str "r"), []⟩]⟩

/-- The pattern graph `BuildGraph` makes of `forkPattern`,
`(a)<-[e1]-(b)-[e2]->(c)`. -/
def forkGraph : Graph :=
  ⟨[⟨some "a", none, none, [], [], [0]⟩, ⟨some "b", none, none, [], [0, 1], []⟩,
      ⟨some "c", none, none, [], [], [1]⟩],
    [⟨some "e1", some 1, some 0, none, none, []⟩, ⟨some "e2", some 1, some 2, none, none, []⟩]⟩

/-- The pattern graph after the cursor loop has bound an edge to a triple. -/
def bindEdge (g : Graph) (src edge dest : Nat) (t : Bytes × Bytes × Bytes) : Graph :=
  ((g.setNodeId src (some t.1)).setRelationship edge (some t.2.1)).setNodeId dest (some t.2.2)

/-- The pattern graph `BuildGraph` makes of `(x)-[e]->(y)`. -/
def oneHopGraph : Graph :=
  ⟨[⟨some "x", none, none, [], [0], []⟩, ⟨some "y", none, none, [], [], [0]⟩],
    [⟨some "e", some 0, some 1, none, none, []⟩]⟩

/-- The pattern `(a)-[e1]->(b), (c)-[e2]->(d)` of two chains. -/
def twoChainsPattern : List AST_GraphEntity :=
  [nodeEntity "a", linkEntity "e1" none .N_LEFT_TO_RIGHT, nodeEntity "b",
    nodeEntity "c", linkEntity "e2" none .N_LEFT_TO_RIGHT, nodeEntity "d"]

/-- The pattern graph `BuildGraph` makes of `twoChainsPattern`. -/
def twoChainsGraph : Graph :=
  ⟨[⟨some "a", none, none, [], [0], []⟩, ⟨some "b", none, none, [], [], [0]⟩,
      ⟨some "c", none, none, [], [1], []⟩, ⟨some "d", none, none, [], [], [1]⟩],
    [⟨some "e1", some 0, some 1, none, none, []⟩, ⟨some "e2", some 2, some 3, none, none, []⟩]⟩

/-- The index after `ADDEDGE g x r y` and `ADDEDGE g u s v`. -/
def twoEdgeDb : KeySpace :=
  addEdges noBytes emptyDb (str "g") [(str "x", str "r", str "y"), (str "u", str "s", str "v")]

/-- The pattern `(a)-[e1:r]->(b)-[e2:r]->(c)<-[e3:r]-(d)`, two chains that
meet in `c`. -/
def joinPattern : List AST_GraphEntity :=
  [nodeEntity "a", linkEntity "e1" (some "r") .N_LEFT_TO_RIGHT, nodeEntity "b",
    linkEntity "e2" (some "r") .N_LEFT_TO_RIGHT, nodeEntity "c",
    linkEntity "e3" (some "r") .N_RIGHT_TO_LEFT, nodeEntity "d"]

/-- The pattern graph `BuildGraph` makes of `joinPattern`. -/
def joinGraph : Graph :=
  ⟨[⟨some "a", none, none, [], [0], []⟩, ⟨some "b", none, none, [], [1], [0]⟩,
      ⟨some "c", none, none, [], [], [1, 2]⟩, ⟨some "d", none, none, [], [2], []⟩],
    [⟨some "e1", some 0, some 1, some "r", some (str "r"), []⟩,
      ⟨some "e2", some 1, some 2, some "r", some (str "r"), []⟩,
      ⟨some "e3", some 3, some 2, some "r", some (str "r"), []⟩]⟩

/-- The index after `ADDEDGE` of `(u, r, v)`, `(v, r, w)`, `(v, r, wx)` and
`(g, r, w)`. -/
def joinDb : KeySpace :=
  addEdges noBytes emptyDb (str "g")
    [(str "u", str "r", str "v"), (str "v", str "r", str "w"), (str "v", str "r", str "wx"),
      (str "g", str "r", str "w")]

/-- The index whose members are the six permutation keys of the edge
`(a, r, b\0x)`, whose object holds a NUL byte. -/
def nulObjectDb : KeySpace :=
  setKey emptyDb (str "g")
    ((sixKeys (str "a") (str "r") [98, 0, 120]).foldl RedisModule_ZsetAdd none)

/-- The index after `ADDEDGE g a:b c d` on an empty keyspace. -/
def colonDb : KeySpace := addEdges noBytes emptyDb (str "g") [(str "a:b", str "c", str "d")]

/-- The index after `ADDEDGE g s r b` on an empty keyspace, where the subject
`s` is the two bytes `0xFF 0x01`. -/
def ffDb : KeySpace := addEdges noBytes emptyDb (str "g") [([255, 1], str "r", str "b")]

/-! ## Reference definitions for the AST rewrites -/

/-- The entities of the match clause; none when the clause is absent. -/
def matchEntities (ast : AST_QueryExpressionNode) : List AST_GraphEntity :=
  match ast.matchNode with
  | some matchNode => matchNode.graphEntities
  | none => []

/-- The entities of the create clause; none when the clause is absent. -/
def createEntities (ast : AST_QueryExpressionNode) : List AST_GraphEntity :=
  match ast.createNode with
  | some createNode => createNode.graphEntities
  | none => []

/-- How many of the entities have no alias. -/
def anonymousCount (entities : List AST_GraphEntity) : Nat :=
  (entities.filter (fun e => decide (e.alias_ = none))).length

/-- The entity at position `i` of the sequence `all` as the naming pass is to
leave it: an entity with an alias is kept, one without gets `anon_k`, where
`k` counts the entities without an alias before it. -/
def namedAt (all : List AST_GraphEntity) (i : Nat) (e : AST_GraphEntity) : AST_GraphEntity :=
  if e.alias_ = none then
    { e with alias_ := some ("anon_" ++ toString (anonymousCount (all.take i))) }
  else e

/-- The equality predicates `alias.key = value` of the inline properties of
the entities, ordered by entity position and then by property position. -/
def inlinePredicates (entities : List AST_GraphEntity) : List AST_FilterNode :=
  entities.flatMap (fun entity =>
    match entity.properties with
    | none => []
    | some properties =>
      (propertyPairs properties).map (fun pair =>
        AST_FilterNode.constantPredicate (entity.alias_.getD "") pair.1.keyName .EQ pair.2))

/-- The left-nested conjunction `AND(...AND(AND(r, p_1), p_2)..., p_n)`. -/
def conjoin (r : AST_FilterNode) : List AST_FilterNode → AST_FilterNode
  | [] => r
  | p :: ps => conjoin (.condition r .AND p) ps

/-- The where clause the lifting of inline properties is to leave: unchanged
without predicates, the conjunction under the old root when a where clause
existed, and the conjunction that starts with the first predicate when none
existed. -/
def liftedWhere (whereNode : Option AST_WhereNode) (predicates : List AST_FilterNode) :
    Option AST_WhereNode :=
  match whereNode, predicates with
  | w, [] => w
  | some w, p :: ps => some ⟨conjoin w.filters (p :: ps)⟩
  | none, p :: ps => some ⟨conjoin p ps⟩

/-- The match clause `(a {name: 'alice', age: 30})-[e]->(b {name: 'bob'})`. -/
def inlinePattern : List AST_GraphEntity :=
  [⟨some "a", none, some [.stringval "name", .stringval "alice", .stringval "age", .numval 30],
      .N_ENTITY, .N_DIR_UNKNOWN⟩,
    linkEntity "e" none .N_LEFT_TO_RIGHT,
    ⟨some "b", none, some [.stringval "name", .stringval "bob"], .N_ENTITY, .N_DIR_UNKNOWN⟩]

/-! ## Aggregation classification -/

mutual
/-- Source `_ContainsAggregation`; `Agg_GetFunc` is the lookup of the
aggregation registry, which yields a context for a registered function name
and `NULL` otherwise. -/
def _ContainsAggregation {A : Type} (Agg_GetFunc : String → Option A) :
    AST_ArithmeticExpressionNode → Bool
  | .constant _ => false
  | .variadic _ _ => false
  | .op function args =>
    if (Agg_GetFunc function).isSome then true
    else _ContainsAggregationArgs Agg_GetFunc args
/-- The loop of `_ContainsAggregation` over the sub expressions still to
scan. -/
def _ContainsAggregationArgs {A : Type} (Agg_GetFunc : String → Option A) :
    List AST_ArithmeticExpressionNode → Bool
  | [] => false
  | child_exp :: rest =>
    if _ContainsAggregation Agg_GetFunc child_exp then true
    else _ContainsAggregationArgs Agg_GetFunc rest
end

/-- The loop of `ReturnClause_ContainsAggregation` over the return elements
still to scan. -/
def scanReturnElements {A : Type} (Agg_GetFunc : String → Option A) :
    List AST_ReturnElementNode → Bool
  | [] => false
  | ret_elem :: rest =>
    if _ContainsAggregation Agg_GetFunc ret_elem.exp then true
    else scanReturnElements Agg_GetFunc rest

/-- Source `ReturnClause_ContainsAggregation`. -/
def ReturnClause_ContainsAggregation {A : Type} (Agg_GetFunc : String → Option A)
    (ast : AST_QueryExpressionNode) : Bool :=
  match ast.returnNode with
  | none => false
  | some return_node => scanReturnElements Agg_GetFunc return_node.returnElements

/-- An expression tree contains, at some depth, an operator node whose function
name is registered. -/
inductive ReferencesAggregation (registered : String → Prop) :
    AST_ArithmeticExpressionNode → Prop where
  | atRoot (function : String) (args : List AST_ArithmeticExpressionNode)
      (h : registered function) : ReferencesAggregation registered (.op function args)
  | inArgument (function : String) (args : List AST_ArithmeticExpressionNode)
      (a : AST_ArithmeticExpressionNode) (ha : a ∈ args)
      (h : ReferencesAggregation registered a) :
      ReferencesAggregation registered (.op function args)

/-- A registry that knows `count` and `sum`. -/
def countSumRegistry (name : String) : Option Unit :=
  if name = "count" ∨ name = "sum" then some () else none

/-! ## Label stores and the expansion of collapsed return elements -/

/-- The kind of a label store. -/
inductive LabelStoreType where
  | STORE_NODE
  | STORE_EDGE
  deriving DecidableEq, Repr

/-- Modelled from the spec: `raxNew` of `dep/rax`, which is not among the
sources; a registry without keys. A registry is held as the list of its keys
in the order in which its iterator visits them after `raxSeek "^"`. -/
def raxNew : List String := []

/-- Modelled from the spec: `raxInsert` of `dep/rax`, which is not among the
sources; the registry is a set of keys that is iterated lexicographically, so
that a new key takes its place in the byte order and a key that is present is
discarded. -/
def raxInsert : List String → String → List String
  | [], s => [s]
  | x :: xs, s =>
    if lexLt (str s) (str x) then s :: x :: xs
    else if s = x then x :: xs
    else x :: raxInsert xs s

/-- Modelled from the spec: the label store of `stores/store.c`, which is not
among the sources; a label (`NULL` for the store of all entities) and the
registry `stats.properties` of property names. -/
structure LabelStore where
  label : Option String
  properties : List String
  deriving DecidableEq, Repr

/-- The lookups of label stores, which are not among the sources:
`LabelStore_Get` yields the store of a kind and label of a graph (`NULL` when
it yields none), `LabelStore_Get_ALL` the stores of a kind. -/
structure LabelStoreHost where
  LabelStore_Get : LabelStoreType → Bytes → String → Option LabelStore
  LabelStore_Get_ALL : LabelStoreType → Bytes → List LabelStore

/-- The constructor `New_AST_AR_EXP_VariableOperandNode` of `alias.property`. -/
def New_AST_AR_EXP_VariableOperandNode (alias_ : String) (property : Option String) :
    AST_ArithmeticExpressionNode := .variadic alias_ property

/-- The constructor `New_AST_ReturnElementNode` of a return element. -/
def New_AST_ReturnElementNode (exp : AST_ArithmeticExpressionNode) (alias_ : Option String) :
    AST_ReturnElementNode := ⟨exp, alias_⟩

/-- The test for a collapsed entity: an operand that is a variadic reference
without a property; the result is the alias it refers to. -/
def collapsedAlias : AST_ArithmeticExpressionNode → Option String
  | .variadic alias_ none => some alias_
  | _ => none

/-- The search of `ReturnClause_ExpandCollapsedNodes` for the entity of the
match clause with the given alias; `strcmp` reads the alias of every entity it
passes. -/
def findCollapsedEntity (alias_ : String) : List AST_GraphEntity → Outcome (Option AST_GraphEntity)
  | [] => .ok none
  | ge :: rest =>
    match ge.alias_ with
    | none => .fault
    | some a => if a = alias_ then .ok (some ge) else findCollapsedEntity alias_ rest

/-- The store kind of an entity. -/
def storeType (entity : AST_GraphEntity) : LabelStoreType :=
  if entity.t = .N_ENTITY then .STORE_NODE else .STORE_EDGE

/-- The property names `ReturnClause_ExpandCollapsedNodes` iterates over for a
collapsed entity: the registry of its label, or, without a label, the union of
the registries of at most 128 labelled stores of its kind. -/
def collapsedProperties (h : LabelStoreHost) (graphName : Bytes)
    (collapsed_entity : AST_GraphEntity) : Outcome (List String) :=
  let store_type := storeType collapsed_entity
  match collapsed_entity.label with
  | some label =>
    match h.LabelStore_Get store_type graphName label with
    | none => .fault
    | some store => .ok store.properties
  | none =>
    let stores := (h.LabelStore_Get_ALL store_type graphName).take 128
    .ok (stores.foldl
      (fun properties s =>
        match s.label with
        | none => properties
        | some _ => s.properties.foldl raxInsert properties)
      raxNew)

/-- What a call of `ReturnClause_ExpandCollapsedNodes` leaves behind: the
return elements of the AST, the positions among them whose element has been
passed to `Free_AST_ReturnElementNode`, and the lines printed. The function
has no return value and sends no reply. -/
structure ExpandState where
  returnElements : List AST_ReturnElementNode
  freed : List Nat
  printed : List String

/-- The scan of `ReturnClause_ExpandCollapsedNodes` over the return elements
from position `i` on; `expandReturnElements` is the new vector so far. -/
def expandLoop (h : LabelStoreHost) (graphName : Bytes) (ast : AST_QueryExpressionNode)
    (returnElements : List AST_ReturnElementNode) :
    List AST_ReturnElementNode → Nat → List AST_ReturnElementNode → List Nat →
      Outcome ExpandState
  | [], _, expandReturnElements, _ => .ok ⟨expandReturnElements, [], []⟩
  | ret_elem :: rest, i, expandReturnElements, freed =>
    match collapsedAlias ret_elem.exp with
    | none =>
      expandLoop h graphName ast returnElements rest (i + 1) (expandReturnElements ++ [ret_elem])
        freed
    | some alias_ =>
      match ast.matchNode with
      | none => .fault
      | some matchNode =>
        match findCollapsedEntity alias_ matchNode.graphEntities with
        | .fault => .fault
        | .outOfFuel => .outOfFuel
        | .ok none => .ok ⟨returnElements, freed, ["Error, could not find collapsed entity\n"]⟩
        | .ok (some collapsed_entity) =>
          match collapsedProperties h graphName collapsed_entity with
          | .fault => .fault
          | .outOfFuel => .outOfFuel
          | .ok properties =>
            let expanded := properties.map (fun prop =>
              New_AST_ReturnElementNode
                (New_AST_AR_EXP_VariableOperandNode (collapsed_entity.alias_.getD "") (some prop))
                ret_elem.alias_)
            expandLoop h graphName ast returnElements rest (i + 1)
              (expandReturnElements ++ expanded) (freed ++ [i])

/-- Source `ReturnClause_ExpandCollapsedNodes`. -/
def ReturnClause_ExpandCollapsedNodes (h : LabelStoreHost) (ast : AST_QueryExpressionNode)
    (graphName : Bytes) : Outcome ExpandState :=
  match ast.returnNode with
  | none => .fault
  | some returnNode =>
    expandLoop h graphName ast returnNode.returnElements returnNode.returnElements 0 [] []

/-- The registry after the property names have been inserted in the given
order. -/
def registryOf (inserted : List String) : List String := inserted.foldl raxInsert raxNew

/-- The label stores of a graph in which `Person` nodes have the properties
that were inserted in the given order and no other store exists. -/
def personStores (inserted : List String) : LabelStoreHost :=
  ⟨fun t _ label =>
      if t = .STORE_NODE ∧ label = "Person" then some ⟨some "Person", registryOf inserted⟩
      else none,
    fun t _ => if t = .STORE_NODE then [⟨some "Person", registryOf inserted⟩] else []⟩

/-- The AST of `MATCH (a:Person)-[e]->(b) RETURN a AS x, b.name`. -/
def collapsedQuery : AST_QueryExpressionNode :=
  ⟨some ⟨[⟨some "a", some "Person", none, .N_ENTITY, .N_DIR_UNKNOWN⟩,
      linkEntity "e" none .N_LEFT_TO_RIGHT, nodeEntity "b"]⟩, none, none, none,
    some ⟨[⟨.variadic "a" none, some "x"⟩, ⟨.variadic "b" (some "name"), none⟩]⟩⟩

/-- The AST of `MATCH (a:Person)-[e]->(b) RETURN a, zz, b.name`. -/
def unknownAliasQuery : AST_QueryExpressionNode :=
  ⟨some ⟨[⟨some "a", some "Person", none, .N_ENTITY, .N_DIR_UNKNOWN⟩,
      linkEntity "e" none .N_LEFT_TO_RIGHT, nodeEntity "b"]⟩, none, none, none,
    some ⟨[⟨.variadic "a" none, none⟩, ⟨.variadic "zz" none, none⟩,
      ⟨.variadic "b" (some "name"), none⟩]⟩⟩

/-- The AST of `MATCH (a:Person) RETURN zz`. -/
def missingAliasQuery : AST_QueryExpressionNode :=
  ⟨some ⟨[⟨some "a", some "Person", none, .N_ENTITY, .N_DIR_UNKNOWN⟩]⟩, none, none, none,
    some ⟨[⟨.variadic "zz" none, none⟩]⟩⟩

/-- The strings `min` and `max` that `queryTriplet` creates and passes to
`RedisModule_ZsetFirstInLexRange`. The buffer holds `bufLen = strlen + 3`
bytes; `min` is created from `strlen(buf)` bytes of it after
`sprintf(buf, "[%s", tripletStr)`, `max` from all `bufLen` bytes of it after
`sprintf(buf, "[%s\xff", tripletStr)`, which writes `[`, the string, `0xFF`
and the terminator. -/
def queryTripletBounds (triplet : Triplet) : Bytes × Bytes :=
  let tripletStr := TripletToString triplet
  let bufLen := tripletStr.length + 3
  let buf := [91] ++ tripletStr ++ [0]
  let min := buf.take (tripletStr.length + 1)
  let buf := [91] ++ tripletStr ++ [255, 0]
  let max := buf.take bufLen
  (min, max)

/-! ## Group keys -/

/-- The result of `strlen` on a buffer: the length of the C string it holds;
`none` when the buffer holds no NUL, so that the scan leaves it. -/
def strlen (buf : Bytes) : Option Nat :=
  if 0 ∈ buf then some (cString buf).length else none

/-- The buffer after `strcat(buf, src)`: the C string of `src` and a terminator
are written from the terminator of `buf` on; `none` when `buf` holds no
terminator or the write leaves the buffer. -/
def strcat (buf : Bytes) (src : Bytes) : Option Bytes :=
  match strlen buf with
  | none => none
  | some n =>
    let written := cString src ++ [0]
    if n + written.length ≤ buf.length then
      some (buf.take n ++ written ++ buf.drop (n + written.length))
    else none

/-- The number of bytes `_concatRMStrings` allocates: the lengths of the
strings, one delimiter per string, and one byte. -/
def concatLength (rmStrings : List Bytes) (delimiter : Bytes) : Nat :=
  (rmStrings.map List.length).sum + (cString delimiter).length * rmStrings.length + 1

/-- The second loop of `_concatRMStrings`: each string and the delimiter are
appended to the buffer. -/
def concatLoop (delimiter : Bytes) : List Bytes → Bytes → Option Bytes
  | [], concat => some concat
  | rmString :: rest, concat =>
    match strcat concat rmString with
    | none => none
    | some concat =>
      match strcat concat delimiter with
      | none => none
      | some concat => concatLoop delimiter rest concat

/-- The index `strlen(*concat) - strlen(delimiter)` at which `_concatRMStrings`
writes the terminator. Both lengths are `size_t` values below `2 ^ 64`, so that
the difference wraps around when the delimiter is the longer string. -/
def terminatorIndex (concat : Bytes) (delimiter : Bytes) : Option Nat :=
  match strlen concat with
  | none => none
  | some n =>
    if (cString delimiter).length ≤ n then some (n - (cString delimiter).length)
    else some (n + 2 ^ 64 - (cString delimiter).length)

/-- Source `_concatRMStrings`: the C string left in `*concat`. A write outside
the allocated buffer is a fault. The sizes are those of strings that are in
memory together, so that their sum stays below `2 ^ 64`. -/
def _concatRMStrings (rmStrings : List Bytes) (delimiter : Bytes) : Outcome Bytes :=
  let length := concatLength rmStrings delimiter
  let concat := List.replicate length 0
  match concatLoop delimiter rmStrings concat with
  | none => .fault
  | some concat =>
    match terminatorIndex concat delimiter with
    | none => .fault
    | some idx =>
      if idx < concat.length then .ok (cString (concat.set idx 0))
      else .fault

/-! ## The aggregation cache -/

/-- Modelled from the spec: the group of `grouping/group.c`, which is not among
the sources; the group-key values and one aggregation context per aggregating
return element. -/
structure Group (A : Type) where
  keys : List Bytes
  aggregationFunctions : List A
  deriving DecidableEq, Repr

/-- Modelled from the spec: `NewGroup` of `grouping/group.c`, which is not
among the sources. -/
def NewGroup {A : Type} (keys : List Bytes) (funcs : List A) : Group A := ⟨keys, funcs⟩

/-- Modelled from the spec: the aggregation cache of `grouping/group_cache.c`,
which is not among the sources; a mapping from group-key strings to groups,
held as the list of its entries in the order in which they were added. -/
abbrev GroupCache (A : Type) := List (Bytes × Group A)

/-- Modelled from the spec: `CacheGroupClear`; the cache without groups. -/
def CacheGroupClear {A : Type} : GroupCache A := []

/-- Modelled from the spec: `CacheGroupGet`; the group stored under the key,
`NULL` when there is none. -/
def CacheGroupGet {A : Type} (cache : GroupCache A) (key : Bytes) : Option (Group A) :=
  match cache with
  | [] => none
  | entry :: rest => if entry.1 = key then some entry.2 else CacheGroupGet rest key

/-- Modelled from the spec: `CacheGroupAdd`; one more entry. -/
def CacheGroupAdd {A : Type} (cache : GroupCache A) (key : Bytes) (group : Group A) :
    GroupCache A := cache ++ [(key, group)]

/-- The cache after the group stored under the key has been modified in
place. -/
def cacheUpdate {A : Type} (cache : GroupCache A) (key : Bytes) (group : Group A) :
    GroupCache A :=
  match cache with
  | [] => []
  | entry :: rest =>
    if entry.1 = key then (key, group) :: rest else entry :: cacheUpdate rest key group

/-- The collaborators of `_aggregateRecord` that are not among the sources:
the group-key values, the fresh aggregation contexts and the values to
aggregate of the return clause, the parsing of a value and the step of an
aggregation context. -/
structure AggregationHost (R A V : Type) where
  ReturnClause_RetriveGroupKeys : R → Graph → List Bytes
  ReturnClause_GetAggFuncs : R → List A
  ReturnClause_RetriveGroupAggVals : R → Graph → List Bytes
  SI_ParseValue : Bytes → V
  Agg_Step : A → V → Nat → A

/-- The last loop of `_aggregateRecord`: the value at position `i` is run
through the aggregation context at position `i`; a context that `Vector_Get`
cannot deliver leaves the pointer `NULL`. -/
def stepLoop {R A V : Type} (host : AggregationHost R A V) :
    List Bytes → Nat → List A → Option (List A)
  | [], _, funcs => some funcs
  | value :: rest, i, funcs =>
    match funcs[i]? with
    | none => none
    | some funcCtx =>
      stepLoop host rest (i + 1) (funcs.set i (host.Agg_Step funcCtx (host.SI_ParseValue value) 1))

/-- Source `_aggregateRecord`: the cache after the record of the current
bindings has been aggregated. -/
def _aggregateRecord {R A V : Type} (host : AggregationHost R A V) (returnTree : R) (g : Graph)
    (cache : GroupCache A) : Outcome (GroupCache A) :=
  let groupKeys := host.ReturnClause_RetriveGroupKeys returnTree g
  match _concatRMStrings groupKeys (str ",") with
  | .fault => .fault
  | .outOfFuel => .outOfFuel
  | .ok groupKey =>
    let cache := match CacheGroupGet cache groupKey with
      | none =>
        CacheGroupAdd cache groupKey (NewGroup groupKeys (host.ReturnClause_GetAggFuncs returnTree))
      | some _ => cache
    match CacheGroupGet cache groupKey with
    | none => .fault
    | some group =>
      let valsToAgg := host.ReturnClause_RetriveGroupAggVals returnTree g
      match stepLoop host valsToAgg 0 group.aggregationFunctions with
      | none => .fault
      | some funcs => .ok (cacheUpdate cache groupKey { group with aggregationFunctions := funcs })

/-- The aggregation of the records of a sequence of complete assignments, each
given by the pattern graph with its bindings, in the order of the traversal. -/
def aggregateAll {R A V : Type} (host : AggregationHost R A V) (returnTree : R) :
    List Graph → GroupCache A → Outcome (GroupCache A)
  | [], cache => .ok cache
  | g :: rest, cache =>
    match _aggregateRecord host returnTree g cache with
    | .ok cache => aggregateAll host returnTree rest cache
    | .fault => .fault
    | .outOfFuel => .outOfFuel

/-- The strings joined in order, with the delimiter between consecutive ones
and none after the last. -/
def joinWith (delimiter : Bytes) : List Bytes → Bytes
  | [] => []
  | [s] => s
  | s :: t :: rest => s ++ delimiter ++ joinWith delimiter (t :: rest)

/-- The strings in order, each followed by the delimiter. -/
def trailedWith (delimiter : Bytes) : List Bytes → Bytes
  | [] => []
  | s :: rest => s ++ delimiter ++ trailedWith delimiter rest

/-- The group-key string of a tuple of key values: their C strings joined with
`,`. -/
def groupKeyString (keys : List Bytes) : Bytes :=
  joinWith (str ",") (keys.map cString)

/-- An aggregation context after `Agg_Step(ctx, value, 1)` when there is a
value, and as it was when there is none. -/
def stepWith {R A V : Type} (host : AggregationHost R A V) (c : A) (value : Option Bytes) : A :=
  match value with
  | some value => host.Agg_Step c (host.SI_ParseValue value) 1
  | none => c

/-- The aggregation context at position `i` after one step per assignment of
the given ones, each with the value at position `i` of the assignment. -/
def stepsOf {R A V : Type} (host : AggregationHost R A V) (returnTree : R) (i : Nat) (fresh : A)
    (assignments : List Graph) : A :=
  assignments.foldl
    (fun c g => stepWith host c (host.ReturnClause_RetriveGroupAggVals returnTree g)[i]?)
    fresh

/-- The invariant of the aggregation cache after the assignments `done` have
been aggregated: one group per group-key string that occurred, with the key
values of an assignment that has this string, and with contexts that were
stepped once per assignment that has this string. -/
def CacheInv {R A V : Type} (host : AggregationHost R A V) (returnTree : R) (done : List Graph)
    (cache : GroupCache A) : Prop :=
  (cache.map (fun entry => entry.1)).Nodup ∧
    (∀ g ∈ done, ∃ entry ∈ cache,
      entry.1 = groupKeyString (host.ReturnClause_RetriveGroupKeys returnTree g)) ∧
    ∀ entry ∈ cache,
      (∃ g ∈ done, groupKeyString (host.ReturnClause_RetriveGroupKeys returnTree g) = entry.1 ∧
        host.ReturnClause_RetriveGroupKeys returnTree g = entry.2.keys) ∧
      entry.2.aggregationFunctions.length = (host.ReturnClause_GetAggFuncs returnTree).length ∧
      ∀ (i : Nat) (fresh : A), (host.ReturnClause_GetAggFuncs returnTree)[i]? = some fresh →
        entry.2.aggregationFunctions[i]? = some (stepsOf host returnTree i fresh
          (done.filter (fun g =>
            decide (groupKeyString (host.ReturnClause_RetriveGroupKeys returnTree g) = entry.1))))

/-- The index after `ADDEDGE g x,y r z` and `ADDEDGE g x r y,z` on an empty
keyspace. -/
def commaDb : KeySpace :=
  addEdges noBytes emptyDb (str "g") [(str "x,y", str "r", str "z"), (str "x", str "r", str "y,z")]

/-- The aggregation of `RETURN a, count(b)` over the pattern `(a)-[e]->(b)`:
the group key is the id of `a`, the value is the id of `b`, a context counts
its steps. -/
def countHost : AggregationHost Unit Nat Unit :=
  ⟨fun _ g => [(idOf g 0).getD []], fun _ => [0], fun _ g => [(idOf g 1).getD []],
    fun _ => (), fun c _ n => c + n⟩

/-- The aggregation of `RETURN a, b, count(e)` over the pattern
`(a)-[e]->(b)`: the group keys are the ids of `a` and `b`. -/
def pairCountHost : AggregationHost Unit Nat Unit :=
  ⟨fun _ g => [(idOf g 0).getD [], (idOf g 1).getD []], fun _ => [0],
    fun _ g => [(relOf g 0).getD []], fun _ => (), fun c _ n => c + n⟩

/-- The aggregation of `RETURN count(b)` over the pattern `(a)-[e]->(b)`: there
is no group key. -/
def countOnlyHost : AggregationHost Unit Nat Unit :=
  ⟨fun _ _ => [], fun _ => [0], fun _ g => [(idOf g 1).getD []], fun _ => (),
    fun c _ n => c + n⟩

/-- The context of an aggregated query without a filter whose group cache is
that of `_aggregateRecord`; a fault of one aggregation stays. -/
def aggregatingCtx {R A V : Type} (host : AggregationHost R A V) (db : KeySpace)
    (graphName : Bytes) (returnTree : R) : QueryCtx Unit R (Outcome (GroupCache A)) :=
  ⟨db, graphName, none, returnTree, fun _ _ => true, fun _ _ => [],
    fun r g cache =>
      match cache with
      | .ok cache => _aggregateRecord host r g cache
      | .fault => .fault
      | .outOfFuel => .outOfFuel⟩

/-- The index after `ADDEDGE g alice likes x`, `ADDEDGE g alice likes y` and
`ADDEDGE g bob likes x` on an empty keyspace. -/
def likesDb : KeySpace :=
  addEdges noBytes emptyDb (str "g")
    [(str "alice", str "likes", str "x"), (str "alice", str "likes", str "y"),
      (str "bob", str "likes", str "x")]

/-- The complete assignments of `(a)-[e]->(b)` on `likesDb`, in the order of
the traversal. -/
def likesAssignments : List Graph :=
  [bindEdge oneHopGraph 0 0 1 (str "alice", str "likes", str "x"),
    bindEdge oneHopGraph 0 0 1 (str "alice", str "likes", str "y"),
    bindEdge oneHopGraph 0 0 1 (str "bob", str "likes", str "x")]

/-- The complete assignments of `(a)-[e]->(b)` on `commaDb`, in the order of
the traversal. -/
def commaAssignments : List Graph :=
  [bindEdge oneHopGraph 0 0 1 (str "x,y", str "r", str "z"),
    bindEdge oneHopGraph 0 0 1 (str "x", str "r", str "y,z")]

/-- Two complete assignments of `(a)-[e]->(b)`: the edges `(a,b, r, c)` and
`(a, r, b,c)`. -/
def collisionAssignments : List Graph :=
  [bindEdge oneHopGraph 0 0 1 (str "a,b", str "r", str "c"),
    bindEdge oneHopGraph 0 0 1 (str "a", str "r", str "b,c")]

/-- A keyspace in which the graph key `g` holds a sorted set with the single
member `spo:` followed by the bytes `0xFF 0x00`. -/
def ffNulDb : KeySpace := setKey emptyDb (str "g") (some (.zset [str "spo:" ++ [255, 0]]))

/-- The AST of `MATCH (anon_0)-[e]->()`, as the parser delivers it: the last
node has no alias. -/
def userAnonQuery : AST_QueryExpressionNode :=
  ⟨some ⟨[nodeEntity "anon_0", linkEntity "e" none .N_LEFT_TO_RIGHT,
      ⟨none, none, none, .N_ENTITY, .N_DIR_UNKNOWN⟩]⟩, none, none, none, none⟩

/-! ## Vocabulary of the statements about the result set of a run -/

/-- How the state after a run relates to the state before it as far as the
capacity of the result set goes: the capacity and the aggregation flag are the
same, records were only appended, a result set that was full has been left
alone together with the cache, and a result set that held at most its capacity
still does. -/
def RespectsCapacity {C : Type} (st st' : QueryState C) : Prop :=
  st'.returnedSet.limit = st.returnedSet.limit ∧
    st'.returnedSet.aggregated = st.returnedSet.aggregated ∧
    (∃ appended, st'.returnedSet.records = st.returnedSet.records ++ appended) ∧
    (ResultSet_Full st.returnedSet = true →
      st'.returnedSet = st.returnedSet ∧ st'.cache = st.cache) ∧
    ∀ cap, st.returnedSet.limit = some cap → st.returnedSet.records.length ≤ cap →
      st'.returnedSet.records.length ≤ cap

/-! ## Recursion paths of `QueryNode` -/

/-- The context of a run that keeps, next to the cache, a record of recursion
paths: the cache is a pair, and the aggregation works on its first part. -/
def tracingCtx {F R C : Type} (ctx : QueryCtx F R C) : QueryCtx F R (C × List (List Nat)) :=
  ⟨ctx.db, ctx.graphName, ctx.filterTree, ctx.returnTree, ctx.applyFilters,
    ctx.ReturnClause_RetrivePropValues, fun r g c => (ctx._aggregateRecord r g c.1, c.2)⟩

/-- The state of a run without the record of recursion paths. -/
def forgetTrace {C : Type} (st : QueryState (C × List (List Nat))) : QueryState C :=
  ⟨st.g, st.entryPoints, st.returnedSet, st.cache.1⟩

/-- The outcome of a run without the record of recursion paths. -/
def eraseTrace {C : Type} :
    Outcome (QueryState (C × List (List Nat))) → Outcome (QueryState C)
  | .ok st => .ok (forgetTrace st)
  | .fault => .fault
  | .outOfFuel => .outOfFuel

/-- The state with one more recursion path on record. -/
def noteTrace {C : Type} (st : QueryState (C × List (List Nat))) (path : List Nat) :
    QueryState (C × List (List Nat)) :=
  { st with cache := (st.cache.1, st.cache.2 ++ [path]) }

/-- The edge loop of `QueryNode`, taken edge by edge, with the recursion path:
`path` holds the pattern edges whose cursor loops are running in the enclosing
levels, outermost first. Every edge whose loop body is entered is put on
record together with the path that leads to it, and the recursion below it
gets the path with this edge. -/
def tracedEdges {F R C : Type} (ctx : QueryCtx F R C)
    (recur : List Nat → Nat → QueryState (C × List (List Nat)) →
      Outcome (QueryState (C × List (List Nat))))
    (path : List Nat) (src : Nat) :
    List Nat → QueryState (C × List (List Nat)) → Outcome (QueryState (C × List (List Nat)))
  | [], st => .ok st
  | edge :: rest, st =>
    if ResultSet_Full st.returnedSet then .ok st
    else
      match edgeLoop (tracingCtx ctx) (recur (path ++ [edge])) src [edge]
          (noteTrace st (path ++ [edge])) with
      | .ok st' => tracedEdges ctx recur path src rest st'
      | .fault => .fault
      | .outOfFuel => .outOfFuel

/-- `QueryNode` with the record of recursion paths; without the record it is
`QueryNode` (theorem `queryNodeTraced_erase`). -/
def QueryNodeTraced {F R C : Type} (ctx : QueryCtx F R C) :
    Nat → List Nat → Nat → QueryState (C × List (List Nat)) →
      Outcome (QueryState (C × List (List Nat)))
  | 0, _, _, _ => .outOfFuel
  | fuel + 1, path, n, st =>
    match st.g.nodes[n]? with
    | none => .fault
    | some src => tracedEdges ctx (QueryNodeTraced ctx fuel) path n src.outgoingEdges st

/-- Every outgoing edge of a pattern node is an edge of the pattern graph that
has this node as source and a node of the pattern graph as destination. -/
def WellFormedPattern (g : Graph) : Prop :=
  ∀ (n : Nat) (nd : Node), g.nodes[n]? = some nd → ∀ e ∈ nd.outgoingEdges,
    ∃ (ed : Edge) (d : Nat) (dn : Node), g.edges[e]? = some ed ∧ ed.src = some n ∧
      ed.dest = some d ∧ g.nodes[d]? = some dn

/-- A ranking of the nodes that every edge leads down: the pattern graph has
such a ranking exactly when it has no cycle (the longest path from a node is
one). -/
def RankedBy (g : Graph) (rank : Nat → Nat) : Prop :=
  ∀ (n : Nat) (nd : Node) (e : Nat) (ed : Edge) (d : Nat), g.nodes[n]? = some nd →
    e ∈ nd.outgoingEdges → g.edges[e]? = some ed → ed.dest = some d → rank d < rank n

/-- The pattern graph has no cycle. -/
def Acyclic (g : Graph) : Prop := ∃ rank, RankedBy g rank

/-- The recursion depth a call of `QueryNode` on node `n` with the stack
`entryPoints` can need: one level per edge of a path from `n`, and the same
again from every entry point on the stack. -/
def depthBound (rank : Nat → Nat) (n : Nat) (entryPoints : List Nat) : Nat :=
  rank n + 1 + (entryPoints.map (fun p => rank p + 1)).sum

/-- The pattern
`(a)-[e1]->(b)-[e2]->(c)-[e3]->(f)-[e4]->(h)<-[e5]-(d)-[e6]->(b)`, in which the
paths from the two nodes without an incoming edge, `a` and `d`, run together
in `b`. -/
def convergingPattern : List AST_GraphEntity :=
  [nodeEntity "a", linkEntity "e1" none .N_LEFT_TO_RIGHT, nodeEntity "b",
    linkEntity "e2" none .N_LEFT_TO_RIGHT, nodeEntity "c",
    linkEntity "e3" none .N_LEFT_TO_RIGHT, nodeEntity "f",
    linkEntity "e4" none .N_LEFT_TO_RIGHT, nodeEntity "h",
    linkEntity "e5" none .N_RIGHT_TO_LEFT, nodeEntity "d",
    linkEntity "e6" none .N_LEFT_TO_RIGHT, nodeEntity "b"]

/-- The pattern graph `BuildGraph` makes of `convergingPattern`. -/
def convergingGraph : Graph :=
  ⟨[⟨some "a", none, none, [], [0], []⟩, ⟨some "b", none, none, [], [1], [0, 5]⟩,
      ⟨some "c", none, none, [], [2], [1]⟩, ⟨some "f", none, none, [], [3], [2]⟩,
      ⟨some "h", none, none, [], [], [3, 4]⟩, ⟨some "d", none, none, [], [4, 5], []⟩],
    [⟨some "e1", some 0, some 1, none, none, []⟩, ⟨some "e2", some 1, some 2, none, none, []⟩,
      ⟨some "e3", some 2, some 3, none, none, []⟩, ⟨some "e4", some 3, some 4, none, none, []⟩,
      ⟨some "e5", some 5, some 4, none, none, []⟩, ⟨some "e6", some 5, some 1, none, none, []⟩]⟩

/-- The index after `ADDEDGE g v r v` on an empty keyspace. -/
def loopDb : KeySpace := addEdges noBytes emptyDb (str "g") [(str "v", str "r", str "v")]

/-- The pattern graph `g` is `g0` up to the bindings of its nodes and edges. -/
def SameShape (g0 g : Graph) : Prop := ∃ ν ρ, g = withBindings g0 ν ρ

/-- What the termination argument knows about a recursion path that has led to
node `n`: no edge occurs twice on it, its edges are edges of the pattern graph,
and each of them leaves a node that ranks above `n`. -/
def PathInv (g0 : Graph) (rank : Nat → Nat) (path : List Nat) (n : Nat) : Prop :=
  path.Nodup ∧ (∀ e ∈ path, e < g0.edges.length) ∧
    ∀ e ∈ path, ∃ (m : Nat) (nd : Node), g0.nodes[m]? = some nd ∧ e ∈ nd.outgoingEdges ∧
      rank n < rank m

/-- Every path on record was there before, or has no edge twice and consists of
edges of the pattern graph. -/
def LogOK {C : Type} (edgeCount : Nat) (c c' : C × List (List Nat)) : Prop :=
  ∀ p ∈ c'.2, p ∈ c.2 ∨ (p.Nodup ∧ ∀ e ∈ p, e < edgeCount)

/-! ## The order of the records of a chain traversal -/

/-- The pattern `(x)-[e:c]->(y)`. -/
def labelledHopPattern : List AST_GraphEntity :=
  [nodeEntity "x", linkEntity "e" (some "c") .N_LEFT_TO_RIGHT, nodeEntity "y"]

/-- The pattern graph `BuildGraph` makes of `labelledHopPattern`. -/
def labelledHopGraph : Graph :=
  ⟨[⟨some "x", none, none, [], [0], []⟩, ⟨some "y", none, none, [], [], [0]⟩],
    [⟨some "e", some 0, some 1, some "c", some (str "c"), []⟩]⟩

/-- The edge a cursor result stands for, when all its coordinates are bound. -/
def boundTriple (t : Triplet) : Option (Bytes × Bytes × Bytes) :=
  match t.subject, t.predicate, t.object with
  | some s, some p, some o => some (s, p, o)
  | _, _, _ => none

/-- The edge a key of the index parses to. -/
def tripleOfKey (key : Bytes) : Option (Bytes × Bytes × Bytes) :=
  match tripletOfKey key with
  | none => none
  | some t => boundTriple t

/-- The lexicographic traversal of the assignments of a chain in cursor order,
as the spec words it: the results of the scan for the first edge in the order
of the cursor, and under each of them, with its coordinates bound, the
traversal of the rest of the chain. -/
def chainPaths (db : KeySpace) (graph : Bytes) :
    Nat → List (Nat × Nat) → (Nat → Option Bytes) × (Nat → Option Bytes) →
      List (List (Bytes × Bytes × Bytes))
  | _, [], _ => [[]]
  | n, (e, d) :: rest, env =>
    ((queryTriplet db graph ⟨env.1 n, env.2 e, env.1 d⟩).filterMap tripleOfKey).flatMap
      (fun t => (chainPaths db graph d rest (bindEnv env n e d (tripletOf t))).map
        (fun ts => t :: ts))

/-- The assignment `A` comes before the assignment `B` in the lexicographic
order of the cursor scans: at the first chain edge where they differ, the key
the cursor yields for the triple of `A` is below the key it yields for the
triple of `B` in the order of the sorted set. -/
def ScanBefore (db : KeySpace) (graph : Bytes) :
    Nat → List (Nat × Nat) → (Nat → Option Bytes) × (Nat → Option Bytes) →
      List (Bytes × Bytes × Bytes) → List (Bytes × Bytes × Bytes) → Prop
  | n, (e, d) :: rest, env, t :: ts, u :: us =>
    (∃ k ∈ queryTriplet db graph ⟨env.1 n, env.2 e, env.1 d⟩,
      ∃ k' ∈ queryTriplet db graph ⟨env.1 n, env.2 e, env.1 d⟩,
        tripleOfKey k = some t ∧ tripleOfKey k' = some u ∧ lexLt k k' = true) ∨
      (t = u ∧ ScanBefore db graph d rest (bindEnv env n e d (tripletOf t)) ts us)
  | _, _, _, _, _ => False
/-! # Proofs -/

/-! ## Sorted-set lemmas -/

theorem mem_zslInsert (k m : Bytes) (l : List Bytes) :
    k ∈ zslInsert m l ↔ k = m ∨ k ∈ l := by
  induction l with
  | nil => simp [zslInsert]
  | cons x xs ih =>
    unfold zslInsert
    split
    · simp
    · simp only [List.mem_cons, ih]
      tauto

theorem zslInsert_perm (m : Bytes) (l : List Bytes) : (zslInsert m l).Perm (m :: l) := by
  induction l with
  | nil => simp [zslInsert]
  | cons x xs ih =>
    unfold zslInsert
    split
    · exact List.Perm.refl _
    · exact (List.Perm.cons x ih).trans (List.Perm.swap m x xs)

theorem lexLt_irrefl (a : Bytes) : lexLt a a = false := by
  induction a with
  | nil => rfl
  | cons x xs ih => simp [lexLt, ih]

theorem zsetWF_nodup {l : List Bytes} (h : ZSetWF l) : l.Nodup := by
  unfold ZSetWF at h
  refine List.Pairwise.imp ?_ h
  intro a b hab heq
  subst heq
  rw [lexLt_irrefl] at hab
  exact Bool.false_ne_true hab

theorem valueWF_nodup {v : Option RedisValue} (h : ValueWF v) : (zsetMembers v).Nodup := by
  match v, h with
  | none, _ => simp [zsetMembers]
  | some (.other _), _ => simp [zsetMembers]
  | some (.zset l), h => exact zsetWF_nodup h.1

theorem mem_ZsetAdd (v : Option RedisValue) (m k : Bytes)
    (hv : RedisModule_KeyType v ≠ .OTHER) :
    k ∈ zsetMembers (RedisModule_ZsetAdd v m) ↔ k = m ∨ k ∈ zsetMembers v := by
  match v, hv with
  | none, _ => simp [RedisModule_ZsetAdd, zsetMembers]
  | some (.zset l), _ =>
    simp only [RedisModule_ZsetAdd, zsetMembers]
    split
    · constructor
      · exact Or.inr
      · rintro (h | h)
        · subst h; assumption
        · exact h
    · exact mem_zslInsert k m l
  | some (.other t), hv => simp [RedisModule_KeyType] at hv

theorem keyType_ZsetAdd (v : Option RedisValue) (m : Bytes)
    (hv : RedisModule_KeyType v ≠ .OTHER) :
    RedisModule_KeyType (RedisModule_ZsetAdd v m) = .ZSET := by
  match v, hv with
  | none, _ => rfl
  | some (.zset l), _ => rfl
  | some (.other t), hv => simp [RedisModule_KeyType] at hv

theorem nodup_ZsetAdd (v : Option RedisValue) (m : Bytes)
    (hn : (zsetMembers v).Nodup) : (zsetMembers (RedisModule_ZsetAdd v m)).Nodup := by
  match v, hn with
  | none, _ => simp [RedisModule_ZsetAdd, zsetMembers]
  | some (.other t), _ => simp [RedisModule_ZsetAdd, zsetMembers]
  | some (.zset l), hn =>
    simp only [RedisModule_ZsetAdd, zsetMembers] at hn ⊢
    split
    · exact hn
    · rename_i hm
      exact (zslInsert_perm m l).nodup_iff.mpr (List.nodup_cons.mpr ⟨hm, hn⟩)

theorem length_ZsetAdd (v : Option RedisValue) (m : Bytes)
    (hv : RedisModule_KeyType v ≠ .OTHER) :
    RedisModule_ValueLength (RedisModule_ZsetAdd v m)
      = RedisModule_ValueLength v + (if m ∈ zsetMembers v then 0 else 1) := by
  match v, hv with
  | none, _ => simp [RedisModule_ZsetAdd, zsetMembers, RedisModule_ValueLength]
  | some (.zset l), _ =>
    simp only [RedisModule_ZsetAdd, zsetMembers, RedisModule_ValueLength]
    split
    · rfl
    · simpa using (zslInsert_perm m l).length_eq
  | some (.other t), hv => simp [RedisModule_KeyType] at hv

theorem ZsetAdd_of_mem (v : Option RedisValue) (m : Bytes) (hm : m ∈ zsetMembers v) :
    RedisModule_ZsetAdd v m = v := by
  match v, hm with
  | some (.zset l), hm =>
    simp only [zsetMembers] at hm
    simp [RedisModule_ZsetAdd, hm]

theorem keyType_foldl_ZsetAdd (ks : List Bytes) (v : Option RedisValue)
    (hv : RedisModule_KeyType v ≠ .OTHER) :
    RedisModule_KeyType (ks.foldl RedisModule_ZsetAdd v) ≠ .OTHER := by
  induction ks generalizing v with
  | nil => exact hv
  | cons k ks ih =>
    simp only [List.foldl_cons]
    apply ih
    rw [keyType_ZsetAdd v k hv]
    decide

theorem mem_foldl_ZsetAdd (ks : List Bytes) (v : Option RedisValue) (k : Bytes)
    (hv : RedisModule_KeyType v ≠ .OTHER) :
    k ∈ zsetMembers (ks.foldl RedisModule_ZsetAdd v) ↔ k ∈ ks ∨ k ∈ zsetMembers v := by
  induction ks generalizing v with
  | nil => simp
  | cons x xs ih =>
    simp only [List.foldl_cons, List.mem_cons]
    rw [ih _ (by rw [keyType_ZsetAdd v x hv]; decide), mem_ZsetAdd v x k hv]
    tauto

theorem nodup_foldl_ZsetAdd (ks : List Bytes) (v : Option RedisValue)
    (hn : (zsetMembers v).Nodup) : (zsetMembers (ks.foldl RedisModule_ZsetAdd v)).Nodup := by
  induction ks generalizing v with
  | nil => exact hn
  | cons x xs ih => exact ih _ (nodup_ZsetAdd v x hn)

theorem foldl_ZsetAdd_of_mem (ks : List Bytes) (v : Option RedisValue)
    (h : ∀ k ∈ ks, k ∈ zsetMembers v) : ks.foldl RedisModule_ZsetAdd v = v := by
  induction ks with
  | nil => rfl
  | cons x xs ih =>
    simp only [List.foldl_cons]
    rw [ZsetAdd_of_mem v x (h x (List.mem_cons_self _ _))]
    exact ih (fun k hk => h k (List.mem_cons_of_mem _ hk))

theorem length_foldl_ZsetAdd (ks : List Bytes) (v : Option RedisValue)
    (hv : RedisModule_KeyType v ≠ .OTHER) (hks : ks.Nodup)
    (hdis : ∀ k ∈ ks, k ∉ zsetMembers v) :
    RedisModule_ValueLength (ks.foldl RedisModule_ZsetAdd v)
      = RedisModule_ValueLength v + ks.length := by
  induction ks generalizing v with
  | nil => rfl
  | cons x xs ih =>
    simp only [List.foldl_cons, List.length_cons]
    have hx : x ∉ zsetMembers v := hdis x (List.mem_cons_self _ _)
    rw [ih _ (by rw [keyType_ZsetAdd v x hv]; decide) (List.nodup_cons.mp hks).2,
      length_ZsetAdd v x hv, if_neg hx]
    · omega
    · intro k hk hmem
      rw [mem_ZsetAdd v x k hv] at hmem
      rcases hmem with h | h
      · subst h
        exact (List.nodup_cons.mp hks).1 hk
      · exact hdis k (List.mem_cons_of_mem _ hk) h

/-! ## Removal lemmas -/

theorem members_ZsetRem (v : Option RedisValue) (m : Bytes) :
    zsetMembers (RedisModule_ZsetRem v m).1 = (zsetMembers v).erase m := by
  match v with
  | none => simp [RedisModule_ZsetRem, zsetMembers]
  | some (.other t) => simp [RedisModule_ZsetRem, zsetMembers]
  | some (.zset l) =>
    by_cases hm : m ∈ l
    · by_cases he : l.erase m = []
      · simp [RedisModule_ZsetRem, zsetMembers, hm, he]
      · simp [RedisModule_ZsetRem, zsetMembers, hm, he]
    · simp [RedisModule_ZsetRem, zsetMembers, hm, List.erase_of_not_mem hm]

theorem deleted_ZsetRem (v : Option RedisValue) (m : Bytes) :
    (RedisModule_ZsetRem v m).2 = if m ∈ zsetMembers v then 1 else 0 := by
  match v with
  | none => simp [RedisModule_ZsetRem, zsetMembers]
  | some (.other t) => simp [RedisModule_ZsetRem, zsetMembers]
  | some (.zset l) =>
    simp only [RedisModule_ZsetRem, zsetMembers]
    split <;> simp_all

theorem members_foldl_removeLoop (ks : List Bytes) (acc : Option RedisValue × Nat) :
    zsetMembers (ks.foldl removeLoop acc).1 = ks.foldl List.erase (zsetMembers acc.1) := by
  induction ks generalizing acc with
  | nil => rfl
  | cons x xs ih =>
    simp only [List.foldl_cons]
    rw [ih]
    simp [removeLoop, members_ZsetRem]

theorem mem_foldl_erase_of_not_mem (ks l : List Bytes) (k : Bytes) (hk : k ∉ ks) :
    k ∈ ks.foldl List.erase l ↔ k ∈ l := by
  induction ks generalizing l with
  | nil => rfl
  | cons x xs ih =>
    simp only [List.foldl_cons]
    rw [ih _ (fun h => hk (List.mem_cons_of_mem _ h))]
    have hne : k ≠ x := fun h => hk (h ▸ List.mem_cons_self _ _)
    exact List.mem_erase_of_ne hne

theorem mem_of_mem_foldl_erase (ks l : List Bytes) (k : Bytes)
    (h : k ∈ ks.foldl List.erase l) : k ∈ l := by
  induction ks generalizing l with
  | nil => exact h
  | cons x xs ih => exact List.mem_of_mem_erase (ih _ h)

theorem not_mem_foldl_erase (ks l : List Bytes) (k : Bytes) (hl : l.Nodup) (hk : k ∈ ks) :
    k ∉ ks.foldl List.erase l := by
  induction ks generalizing l with
  | nil => simp at hk
  | cons x xs ih =>
    simp only [List.foldl_cons]
    rcases List.mem_cons.mp hk with h | h
    · subst h
      intro hmem
      exact (List.Nodup.mem_erase_iff hl).mp (mem_of_mem_foldl_erase _ _ _ hmem) |>.1 rfl
    · exact ih _ (hl.erase x) h

theorem reply_foldl_removeLoop (ks : List Bytes) (acc : Option RedisValue × Nat)
    (hks : ks.Nodup) :
    (ks.foldl removeLoop acc).2
      = acc.2 + (ks.filter (fun k => decide (k ∈ zsetMembers acc.1))).length := by
  induction ks generalizing acc with
  | nil => simp
  | cons x xs ih =>
    simp only [List.foldl_cons]
    rw [ih _ (List.nodup_cons.mp hks).2]
    have hx : x ∉ xs := (List.nodup_cons.mp hks).1
    have hfil : xs.filter (fun k => decide (k ∈ zsetMembers (removeLoop acc x).1))
        = xs.filter (fun k => decide (k ∈ zsetMembers acc.1)) := by
      apply List.filter_congr
      intro k hk
      have hne : k ≠ x := fun h => hx (h ▸ hk)
      simp only [removeLoop, members_ZsetRem, decide_eq_decide]
      exact List.mem_erase_of_ne hne
    rw [hfil]
    simp only [removeLoop, deleted_ZsetRem, List.filter_cons]
    by_cases hm : x ∈ zsetMembers acc.1
    · simp [hm]; omega
    · simp [hm]

theorem length_foldl_removeLoop (ks : List Bytes) (acc : Option RedisValue × Nat) :
    RedisModule_ValueLength (ks.foldl removeLoop acc).1 + (ks.foldl removeLoop acc).2
      = RedisModule_ValueLength acc.1 + acc.2 := by
  induction ks generalizing acc with
  | nil => rfl
  | cons x xs ih =>
    simp only [List.foldl_cons]
    rw [ih]
    simp only [removeLoop, RedisModule_ValueLength, members_ZsetRem, deleted_ZsetRem]
    by_cases hm : x ∈ zsetMembers acc.1
    · have := List.length_erase_of_mem hm
      have hpos : 0 < (zsetMembers acc.1).length := List.length_pos_of_mem hm
      simp [hm]; omega
    · simp [hm, List.erase_of_not_mem hm]

/-! ## The six keys -/

theorem cString_nulFree (b : Bytes) : ∀ x ∈ cString b, x ≠ 0 := by
  intro x hx
  have := List.mem_takeWhile_imp hx
  simpa using this

theorem cString_of_nulFree (b : Bytes) (h : ∀ x ∈ b, x ≠ 0) : cString b = b := by
  unfold cString
  exact List.takeWhile_eq_self_iff.mpr (fun x hx => by simpa using h x hx)

theorem cString_of_not_mem (b : Bytes) (h : 0 ∉ b) : cString b = b :=
  cString_of_nulFree b (fun _ hx h0 => h (h0 ▸ hx))

theorem createString_exact (cstr : Bytes) (beyond : Nat → Nat) (len : Nat)
    (h : cstr.length = len) : RedisModule_CreateString cstr beyond len = cstr := by
  unfold RedisModule_CreateString
  rw [← h]
  exact List.take_left' rfl

/-- On coordinates without a NUL the six keys are the six permutations, whatever
lies behind them in memory. -/
theorem hexastoreTriplets_eq (beyond : Nat → Nat → Nat) (s p o : Bytes)
    (hs : 0 ∉ s) (hp : 0 ∉ p) (ho : 0 ∉ o) : hexastoreTriplets beyond s p o = sixKeys s p o := by
  have hl : ∀ (tag : String) (a b c : Bytes), (str tag).length = 3 →
      (permutationKey tag a b c).length = 6 + a.length + b.length + c.length := by
    intro tag a b c ht
    simp [permutationKey, ht]; omega
  simp only [hexastoreTriplets, GetTripletPermutations, NewTriplet, Option.map_some',
    Option.getD_some, cString_of_not_mem s hs, cString_of_not_mem p hp, cString_of_not_mem o ho,
    copyPermutations, sixKeys]
  rw [createString_exact _ _ _ (by rw [hl _ _ _ _ (by decide)]),
    createString_exact _ _ _ (by rw [hl _ _ _ _ (by decide)]; omega),
    createString_exact _ _ _ (by rw [hl _ _ _ _ (by decide)]; omega),
    createString_exact _ _ _ (by rw [hl _ _ _ _ (by decide)]; omega),
    createString_exact _ _ _ (by rw [hl _ _ _ _ (by decide)]; omega),
    createString_exact _ _ _ (by rw [hl _ _ _ _ (by decide)]; omega)]
  simp [permutationKey, str, COLON]

theorem sixKeys_nodup (s p o : Bytes) : (sixKeys s p o).Nodup := by
  apply List.Nodup.of_map (fun k => k.take 3)
  simp only [sixKeys, List.map_cons, List.map_nil]
  have h : ∀ (t r : Bytes), t.length = 3 → (t ++ r).take 3 = t := by
    intro t r ht
    rw [List.take_append_of_le_length (by omega), List.take_of_length_le (by omega)]
  have h4 : ∀ (t : String) (a b c : Bytes), (str t).length = 4 →
      (str t ++ a ++ str ":" ++ b ++ str ":" ++ c).take 3 = (str t).take 3 := by
    intro t a b c ht
    simp only [List.append_assoc]
    rw [List.take_append_of_le_length (by omega)]
  rw [h4 _ _ _ _ (by decide), h4 _ _ _ _ (by decide), h4 _ _ _ _ (by decide),
    h4 _ _ _ _ (by decide), h4 _ _ _ _ (by decide), h4 _ _ _ _ (by decide)]
  decide

theorem keyType_cases (v : Option RedisValue) :
    (RedisModule_KeyType v ≠ .ZSET ∧ RedisModule_KeyType v ≠ .EMPTY) ↔ ∃ t, v = some (.other t) := by
  match v with
  | none => simp [RedisModule_KeyType]
  | some (.zset l) => simp [RedisModule_KeyType]
  | some (.other t) => simp [RedisModule_KeyType]

theorem setKey_same (db : KeySpace) (g : Bytes) (v : Option RedisValue) : setKey db g v g = v := by
  simp [setKey]

theorem setKey_setKey (db : KeySpace) (g : Bytes) (v w : Option RedisValue) :
    setKey (setKey db g v) g w = setKey db g w := by
  funext k
  by_cases h : k = g
  · simp [setKey, h]
  · simp [setKey, h]

/-! ## The mutation commands -/

/-- C2 (amended): when the graph key is empty or a sorted set and no coordinate
of `(s, p, o)` holds a NUL byte, after `MGraph_AddEdge` all six permutation
keys of `(s, p, o)` are members of the index, and after a following
`MGraph_RemoveEdge` with the same `(s, p, o)` none of the six is, whatever lies
in memory behind the permutation strings of the two calls. -/
theorem addEdge_removeEdge_six_keys (beyond beyond' : Nat → Nat → Nat) (db : KeySpace)
    (cmd cmd' g s p o : Bytes)
    (hty : RedisModule_KeyType (db g) = .EMPTY ∨ RedisModule_KeyType (db g) = .ZSET)
    (hwf : ValueWF (db g)) (hs : 0 ∉ s) (hp : 0 ∉ p) (ho : 0 ∉ o) :
    (∀ k ∈ [ str "spo:" ++ s ++ str ":" ++ p ++ str ":" ++ o,
             str "sop:" ++ s ++ str ":" ++ o ++ str ":" ++ p,
             str "pso:" ++ p ++ str ":" ++ s ++ str ":" ++ o,
             str "pos:" ++ p ++ str ":" ++ o ++ str ":" ++ s,
             str "osp:" ++ o ++ str ":" ++ s ++ str ":" ++ p,
             str "ops:" ++ o ++ str ":" ++ p ++ str ":" ++ s ],
      k ∈ zsetMembers ((MGraph_AddEdge beyond db [cmd, g, s, p, o]).1 g) ∧
      k ∉ zsetMembers
        ((MGraph_RemoveEdge beyond' (MGraph_AddEdge beyond db [cmd, g, s, p, o]).1
          [cmd', g, s, p, o]).1 g)) := by
  have hno : RedisModule_KeyType (db g) ≠ .OTHER := by
    rcases hty with h | h <;> rw [h] <;> decide
  have hnot : ¬ (RedisModule_KeyType (db g) ≠ .ZSET ∧ RedisModule_KeyType (db g) ≠ .EMPTY) := by
    rcases hty with h | h <;> rw [h] <;> decide
  have hadd : (MGraph_AddEdge beyond db [cmd, g, s, p, o]).1
      = setKey db g ((sixKeys s p o).foldl RedisModule_ZsetAdd (db g)) := by
    simp only [MGraph_AddEdge, if_neg hnot, hexastoreTriplets_eq beyond s p o hs hp ho]
  have hz : RedisModule_KeyType ((sixKeys s p o).foldl RedisModule_ZsetAdd (db g)) = .ZSET := by
    have h1 : RedisModule_KeyType (RedisModule_ZsetAdd (db g) (sixKeys s p o).head!) = .ZSET :=
      keyType_ZsetAdd _ _ hno
    have h2 := keyType_foldl_ZsetAdd (sixKeys s p o).tail _ (by rw [h1]; decide)
    have h3 : ∀ v, RedisModule_KeyType v ≠ .OTHER → v ≠ none → RedisModule_KeyType v = .ZSET := by
      intro v hv hn
      match v, hv, hn with
      | some (.zset l), _, _ => rfl
      | some (.other t), hv, _ => simp [RedisModule_KeyType] at hv
    apply h3 _ (keyType_foldl_ZsetAdd _ _ hno)
    intro hnone
    have := (mem_foldl_ZsetAdd (sixKeys s p o) (db g)
      (str "spo:" ++ s ++ str ":" ++ p ++ str ":" ++ o) hno).mpr (Or.inl (by simp [sixKeys]))
    rw [hnone] at this
    simp [zsetMembers] at this
  intro k hk
  have hk6 : k ∈ sixKeys s p o := hk
  rw [hadd]
  constructor
  · rw [setKey_same]
    exact (mem_foldl_ZsetAdd _ _ _ hno).mpr (Or.inl hk6)
  · simp only [MGraph_RemoveEdge, setKey_same, hz, if_true,
      hexastoreTriplets_eq beyond' s p o hs hp ho]
    rw [members_foldl_removeLoop]
    exact not_mem_foldl_erase _ _ _ (nodup_foldl_ZsetAdd _ _ (valueWF_nodup hwf)) hk6

/-- C2 for the edge `(a, loves, b)` on the index that holds the six keys of
`(a, loves, c)`: the key `spo:a:loves:b` is a member after `ADDEDGE` and is not
after `REMOVEEDGE`. -/
theorem addEdge_removeEdge_six_keys_witness :
    RedisModule_KeyType (lovesDb (str "g")) = .ZSET ∧ ValueWF (lovesDb (str "g")) ∧
      str "spo:" ++ str "a" ++ str ":" ++ str "loves" ++ str ":" ++ str "b"
        ∈ zsetMembers ((MGraph_AddEdge (noBytes 0) lovesDb
          [str "graph.ADDEDGE", str "g", str "a", str "loves", str "b"]).1 (str "g")) ∧
      str "spo:" ++ str "a" ++ str ":" ++ str "loves" ++ str ":" ++ str "b"
        ∉ zsetMembers ((MGraph_RemoveEdge (noBytes 0) (MGraph_AddEdge (noBytes 0) lovesDb
            [str "graph.ADDEDGE", str "g", str "a", str "loves", str "b"]).1
          [str "graph.REMOVEEDGE", str "g", str "a", str "loves", str "b"]).1 (str "g")) :=
  have hwf : ValueWF (lovesDb (str "g")) := by
    show ZSetWF _ ∧ _ ≠ []
    unfold ZSetWF
    decide
  ⟨by decide, hwf,
    addEdge_removeEdge_six_keys (noBytes 0) (noBytes 0) lovesDb (str "graph.ADDEDGE")
      (str "graph.REMOVEEDGE") (str "g") (str "a") (str "loves") (str "b") (Or.inr (by decide))
      hwf (by decide) (by decide) (by decide) _ (List.mem_cons_self _ _)⟩

/-- C2 (counterexample): the subject `a\0x` holds a NUL byte. `hexastoreTriplets`
hands it to `NewTriplet` as a `char*`, so the permutations are those of
`(a, r, b)`, and copies `bufLen = 6 + 3 + 1 + 1` bytes of each: the nine bytes
of the permutation, its terminator, and one byte from behind it. Whatever that
byte is, after `ADDEDGE g a\0x r b` on an empty keyspace the permutation key
`spo:a\0x:r:b` is not a member of the index; the member in its place starts
with `spo:a:r:b` and the terminator. -/
theorem addEdge_nul_coordinate :
    (¬ ∃ beyond : Nat → Nat → Nat,
      str "spo:" ++ [97, 0, 120] ++ str ":" ++ str "r" ++ str ":" ++ str "b"
        ∈ zsetMembers ((MGraph_AddEdge beyond emptyDb
          [str "graph.ADDEDGE", str "g", [97, 0, 120], str "r", str "b"]).1 (str "g"))) ∧
      hexastoreTriplets (noBytes 0) [97, 0, 120] (str "r") (str "b")
        = [str "spo:a:r:b" ++ [0, 0], str "sop:a:b:r" ++ [0, 0], str "pso:r:a:b" ++ [0, 0],
            str "pos:r:b:a" ++ [0, 0], str "osp:b:a:r" ++ [0, 0], str "ops:b:r:a" ++ [0, 0]] := by
  refine ⟨?_, by decide⟩
  rintro ⟨beyond, h⟩
  have hno : RedisModule_KeyType (emptyDb (str "g")) ≠ .OTHER := by decide
  have hnot : ¬ (RedisModule_KeyType (emptyDb (str "g")) ≠ .ZSET ∧
      RedisModule_KeyType (emptyDb (str "g")) ≠ .EMPTY) := by decide
  simp only [MGraph_AddEdge, if_neg hnot, setKey_same] at h
  rw [mem_foldl_ZsetAdd _ _ _ hno] at h
  rcases h with h | h
  · revert h
    simp [hexastoreTriplets, GetTripletPermutations, NewTriplet, copyPermutations,
      RedisModule_CreateString, permutationKey, cString, str, COLON, List.takeWhile, List.range,
      List.range.loop]
  · simp [emptyDb, zsetMembers] at h

/-- C4 (amended): for coordinates without a NUL byte `MGraph_AddEdge` is
idempotent: a second run with the same `(s, p, o)` leaves the keyspace, hence
the index and its cardinality, unchanged and replies as the first run did,
whatever lies in memory behind the permutation strings of the two runs. -/
theorem addEdge_idempotent (beyond beyond' : Nat → Nat → Nat) (db : KeySpace)
    (cmd cmd' g s p o : Bytes) (hs : 0 ∉ s) (hp : 0 ∉ p) (ho : 0 ∉ o) :
    (MGraph_AddEdge beyond' (MGraph_AddEdge beyond db [cmd, g, s, p, o]).1 [cmd', g, s, p, o]).1
        = (MGraph_AddEdge beyond db [cmd, g, s, p, o]).1 ∧
      RedisModule_ValueLength
          ((MGraph_AddEdge beyond' (MGraph_AddEdge beyond db [cmd, g, s, p, o]).1
            [cmd', g, s, p, o]).1 g)
        = RedisModule_ValueLength ((MGraph_AddEdge beyond db [cmd, g, s, p, o]).1 g) ∧
      (MGraph_AddEdge beyond' (MGraph_AddEdge beyond db [cmd, g, s, p, o]).1 [cmd', g, s, p, o]).2
        = (MGraph_AddEdge beyond db [cmd, g, s, p, o]).2 := by
  by_cases hty : RedisModule_KeyType (db g) ≠ .ZSET ∧ RedisModule_KeyType (db g) ≠ .EMPTY
  · have h1 : MGraph_AddEdge beyond db [cmd, g, s, p, o]
        = (db, .error REDISMODULE_ERRORMSG_WRONGTYPE) := by
      simp only [MGraph_AddEdge, if_pos hty]
    have h2 : MGraph_AddEdge beyond' db [cmd', g, s, p, o]
        = (db, .error REDISMODULE_ERRORMSG_WRONGTYPE) := by
      simp only [MGraph_AddEdge, if_pos hty]
    simp [h1, h2]
  · have hno : RedisModule_KeyType (db g) ≠ .OTHER := by
      intro h; apply hty; rw [h]; decide
    have h1 : MGraph_AddEdge beyond db [cmd, g, s, p, o]
        = (setKey db g ((sixKeys s p o).foldl RedisModule_ZsetAdd (db g)),
            .longLong (RedisModule_ValueLength
              ((sixKeys s p o).foldl RedisModule_ZsetAdd (db g)))) := by
      simp only [MGraph_AddEdge, if_neg hty, hexastoreTriplets_eq beyond s p o hs hp ho]
    have hno' := keyType_foldl_ZsetAdd (sixKeys s p o) (db g) hno
    have hty' : ¬ (RedisModule_KeyType ((sixKeys s p o).foldl RedisModule_ZsetAdd (db g)) ≠ .ZSET ∧
        RedisModule_KeyType ((sixKeys s p o).foldl RedisModule_ZsetAdd (db g)) ≠ .EMPTY) := by
      intro h
      obtain ⟨t, ht⟩ := (keyType_cases _).mp h
      rw [ht] at hno'
      exact hno' rfl
    have hfix : (sixKeys s p o).foldl RedisModule_ZsetAdd
        ((sixKeys s p o).foldl RedisModule_ZsetAdd (db g))
        = (sixKeys s p o).foldl RedisModule_ZsetAdd (db g) :=
      foldl_ZsetAdd_of_mem _ _ (fun k hk => (mem_foldl_ZsetAdd _ _ _ hno).mpr (Or.inl hk))
    have h2 : MGraph_AddEdge beyond'
        (setKey db g ((sixKeys s p o).foldl RedisModule_ZsetAdd (db g))) [cmd', g, s, p, o]
        = (setKey db g ((sixKeys s p o).foldl RedisModule_ZsetAdd (db g)),
            .longLong (RedisModule_ValueLength
              ((sixKeys s p o).foldl RedisModule_ZsetAdd (db g)))) := by
      simp only [MGraph_AddEdge, setKey_same, if_neg hty',
        hexastoreTriplets_eq beyond' s p o hs hp ho, hfix, setKey_setKey]
    rw [h1]
    simp only [h2, and_self]

/-- C4 for the edge `(a, loves, b)` on the index that holds the six keys of
`(a, loves, c)`: the first run replies 12, and so does the second, which
leaves the keyspace as it is. -/
theorem addEdge_idempotent_witness :
    (MGraph_AddEdge (noBytes 1) (MGraph_AddEdge (noBytes 0) lovesDb
          [str "graph.ADDEDGE", str "g", str "a", str "loves", str "b"]).1
        [str "graph.ADDEDGE", str "g", str "a", str "loves", str "b"]).1
        = (MGraph_AddEdge (noBytes 0) lovesDb
          [str "graph.ADDEDGE", str "g", str "a", str "loves", str "b"]).1 ∧
      (MGraph_AddEdge (noBytes 0) lovesDb
        [str "graph.ADDEDGE", str "g", str "a", str "loves", str "b"]).2 = .longLong 12 ∧
      (MGraph_AddEdge (noBytes 1) (MGraph_AddEdge (noBytes 0) lovesDb
          [str "graph.ADDEDGE", str "g", str "a", str "loves", str "b"]).1
        [str "graph.ADDEDGE", str "g", str "a", str "loves", str "b"]).2 = .longLong 12 :=
  ⟨(addEdge_idempotent (noBytes 0) (noBytes 1) lovesDb (str "graph.ADDEDGE") (str "graph.ADDEDGE")
      (str "g") (str "a") (str "loves") (str "b") (by decide) (by decide) (by decide)).1,
    by decide, by decide⟩

/-- C4 (counterexample): the subject `a\0x` holds a NUL byte, so that every key
ends with a byte from behind its permutation string. When that byte is `0` at
the first run and `1` at the second, the second `ADDEDGE g a\0x r b` inserts
six more keys: the first run replies 6, the second 12. -/
theorem addEdge_nul_not_idempotent :
    (MGraph_AddEdge (fun _ _ => 0) emptyDb
        [str "graph.ADDEDGE", str "g", [97, 0, 120], str "r", str "b"]).2 = .longLong 6 ∧
      (MGraph_AddEdge (fun _ _ => 1) (MGraph_AddEdge (fun _ _ => 0) emptyDb
          [str "graph.ADDEDGE", str "g", [97, 0, 120], str "r", str "b"]).1
        [str "graph.ADDEDGE", str "g", [97, 0, 120], str "r", str "b"]).2 = .longLong 12 ∧
      hexastoreTriplets (fun _ _ => 1) [97, 0, 120] (str "r") (str "b")
        = [str "spo:a:r:b" ++ [0, 1], str "sop:a:b:r" ++ [0, 1], str "pso:r:a:b" ++ [0, 1],
            str "pos:r:b:a" ++ [0, 1], str "osp:b:a:r" ++ [0, 1], str "ops:b:r:a" ++ [0, 1]] := by
  decide

/-- C5 (amended): for coordinates without a NUL byte `MGraph_RemoveEdge` replies
with the number `r` of the six permutation keys that were members before the
call, `r ≤ 6`, the cardinality drops by exactly `r`, no member other than the
six keys is removed and none is added; when the graph key is not a sorted set
the reply is 0 and the keyspace is unchanged. -/
theorem removeEdge_reply (beyond : Nat → Nat → Nat) (db : KeySpace) (cmd g s p o : Bytes)
    (hs : 0 ∉ s) (hp : 0 ∉ p) (ho : 0 ∉ o) :
    (MGraph_RemoveEdge beyond db [cmd, g, s, p, o]).2
        = .longLong (([ str "spo:" ++ s ++ str ":" ++ p ++ str ":" ++ o,
             str "sop:" ++ s ++ str ":" ++ o ++ str ":" ++ p,
             str "pso:" ++ p ++ str ":" ++ s ++ str ":" ++ o,
             str "pos:" ++ p ++ str ":" ++ o ++ str ":" ++ s,
             str "osp:" ++ o ++ str ":" ++ s ++ str ":" ++ p,
             str "ops:" ++ o ++ str ":" ++ p ++ str ":" ++ s ].filter
               (fun k => decide (k ∈ zsetMembers (db g)))).length) ∧
      (([ str "spo:" ++ s ++ str ":" ++ p ++ str ":" ++ o,
             str "sop:" ++ s ++ str ":" ++ o ++ str ":" ++ p,
             str "pso:" ++ p ++ str ":" ++ s ++ str ":" ++ o,
             str "pos:" ++ p ++ str ":" ++ o ++ str ":" ++ s,
             str "osp:" ++ o ++ str ":" ++ s ++ str ":" ++ p,
             str "ops:" ++ o ++ str ":" ++ p ++ str ":" ++ s ].filter
               (fun k => decide (k ∈ zsetMembers (db g)))).length ≤ 6) ∧
      (RedisModule_ValueLength ((MGraph_RemoveEdge beyond db [cmd, g, s, p, o]).1 g)
          + ([ str "spo:" ++ s ++ str ":" ++ p ++ str ":" ++ o,
             str "sop:" ++ s ++ str ":" ++ o ++ str ":" ++ p,
             str "pso:" ++ p ++ str ":" ++ s ++ str ":" ++ o,
             str "pos:" ++ p ++ str ":" ++ o ++ str ":" ++ s,
             str "osp:" ++ o ++ str ":" ++ s ++ str ":" ++ p,
             str "ops:" ++ o ++ str ":" ++ p ++ str ":" ++ s ].filter
               (fun k => decide (k ∈ zsetMembers (db g)))).length
        = RedisModule_ValueLength (db g)) ∧
      (∀ k, k ∉ [ str "spo:" ++ s ++ str ":" ++ p ++ str ":" ++ o,
             str "sop:" ++ s ++ str ":" ++ o ++ str ":" ++ p,
             str "pso:" ++ p ++ str ":" ++ s ++ str ":" ++ o,
             str "pos:" ++ p ++ str ":" ++ o ++ str ":" ++ s,
             str "osp:" ++ o ++ str ":" ++ s ++ str ":" ++ p,
             str "ops:" ++ o ++ str ":" ++ p ++ str ":" ++ s ] →
        (k ∈ zsetMembers ((MGraph_RemoveEdge beyond db [cmd, g, s, p, o]).1 g)
          ↔ k ∈ zsetMembers (db g))) ∧
      (∀ k, k ∈ zsetMembers ((MGraph_RemoveEdge beyond db [cmd, g, s, p, o]).1 g) →
        k ∈ zsetMembers (db g)) ∧
      (∀ name, name ≠ g → (MGraph_RemoveEdge beyond db [cmd, g, s, p, o]).1 name = db name) ∧
      (RedisModule_KeyType (db g) ≠ .ZSET →
        (MGraph_RemoveEdge beyond db [cmd, g, s, p, o]).2 = .longLong 0 ∧
        (MGraph_RemoveEdge beyond db [cmd, g, s, p, o]).1 = db) := by
  change _ = Reply.longLong ((sixKeys s p o).filter _).length ∧
    ((sixKeys s p o).filter _).length ≤ 6 ∧
    _ + ((sixKeys s p o).filter _).length = _ ∧ (∀ k, k ∉ sixKeys s p o → _) ∧ _
  have hle : ((sixKeys s p o).filter (fun k => decide (k ∈ zsetMembers (db g)))).length ≤ 6 :=
    List.length_filter_le _ _
  by_cases hty : RedisModule_KeyType (db g) = .ZSET
  · have h1 : MGraph_RemoveEdge beyond db [cmd, g, s, p, o]
        = (setKey db g ((sixKeys s p o).foldl removeLoop (db g, 0)).1,
            .longLong ((sixKeys s p o).foldl removeLoop (db g, 0)).2) := by
      simp only [MGraph_RemoveEdge, if_pos hty, hexastoreTriplets_eq beyond s p o hs hp ho]
    rw [h1]
    simp only [setKey_same]
    have hr := reply_foldl_removeLoop (sixKeys s p o) (db g, 0) (sixKeys_nodup s p o)
    have hlen := length_foldl_removeLoop (sixKeys s p o) (db g, 0)
    simp only [Nat.zero_add, Nat.add_zero] at hr hlen
    refine ⟨by rw [hr], hle, by rw [← hr]; exact hlen, ?_, ?_, ?_, ?_⟩
    · intro k hk
      rw [members_foldl_removeLoop]
      exact mem_foldl_erase_of_not_mem _ _ _ hk
    · intro k hk
      rw [members_foldl_removeLoop] at hk
      exact mem_of_mem_foldl_erase _ _ _ hk
    · intro name hne
      simp [setKey, hne]
    · intro h
      exact absurd hty h
  · have h1 : MGraph_RemoveEdge beyond db [cmd, g, s, p, o] = (db, .longLong 0) := by
      simp only [MGraph_RemoveEdge, if_neg hty]
    have hmem : zsetMembers (db g) = [] := by
      revert hty
      cases db g with
      | none => intro _; rfl
      | some v =>
        cases v with
        | zset l => intro h; exact absurd rfl h
        | other t => intro _; rfl
    rw [h1]
    simp [hmem]

/-- C5 on the index that holds the six keys of `(a, loves, c)`:
`REMOVEEDGE g a loves c` replies 6 and leaves no member. -/
theorem removeEdge_reply_witness :
    (MGraph_RemoveEdge (noBytes 0) lovesDb
        [str "graph.REMOVEEDGE", str "g", str "a", str "loves", str "c"]).2 = .longLong 6 ∧
      RedisModule_ValueLength ((MGraph_RemoveEdge (noBytes 0) lovesDb
        [str "graph.REMOVEEDGE", str "g", str "a", str "loves", str "c"]).1 (str "g")) + 6
        = RedisModule_ValueLength (lovesDb (str "g")) ∧
      RedisModule_ValueLength (lovesDb (str "g")) = 6 :=
  have h := removeEdge_reply (noBytes 0) lovesDb (str "graph.REMOVEEDGE") (str "g") (str "a")
    (str "loves") (str "c") (by decide) (by decide) (by decide)
  have h6 : ([ str "spo:" ++ str "a" ++ str ":" ++ str "loves" ++ str ":" ++ str "c",
      str "sop:" ++ str "a" ++ str ":" ++ str "c" ++ str ":" ++ str "loves",
      str "pso:" ++ str "loves" ++ str ":" ++ str "a" ++ str ":" ++ str "c",
      str "pos:" ++ str "loves" ++ str ":" ++ str "c" ++ str ":" ++ str "a",
      str "osp:" ++ str "c" ++ str ":" ++ str "a" ++ str ":" ++ str "loves",
      str "ops:" ++ str "c" ++ str ":" ++ str "loves" ++ str ":" ++ str "a" ].filter
        (fun k => decide (k ∈ zsetMembers (lovesDb (str "g"))))).length = 6 := by decide
  ⟨by rw [h.1, h6], by rw [← h.2.2.1, h6], by decide⟩

/-- C5 (counterexample): the index is the one `ADDEDGE g a\0x r b` builds, whose
six members are made of the C string `a` and end with the terminator and a
byte from behind it. None of the six permutation keys of `(a\0x, r, b)` is a
member, yet `REMOVEEDGE g a\0x r b` replies 6 and removes six members. -/
theorem removeEdge_nul_coordinate :
    (∀ k ∈ [ str "spo:" ++ [97, 0, 120] ++ str ":" ++ str "r" ++ str ":" ++ str "b",
             str "sop:" ++ [97, 0, 120] ++ str ":" ++ str "b" ++ str ":" ++ str "r",
             str "pso:" ++ str "r" ++ str ":" ++ [97, 0, 120] ++ str ":" ++ str "b",
             str "pos:" ++ str "r" ++ str ":" ++ str "b" ++ str ":" ++ [97, 0, 120],
             str "osp:" ++ str "b" ++ str ":" ++ [97, 0, 120] ++ str ":" ++ str "r",
             str "ops:" ++ str "b" ++ str ":" ++ str "r" ++ str ":" ++ [97, 0, 120] ],
        k ∉ zsetMembers (nulEdgeDb (str "g"))) ∧
      RedisModule_ValueLength (nulEdgeDb (str "g")) = 6 ∧
      (MGraph_RemoveEdge (noBytes 0) nulEdgeDb
        [str "graph.REMOVEEDGE", str "g", [97, 0, 120], str "r", str "b"]).2 = .longLong 6 ∧
      RedisModule_ValueLength ((MGraph_RemoveEdge (noBytes 0) nulEdgeDb
        [str "graph.REMOVEEDGE", str "g", [97, 0, 120], str "r", str "b"]).1 (str "g")) = 0 := by
  decide

/-- C6: `MGraph_AddEdge` replies with the WRONGTYPE error exactly when the
graph key exists and is not a sorted set, and then the keyspace is unchanged;
otherwise it replies with the cardinality of the index it leaves behind. -/
theorem addEdge_wrongtype (beyond : Nat → Nat → Nat) (db : KeySpace) (cmd g s p o : Bytes) :
    ((MGraph_AddEdge beyond db [cmd, g, s, p, o]).2 = .error REDISMODULE_ERRORMSG_WRONGTYPE
        ↔ ∃ t, db g = some (.other t)) ∧
      ((∃ t, db g = some (.other t)) → (MGraph_AddEdge beyond db [cmd, g, s, p, o]).1 = db) ∧
      ((¬ ∃ t, db g = some (.other t)) →
        (MGraph_AddEdge beyond db [cmd, g, s, p, o]).2
          = .longLong (RedisModule_ValueLength
              ((MGraph_AddEdge beyond db [cmd, g, s, p, o]).1 g))) := by
  by_cases hty : RedisModule_KeyType (db g) ≠ .ZSET ∧ RedisModule_KeyType (db g) ≠ .EMPTY
  · have h1 : MGraph_AddEdge beyond db [cmd, g, s, p, o]
        = (db, .error REDISMODULE_ERRORMSG_WRONGTYPE) := by
      simp only [MGraph_AddEdge, if_pos hty]
    have hex := (keyType_cases _).mp hty
    rw [h1]
    exact ⟨⟨fun _ => hex, fun _ => rfl⟩, fun _ => rfl, fun h => absurd hex h⟩
  · have h1 : MGraph_AddEdge beyond db [cmd, g, s, p, o]
        = (setKey db g ((hexastoreTriplets beyond s p o).foldl RedisModule_ZsetAdd (db g)),
            .longLong (RedisModule_ValueLength
              ((hexastoreTriplets beyond s p o).foldl RedisModule_ZsetAdd (db g)))) := by
      simp only [MGraph_AddEdge, if_neg hty]
    have hex : ¬ ∃ t, db g = some (.other t) := fun h => hty ((keyType_cases _).mpr h)
    rw [h1]
    refine ⟨⟨fun h => ?_, fun h => absurd h hex⟩, fun h => absurd h hex, fun _ => ?_⟩
    · simp at h
    · simp [setKey_same]


theorem str_spo : str "spo:" = [115, 112, 111, 58] := by decide
theorem str_sop : str "sop:" = [115, 111, 112, 58] := by decide
theorem str_pso : str "pso:" = [112, 115, 111, 58] := by decide
theorem str_pos : str "pos:" = [112, 111, 115, 58] := by decide
theorem str_osp : str "osp:" = [111, 115, 112, 58] := by decide
theorem str_ops : str "ops:" = [111, 112, 115, 58] := by decide
theorem str_colon : str ":" = [58] := by decide

theorem append_colon_inj (a a' r r' : Bytes) (ha : COLON ∉ a) (ha' : COLON ∉ a')
    (h : a ++ COLON :: r = a' ++ COLON :: r') : a = a' ∧ r = r' := by
  induction a generalizing a' with
  | nil =>
    cases a' with
    | nil => simpa using h
    | cons y ys =>
      simp only [List.nil_append, List.cons_append, List.cons.injEq] at h
      exact absurd (h.1 ▸ List.mem_cons_self _ _) ha'
  | cons x xs ih =>
    cases a' with
    | nil =>
      simp only [List.nil_append, List.cons_append, List.cons.injEq] at h
      exact absurd (h.1 ▸ List.mem_cons_self _ _) ha
    | cons y ys =>
      simp only [List.cons_append, List.cons.injEq] at h
      obtain ⟨h1, h2⟩ := ih ys (fun hm => ha (List.mem_cons_of_mem _ hm))
        (fun hm => ha' (List.mem_cons_of_mem _ hm)) h.2
      exact ⟨by rw [h.1, h1], h2⟩

theorem key_body_inj (a b c a' b' c' : Bytes) (ha : COLON ∉ a) (ha' : COLON ∉ a')
    (hb : COLON ∉ b) (hb' : COLON ∉ b')
    (h : a ++ 58 :: (b ++ 58 :: c) = a' ++ 58 :: (b' ++ 58 :: c')) :
    a = a' ∧ b = b' ∧ c = c' := by
  obtain ⟨h1, h2⟩ := append_colon_inj a a' _ _ ha ha' h
  obtain ⟨h3, h4⟩ := append_colon_inj b b' _ _ hb hb' h2
  exact ⟨h1, h3, h4⟩

theorem sixKeys_disjoint (s p o s' p' o' k : Bytes)
    (h : ColonFree (s, p, o)) (h' : ColonFree (s', p', o'))
    (hk : k ∈ sixKeys s p o) (hk' : k ∈ sixKeys s' p' o') : s = s' ∧ p = p' ∧ o = o' := by
  obtain ⟨hs, hp, ho⟩ := h
  obtain ⟨hs', hp', ho'⟩ := h'
  simp only [sixKeys, List.mem_cons, List.mem_singleton, List.not_mem_nil, or_false, str_spo,
    str_sop, str_pso, str_pos, str_osp, str_ops, str_colon, List.append_assoc, List.cons_append,
    List.nil_append] at hk hk'
  rcases hk with h | h | h | h | h | h <;> rcases hk' with g | g | g | g | g | g <;>
    rw [h] at g <;> simp only [List.cons.injEq, true_and, and_true] at g <;>
    try exact absurd g.1 (by decide)
  all_goals
    have hinj := key_body_inj _ _ _ _ _ _ (by assumption) (by assumption) (by assumption)
      (by assumption) g
    tauto


theorem addEdge_ok (beyond : Nat → Nat → Nat) (db : KeySpace) (cmd g s p o : Bytes)
    (hno : RedisModule_KeyType (db g) ≠ .OTHER) (hs : 0 ∉ s) (hp : 0 ∉ p) (ho : 0 ∉ o) :
    MGraph_AddEdge beyond db [cmd, g, s, p, o]
      = (setKey db g ((sixKeys s p o).foldl RedisModule_ZsetAdd (db g)),
          .longLong (RedisModule_ValueLength
            ((sixKeys s p o).foldl RedisModule_ZsetAdd (db g)))) := by
  have hty : ¬ (RedisModule_KeyType (db g) ≠ .ZSET ∧ RedisModule_KeyType (db g) ≠ .EMPTY) := by
    intro h
    obtain ⟨t, ht⟩ := (keyType_cases _).mp h
    rw [ht] at hno
    exact hno rfl
  simp only [MGraph_AddEdge, if_neg hty, hexastoreTriplets_eq beyond s p o hs hp ho]

theorem addEdges_cardinality (g : Bytes) (edges : List (Bytes × Bytes × Bytes)) :
    ∀ (beyond : Nat → Nat → Nat → Nat) (db : KeySpace) (done : List (Bytes × Bytes × Bytes)),
      RedisModule_KeyType (db g) ≠ .OTHER →
      (∀ k ∈ zsetMembers (db g), ∃ e ∈ done, k ∈ sixKeys e.1 e.2.1 e.2.2) →
      (done ++ edges).Nodup → (∀ e ∈ done ++ edges, ColonFree e) → (∀ e ∈ edges, NulFree e) →
      RedisModule_KeyType (addEdges beyond db g edges g) ≠ .OTHER ∧
      RedisModule_ValueLength (addEdges beyond db g edges g)
        = RedisModule_ValueLength (db g) + 6 * edges.length := by
  induction edges with
  | nil => intro beyond db done hno _ _ _ _; exact ⟨hno, rfl⟩
  | cons e rest ih =>
    intro beyond db done hno hmem hnd hcf hnf
    have he_nf : NulFree e := hnf e (List.mem_cons_self _ _)
    have hstep : addEdges beyond db g (e :: rest)
        = addEdges (fun k => beyond (k + 1))
            (MGraph_AddEdge (beyond 0) db [str "graph.ADDEDGE", g, e.1, e.2.1, e.2.2]).1 g rest :=
      rfl
    rw [hstep, addEdge_ok (beyond 0) db _ g _ _ _ hno he_nf.1 he_nf.2.1 he_nf.2.2]
    have hnd' : (done ++ [e] ++ rest).Nodup := by simpa using hnd
    have hcf' : ∀ x ∈ done ++ [e] ++ rest, ColonFree x := by simpa using hcf
    have he_cf : ColonFree e := hcf e (by simp)
    have he_new : e ∉ done := by
      intro he
      have := List.nodup_append.mp hnd
      exact this.2.2 he (List.mem_cons_self _ _)
    have hdis : ∀ k ∈ sixKeys e.1 e.2.1 e.2.2, k ∉ zsetMembers (db g) := by
      intro k hk hkm
      obtain ⟨e', he', hk'⟩ := hmem k hkm
      have hcf_e' : ColonFree e' := hcf e' (by simp [he'])
      obtain ⟨h1, h2, h3⟩ := sixKeys_disjoint _ _ _ _ _ _ k he_cf hcf_e' hk hk'
      apply he_new
      have : e = e' := by
        rcases e with ⟨a, b, c⟩
        rcases e' with ⟨a', b', c'⟩
        simp only at h1 h2 h3
        rw [h1, h2, h3]
      rw [this]
      exact he'
    have hlen := length_foldl_ZsetAdd (sixKeys e.1 e.2.1 e.2.2) (db g) hno (sixKeys_nodup _ _ _) hdis
    have hno' := keyType_foldl_ZsetAdd (sixKeys e.1 e.2.1 e.2.2) (db g) hno
    obtain ⟨r1, r2⟩ := ih (fun k => beyond (k + 1))
      (setKey db g ((sixKeys e.1 e.2.1 e.2.2).foldl RedisModule_ZsetAdd (db g)))
      (done ++ [e]) (by rw [setKey_same]; exact hno')
      (by
        intro k hk
        rw [setKey_same, mem_foldl_ZsetAdd _ _ _ hno] at hk
        rcases hk with hk | hk
        · exact ⟨e, by simp, hk⟩
        · obtain ⟨e', he', hk'⟩ := hmem k hk
          exact ⟨e', by simp [he'], hk'⟩)
      hnd' hcf' (fun x hx => hnf x (List.mem_cons_of_mem _ hx))
    refine ⟨r1, ?_⟩
    rw [r2, setKey_same, hlen]
    simp [sixKeys, List.length_cons]
    omega

theorem addEdges_append (g : Bytes) (pre : List (Bytes × Bytes × Bytes)) :
    ∀ (beyond : Nat → Nat → Nat → Nat) (db : KeySpace) (e : Bytes × Bytes × Bytes),
      addEdges beyond db g (pre ++ [e])
        = (MGraph_AddEdge (beyond pre.length) (addEdges beyond db g pre)
            [str "graph.ADDEDGE", g, e.1, e.2.1, e.2.2]).1 := by
  induction pre with
  | nil => intro beyond db e; simp [addEdges]
  | cons x rest ih =>
    intro beyond db e
    simp only [List.cons_append, addEdges, List.length_cons]
    exact ih _ _ e

/-- C3 (amended): for pairwise distinct edges whose coordinates contain neither
the separator `':'` nor a NUL byte, the index built by `MGraph_AddEdge` on an
empty graph key has cardinality `6 * E`, and that is what the last `ADDEDGE`
replies, whatever lies in memory behind the permutation strings. -/
theorem cardinality_six_times_edges (beyond : Nat → Nat → Nat → Nat) (g : Bytes)
    (edges : List (Bytes × Bytes × Bytes)) (hnd : edges.Nodup)
    (hcf : ∀ e ∈ edges, COLON ∉ e.1 ∧ COLON ∉ e.2.1 ∧ COLON ∉ e.2.2)
    (hnf : ∀ e ∈ edges, 0 ∉ e.1 ∧ 0 ∉ e.2.1 ∧ 0 ∉ e.2.2) :
    RedisModule_ValueLength (addEdges beyond emptyDb g edges g) = 6 * edges.length ∧
    (∀ pre e, edges = pre ++ [e] →
      (MGraph_AddEdge (beyond pre.length) (addEdges beyond emptyDb g pre)
          [str "graph.ADDEDGE", g, e.1, e.2.1, e.2.2]).2
        = .longLong (6 * edges.length)) := by
  have hmain := addEdges_cardinality g edges beyond emptyDb []
    (by simp [emptyDb, RedisModule_KeyType])
    (by simp [emptyDb, zsetMembers]) (by simpa using hnd) (by simpa using hcf) hnf
  have hcard : RedisModule_ValueLength (addEdges beyond emptyDb g edges g) = 6 * edges.length := by
    rw [hmain.2]
    simp [emptyDb, RedisModule_ValueLength, zsetMembers]
  refine ⟨hcard, ?_⟩
  intro pre e hpre
  have hpre_ok := addEdges_cardinality g pre beyond emptyDb []
    (by simp [emptyDb, RedisModule_KeyType])
    (by simp [emptyDb, zsetMembers])
    (by
      rw [hpre] at hnd
      simpa using (List.nodup_append.mp hnd).1)
    (by
      intro x hx
      exact hcf x (by rw [hpre]; simp at hx; simp [hx]))
    (by
      intro x hx
      exact hnf x (by rw [hpre]; simp [hx]))
  have he_nf := hnf e (by rw [hpre]; simp)
  have hsplit : addEdges beyond emptyDb g edges
      = (MGraph_AddEdge (beyond pre.length) (addEdges beyond emptyDb g pre)
          [str "graph.ADDEDGE", g, e.1, e.2.1, e.2.2]).1 := by
    rw [hpre]
    exact addEdges_append g pre beyond emptyDb e
  have hc6 := addEdge_ok (beyond pre.length) (addEdges beyond emptyDb g pre) (str "graph.ADDEDGE")
    g e.1 e.2.1 e.2.2 hpre_ok.1 he_nf.1 he_nf.2.1 he_nf.2.2
  have hval : RedisModule_ValueLength ((sixKeys e.1 e.2.1 e.2.2).foldl RedisModule_ZsetAdd
      (addEdges beyond emptyDb g pre g)) = 6 * edges.length := by
    rw [← hcard, hsplit, hc6]
    simp only [setKey_same]
  rw [hc6, hval]

/-- The edges `(a, loves, b)` and `(a, loves, c)`: `ADDEDGE` replies 6, then 12. -/
theorem cardinality_six_times_edges_witness :
    RedisModule_ValueLength (addEdges noBytes emptyDb (str "g")
        [(str "a", str "loves", str "b"), (str "a", str "loves", str "c")] (str "g")) = 6 * 2 ∧
      (MGraph_AddEdge (noBytes 0) emptyDb
        [str "graph.ADDEDGE", str "g", str "a", str "loves", str "b"]).2 = .longLong 6 ∧
      (MGraph_AddEdge (noBytes 1)
        (addEdges noBytes emptyDb (str "g") [(str "a", str "loves", str "b")])
        [str "graph.ADDEDGE", str "g", str "a", str "loves", str "c"]).2 = .longLong 12 :=
  ⟨(cardinality_six_times_edges noBytes (str "g")
      [(str "a", str "loves", str "b"), (str "a", str "loves", str "c")]
      (by decide) (by decide) (by decide)).1,
    by decide,
    (cardinality_six_times_edges noBytes (str "g")
      [(str "a", str "loves", str "b"), (str "a", str "loves", str "c")]
      (by decide) (by decide) (by decide)).2 [(str "a", str "loves", str "b")]
      (str "a", str "loves", str "c") rfl⟩

/-- C3 (counterexample): the distinct edges `(a:b, c, d)` and `(a, b:c, d)` share
the keys `spo:a:b:c:d` and `osp:d:a:b:c`, and the index holds 10 members. -/
theorem cardinality_colon_collision :
    [(str "a:b", str "c", str "d"), (str "a", str "b:c", str "d")].Nodup ∧
      RedisModule_ValueLength (addEdges noBytes emptyDb (str "g")
        [(str "a:b", str "c", str "d"), (str "a", str "b:c", str "d")] (str "g")) = 10 ∧
      (MGraph_AddEdge (noBytes 1)
        (addEdges noBytes emptyDb (str "g") [(str "a:b", str "c", str "d")])
        [str "graph.ADDEDGE", str "g", str "a", str "b:c", str "d"]).2 = .longLong 10 ∧
      10 ≠ 6 * 2 := by
  decide

/-- Why the amended C3 asks for coordinates without a NUL byte: the distinct
edges `(a\0x, r, b)` and `(a\0y, r, b)` are both handed on as the C string `a`,
and with the same bytes behind the permutation strings the second `ADDEDGE`
inserts nothing: the index holds 6 members. -/
theorem cardinality_nul_collision :
    [(([97, 0, 120] : Bytes), str "r", str "b"), ([97, 0, 121], str "r", str "b")].Nodup ∧
      RedisModule_ValueLength (addEdges noBytes emptyDb (str "g")
        [([97, 0, 120], str "r", str "b"), ([97, 0, 121], str "r", str "b")] (str "g")) = 6 ∧
      6 ≠ 6 * 2 := by
  decide

/-! ## Arity and parse errors -/

theorem addEdge_wrongArity (beyond : Nat → Nat → Nat) (db : KeySpace) (argv : List Bytes) :
    ((MGraph_AddEdge beyond db argv).2 = .wrongArity ↔ argv.length ≠ 5) ∧
      (argv.length ≠ 5 → (MGraph_AddEdge beyond db argv).1 = db) := by
  match argv with
  | [] => simp [MGraph_AddEdge]
  | [_] => simp [MGraph_AddEdge]
  | [_, _] => simp [MGraph_AddEdge]
  | [_, _, _] => simp [MGraph_AddEdge]
  | [_, _, _, _] => simp [MGraph_AddEdge]
  | [c, g, s, p, o] =>
    simp only [List.length_cons, List.length_nil, ne_eq, not_true_eq_false, iff_false,
      false_implies, and_true]
    unfold MGraph_AddEdge
    simp only
    split <;> simp
  | _ :: _ :: _ :: _ :: _ :: _ :: _ => simp [MGraph_AddEdge]

theorem removeEdge_wrongArity (beyond : Nat → Nat → Nat) (db : KeySpace) (argv : List Bytes) :
    ((MGraph_RemoveEdge beyond db argv).2 = .wrongArity ↔ argv.length ≠ 5) ∧
      (argv.length ≠ 5 → (MGraph_RemoveEdge beyond db argv).1 = db) := by
  match argv with
  | [] => simp [MGraph_RemoveEdge]
  | [_] => simp [MGraph_RemoveEdge]
  | [_, _] => simp [MGraph_RemoveEdge]
  | [_, _, _] => simp [MGraph_RemoveEdge]
  | [_, _, _, _] => simp [MGraph_RemoveEdge]
  | [c, g, s, p, o] =>
    simp only [List.length_cons, List.length_nil, ne_eq, not_true_eq_false, iff_false,
      false_implies, and_true]
    unfold MGraph_RemoveEdge
    simp only
    split <;> simp
  | _ :: _ :: _ :: _ :: _ :: _ :: _ => simp [MGraph_RemoveEdge]

theorem deleteGraph_wrongArity (db : KeySpace) (argv : List Bytes) :
    ((MGraph_DeleteGraph db argv).2 = .wrongArity ↔ argv.length ≠ 2) ∧
      (argv.length ≠ 2 → (MGraph_DeleteGraph db argv).1 = db) := by
  match argv with
  | [] => simp [MGraph_DeleteGraph]
  | [_] => simp [MGraph_DeleteGraph]
  | [c, g] =>
    simp only [List.length_cons, List.length_nil, ne_eq, not_true_eq_false, iff_false,
      false_implies, and_true]
    unfold MGraph_DeleteGraph
    simp only
    split <;> simp
  | _ :: _ :: _ :: _ => simp [MGraph_DeleteGraph]

theorem toDigitsCore_length_pos (b : Nat) : ∀ (fuel n : Nat) (ds : List Char),
    ds.length + 1 ≤ (Nat.toDigitsCore b (fuel + 1) n ds).length := by
  intro fuel
  induction fuel with
  | zero =>
    intro n ds
    simp only [Nat.toDigitsCore]
    split <;> simp [Nat.toDigitsCore]
  | succ f ih =>
    intro n ds
    rw [Nat.toDigitsCore]
    split
    · simp
    · have := ih (n / b) (Nat.digitChar (n % b) :: ds)
      simp only [List.length_cons] at this
      omega

theorem toString_length_pos (n : Nat) : 1 ≤ (toString n).length := by
  show 1 ≤ (Nat.repr n).length
  unfold Nat.repr Nat.toDigits
  have := toDigitsCore_length_pos 10 n n []
  simpa [String.length, List.asString] using this

/-- The report of the execution time never fits its buffer: the buffer has 50
bytes, and `sprintf` writes 43 bytes of text and terminator around the at
least 8 bytes that `%f` prints. -/
theorem reportFits_false (micros : Nat) : reportFits micros = false := by
  have h := toString_length_pos (micros / 1000)
  have hlen : ∀ s : String, (str s).length = s.length := by
    intro s
    unfold str
    rw [List.length_map]
    rfl
  have h1 : (str "Query internal execution time: miliseconds").length = 42 := by decide
  have h2 : (str "Query internal execution time: ").length = 31 := by decide
  have h3 : (str " miliseconds").length = 12 := by decide
  have h4 : (str ".").length = 1 := by decide
  unfold reportFits printElapsed
  rw [decide_eq_false_iff_not, not_le, h1]
  repeat rw [List.length_append]
  rw [h2, h3, h4, hlen]
  simp only [List.length_cons, List.length_nil]
  omega

/-- C7, the failing input: `MGraph_Query` only tests `argc < 2`. With four
arguments (`argc = 4`, not the arity 3) it sends no wrong-arity reply, with two
(`argc = 2`) it goes on to read the query string from a pointer that was never
set; only a lone command name is rejected. -/
theorem query_arity_not_checked {F C : Type} (h : QueryHost F C) (fuel : Nat) (db : KeySpace)
    (cmd g q extra : Bytes) :
    MGraph_Query h fuel db [cmd, g, q, extra] ≠ .ok [.wrongArity] ∧
      MGraph_Query h fuel db [cmd, g] = .fault ∧
      MGraph_Query h fuel db [cmd] = .ok [.wrongArity] := by
  refine ⟨?_, by simp [MGraph_Query], by simp [MGraph_Query]⟩
  have hlast : ∀ (l : List Reply), l ++ [Reply.executionTime] ≠ [Reply.wrongArity] := by
    intro l hl
    have := congrArg List.getLast? hl
    simp at this
  unfold MGraph_Query
  simp only [List.length_cons, List.length_nil]
  intro hq
  revert hq
  simp only [show ¬ (0 + 1 + 1 + 1 + 1 < 2) by omega, if_false]
  simp only [List.getElem?_cons_succ, List.getElem?_cons_zero]
  split
  · simp
  · split
    · simp
    · split
      · split
        · split
          · intro hq
            simp only [Outcome.ok.injEq] at hq
            exact hlast _ hq
          · simp
        · simp
        · simp
      · simp
      · simp

/-- C8, the failing input: when the parser returns no AST, `ParseQuery` returns
`NULL` and `MGraph_Query` dereferences it (`parseTree->matchNode`); no reply is
sent. -/
theorem query_parse_failure_faults {F C : Type} (h : QueryHost F C) (fuel : Nat) (db : KeySpace)
    (cmd g q : Bytes) (rest : List Bytes) (hparse : h.Query_Parse q = none) :
    ParseQuery h.Query_Parse q = none ∧
      MGraph_Query h fuel db (cmd :: g :: q :: rest) = .fault := by
  have hp : ParseQuery h.Query_Parse q = none := by simp [ParseQuery, hparse]
  refine ⟨hp, ?_⟩
  unfold MGraph_Query
  simp only [List.length_cons, show ¬ (rest.length + 1 + 1 + 1 < 2) by omega, if_false,
    List.getElem?_cons_succ, List.getElem?_cons_zero, hp]

/-- C8 on the query `MATCH` sent to a parser that rejects it. -/
theorem query_parse_failure_faults_witness :
    rejectingHost.Query_Parse (str "MATCH") = none ∧
      ParseQuery rejectingHost.Query_Parse (str "MATCH") = none ∧
      MGraph_Query rejectingHost 8 emptyDb [str "graph.QUERY", str "g", str "MATCH"] = .fault :=
  ⟨rfl, query_parse_failure_faults rejectingHost 8 emptyDb (str "graph.QUERY") (str "g")
    (str "MATCH") [] rfl⟩

/-! ## `BuildGraph`: the node pass -/

theorem getNodeByAlias_eq (g : Graph) (a : Option String) :
    Graph_GetNodeByAlias g a = (nodeAliases g).findIdx? (fun x => decide (x = a)) := by
  simp only [Graph_GetNodeByAlias, nodeAliases, List.findIdx?_map]
  rfl

theorem getEdgeByAlias_eq (g : Graph) (a : Option String) :
    Graph_GetEdgeByAlias g a = (edgeAliases g).findIdx? (fun x => decide (x = a)) := by
  simp only [Graph_GetEdgeByAlias, edgeAliases, List.findIdx?_map]
  rfl

theorem getNodeByAlias_isSome (g : Graph) (a : Option String) :
    (Graph_GetNodeByAlias g a).isSome = true ↔ a ∈ nodeAliases g := by
  rw [getNodeByAlias_eq, List.findIdx?_isSome]
  simp

theorem getEdgeByAlias_isSome (g : Graph) (a : Option String) :
    (Graph_GetEdgeByAlias g a).isSome = true ↔ a ∈ edgeAliases g := by
  rw [getEdgeByAlias_eq, List.findIdx?_isSome]
  simp

theorem getNodeByAlias_some (g : Graph) (a : Option String) (i : Nat)
    (h : Graph_GetNodeByAlias g a = some i) : ∃ n, g.nodes[i]? = some n ∧ n.alias_ = a := by
  unfold Graph_GetNodeByAlias at h
  have := List.findIdx?_of_eq_some h
  revert this
  cases hn : g.nodes[i]? with
  | none => simp
  | some n => intro hp; exact ⟨n, rfl, by simpa using hp⟩

theorem getNodeByAlias_of_mem (g : Graph) (a : Option String) (h : a ∈ nodeAliases g) :
    ∃ i n, Graph_GetNodeByAlias g a = some i ∧ g.nodes[i]? = some n ∧ n.alias_ = a := by
  have hs := (getNodeByAlias_isSome g a).mpr h
  obtain ⟨i, hi⟩ := Option.isSome_iff_exists.mp hs
  obtain ⟨n, hn, ha⟩ := getNodeByAlias_some g a i hi
  exact ⟨i, n, hi, hn, ha⟩

theorem foldl_Node_Add_Properties (ps : List (SIValue × SIValue)) (n : Node) :
    ps.foldl (fun n kv => Node_Add_Properties n kv.1.keyName kv.2) n
      = { n with properties := n.properties ++ ps.map (fun kv => (kv.1.keyName, kv.2)) } := by
  induction ps generalizing n with
  | nil => simp
  | cons kv rest ih =>
    simp only [List.foldl_cons, List.map_cons]
    rw [ih]
    simp [Node_Add_Properties]

theorem foldl_Edge_Add_Properties (ps : List (SIValue × SIValue)) (e : Edge) :
    ps.foldl (fun e kv => Edge_Add_Properties e kv.1.keyName kv.2) e
      = { e with properties := e.properties ++ ps.map (fun kv => (kv.1.keyName, kv.2)) } := by
  induction ps generalizing e with
  | nil => simp
  | cons kv rest ih =>
    simp only [List.foldl_cons, List.map_cons]
    rw [ih]
    simp [Edge_Add_Properties]

/-- The node the first loop creates for a node entity. -/
theorem introduceNode_add (g : Graph) (x : AST_GraphEntity) (ht : x.t = .N_ENTITY)
    (hn : x.alias_ ∉ nodeAliases g) :
    introduceNode g x
      = { g with nodes := g.nodes ++ [⟨x.alias_, x.label, none, entityProperties x, [], []⟩] } := by
  have hs : ¬ (Graph_GetNodeByAlias g x.alias_).isSome = true :=
    fun h => hn ((getNodeByAlias_isSome g _).mp h)
  unfold introduceNode
  simp only [ht, ne_eq, not_true_eq_false, if_false, hs]
  cases hp : x.properties with
  | none => simp [Graph_AddNode, NewNode, entityProperties, hp]
  | some ps =>
    simp [Graph_AddNode, NewNode, entityProperties, hp, foldl_Node_Add_Properties]

theorem introduceNode_skip (g : Graph) (x : AST_GraphEntity)
    (h : x.t ≠ .N_ENTITY ∨ x.alias_ ∈ nodeAliases g) : introduceNode g x = g := by
  unfold introduceNode
  by_cases ht : x.t ≠ .N_ENTITY
  · simp [ht]
  · have hm : x.alias_ ∈ nodeAliases g := h.resolve_left ht
    simp [ht, (getNodeByAlias_isSome g _).mpr hm]

theorem firstOccurrence_append {pre : List AST_GraphEntity} {t : AST_GraphEntityType} {k : Nat}
    {x : AST_GraphEntity} (h : FirstOccurrence pre t k x) (suffix : List AST_GraphEntity) :
    FirstOccurrence (pre ++ suffix) t k x := by
  obtain ⟨h1, h2, h3⟩ := h
  have hk : k < pre.length := by
    by_contra hc
    rw [List.getElem?_eq_none (by omega)] at h1
    exact Option.noConfusion h1
  refine ⟨by rw [List.getElem?_append_left hk]; exact h1, h2, ?_⟩
  intro j y hj hy
  rw [List.getElem?_append_left (by omega)] at hy
  exact h3 j y hj hy

theorem nodePass_inv (entities : List AST_GraphEntity) :
    NodePassInv entities (entities.foldl introduceNode NewGraph) := by
  induction entities using List.reverseRecOn with
  | nil =>
    refine ⟨by simp [nodeAliases, NewGraph], rfl, ?_, ?_⟩
    · intro n hn; simp [NewGraph] at hn
    · intro x hx; simp at hx
  | append_singleton pre x ih =>
    rw [List.foldl_append]
    simp only [List.foldl_cons, List.foldl_nil]
    obtain ⟨i1, i2, i3, i4⟩ := ih
    by_cases hskip : x.t ≠ .N_ENTITY ∨ x.alias_ ∈ nodeAliases (pre.foldl introduceNode NewGraph)
    · rw [introduceNode_skip _ _ hskip]
      refine ⟨i1, i2, ?_, ?_⟩
      · intro n hn
        obtain ⟨k, y, hf, hy⟩ := i3 n hn
        exact ⟨k, y, firstOccurrence_append hf _, hy⟩
      · intro y hy hty
        rcases List.mem_append.mp hy with h | h
        · exact i4 y h hty
        · have : y = x := by simpa using h
          subst this
          exact hskip.resolve_left (fun hc => hc hty)
    · have ht : x.t = .N_ENTITY := by
        by_contra hc; exact hskip (Or.inl hc)
      have hn : x.alias_ ∉ nodeAliases (pre.foldl introduceNode NewGraph) :=
        fun hc => hskip (Or.inr hc)
      rw [introduceNode_add _ _ ht hn]
      refine ⟨?_, i2, ?_, ?_⟩
      · simp only [nodeAliases, List.map_append, List.map_cons, List.map_nil]
        rw [List.nodup_append]
        refine ⟨i1, by simp, ?_⟩
        intro a ha hb
        have : a = x.alias_ := by simpa using hb
        subst this
        exact hn ha
      · intro n hmem
        simp only [List.mem_append, List.mem_singleton] at hmem
        rcases hmem with h | h
        · obtain ⟨k, y, hf, hy⟩ := i3 n h
          exact ⟨k, y, firstOccurrence_append hf _, hy⟩
        · refine ⟨pre.length, x, ⟨by simp, ht, ?_⟩, h⟩
          intro j y hj hy hty heq
          rw [List.getElem?_append_left hj] at hy
          have hmem : y ∈ pre := List.mem_iff_getElem?.mpr ⟨j, hy⟩
          exact hn (heq ▸ i4 y hmem hty)
      · intro y hy hty
        simp only [nodeAliases, List.map_append, List.map_cons, List.map_nil, List.mem_append,
          List.mem_singleton]
        rcases List.mem_append.mp hy with h | h
        · exact Or.inl (i4 y h hty)
        · have : y = x := by simpa using h
          subst this
          exact Or.inr rfl

/-! ## `BuildGraph`: the edge pass -/

theorem updateNode_map_core (nodes : List Node) (p : Option Nat) (f : Node → Node)
    (hf : ∀ n, nodeCore (f n) = nodeCore n) :
    (updateNode nodes p f).map nodeCore = nodes.map nodeCore := by
  unfold updateNode
  cases p with
  | none => rfl
  | some i =>
    simp only
    cases hn : nodes[i]? with
    | none => rfl
    | some n =>
      simp only
      apply List.ext_getElem?
      intro j
      simp only [List.getElem?_map, List.getElem?_set]
      by_cases hij : i = j
      · subst hij
        have hlt : i < nodes.length := by
          by_contra hc
          rw [List.getElem?_eq_none (by omega)] at hn
          exact Option.noConfusion hn
        simp [hlt, hn, hf]
      · simp [hij]

theorem nodeAliases_of_core {g g1 : Graph} (h : g.nodes.map nodeCore = g1.nodes.map nodeCore) :
    nodeAliases g = nodeAliases g1 := by
  have : ∀ (l : List Node), l.map (fun n => n.alias_) = (l.map nodeCore).map (fun c => c.1) := by
    intro l
    simp [nodeCore]
  simp only [nodeAliases]
  rw [this, this, h]

theorem getNodeByAlias_of_core {g g1 : Graph} (h : g.nodes.map nodeCore = g1.nodes.map nodeCore)
    (a : Option String) : Graph_GetNodeByAlias g a = Graph_GetNodeByAlias g1 a := by
  rw [getNodeByAlias_eq, getNodeByAlias_eq, nodeAliases_of_core h]

theorem connectNodes_core (g : Graph) (src dest : Option Nat) (e : Edge) (a : Option String) :
    (Graph_ConnectNodes g src dest e a).nodes.map nodeCore = g.nodes.map nodeCore := by
  simp only [Graph_ConnectNodes]
  have h1 := updateNode_map_core g.nodes src
    (fun n => { n with outgoingEdges := n.outgoingEdges ++ [g.edges.length] }) (fun _ => rfl)
  have h2 := updateNode_map_core (updateNode g.nodes src
    (fun n => { n with outgoingEdges := n.outgoingEdges ++ [g.edges.length] })) dest
    (fun n => { n with incomingEdges := n.incomingEdges ++ [g.edges.length] }) (fun _ => rfl)
  exact h2.trans h1

/-- The second loop at a link whose alias is not registered and whose two
neighbours exist. -/
theorem introduceEdge_link (entities : List AST_GraphEntity) (g : Graph) (i : Nat)
    (x before after : AST_GraphEntity) (hx : entities[i]? = some x) (ht : x.t = .N_LINK)
    (hn : x.alias_ ∉ edgeAliases g) (hi : 0 < i) (hb : entities[i - 1]? = some before)
    (ha : entities[i + 1]? = some after) :
    ∃ g', introduceEdge entities g i = .ok g' ∧
      g'.nodes.map nodeCore = g.nodes.map nodeCore ∧
      g'.edges = g.edges ++ [edgeOfLink g x before after] := by
  have hs : ¬ (Graph_GetEdgeByAlias g x.alias_).isSome = true :=
    fun h => hn ((getEdgeByAlias_isSome g _).mp h)
  have hi0 : ¬ i = 0 := by omega
  unfold introduceEdge
  simp only [hx, ht, ne_eq, not_true_eq_false, if_false, hs, hi0, hb, ha]
  by_cases hd : x.direction = .N_LEFT_TO_RIGHT
  · simp only [hd, if_true]
    refine ⟨_, rfl, connectNodes_core _ _ _ _ _, ?_⟩
    cases hp : x.properties with
    | none => simp [Graph_ConnectNodes, NewEdge, edgeOfLink, srcAlias, destAlias, hd,
        entityProperties, hp]
    | some ps => simp [Graph_ConnectNodes, NewEdge, edgeOfLink, srcAlias, destAlias, hd,
        entityProperties, hp, foldl_Edge_Add_Properties]
  · simp only [hd, if_false]
    refine ⟨_, rfl, connectNodes_core _ _ _ _ _, ?_⟩
    cases hp : x.properties with
    | none => simp [Graph_ConnectNodes, NewEdge, edgeOfLink, srcAlias, destAlias, hd,
        entityProperties, hp]
    | some ps => simp [Graph_ConnectNodes, NewEdge, edgeOfLink, srcAlias, destAlias, hd,
        entityProperties, hp, foldl_Edge_Add_Properties]

theorem introduceEdge_skip (entities : List AST_GraphEntity) (g : Graph) (i : Nat)
    (x : AST_GraphEntity) (hx : entities[i]? = some x)
    (h : x.t ≠ .N_LINK ∨ x.alias_ ∈ edgeAliases g) : introduceEdge entities g i = .ok g := by
  unfold introduceEdge
  simp only [hx]
  by_cases ht : x.t ≠ .N_LINK
  · simp [ht]
  · have hm : x.alias_ ∈ edgeAliases g := h.resolve_left ht
    simp [ht, (getEdgeByAlias_isSome g _).mpr hm]

/-- Every way the second loop can return at a position of the sequence. -/
theorem introduceEdge_ok (entities : List AST_GraphEntity) (g g' : Graph) (i : Nat)
    (x : AST_GraphEntity) (hx : entities[i]? = some x) (h : introduceEdge entities g i = .ok g') :
    ((x.t ≠ .N_LINK ∨ x.alias_ ∈ edgeAliases g) ∧ g' = g) ∨
    (x.t = .N_LINK ∧ x.alias_ ∉ edgeAliases g ∧ 0 < i ∧ ∃ before after,
      entities[i - 1]? = some before ∧ entities[i + 1]? = some after ∧
      g'.nodes.map nodeCore = g.nodes.map nodeCore ∧
      g'.edges = g.edges ++ [edgeOfLink g x before after]) := by
  by_cases hskip : x.t ≠ .N_LINK ∨ x.alias_ ∈ edgeAliases g
  · rw [introduceEdge_skip entities g i x hx hskip] at h
    exact Or.inl ⟨hskip, by injection h with h; exact h.symm⟩
  · right
    have ht : x.t = .N_LINK := by
      by_contra hc; exact hskip (Or.inl hc)
    have hn : x.alias_ ∉ edgeAliases g := fun hc => hskip (Or.inr hc)
    have hs : ¬ (Graph_GetEdgeByAlias g x.alias_).isSome = true :=
      fun h => hn ((getEdgeByAlias_isSome g _).mp h)
    have key : 0 < i ∧ ∃ before after, entities[i - 1]? = some before ∧
        entities[i + 1]? = some after := by
      unfold introduceEdge at h
      simp only [hx, ht, ne_eq, not_true_eq_false, if_false, hs] at h
      by_cases hi0 : i = 0
      · simp only [hi0, if_true] at h
        split at h <;> simp_all
      · simp only [hi0, if_false] at h
        refine ⟨by omega, ?_⟩
        cases hb : entities[i - 1]? with
        | none =>
          rw [hb] at h
          split at h <;> simp_all
        | some before =>
          cases ha : entities[i + 1]? with
          | none =>
            rw [ha] at h
            split at h <;> simp_all
          | some after => exact ⟨before, after, rfl, rfl⟩
    obtain ⟨hi, before, after, hb, ha⟩ := key
    obtain ⟨g'', h1, h2, h3⟩ := introduceEdge_link entities g i x before after hx ht hn hi hb ha
    rw [h1] at h
    injection h with h
    subst h
    exact ⟨ht, hn, hi, before, after, hb, ha, h2, h3⟩

theorem introduceEdges_append (entities : List AST_GraphEntity) (is : List Nat) (i : Nat)
    (g : Graph) :
    introduceEdges entities (is ++ [i]) g
      = match introduceEdges entities is g with
        | .ok g' => introduceEdge entities g' i
        | .fault => .fault
        | .outOfFuel => .outOfFuel := by
  induction is generalizing g with
  | nil =>
    simp only [List.nil_append, introduceEdges]
    cases introduceEdge entities g i <;> rfl
  | cons j rest ih =>
    simp only [List.cons_append, introduceEdges]
    cases introduceEdge entities g j with
    | ok g' => exact ih g'
    | fault => rfl
    | outOfFuel => rfl

theorem edgePass_inv (entities : List AST_GraphEntity) (g1 : Graph) (h1 : g1.edges = []) :
    ∀ k, k ≤ entities.length → ∀ g, introduceEdges entities (List.range k) g1 = .ok g →
      EdgePassInv entities g1 k g := by
  intro k
  induction k with
  | zero =>
    intro _ g hg
    simp only [List.range_zero, introduceEdges] at hg
    injection hg with hg
    subst hg
    refine ⟨rfl, by simp [edgeAliases, h1], ?_, ?_⟩
    · intro e he; simp [h1] at he
    · intro i x hi; omega
  | succ k ih =>
    intro hk g hg
    rw [List.range_succ, introduceEdges_append] at hg
    cases hprev : introduceEdges entities (List.range k) g1 with
    | fault => rw [hprev] at hg; exact Outcome.noConfusion hg
    | outOfFuel => rw [hprev] at hg; exact Outcome.noConfusion hg
    | ok g' =>
      rw [hprev] at hg
      simp only at hg
      obtain ⟨e1, e2, e3, e4⟩ := ih (by omega) g' hprev
      have hklt : k < entities.length := by omega
      obtain ⟨x, hx⟩ : ∃ x, entities[k]? = some x := ⟨entities[k], List.getElem?_eq_getElem hklt⟩
      rcases introduceEdge_ok entities g' g k x hx hg with ⟨hskip, heq⟩ | ⟨ht, hn, hi, before, after, hb, ha, hc, he⟩
      · subst heq
        refine ⟨e1, e2, ?_, ?_⟩
        · intro e he
          obtain ⟨i, y, b, a, hi, rest⟩ := e3 e he
          exact ⟨i, y, b, a, by omega, rest⟩
        · intro i y hi hy hty
          by_cases hik : i = k
          · subst hik
            rw [hx] at hy
            injection hy with hy
            subst hy
            exact hskip.resolve_left (fun hc => hc hty)
          · exact e4 i y (by omega) hy hty
      · have hsame : edgeOfLink g' x before after = edgeOfLink g1 x before after := by
          simp only [edgeOfLink, getNodeByAlias_of_core e1]
        refine ⟨hc.trans e1, ?_, ?_, ?_⟩
        · simp only [edgeAliases, he, List.map_append, List.map_cons, List.map_nil]
          rw [List.nodup_append]
          refine ⟨e2, by simp, ?_⟩
          intro a ha' hb'
          have : a = x.alias_ := by simpa [edgeOfLink] using hb'
          subst this
          exact hn ha'
        · intro e hmem
          rw [he] at hmem
          simp only [List.mem_append, List.mem_singleton] at hmem
          rcases hmem with h | h
          · obtain ⟨i, y, b, a, hi, rest⟩ := e3 e h
            exact ⟨i, y, b, a, by omega, rest⟩
          · refine ⟨k, x, before, after, by omega, ⟨hx, ht, ?_⟩, hi, hb, ha, by rw [h, hsame]⟩
            intro j y hj hy hty heq
            exact hn (heq ▸ e4 j y hj hy hty)
        · intro i y hi hy hty
          simp only [edgeAliases, he, List.map_append, List.map_cons, List.map_nil,
            List.mem_append, List.mem_singleton]
          by_cases hik : i = k
          · subst hik
            rw [hx] at hy
            injection hy with hy
            subst hy
            exact Or.inr rfl
          · exact Or.inl (e4 i y (by omega) hy hty)

theorem edgePass_total (entities : List AST_GraphEntity) (g1 : Graph)
    (hnb : ∀ i x, entities[i]? = some x → x.t = .N_LINK → 0 < i ∧ i + 1 < entities.length) :
    ∀ k, k ≤ entities.length → ∃ g, introduceEdges entities (List.range k) g1 = .ok g := by
  intro k
  induction k with
  | zero => intro _; exact ⟨g1, rfl⟩
  | succ k ih =>
    intro hk
    obtain ⟨g', hg'⟩ := ih (by omega)
    rw [List.range_succ, introduceEdges_append, hg']
    simp only
    have hklt : k < entities.length := by omega
    obtain ⟨x, hx⟩ : ∃ x, entities[k]? = some x := ⟨entities[k], List.getElem?_eq_getElem hklt⟩
    by_cases hskip : x.t ≠ .N_LINK ∨ x.alias_ ∈ edgeAliases g'
    · exact ⟨g', introduceEdge_skip entities g' k x hx hskip⟩
    · have ht : x.t = .N_LINK := by
        by_contra hc; exact hskip (Or.inl hc)
      have hn : x.alias_ ∉ edgeAliases g' := fun hc => hskip (Or.inr hc)
      obtain ⟨h0, hlen⟩ := hnb k x hx ht
      obtain ⟨g'', h1, _, _⟩ := introduceEdge_link entities g' k x entities[k - 1] entities[k + 1]
        hx ht hn h0 (List.getElem?_eq_getElem (by omega)) (List.getElem?_eq_getElem hlen)
      exact ⟨g'', h1⟩

/-! ## `BuildGraph`: the claims -/

theorem alternates_get (n : Nat) : ∀ entities : List AST_GraphEntity, entities.length ≤ n →
    alternates entities = true → ∀ i x, entities[i]? = some x →
      (i % 2 = 0 → x.t = .N_ENTITY) ∧ (i % 2 = 1 → x.t = .N_LINK ∧ i + 1 < entities.length) := by
  induction n with
  | zero =>
    intro entities hlen halt
    cases entities with
    | nil => simp [alternates] at halt
    | cons a rest => simp at hlen
  | succ n ih =>
    intro entities hlen halt i x hx
    match entities, halt, hlen, hx with
    | [], halt, _, _ => simp [alternates] at halt
    | [a], halt, _, hx =>
      cases i with
      | zero =>
        simp only [List.getElem?_cons_zero, Option.some.injEq] at hx
        subst hx
        simp only [alternates, decide_eq_true_eq] at halt
        exact ⟨fun _ => halt, fun h => by omega⟩
      | succ j => simp at hx
    | a :: b :: rest, halt, hlen, hx =>
      simp only [alternates, Bool.and_eq_true, decide_eq_true_eq] at halt
      obtain ⟨⟨ha, hb⟩, hrest⟩ := halt
      match i, hx with
      | 0, hx =>
        simp only [List.getElem?_cons_zero, Option.some.injEq] at hx
        subst hx
        exact ⟨fun _ => ha, fun h => by omega⟩
      | 1, hx =>
        simp only [List.getElem?_cons_succ, List.getElem?_cons_zero, Option.some.injEq] at hx
        subst hx
        refine ⟨fun h => by omega, fun _ => ⟨hb, ?_⟩⟩
        cases rest with
        | nil => simp [alternates] at hrest
        | cons c rest' => simp
      | j + 2, hx =>
        simp only [List.getElem?_cons_succ] at hx
        have hl : rest.length ≤ n := by simp at hlen; omega
        obtain ⟨h1, h2⟩ := ih rest hl hrest j x hx
        refine ⟨fun h => h1 (by omega), fun h => ?_⟩
        obtain ⟨h3, h4⟩ := h2 (by omega)
        exact ⟨h3, by simp; omega⟩

theorem core_getElem {g g1 : Graph} (h : g.nodes.map nodeCore = g1.nodes.map nodeCore) (s : Nat)
    (n1 : Node) (hs : g1.nodes[s]? = some n1) :
    ∃ n, g.nodes[s]? = some n ∧ nodeCore n = nodeCore n1 := by
  have h1 : (g.nodes.map nodeCore)[s]? = (g1.nodes.map nodeCore)[s]? := by rw [h]
  simp only [List.getElem?_map, hs, Option.map_some'] at h1
  cases hn : g.nodes[s]? with
  | none => rw [hn] at h1; simp at h1
  | some n =>
    rw [hn] at h1
    simp only [Option.map_some', Option.some.injEq] at h1
    exact ⟨n, rfl, h1⟩

theorem lookup_final {g g1 : Graph} (h : g.nodes.map nodeCore = g1.nodes.map nodeCore)
    (a : Option String) (ha : a ∈ nodeAliases g1) :
    ∃ s n, Graph_GetNodeByAlias g1 a = some s ∧ g.nodes[s]? = some n ∧ n.alias_ = a ∧
      s < g.nodes.length := by
  obtain ⟨s, n1, h1, h2, h3⟩ := getNodeByAlias_of_mem g1 a ha
  obtain ⟨n, h4, h5⟩ := core_getElem h s n1 h2
  refine ⟨s, n, h1, h4, ?_, ?_⟩
  · have : n.alias_ = n1.alias_ := congrArg (fun c => c.1) h5
    rw [this, h3]
  · by_contra hc
    rw [List.getElem?_eq_none (by omega)] at h4
    exact Option.noConfusion h4

/-- C9, amended: for a flat match sequence that alternates node, link, node,
..., node with non-null aliases, `BuildGraph` on an empty pattern graph returns,
and for each link entity at a position `i` whose alias is not the alias of an
earlier link it has created an edge under that alias whose source is the
pattern node with the alias of entity `i - 1` and whose destination is the
pattern node with the alias of entity `i + 1` when the direction is
`N_LEFT_TO_RIGHT`, and the reverse otherwise; both endpoints of every edge are
nodes of the pattern graph, never `NULL`. -/
theorem buildGraph_edge_endpoints (entities : List AST_GraphEntity)
    (halt : alternates entities = true) (_hal : ∀ x ∈ entities, x.alias_ ≠ none) :
    ∃ g, BuildGraph NewGraph entities = .ok g ∧
      (∀ i link, entities[i]? = some link → link.t = .N_LINK →
        (∀ j y, j < i → entities[j]? = some y → y.t = .N_LINK → y.alias_ ≠ link.alias_) →
        ∃ before after e s d sn dn, 0 < i ∧ entities[i - 1]? = some before ∧
          entities[i + 1]? = some after ∧ e ∈ g.edges ∧ e.alias_ = link.alias_ ∧
          e.src = some s ∧ e.dest = some d ∧ g.nodes[s]? = some sn ∧ g.nodes[d]? = some dn ∧
          sn.alias_ = (if link.direction = .N_LEFT_TO_RIGHT then before.alias_ else after.alias_) ∧
          dn.alias_ = (if link.direction = .N_LEFT_TO_RIGHT then after.alias_ else before.alias_)) ∧
      (∀ e ∈ g.edges, ∃ s d, e.src = some s ∧ e.dest = some d ∧
        s < g.nodes.length ∧ d < g.nodes.length) := by
  have hget := alternates_get entities.length entities (Nat.le_refl _) halt
  have hnb : ∀ i x, entities[i]? = some x → x.t = .N_LINK → 0 < i ∧ i + 1 < entities.length := by
    intro i x hx ht
    obtain ⟨h1, h2⟩ := hget i x hx
    have hodd : i % 2 = 1 := by
      by_contra hc
      have := h1 (by omega)
      rw [ht] at this
      exact AST_GraphEntityType.noConfusion this
    exact ⟨by omega, (h2 hodd).2⟩
  obtain ⟨p1, p2, p3, p4⟩ := nodePass_inv entities
  obtain ⟨g, hg⟩ := edgePass_total entities (entities.foldl introduceNode NewGraph) hnb
    entities.length (Nat.le_refl _)
  obtain ⟨e1, e2, e3, e4⟩ := edgePass_inv entities _ p2 entities.length (Nat.le_refl _) g hg
  -- the neighbours of a link are node entities, hence registered
  have hneigh : ∀ i x before after, FirstOccurrence entities .N_LINK i x → 0 < i →
      entities[i - 1]? = some before → entities[i + 1]? = some after →
      before.alias_ ∈ nodeAliases (entities.foldl introduceNode NewGraph) ∧
      after.alias_ ∈ nodeAliases (entities.foldl introduceNode NewGraph) := by
    intro i x before after hf hi hb ha
    have hodd : i % 2 = 1 := by
      by_contra hc
      have := (hget i x hf.1).1 (by omega)
      rw [hf.2.1] at this
      exact AST_GraphEntityType.noConfusion this
    have hbt := (hget (i - 1) before hb).1 (by omega)
    have hat := (hget (i + 1) after ha).1 (by omega)
    exact ⟨p4 before (List.mem_iff_getElem?.mpr ⟨_, hb⟩) hbt,
      p4 after (List.mem_iff_getElem?.mpr ⟨_, ha⟩) hat⟩
  have hends : ∀ i x before after, FirstOccurrence entities .N_LINK i x → 0 < i →
      entities[i - 1]? = some before → entities[i + 1]? = some after →
      ∃ s d sn dn, (edgeOfLink (entities.foldl introduceNode NewGraph) x before after).src = some s ∧
        (edgeOfLink (entities.foldl introduceNode NewGraph) x before after).dest = some d ∧
        g.nodes[s]? = some sn ∧ g.nodes[d]? = some dn ∧
        sn.alias_ = srcAlias x before after ∧ dn.alias_ = destAlias x before after ∧
        s < g.nodes.length ∧ d < g.nodes.length := by
    intro i x before after hf hi hb ha
    obtain ⟨hbm, ham⟩ := hneigh i x before after hf hi hb ha
    have hsm : srcAlias x before after ∈ nodeAliases (entities.foldl introduceNode NewGraph) := by
      unfold srcAlias; split <;> assumption
    have hdm : destAlias x before after ∈ nodeAliases (entities.foldl introduceNode NewGraph) := by
      unfold destAlias; split <;> assumption
    obtain ⟨s, sn, h1, h2, h3, h4⟩ := lookup_final e1 _ hsm
    obtain ⟨d, dn, h5, h6, h7, h8⟩ := lookup_final e1 _ hdm
    exact ⟨s, d, sn, dn, h1, h5, h2, h6, h3, h7, h4, h8⟩
  refine ⟨g, hg, ?_, ?_⟩
  · intro i link hx ht hfirst
    have hlt : i < entities.length := by
      by_contra hc
      rw [List.getElem?_eq_none (by omega)] at hx
      exact Option.noConfusion hx
    have hmem := e4 i link hlt hx ht
    simp only [edgeAliases, List.mem_map] at hmem
    obtain ⟨e, he, hea⟩ := hmem
    obtain ⟨i', x', before, after, _, hf', hi', hb, ha, heq⟩ := e3 e he
    have hal' : x'.alias_ = link.alias_ := by rw [← hea, heq]; rfl
    have hii : i' = i := by
      rcases Nat.lt_trichotomy i' i with h | h | h
      · exact absurd hal' (hfirst i' x' h hf'.1 hf'.2.1)
      · exact h
      · exact absurd hal'.symm (hf'.2.2 i link h hx ht)
    subst hii
    have hxx : x' = link := by
      have := hf'.1
      rw [hx] at this
      injection this with this
      exact this.symm
    subst hxx
    obtain ⟨s, d, sn, dn, h1, h2, h3, h4, h5, h6, _, _⟩ := hends i' x' before after hf' hi' hb ha
    refine ⟨before, after, e, s, d, sn, dn, hi', hb, ha, he, hea, ?_, ?_, h3, h4, h5, h6⟩
    · rw [heq]; exact h1
    · rw [heq]; exact h2
  · intro e he
    obtain ⟨i', x', before, after, _, hf', hi', hb, ha, heq⟩ := e3 e he
    obtain ⟨s, d, sn, dn, h1, h2, _, _, _, _, h7, h8⟩ := hends i' x' before after hf' hi' hb ha
    exact ⟨s, d, by rw [heq]; exact h1, by rw [heq]; exact h2, h7, h8⟩

/-- C9 on the pattern `(a)<-[e1]-(b)-[e2]->(c)`. -/
theorem buildGraph_edge_endpoints_witness :
    alternates forkPattern = true ∧ (∀ x ∈ forkPattern, x.alias_ ≠ none) ∧
      ∃ g, BuildGraph NewGraph forkPattern = .ok g ∧
        (∀ e ∈ g.edges, ∃ s d, e.src = some s ∧ e.dest = some d ∧
          s < g.nodes.length ∧ d < g.nodes.length) :=
  ⟨by decide, by decide,
    (buildGraph_edge_endpoints forkPattern (by decide) (by decide)).elim
      (fun g h => ⟨g, h.1, h.2.2⟩)⟩

/-- C9 as stated fails: in `(a)-[e]->(b)-[e]->(c)` the second link, at
position 3, is skipped because its alias is registered, and no edge of the
pattern graph leads from the node `b` to the node `c`. -/
theorem buildGraph_duplicate_link_skipped :
    alternates duplicateLinkPattern = true ∧ (∀ x ∈ duplicateLinkPattern, x.alias_ ≠ none) ∧
      duplicateLinkPattern[3]? = some (linkEntity "e" none .N_LEFT_TO_RIGHT) ∧
      duplicateLinkPattern[2]? = some (nodeEntity "b") ∧
      duplicateLinkPattern[4]? = some (nodeEntity "c") ∧
      ∃ g, BuildGraph NewGraph duplicateLinkPattern = .ok g ∧
        ∀ e ∈ g.edges, ¬ (aliasAt g e.src = some (some "b") ∧ aliasAt g e.dest = some (some "c")) :=
  ⟨by decide, by decide, by decide, by decide, by decide, _, rfl, by decide⟩

/-- C10, amended: after `BuildGraph` on an empty pattern graph no two pattern
nodes share an alias and no two pattern edges share an alias (a node and an
edge may); an entity whose alias is already registered for its kind is
skipped, so every node and every edge carries the label and the properties of
the first entity of its kind with its alias, and every entity's alias is
registered. `BuildGraph` returns whenever every link has both neighbours. -/
theorem buildGraph_aliases_unique (entities : List AST_GraphEntity) :
    ((∀ i x, entities[i]? = some x → x.t = .N_LINK → 0 < i ∧ i + 1 < entities.length) →
      ∃ g, BuildGraph NewGraph entities = .ok g) ∧
    ∀ g, BuildGraph NewGraph entities = .ok g →
      (g.nodes.map (fun n => n.alias_)).Nodup ∧ (g.edges.map (fun e => e.alias_)).Nodup ∧
      (∀ n ∈ g.nodes, ∃ k x, entities[k]? = some x ∧ x.t = .N_ENTITY ∧
        (∀ (j : Nat) (y : AST_GraphEntity), j < k → entities[j]? = some y → y.t = .N_ENTITY →
          y.alias_ ≠ x.alias_) ∧
        n.alias_ = x.alias_ ∧ n.label = x.label ∧ n.properties = entityProperties x) ∧
      (∀ e ∈ g.edges, ∃ k x, entities[k]? = some x ∧ x.t = .N_LINK ∧
        (∀ (j : Nat) (y : AST_GraphEntity), j < k → entities[j]? = some y → y.t = .N_LINK →
          y.alias_ ≠ x.alias_) ∧
        e.alias_ = x.alias_ ∧ e.label = x.label ∧ e.properties = entityProperties x) ∧
      (∀ x ∈ entities, x.t = .N_ENTITY → ∃ n ∈ g.nodes, n.alias_ = x.alias_) ∧
      (∀ x ∈ entities, x.t = .N_LINK → ∃ e ∈ g.edges, e.alias_ = x.alias_) := by
  obtain ⟨p1, p2, p3, p4⟩ := nodePass_inv entities
  refine ⟨fun hnb => edgePass_total entities _ hnb entities.length (Nat.le_refl _), ?_⟩
  intro g hg
  obtain ⟨e1, e2, e3, e4⟩ := edgePass_inv entities _ p2 entities.length (Nat.le_refl _) g hg
  have hal := nodeAliases_of_core e1
  refine ⟨?_, e2, ?_, ?_, ?_, ?_⟩
  · have : (nodeAliases g).Nodup := by rw [hal]; exact p1
    exact this
  · intro n hn
    obtain ⟨s, hs⟩ := List.mem_iff_getElem?.mp hn
    obtain ⟨n1, hn1, h1⟩ := @core_getElem (entities.foldl introduceNode NewGraph) g e1.symm s n hs
    obtain ⟨k, x, hf, hx⟩ := p3 n1 (List.mem_iff_getElem?.mpr ⟨s, hn1⟩)
    have ha : n1.alias_ = n.alias_ := congrArg (fun c => c.1) h1
    have hl : n1.label = n.label := congrArg (fun c => c.2.1) h1
    have hp : n1.properties = n.properties := congrArg (fun c => c.2.2.2) h1
    refine ⟨k, x, hf.1, hf.2.1, hf.2.2, ?_, ?_, ?_⟩
    · rw [← ha, hx]
    · rw [← hl, hx]
    · rw [← hp, hx]
  · intro e he
    obtain ⟨i, x, before, after, _, hf, _, _, _, heq⟩ := e3 e he
    exact ⟨i, x, hf.1, hf.2.1, hf.2.2, by rw [heq]; rfl, by rw [heq]; rfl, by rw [heq]; rfl⟩
  · intro x hx ht
    have hm : x.alias_ ∈ nodeAliases g := by rw [hal]; exact p4 x hx ht
    simp only [nodeAliases, List.mem_map] at hm
    exact hm
  · intro x hx ht
    obtain ⟨i, hi⟩ := List.mem_iff_getElem?.mp hx
    have hlt : i < entities.length := by
      by_contra hc
      rw [List.getElem?_eq_none (by omega)] at hi
      exact Option.noConfusion hi
    have hm := e4 i x hlt hi ht
    simp only [edgeAliases, List.mem_map] at hm
    exact hm

/-- C10 on the pattern `(a)-[e]->(b)-[e]->(c)`, whose second link is skipped. -/
theorem buildGraph_aliases_unique_witness :
    ∃ g, BuildGraph NewGraph duplicateLinkPattern = .ok g ∧
      (g.nodes.map (fun n => n.alias_)).Nodup ∧ (g.edges.map (fun e => e.alias_)).Nodup ∧
      g.nodes.length = 3 ∧ g.edges.length = 1 :=
  ⟨_, rfl, ((buildGraph_aliases_unique duplicateLinkPattern).2 _ rfl).1,
    ((buildGraph_aliases_unique duplicateLinkPattern).2 _ rfl).2.1, by decide, by decide⟩

/-- C10 as stated fails: in `(x)-[x]->(b)` the link is not skipped although its
alias is registered for a node, and the pattern graph holds a node and an edge
that share the alias `x`. -/
theorem buildGraph_node_edge_share_alias :
    ∃ g, BuildGraph NewGraph sharedAliasPattern = .ok g ∧
      ∃ n ∈ g.nodes, ∃ e ∈ g.edges, n.alias_ = some "x" ∧ e.alias_ = some "x" :=
  ⟨_, rfl, by decide⟩

/-! ## Bindings of the pattern graph -/

theorem getElem?_bindNodes (ν : Nat → Option Bytes) (l : List Node) (i j : Nat) :
    (bindNodes ν i l)[j]? = (l[j]?).map (fun n => { n with id := ν (i + j) }) := by
  induction l generalizing i j with
  | nil => simp [bindNodes]
  | cons n rest ih =>
    cases j with
    | zero => simp [bindNodes]
    | succ j =>
      simp only [bindNodes, List.getElem?_cons_succ, ih]
      congr 2
      funext n
      congr 2
      omega

theorem getElem?_bindEdges (ρ : Nat → Option Bytes) (l : List Edge) (i j : Nat) :
    (bindEdges ρ i l)[j]? = (l[j]?).map (fun e => { e with relationship := ρ (i + j) }) := by
  induction l generalizing i j with
  | nil => simp [bindEdges]
  | cons n rest ih =>
    cases j with
    | zero => simp [bindEdges]
    | succ j =>
      simp only [bindEdges, List.getElem?_cons_succ, ih]
      congr 2
      funext n
      congr 2
      omega

theorem nodes_withBindings (g : Graph) (ν ρ : Nat → Option Bytes) (j : Nat) :
    (withBindings g ν ρ).nodes[j]? = (g.nodes[j]?).map (fun n => { n with id := ν j }) := by
  simp [withBindings, getElem?_bindNodes]

theorem edges_withBindings (g : Graph) (ν ρ : Nat → Option Bytes) (j : Nat) :
    (withBindings g ν ρ).edges[j]? = (g.edges[j]?).map (fun e => { e with relationship := ρ j }) := by
  simp [withBindings, getElem?_bindEdges]

theorem getElem?_updateNode (l : List Node) (n j : Nat) (f : Node → Node) :
    (updateNode l (some n) f)[j]? = if j = n then (l[j]?).map f else l[j]? := by
  unfold updateNode
  simp only
  cases hn : l[n]? with
  | none =>
    simp only
    by_cases hj : j = n
    · subst hj; simp [hn]
    · simp [hj]
  | some nd =>
    simp only [List.getElem?_set]
    by_cases hj : j = n
    · subst hj
      have hlt : j < l.length := by
        by_contra hc
        rw [List.getElem?_eq_none (by omega)] at hn
        exact Option.noConfusion hn
      simp [hlt, hn]
    · have : ¬ n = j := fun h => hj h.symm
      simp [hj, this]

theorem setNodeId_withBindings (g : Graph) (ν ρ : Nat → Option Bytes) (n : Nat)
    (a : Option Bytes) :
    (withBindings g ν ρ).setNodeId n a = withBindings g (Function.update ν n a) ρ := by
  have hn : (updateNode (withBindings g ν ρ).nodes (some n) (fun nd => { nd with id := a }))
      = (withBindings g (Function.update ν n a) ρ).nodes := by
    apply List.ext_getElem?
    intro j
    rw [getElem?_updateNode, nodes_withBindings, nodes_withBindings]
    by_cases hj : j = n
    · subst hj
      cases g.nodes[j]? with
      | none => simp
      | some nd => simp [Function.update_same]
    · simp [hj, Function.update_noteq hj]
  simp only [Graph.setNodeId, hn]
  rfl

theorem setRelationship_withBindings (g : Graph) (ν ρ : Nat → Option Bytes) (e : Nat)
    (r : Option Bytes) :
    (withBindings g ν ρ).setRelationship e r = withBindings g ν (Function.update ρ e r) := by
  have hnodes : (withBindings g ν (Function.update ρ e r)).nodes = (withBindings g ν ρ).nodes := rfl
  unfold Graph.setRelationship
  cases he : (withBindings g ν ρ).edges[e]? with
  | none =>
    simp only
    have : (withBindings g ν ρ).edges = (withBindings g ν (Function.update ρ e r)).edges := by
      apply List.ext_getElem?
      intro j
      rw [edges_withBindings, edges_withBindings]
      by_cases hj : j = e
      · subst hj
        rw [edges_withBindings] at he
        cases hg : g.edges[j]? with
        | none => rfl
        | some x => rw [hg] at he; simp at he
      · simp [Function.update_noteq hj]
    cases hw : withBindings g ν ρ with
    | mk ns es =>
      cases hw' : withBindings g ν (Function.update ρ e r) with
      | mk ns' es' =>
        rw [hw] at this
        rw [hw'] at this hnodes
        rw [hw] at hnodes
        simp only at this hnodes
        rw [this, hnodes]
  | some ed =>
    simp only
    have : (withBindings g ν ρ).edges.set e { ed with relationship := r }
        = (withBindings g ν (Function.update ρ e r)).edges := by
      apply List.ext_getElem?
      intro j
      rw [List.getElem?_set, edges_withBindings]
      by_cases hj : e = j
      · subst hj
        have hlt : e < (withBindings g ν ρ).edges.length := by
          by_contra hc
          rw [List.getElem?_eq_none (by omega)] at he
          exact Option.noConfusion he
        rw [edges_withBindings] at he
        cases hg : g.edges[e]? with
        | none => rw [hg] at he; simp at he
        | some x =>
          rw [hg] at he
          simp only [Option.map_some', Option.some.injEq] at he
          rw [edges_withBindings, hg]
          simp [hlt, ← he, Function.update_same]
      · have hj' : j ≠ e := fun h => hj h.symm
        simp [hj, edges_withBindings, Function.update_noteq hj']
    rw [this]
    cases hw' : withBindings g ν (Function.update ρ e r) with
    | mk ns' es' =>
      rw [hw'] at hnodes
      simp only at hnodes
      simp [hnodes]

theorem withBindings_self (g : Graph) : withBindings g (idOf g) (relOf g) = g := by
  have hn : (withBindings g (idOf g) (relOf g)).nodes = g.nodes := by
    apply List.ext_getElem?
    intro j
    rw [nodes_withBindings]
    cases hg : g.nodes[j]? with
    | none => rfl
    | some n => simp [idOf, nodeId, hg]
  have he : (withBindings g (idOf g) (relOf g)).edges = g.edges := by
    apply List.ext_getElem?
    intro j
    rw [edges_withBindings]
    cases hg : g.edges[j]? with
    | none => rfl
    | some n => simp [relOf, hg]
  cases hw : withBindings g (idOf g) (relOf g) with
  | mk ns es =>
    rw [hw] at hn he
    simp only at hn he
    cases g
    simp_all

/-! ## `QueryNode` along a chain -/

theorem bindEnv_agree (env env' : (Nat → Option Bytes) × (Nat → Option Bytes)) (n e d : Nat)
    (t : Triplet) (h : AgreeOff env env' n e d) : bindEnv env' n e d t = bindEnv env n e d t := by
  obtain ⟨h1, h2⟩ := h
  unfold bindEnv
  congr 1
  · funext i
    by_cases hd : i = d
    · subst hd; simp [Function.update_same]
    · by_cases hn : i = n
      · subst hn; simp [Function.update_noteq hd, Function.update_same]
      · simp [Function.update_noteq hd, Function.update_noteq hn, h1 i hn hd]
  · funext j
    by_cases he : j = e
    · subst he; simp [Function.update_same]
    · simp [Function.update_noteq he, h2 j he]

theorem agreeOff_bindEnv (env : (Nat → Option Bytes) × (Nat → Option Bytes)) (n e d : Nat)
    (t : Triplet) : AgreeOff env (bindEnv env n e d t) n e d := by
  constructor
  · intro i hn hd
    simp [bindEnv, Function.update_noteq hd, Function.update_noteq hn]
  · intro j he
    simp [bindEnv, Function.update_noteq he]

theorem agreeOff_refl (env : (Nat → Option Bytes) × (Nat → Option Bytes)) (n e d : Nat) :
    AgreeOff env env n e d := ⟨fun _ _ _ => rfl, fun _ _ => rfl⟩

theorem restore_agree (env env' : (Nat → Option Bytes) × (Nat → Option Bytes)) (n e d : Nat)
    (h : AgreeOff env env' n e d) :
    Function.update (Function.update env'.1 n (env.1 n)) d (env.1 d) = env.1 ∧
      Function.update env'.2 e (env.2 e) = env.2 := by
  obtain ⟨h1, h2⟩ := h
  constructor
  · funext i
    by_cases hd : i = d
    · subst hd; simp [Function.update_same]
    · by_cases hn : i = n
      · subst hn; simp [Function.update_noteq hd, Function.update_same]
      · simp [Function.update_noteq hd, Function.update_noteq hn, h1 i hn hd]
  · funext j
    by_cases he : j = e
    · subst he; simp [Function.update_same]
    · simp [Function.update_noteq he, h2 j he]

theorem bind_withBindings (g0 : Graph) (env : (Nat → Option Bytes) × (Nat → Option Bytes))
    (n e d : Nat) (t : Triplet) :
    (((withBindings g0 env.1 env.2).setNodeId n t.subject).setRelationship e
        t.predicate).setNodeId d t.object
      = withBindings g0 (bindEnv env n e d t).1 (bindEnv env n e d t).2 := by
  rw [setNodeId_withBindings, setRelationship_withBindings, setNodeId_withBindings]
  rfl

theorem emitted_append {F R C : Type} (ctx : QueryCtx F R C) (g : Graph)
    (l1 l2 : List ((Nat → Option Bytes) × (Nat → Option Bytes))) :
    emitted ctx g (l1 ++ l2) = emitted ctx g l1 ++ emitted ctx g l2 := by
  simp [emitted]

theorem emitted_flatMap {F R C α : Type} (ctx : QueryCtx F R C) (g : Graph) (l : List α)
    (f : α → List ((Nat → Option Bytes) × (Nat → Option Bytes))) :
    emitted ctx g (l.flatMap f) = l.flatMap (fun t => emitted ctx g (f t)) := by
  induction l with
  | nil => simp [emitted]
  | cons x xs ih => simp [List.flatMap_cons, emitted_append, ih]

theorem full_of_unbounded (rs : ResultSet) (h : rs.limit = none) : ResultSet_Full rs = false := by
  simp [ResultSet_Full, h]

theorem cursorLoop_spec {F R C : Type} (ctx : QueryCtx F R C)
    (recur : Nat → QueryState C → Outcome (QueryState C)) (g0 : Graph) (n e d : Nat)
    (env : (Nat → Option Bytes) × (Nat → Option Bytes)) (eps : List Nat) (cache : C)
    (E : Triplet → List Record)
    (hadv : ∀ (t : Triplet) (rs : ResultSet), rs.limit = none → rs.aggregated = false →
      advance ctx recur d
          ⟨withBindings g0 (bindEnv env n e d t).1 (bindEnv env n e d t).2, eps, rs, cache⟩
        = .ok ⟨withBindings g0 (bindEnv env n e d t).1 (bindEnv env n e d t).2, eps,
            { rs with records := rs.records ++ E t }, cache⟩) :
    ∀ (keys : List Bytes) (env' : (Nat → Option Bytes) × (Nat → Option Bytes)) (rs : ResultSet),
      AgreeOff env env' n e d → rs.limit = none → rs.aggregated = false →
      (∀ k ∈ keys, (tripletOfKey k).isSome = true) →
      ∃ env'', AgreeOff env env'' n e d ∧
        cursorLoop ctx recur n e d keys ⟨withBindings g0 env'.1 env'.2, eps, rs, cache⟩
          = .ok ⟨withBindings g0 env''.1 env''.2, eps,
              { rs with records := rs.records ++ (keys.filterMap tripletOfKey).flatMap E },
              cache⟩ := by
  intro keys
  induction keys with
  | nil =>
    intro env' rs hag _ _ _
    exact ⟨env', hag, by simp [cursorLoop]⟩
  | cons k rest ih =>
    intro env' rs hag hlim hagg hparse
    obtain ⟨t, ht⟩ := Option.isSome_iff_exists.mp (hparse k (List.mem_cons_self _ _))
    have hstep := hadv t rs hlim hagg
    obtain ⟨env'', hag'', hrest⟩ := ih (bindEnv env n e d t)
      { rs with records := rs.records ++ E t } (agreeOff_bindEnv env n e d t) hlim hagg
      (fun k' hk' => hparse k' (List.mem_cons_of_mem _ hk'))
    refine ⟨env'', hag'', ?_⟩
    unfold cursorLoop
    simp only [full_of_unbounded rs hlim, Bool.false_eq_true, if_false, ht]
    rw [bind_withBindings, bindEnv_agree env env' n e d t hag, hstep]
    simp only
    rw [hrest]
    simp [List.filterMap_cons, ht, List.flatMap_cons, List.append_assoc]

theorem queryTriplet_subset (db : KeySpace) (graph : Bytes) (t : Triplet) :
    ∀ k ∈ queryTriplet db graph t, k ∈ zsetMembers (db graph) := by
  intro k hk
  unfold queryTriplet RedisModule_ZsetFirstInLexRange at hk
  simp only at hk
  split at hk
  · simp at hk
  · rename_i cursor hc
    split at hc
    · rename_i l lo hi hv _ _
      injection hc with hc
      subst hc
      rw [hv]
      exact (List.mem_filter.mp hk).1
    · exact Option.noConfusion hc

theorem cString_idem (b : Bytes) : cString (cString b) = cString b :=
  cString_of_nulFree _ (cString_nulFree b)

/-- The bound of a scan reads the coordinates as C strings, as `NewTriplet`
does. -/
theorem tripletToString_newTriplet (a b c : Option Bytes) :
    TripletToString (NewTriplet a b c) = TripletToString ⟨a, b, c⟩ := by
  cases a <;> cases b <;> cases c <;> simp [TripletToString, NewTriplet, cString_idem]

theorem queryTriplet_newTriplet (db : KeySpace) (graph : Bytes) (a b c : Option Bytes) :
    queryTriplet db graph (NewTriplet a b c) = queryTriplet db graph ⟨a, b, c⟩ := by
  unfold queryTriplet
  rw [tripletToString_newTriplet]

/-- The traversal of a chain below a stack `eps` of entry points: when the
arrival at a node without outgoing edges appends the records `K` of the
bindings reached and needs `base` levels of recursion for it, a call for the
first node of the chain appends `K` of every binding the chain traversal
reaches, in order, and leaves bindings and stack as they were. -/
theorem queryNode_chain_below {F R C : Type} (ctx : QueryCtx F R C) (g0 : Graph)
    (hparse : ∀ k ∈ zsetMembers (ctx.db ctx.graphName), (tripletOfKey k).isSome = true)
    (eps : List Nat) (K : (Nat → Option Bytes) × (Nat → Option Bytes) → List Record)
    (base : Nat)
    (hsink : ∀ (f : Nat), base ≤ f → ∀ (d : Nat) (dn : Node), g0.nodes[d]? = some dn →
      dn.outgoingEdges = [] →
      ∀ (env : (Nat → Option Bytes) × (Nat → Option Bytes)) (rs : ResultSet) (cache : C),
        rs.limit = none → rs.aggregated = false →
        advance ctx (QueryNode ctx f) d ⟨withBindings g0 env.1 env.2, eps, rs, cache⟩
          = .ok ⟨withBindings g0 env.1 env.2, eps,
              { rs with records := rs.records ++ K env }, cache⟩) :
    ∀ (chain : List (Nat × Nat)) (n e d : Nat), IsChainFrom g0 n ((e, d) :: chain) →
    ∀ (fuel : Nat), chain.length + 1 + base ≤ fuel →
    ∀ (env : (Nat → Option Bytes) × (Nat → Option Bytes)) (rs : ResultSet) (cache : C),
      rs.limit = none → rs.aggregated = false →
      QueryNode ctx fuel n ⟨withBindings g0 env.1 env.2, eps, rs, cache⟩
        = .ok ⟨withBindings g0 env.1 env.2, eps,
            { rs with records := rs.records ++
                (chainEnvs ctx.db ctx.graphName n ((e, d) :: chain) env).flatMap K },
            cache⟩ := by
  intro chain
  induction chain with
  | nil =>
    intro n e d hchain fuel hfuel env rs cache hlim hagg
    obtain ⟨nd, ed, hn, hout, he, hsrc, hdest, dn, hd, hdout⟩ := hchain
    obtain ⟨f, rfl⟩ : ∃ f, fuel = f + 1 := ⟨fuel - 1, by simp at hfuel; omega⟩
    have hadv : ∀ (t : Triplet) (rs : ResultSet), rs.limit = none → rs.aggregated = false →
        advance ctx (QueryNode ctx f) d
            ⟨withBindings g0 (bindEnv env n e d t).1 (bindEnv env n e d t).2, eps, rs, cache⟩
          = .ok ⟨withBindings g0 (bindEnv env n e d t).1 (bindEnv env n e d t).2, eps,
              { rs with records := rs.records ++ K (bindEnv env n e d t) }, cache⟩ := by
      intro t rs hlim hagg
      exact hsink f (by simp at hfuel; omega) d dn hd hdout _ rs cache hlim hagg
    obtain ⟨env'', hag, hloop⟩ := cursorLoop_spec ctx (QueryNode ctx f) g0 n e d env eps cache _
      hadv (queryTriplet ctx.db ctx.graphName ⟨env.1 n, env.2 e, env.1 d⟩) env rs
      (agreeOff_refl env n e d) hlim hagg
      (fun k hk => hparse k (queryTriplet_subset _ _ _ k hk))
    obtain ⟨r1, r2⟩ := restore_agree env env'' n e d hag
    unfold QueryNode
    simp only [nodes_withBindings, hn, Option.map_some', hout]
    unfold edgeLoop
    simp only [full_of_unbounded rs hlim, Bool.false_eq_true, if_false, edges_withBindings, he,
      Option.map_some', hdest, nodes_withBindings, hn, hd, TripletFromEdge, nodeId, hsrc,
      queryTriplet_newTriplet]
    rw [hloop]
    simp only [setNodeId_withBindings, setRelationship_withBindings, r1, r2, edgeLoop]
    simp [chainEnvs, List.flatMap_assoc]
  | cons x rest ih =>
    intro n e d hchain fuel hfuel env rs cache hlim hagg
    obtain ⟨e', d'⟩ := x
    obtain ⟨nd, ed, hn, hout, he, hsrc, hdest, hrestchain⟩ := hchain
    have hrc := hrestchain
    obtain ⟨dn, ded, hd, hdout, _⟩ := hrestchain
    obtain ⟨f, rfl⟩ : ∃ f, fuel = f + 1 := ⟨fuel - 1, by simp at hfuel; omega⟩
    have hadv : ∀ (t : Triplet) (rs : ResultSet), rs.limit = none → rs.aggregated = false →
        advance ctx (QueryNode ctx f) d
            ⟨withBindings g0 (bindEnv env n e d t).1 (bindEnv env n e d t).2, eps, rs, cache⟩
          = .ok ⟨withBindings g0 (bindEnv env n e d t).1 (bindEnv env n e d t).2, eps,
              { rs with records := rs.records ++
                  (chainEnvs ctx.db ctx.graphName d ((e', d') :: rest)
                    (bindEnv env n e d t)).flatMap K },
              cache⟩ := by
      intro t rs hlim hagg
      unfold advance
      simp only [nodes_withBindings, hd, Option.map_some', hdout, List.length_cons,
        List.length_nil, gt_iff_lt, Nat.zero_lt_succ, if_true]
      exact ih d e' d' hrc f (by simp at hfuel ⊢; omega) (bindEnv env n e d t) rs cache hlim hagg
    obtain ⟨env'', hag, hloop⟩ := cursorLoop_spec ctx (QueryNode ctx f) g0 n e d env eps cache _
      hadv (queryTriplet ctx.db ctx.graphName ⟨env.1 n, env.2 e, env.1 d⟩) env rs
      (agreeOff_refl env n e d) hlim hagg
      (fun k hk => hparse k (queryTriplet_subset _ _ _ k hk))
    obtain ⟨r1, r2⟩ := restore_agree env env'' n e d hag
    unfold QueryNode
    simp only [nodes_withBindings, hn, Option.map_some', hout]
    unfold edgeLoop
    simp only [full_of_unbounded rs hlim, Bool.false_eq_true, if_false, edges_withBindings, he,
      Option.map_some', hdest, nodes_withBindings, hn, hd, TripletFromEdge, nodeId, hsrc,
      queryTriplet_newTriplet]
    rw [hloop]
    simp only [setNodeId_withBindings, setRelationship_withBindings, r1, r2, edgeLoop]
    simp [chainEnvs, List.flatMap_assoc]

theorem emitted_singletons {F R C : Type} (ctx : QueryCtx F R C) (g : Graph)
    (l : List ((Nat → Option Bytes) × (Nat → Option Bytes))) :
    l.flatMap (fun env => emitted ctx g [env]) = emitted ctx g l := by
  induction l with
  | nil => simp [emitted]
  | cons x xs ih =>
    rw [List.flatMap_cons, ih, show x :: xs = [x] ++ xs from rfl, emitted_append]

/-- The arrival at a node without outgoing edges when no entry point is left:
the record of the bindings is appended if they pass the filter. -/
theorem advance_end {F R C : Type} (ctx : QueryCtx F R C) (g0 : Graph)
    (recur : Nat → QueryState C → Outcome (QueryState C)) (d : Nat) (dn : Node)
    (hd : g0.nodes[d]? = some dn) (hdout : dn.outgoingEdges = [])
    (env : (Nat → Option Bytes) × (Nat → Option Bytes)) (rs : ResultSet) (cache : C)
    (hlim : rs.limit = none) (hagg : rs.aggregated = false) :
    advance ctx recur d ⟨withBindings g0 env.1 env.2, [], rs, cache⟩
      = .ok ⟨withBindings g0 env.1 env.2, [],
          { rs with records := rs.records ++ emitted ctx g0 [env] }, cache⟩ := by
  obtain ⟨records, limit, aggregated⟩ := rs
  simp only at hlim hagg
  subst hlim hagg
  unfold advance
  simp only [nodes_withBindings, hd, Option.map_some', hdout, List.length_nil,
    Nat.lt_irrefl, gt_iff_lt, if_false, Bool.false_eq_true]
  by_cases hp : passesFilter ctx (withBindings g0 env.1 env.2) = true
  · have hp' := hp
    unfold passesFilter at hp'
    simp only [hp', if_true, ResultSet_AddRecord]
    simp [emitted, hp]
  · have hp' := hp
    unfold passesFilter at hp'
    simp only [hp', if_false]
    simp [emitted, hp]

theorem queryNode_chain {F R C : Type} (ctx : QueryCtx F R C) (g0 : Graph)
    (hparse : ∀ k ∈ zsetMembers (ctx.db ctx.graphName), (tripletOfKey k).isSome = true) :
    ∀ (chain : List (Nat × Nat)) (n e d : Nat), IsChainFrom g0 n ((e, d) :: chain) →
    ∀ (fuel : Nat), chain.length + 1 ≤ fuel →
    ∀ (env : (Nat → Option Bytes) × (Nat → Option Bytes)) (rs : ResultSet) (cache : C),
      rs.limit = none → rs.aggregated = false →
      QueryNode ctx fuel n ⟨withBindings g0 env.1 env.2, [], rs, cache⟩
        = .ok ⟨withBindings g0 env.1 env.2, [],
            { rs with records := rs.records ++
                emitted ctx g0 (chainEnvs ctx.db ctx.graphName n ((e, d) :: chain) env) },
            cache⟩ := by
  intro chain n e d hchain fuel hfuel env rs cache hlim hagg
  have h := queryNode_chain_below ctx g0 hparse [] (fun env => emitted ctx g0 [env]) 0
    (fun f _ d dn hd hdout env rs cache hlim hagg =>
      advance_end ctx g0 (QueryNode ctx f) d dn hd hdout env rs cache hlim hagg)
    chain n e d hchain fuel (by omega) env rs cache hlim hagg
  rw [h, emitted_singletons]

/-- The arrival at a node without outgoing edges when an entry point is on the
stack: it is popped, the traversal goes on from it, and it is pushed back. -/
theorem advance_pop {F R C : Type} (ctx : QueryCtx F R C)
    (recur : Nat → QueryState C → Outcome (QueryState C)) (g : Graph) (d : Nat) (dn : Node)
    (hd : g.nodes[d]? = some dn) (hdout : dn.outgoingEdges = []) (stack : List Nat) (q : Nat)
    (rs : ResultSet) (cache : C) (st' : QueryState C)
    (h : recur q ⟨g, stack, rs, cache⟩ = .ok st') :
    advance ctx recur d ⟨g, stack ++ [q], rs, cache⟩
      = .ok { st' with entryPoints := st'.entryPoints ++ [q] } := by
  unfold advance
  simp [hd, hdout, h]

/-- The traversal of a list of chains with pairwise different nodes: the call
for the first node of the first chain, with the first nodes of the other
chains on the stack of entry points (the next one on top), appends the records
of the bindings the traversal reaches and leaves bindings and stack as they
were. -/
theorem queryNode_forest {F R C : Type} (ctx : QueryCtx F R C) (g0 : Graph)
    (hparse : ∀ k ∈ zsetMembers (ctx.db ctx.graphName), (tripletOfKey k).isSome = true) :
    ∀ (rest : List (Nat × List (Nat × Nat))) (p : Nat) (chain : List (Nat × Nat)),
      (∀ pc ∈ (p, chain) :: rest, pc.2 ≠ [] ∧ IsChainFrom g0 pc.1 pc.2) →
      ∀ (fuel : Nat), (forestEdges ((p, chain) :: rest)).length ≤ fuel →
      ∀ (env : (Nat → Option Bytes) × (Nat → Option Bytes)) (rs : ResultSet) (cache : C),
        rs.limit = none → rs.aggregated = false →
        QueryNode ctx fuel p
            ⟨withBindings g0 env.1 env.2, (rest.map Prod.fst).reverse, rs, cache⟩
          = .ok ⟨withBindings g0 env.1 env.2, (rest.map Prod.fst).reverse,
              { rs with records := rs.records ++
                  emitted ctx g0 (forestEnvs ctx.db ctx.graphName ((p, chain) :: rest) env) },
              cache⟩ := by
  intro rest
  induction rest with
  | nil =>
    intro p chain hch fuel hfuel env rs cache hlim hagg
    obtain ⟨hne, hchain⟩ := hch (p, chain) (List.mem_cons_self _ _)
    cases chain with
    | nil => exact absurd rfl hne
    | cons x c =>
      obtain ⟨e, d⟩ := x
      have h := queryNode_chain ctx g0 hparse c p e d hchain fuel
        (by simpa [forestEdges] using hfuel) env rs cache hlim hagg
      simp only [List.map_nil, List.reverse_nil, forestEnvs]
      rw [h]
      simp
  | cons qc rest' ih =>
    obtain ⟨q, qchain⟩ := qc
    intro p chain hch fuel hfuel env rs cache hlim hagg
    obtain ⟨hne, hchain⟩ := hch (p, chain) (List.mem_cons_self _ _)
    have hch' : ∀ pc ∈ (q, qchain) :: rest', pc.2 ≠ [] ∧ IsChainFrom g0 pc.1 pc.2 :=
      fun pc hpc => hch pc (List.mem_cons_of_mem _ hpc)
    cases chain with
    | nil => exact absurd rfl hne
    | cons x c =>
      obtain ⟨e, d⟩ := x
      have hsink : ∀ (f : Nat), (forestEdges ((q, qchain) :: rest')).length ≤ f →
          ∀ (d : Nat) (dn : Node), g0.nodes[d]? = some dn → dn.outgoingEdges = [] →
          ∀ (env : (Nat → Option Bytes) × (Nat → Option Bytes)) (rs : ResultSet) (cache : C),
            rs.limit = none → rs.aggregated = false →
            advance ctx (QueryNode ctx f) d
                ⟨withBindings g0 env.1 env.2, (((q, qchain) :: rest').map Prod.fst).reverse, rs,
                  cache⟩
              = .ok ⟨withBindings g0 env.1 env.2,
                  (((q, qchain) :: rest').map Prod.fst).reverse,
                  { rs with records := (rs.records ++
                      emitted ctx g0
                        (forestEnvs ctx.db ctx.graphName ((q, qchain) :: rest') env)) },
                  cache⟩ := by
        intro f hf d dn hd hdout env rs cache hlim hagg
        have hrec := ih q qchain hch' f hf env rs cache hlim hagg
        have hnode : (withBindings g0 env.1 env.2).nodes[d]? = some { dn with id := env.1 d } := by
          rw [nodes_withBindings, hd]
          rfl
        rw [show (((q, qchain) :: rest').map Prod.fst).reverse
            = (rest'.map Prod.fst).reverse ++ [q] by simp,
          advance_pop ctx (QueryNode ctx f) _ d _ hnode hdout _ q rs cache _ hrec]
      have h := queryNode_chain_below ctx g0 hparse (((q, qchain) :: rest').map Prod.fst).reverse
        (fun env => emitted ctx g0 (forestEnvs ctx.db ctx.graphName ((q, qchain) :: rest') env))
        (forestEdges ((q, qchain) :: rest')).length hsink c p e d hchain fuel
        (by
          have : (forestEdges ((p, (e, d) :: c) :: (q, qchain) :: rest')).length
              = c.length + 1 + (forestEdges ((q, qchain) :: rest')).length := by
            simp [forestEdges]
            omega
          omega)
        env rs cache hlim hagg
      rw [h]
      simp [forestEnvs, emitted_flatMap]

/-! ## The range scan over a hexastore -/

theorem lexLt_nil_right (k : Bytes) : lexLt k [] = false := by
  cases k <;> rfl

/-- A member inside the range `[P, P ++ 0xFF 0x00]` starts with `P`. -/
theorem starts_of_inRange (P : Bytes) : ∀ k : Bytes,
    (!lexLt k P && !lexLt (P ++ [255, 0]) k) = true → ∃ r, k = P ++ r := by
  induction P with
  | nil => intro k _; exact ⟨k, rfl⟩
  | cons c cs ih =>
    intro k hk
    cases k with
    | nil => simp [lexLt] at hk
    | cons x xs =>
      simp only [List.cons_append, lexLt, Bool.and_eq_true, Bool.not_eq_true', Bool.or_eq_false_iff,
        decide_eq_false_iff_not, Bool.and_eq_false_iff] at hk
      obtain ⟨⟨h1, h2⟩, ⟨h3, h4⟩⟩ := hk
      have hxc : x = c := by omega
      subst hxc
      have h2' : lexLt xs cs = false := by
        rcases h2 with h | h
        · exact absurd rfl h
        · exact h
      have h4' : lexLt (cs ++ [255, 0]) xs = false := by
        rcases h4 with h | h
        · exact absurd rfl h
        · exact h
      obtain ⟨r, hr⟩ := ih xs (by simp [h2', h4'])
      exact ⟨r, by rw [hr]; rfl⟩

/-- A member that continues `P` with nothing or with a byte below `0xFF` lies
inside the range `[P, P ++ 0xFF 0x00]`. -/
theorem inRange_of_starts (P r : Bytes) (hr : ∀ x ∈ r.head?, x < 255) :
    (!lexLt (P ++ r) P && !lexLt (P ++ [255, 0]) (P ++ r)) = true := by
  induction P with
  | nil =>
    simp only [List.nil_append, lexLt_nil_right, Bool.not_false, Bool.true_and,
      Bool.not_eq_true']
    cases r with
    | nil => rfl
    | cons x xs =>
      have hx : x < 255 := hr x (by simp)
      have h1 : ¬ 255 < x := by omega
      have h2 : ¬ 255 = x := by omega
      simp [lexLt, h1, h2]
  | cons c cs ih =>
    simp only [Bool.and_eq_true, Bool.not_eq_true'] at ih
    simp [lexLt, ih.1, ih.2]

theorem cutAtColon_append (x r : Bytes) (hx : COLON ∉ x) :
    cutAtColon (x ++ COLON :: r) = some (x, r) := by
  induction x with
  | nil => simp [cutAtColon]
  | cons a as ih =>
    have ha : a ≠ COLON := fun h => hx (h ▸ List.mem_cons_self _ _)
    have has : COLON ∉ as := fun h => hx (List.mem_cons_of_mem _ h)
    simp [cutAtColon, ha, ih has]

theorem CleanBytes.noColon {b : Bytes} (h : CleanBytes b) : COLON ∉ b :=
  fun hm => (h COLON hm).1 rfl

theorem CleanBytes.noNul {b : Bytes} (h : CleanBytes b) : 0 ∉ b :=
  fun hm => absurd (h 0 hm).2.1 (by decide)

theorem CleanBytes.cString {b : Bytes} (h : CleanBytes b) : cString b = b :=
  cString_of_not_mem b h.noNul

theorem str_tag_spo : str "spo" = [115, 112, 111] := by decide
theorem str_tag_sop : str "sop" = [115, 111, 112] := by decide
theorem str_tag_pso : str "pso" = [112, 115, 111] := by decide
theorem str_tag_pos : str "pos" = [112, 111, 115] := by decide
theorem str_tag_osp : str "osp" = [111, 115, 112] := by decide
theorem str_tag_ops : str "ops" = [111, 112, 115] := by decide

theorem tripletOfKey_key (x y z : Nat) (a b c : Bytes) (hx : x ≠ 58) (hy : y ≠ 58) (hz : z ≠ 58)
    (ha : COLON ∉ a) (hb : COLON ∉ b) :
    tripletOfKey (x :: y :: z :: 58 :: (a ++ 58 :: (b ++ 58 :: c)))
      = if [x, y, z] = str "spo" then some (NewTriplet (some a) (some b) (some c))
        else if [x, y, z] = str "sop" then some (NewTriplet (some a) (some c) (some b))
        else if [x, y, z] = str "pso" then some (NewTriplet (some b) (some a) (some c))
        else if [x, y, z] = str "pos" then some (NewTriplet (some c) (some a) (some b))
        else if [x, y, z] = str "osp" then some (NewTriplet (some b) (some c) (some a))
        else if [x, y, z] = str "ops" then some (NewTriplet (some c) (some b) (some a))
        else none := by
  have h1 : cutAtColon (x :: y :: z :: 58 :: (a ++ 58 :: (b ++ 58 :: c)))
      = some ([x, y, z], a ++ 58 :: (b ++ 58 :: c)) := by
    simp [cutAtColon, hx, hy, hz]
  have h2 : cutAtColon (a ++ 58 :: (b ++ 58 :: c)) = some (a, b ++ 58 :: c) :=
    cutAtColon_append a _ ha
  have h3 : cutAtColon (b ++ 58 :: c) = some (b, c) := cutAtColon_append b _ hb
  simp only [tripletOfKey, h1, h2, h3]

/-- Every one of the six keys of a clean triple parses back to the triple. -/
theorem tripletOfKey_sixKeys (s p o k : Bytes) (hc : CleanTriple (s, p, o))
    (hk : k ∈ sixKeys s p o) : tripletOfKey k = some ⟨some s, some p, some o⟩ := by
  obtain ⟨hs, hp, ho⟩ := hc
  simp only at hs hp ho
  have hs' := hs.noColon
  have hp' := hp.noColon
  have ho' := ho.noColon
  simp only [sixKeys, List.mem_cons, List.mem_singleton, List.not_mem_nil, or_false, str_spo,
    str_sop, str_pso, str_pos, str_osp, str_ops, str_colon, List.append_assoc, List.cons_append,
    List.nil_append] at hk
  rcases hk with h | h | h | h | h | h <;> subst h
  · rw [tripletOfKey_key _ _ _ _ _ _ (by decide) (by decide) (by decide) hs' hp']
    simp [str_tag_spo, NewTriplet, hs.cString, hp.cString, ho.cString]
  · rw [tripletOfKey_key _ _ _ _ _ _ (by decide) (by decide) (by decide) hs' ho']
    simp [str_tag_spo, str_tag_sop, NewTriplet, hs.cString, hp.cString, ho.cString]
  · rw [tripletOfKey_key _ _ _ _ _ _ (by decide) (by decide) (by decide) hp' hs']
    simp [str_tag_spo, str_tag_sop, str_tag_pso, NewTriplet, hs.cString, hp.cString, ho.cString]
  · rw [tripletOfKey_key _ _ _ _ _ _ (by decide) (by decide) (by decide) hp' ho']
    simp [str_tag_spo, str_tag_sop, str_tag_pso, str_tag_pos, NewTriplet, hs.cString, hp.cString, ho.cString]
  · rw [tripletOfKey_key _ _ _ _ _ _ (by decide) (by decide) (by decide) ho' hs']
    simp [str_tag_spo, str_tag_sop, str_tag_pso, str_tag_pos, str_tag_osp, NewTriplet, hs.cString, hp.cString, ho.cString]
  · rw [tripletOfKey_key _ _ _ _ _ _ (by decide) (by decide) (by decide) ho' hp']
    simp [str_tag_spo, str_tag_sop, str_tag_pso, str_tag_pos, str_tag_osp, str_tag_ops, NewTriplet, hs.cString, hp.cString, ho.cString]

theorem mem_queryTriplet (db : KeySpace) (graph : Bytes) (pat : Triplet) (k : Bytes)
    (hty : RedisModule_KeyType (db graph) ≠ .OTHER) :
    k ∈ queryTriplet db graph pat ↔ k ∈ zsetMembers (db graph) ∧
      (!lexLt k (TripletToString pat) && !lexLt (TripletToString pat ++ [255, 0]) k) = true := by
  unfold queryTriplet
  cases hv : db graph with
  | none => simp [RedisModule_ZsetFirstInLexRange, zsetMembers]
  | some v =>
    cases v with
    | other t => rw [hv] at hty; exact absurd rfl hty
    | zset l =>
      simp only [RedisModule_ZsetFirstInLexRange, List.singleton_append, List.cons_append,
        parseLexBound, zsetMembers, List.mem_filter, aboveMin, belowMax, List.nil_append]

theorem head_clean_append (s rest : Bytes) (hs : CleanBytes s) :
    ∀ x ∈ (s ++ COLON :: rest).head?, x < 255 := by
  intro x hx
  cases s with
  | nil =>
    simp only [List.nil_append, List.head?_cons, Option.mem_def, Option.some.injEq] at hx
    subst hx
    decide
  | cons a as =>
    simp only [List.cons_append, List.head?_cons, Option.mem_def, Option.some.injEq] at hx
    subst hx
    exact (hs a (List.mem_cons_self _ _)).2.2

theorem head_clean (s : Bytes) (hs : CleanBytes s) : ∀ x ∈ s.head?, x < 255 := by
  intro x hx
  cases s with
  | nil => simp at hx
  | cons a as =>
    simp only [List.head?_cons, Option.mem_def, Option.some.injEq] at hx
    subst hx
    exact (hs a (List.mem_cons_self _ _)).2.2

/-- What a key of a clean triple tells when it starts with one of the four
bounds the traversal of a chain asks for. -/
theorem sixKeys_starts (s p o k : Bytes) (hc : CleanTriple (s, p, o)) (hk : k ∈ sixKeys s p o)
    (a b : Option Bytes) (ha : ∀ x, a = some x → CleanBytes x)
    (hb : ∀ x, b = some x → CleanBytes x) (r : Bytes)
    (hr : k = TripletToString ⟨a, b, none⟩ ++ r) :
    (a = none ∨ a = some s) ∧ (b = none ∨ b = some p) := by
  obtain ⟨hs, hp, ho⟩ := hc
  simp only at hs hp ho
  have hs' := hs.noColon
  have hp' := hp.noColon
  have ho' := ho.noColon
  simp only [sixKeys, List.mem_cons, List.mem_singleton, List.not_mem_nil, or_false, str_spo,
    str_sop, str_pso, str_pos, str_osp, str_ops, str_colon, List.append_assoc, List.cons_append,
    List.nil_append] at hk
  cases a with
  | none =>
    cases b with
    | none => exact ⟨Or.inl rfl, Or.inl rfl⟩
    | some p0 =>
      have hp0 := (hb p0 rfl).noColon
      refine ⟨Or.inl rfl, Or.inr ?_⟩
      simp only [TripletToString, (hb p0 rfl).cString, str_pso, str_colon, List.append_assoc,
        List.cons_append, List.nil_append] at hr
      rcases hk with h | h | h | h | h | h <;> rw [h] at hr <;>
        simp only [List.cons.injEq, true_and, and_true] at hr <;>
        try exact absurd hr.1 (by decide)
      all_goals
        have hinj := append_colon_inj _ _ _ _ hp' hp0 hr
        rw [hinj.1]
  | some s0 =>
    have hs0 := (ha s0 rfl).noColon
    cases b with
    | none =>
      refine ⟨Or.inr ?_, Or.inl rfl⟩
      simp only [TripletToString, (ha s0 rfl).cString, str_spo, str_colon, List.append_assoc,
        List.cons_append, List.nil_append] at hr
      rcases hk with h | h | h | h | h | h <;> rw [h] at hr <;>
        simp only [List.cons.injEq, true_and, and_true] at hr <;>
        try exact absurd hr.1 (by decide)
      all_goals
        have hinj := append_colon_inj _ _ _ _ hs' hs0 hr
        rw [hinj.1]
    | some p0 =>
      have hp0 := (hb p0 rfl).noColon
      simp only [TripletToString, (ha s0 rfl).cString, (hb p0 rfl).cString, str_spo, str_colon,
        List.append_assoc, List.cons_append, List.nil_append] at hr
      rcases hk with h | h | h | h | h | h <;> rw [h] at hr <;>
        simp only [List.cons.injEq, true_and, and_true] at hr <;>
        try exact absurd hr.1 (by decide)
      all_goals
        have hinj := append_colon_inj _ _ _ _ hs' hs0 hr
        have hinj2 := append_colon_inj _ _ _ _ hp' hp0 hinj.2
        exact ⟨Or.inr (by rw [hinj.1]), Or.inr (by rw [hinj2.1])⟩

/-- The triples a cursor yields for a bound whose object is a wildcard. -/
theorem scan_spec (db : KeySpace) (graph : Bytes) (T : List (Bytes × Bytes × Bytes))
    (hidx : IsHexastore db graph T) (hclean : ∀ t ∈ T, CleanTriple t)
    (a b : Option Bytes) (ha : ∀ x, a = some x → CleanBytes x)
    (hb : ∀ x, b = some x → CleanBytes x) (t' : Triplet) :
    t' ∈ (queryTriplet db graph ⟨a, b, none⟩).filterMap tripletOfKey ↔
      ∃ t ∈ T, t' = tripletOf t ∧ (a = none ∨ a = some t.1) ∧ (b = none ∨ b = some t.2.1) := by
  obtain ⟨hty, hmem⟩ := hidx
  rw [List.mem_filterMap]
  constructor
  · rintro ⟨k, hk, hparse⟩
    rw [mem_queryTriplet _ _ _ _ hty] at hk
    obtain ⟨hkm, hrange⟩ := hk
    obtain ⟨t, ht, hk6⟩ := (hmem k).mp hkm
    obtain ⟨s, p, o⟩ := t
    have hc := hclean _ ht
    rw [tripletOfKey_sixKeys s p o k hc hk6] at hparse
    obtain ⟨r, hr⟩ := starts_of_inRange _ _ hrange
    have hm := sixKeys_starts s p o k hc hk6 a b ha hb r hr
    exact ⟨(s, p, o), ht, by injection hparse with h; exact h.symm, hm⟩
  · rintro ⟨t, ht, ht', hma, hmb⟩
    obtain ⟨s, p, o⟩ := t
    have hc := hclean _ ht
    obtain ⟨hs, hp, ho⟩ := hc
    simp only at hs hp ho hma hmb
    have hfind : ∀ (k P r : Bytes), k ∈ sixKeys s p o → TripletToString ⟨a, b, none⟩ = P →
        k = P ++ r → (∀ x ∈ r.head?, x < 255) →
        ∃ k, k ∈ queryTriplet db graph ⟨a, b, none⟩ ∧ tripletOfKey k = some t' := by
      intro k P r hk hP hkr hr
      refine ⟨k, ?_, by rw [ht']; exact tripletOfKey_sixKeys s p o k ⟨hs, hp, ho⟩ hk⟩
      rw [mem_queryTriplet _ _ _ _ hty, hP, hkr]
      exact ⟨by rw [← hkr]; exact (hmem k).mpr ⟨(s, p, o), ht, hk⟩, inRange_of_starts P r hr⟩
    cases a with
    | none =>
      cases b with
      | none =>
        exact hfind (str "spo:" ++ s ++ str ":" ++ p ++ str ":" ++ o) (str "spo:")
          (s ++ str ":" ++ p ++ str ":" ++ o) (by simp [sixKeys]) rfl
          (by simp [List.append_assoc])
          (by
            have := head_clean_append s (p ++ str ":" ++ o) hs
            simpa [str_colon, List.append_assoc] using this)
      | some p0 =>
        have hp0 : p0 = p := by
          rcases hmb with h | h
          · exact Option.noConfusion h
          · injection h
        subst hp0
        exact hfind (str "pso:" ++ p0 ++ str ":" ++ s ++ str ":" ++ o)
          (str "pso:" ++ p0 ++ str ":") (s ++ str ":" ++ o) (by simp [sixKeys])
          (by simp only [TripletToString, hp.cString])
          (by simp [List.append_assoc])
          (by
            have := head_clean_append s o hs
            simpa [str_colon, List.append_assoc] using this)
    | some s0 =>
      have hs0 : s0 = s := by
        rcases hma with h | h
        · exact Option.noConfusion h
        · injection h
      subst hs0
      cases b with
      | none =>
        exact hfind (str "spo:" ++ s0 ++ str ":" ++ p ++ str ":" ++ o)
          (str "spo:" ++ s0 ++ str ":") (p ++ str ":" ++ o) (by simp [sixKeys])
          (by simp only [TripletToString, hs.cString])
          (by simp [List.append_assoc])
          (by
            have := head_clean_append p o hp
            simpa [str_colon, List.append_assoc] using this)
      | some p0 =>
        have hp0 : p0 = p := by
          rcases hmb with h | h
          · exact Option.noConfusion h
          · injection h
        subst hp0
        exact hfind (str "spo:" ++ s0 ++ str ":" ++ p0 ++ str ":" ++ o)
          (str "spo:" ++ s0 ++ str ":" ++ p0 ++ str ":") o (by simp [sixKeys])
          (by simp only [TripletToString, hs.cString, hp.cString])
          (by simp [List.append_assoc]) (head_clean o ho)

theorem hexastore_parses (db : KeySpace) (graph : Bytes) (T : List (Bytes × Bytes × Bytes))
    (hidx : IsHexastore db graph T) (hclean : ∀ t ∈ T, CleanTriple t) :
    ∀ k ∈ zsetMembers (db graph), (tripletOfKey k).isSome = true := by
  intro k hk
  obtain ⟨t, ht, hk6⟩ := (hidx.2 k).mp hk
  obtain ⟨s, p, o⟩ := t
  rw [tripletOfKey_sixKeys s p o k (hclean _ ht) hk6]
  rfl

/-! ## The assignments a chain traversal reaches -/

theorem distinct_tail {n e d : Nat} {rest : List (Nat × Nat)}
    (h : Distinct n ((e, d) :: rest)) : Distinct d rest := by
  obtain ⟨h1, h2⟩ := h
  simp only [List.map_cons] at h1 h2
  exact ⟨(List.nodup_cons.mp h1).2, (List.nodup_cons.mp h2).2⟩

theorem ready_step {env : (Nat → Option Bytes) × (Nat → Option Bytes)} {n e d : Nat}
    {rest : List (Nat × Nat)} (t : Bytes × Bytes × Bytes)
    (hr : Ready env n ((e, d) :: rest)) (hd : Distinct n ((e, d) :: rest))
    (hc : CleanTriple t) : Ready (bindEnv env n e d (tripletOf t)) d rest := by
  obtain ⟨_, hr2⟩ := hr
  obtain ⟨h1, h2⟩ := hd
  simp only [List.map_cons, List.nodup_cons, List.mem_cons, List.mem_map, not_or, not_exists,
    not_and] at h1 h2
  constructor
  · intro x hx
    simp only [bindEnv, tripletOf, Function.update_same, Option.some.injEq] at hx
    subst hx
    exact hc.2.2
  · intro ed hed
    have hne_d : ed.2 ≠ d := fun h => h1.2.1 ed hed h
    have hne_n : ed.2 ≠ n := fun h => h1.1.2 ed hed h
    have hne_e : ed.1 ≠ e := fun h => h2.1 ed hed h
    obtain ⟨r1, r2⟩ := hr2 ed (List.mem_cons_of_mem _ hed)
    constructor
    · simp [bindEnv, Function.update_noteq hne_d, Function.update_noteq hne_n, r1]
    · intro x hx
      simp only [bindEnv, Function.update_noteq hne_e] at hx
      exact r2 x hx

theorem chainEnvs_iff (db : KeySpace) (graph : Bytes) (T : List (Bytes × Bytes × Bytes))
    (hidx : IsHexastore db graph T) (hclean : ∀ t ∈ T, CleanTriple t) :
    ∀ (chain : List (Nat × Nat)) (n : Nat) (env : (Nat → Option Bytes) × (Nat → Option Bytes)),
      Ready env n chain → Distinct n chain →
      ∀ env', env' ∈ chainEnvs db graph n chain env ↔
        ∃ A, ValidPath T n chain A env ∧ env' = assignEnv n chain A env := by
  intro chain
  induction chain with
  | nil =>
    intro n env _ _ env'
    simp only [chainEnvs, List.mem_singleton]
    constructor
    · intro h; exact ⟨[], trivial, by rw [h]; rfl⟩
    · rintro ⟨A, hv, hA⟩
      cases A with
      | nil => rw [hA]; rfl
      | cons t ts => exact absurd hv (by simp [ValidPath])
  | cons x rest ih =>
    obtain ⟨e, d⟩ := x
    intro n env hr hd env'
    have hdn : env.1 d = none := (hr.2 (e, d) (List.mem_cons_self _ _)).1
    have hcl_e : ∀ x, env.2 e = some x → CleanBytes x := (hr.2 (e, d) (List.mem_cons_self _ _)).2
    simp only [chainEnvs, List.mem_flatMap, hdn]
    constructor
    · rintro ⟨t', ht', henv⟩
      obtain ⟨t, ht, rfl, hma, hmb⟩ :=
        (scan_spec db graph T hidx hclean (env.1 n) (env.2 e) hr.1 hcl_e t').mp ht'
      obtain ⟨ts, hv, hE⟩ := (ih d _ (ready_step t hr hd (hclean t ht)) (distinct_tail hd) env').mp
        henv
      exact ⟨t :: ts, ⟨ht, hma, hmb, hv⟩, hE⟩
    · rintro ⟨A, hv, hA⟩
      cases A with
      | nil => exact absurd hv (by simp [ValidPath])
      | cons t ts =>
        obtain ⟨ht, hma, hmb, hv'⟩ := hv
        refine ⟨tripletOf t, ?_, ?_⟩
        · exact (scan_spec db graph T hidx hclean (env.1 n) (env.2 e) hr.1 hcl_e _).mpr
            ⟨t, ht, rfl, hma, hmb⟩
        · exact (ih d _ (ready_step t hr hd (hclean t ht)) (distinct_tail hd) env').mpr
            ⟨ts, hv', hA⟩

/-- Bindings outside a chain are not touched by an assignment. -/
theorem assignEnv_frame : ∀ (chain : List (Nat × Nat)) (n : Nat)
    (A : List (Bytes × Bytes × Bytes)) (env : (Nat → Option Bytes) × (Nat → Option Bytes)),
    (∀ i, i ∉ n :: chain.map Prod.snd → (assignEnv n chain A env).1 i = env.1 i) ∧
    (∀ j, j ∉ chain.map Prod.fst → (assignEnv n chain A env).2 j = env.2 j) := by
  intro chain
  induction chain with
  | nil => intro n A env; cases A <;> exact ⟨fun _ _ => rfl, fun _ _ => rfl⟩
  | cons x rest ih =>
    obtain ⟨e, d⟩ := x
    intro n A env
    cases A with
    | nil => exact ⟨fun _ _ => rfl, fun _ _ => rfl⟩
    | cons t ts =>
      obtain ⟨h1, h2⟩ := ih d ts (bindEnv env n e d (tripletOf t))
      simp only [assignEnv]
      constructor
      · intro i hi
        simp only [List.map_cons, List.mem_cons, not_or] at hi
        rw [h1 i (by simp only [List.mem_cons, not_or]; exact ⟨hi.2.1, hi.2.2⟩)]
        simp [bindEnv, Function.update_noteq hi.2.1, Function.update_noteq hi.1]
      · intro j hj
        simp only [List.map_cons, List.mem_cons, not_or] at hj
        rw [h2 j hj.2]
        simp [bindEnv, Function.update_noteq hj.1]

theorem matchesLabels_congr : ∀ (chain : List (Nat × Nat)) (A : List (Bytes × Bytes × Bytes))
    (ρ ρ' : Nat → Option Bytes), (∀ j ∈ chain.map Prod.fst, ρ' j = ρ j) →
    (MatchesLabels ρ' chain A ↔ MatchesLabels ρ chain A) := by
  intro chain
  induction chain with
  | nil => intro A ρ ρ' _; cases A <;> simp [MatchesLabels]
  | cons x rest ih =>
    obtain ⟨e, d⟩ := x
    intro A ρ ρ' h
    cases A with
    | nil => simp [MatchesLabels]
    | cons t ts =>
      simp only [MatchesLabels]
      rw [h e (by simp), ih ts ρ ρ' (fun j hj => h j (List.mem_cons_of_mem _ hj))]

theorem matchesLabels_length : ∀ (chain : List (Nat × Nat)) (A : List (Bytes × Bytes × Bytes))
    (ρ : Nat → Option Bytes), MatchesLabels ρ chain A → A.length = chain.length := by
  intro chain
  induction chain with
  | nil => intro A ρ h; cases A with
    | nil => rfl
    | cons t ts => exact absurd h (by simp [MatchesLabels])
  | cons x rest ih =>
    obtain ⟨e, d⟩ := x
    intro A ρ h
    cases A with
    | nil => exact absurd h (by simp [MatchesLabels])
    | cons t ts => simp [ih ts ρ h.2]

theorem validPath_iff (T : List (Bytes × Bytes × Bytes)) :
    ∀ (chain : List (Nat × Nat)) (n : Nat) (A : List (Bytes × Bytes × Bytes))
      (env : (Nat → Option Bytes) × (Nat → Option Bytes)), Distinct n chain →
      (ValidPath T n chain A env ↔
        (∀ t ∈ A, t ∈ T) ∧ Meets A ∧ MatchesLabels env.2 chain A ∧
          (∀ t, A.head? = some t → env.1 n = none ∨ env.1 n = some t.1)) := by
  intro chain
  induction chain with
  | nil =>
    intro n A env _
    cases A with
    | nil => simp [ValidPath, Meets, MatchesLabels]
    | cons t ts => simp [ValidPath, MatchesLabels]
  | cons x rest ih =>
    obtain ⟨e, d⟩ := x
    intro n A env hd
    cases A with
    | nil => simp [ValidPath, MatchesLabels]
    | cons t ts =>
      have hne : ∀ j ∈ rest.map Prod.fst, (bindEnv env n e d (tripletOf t)).2 j = env.2 j := by
        intro j hj
        have : j ≠ e := by
          intro h
          subst h
          have := hd.2
          simp only [List.map_cons, List.nodup_cons] at this
          exact this.1 hj
        simp [bindEnv, Function.update_noteq this]
      have hdv : (bindEnv env n e d (tripletOf t)).1 d = some t.2.2 := by
        simp [bindEnv, tripletOf]
      simp only [ValidPath, ih d ts _ (distinct_tail hd), matchesLabels_congr rest ts _ _ hne, hdv,
        MatchesLabels, List.head?_cons, Option.some.injEq, List.mem_cons, forall_eq_or_imp,
        forall_eq']
      cases ts with
      | nil =>
        simp [Meets]
        tauto
      | cons u us =>
        simp only [Meets, List.head?_cons, Option.some.injEq, forall_eq', List.mem_cons,
          forall_eq_or_imp]
        constructor
        · rintro ⟨h1, h2, h3, ⟨h4, h5⟩, h6, h7, h8⟩
          exact ⟨⟨h1, h4, h5⟩, ⟨by simpa using h8, h6⟩, ⟨h3, h7⟩, h2⟩
        · rintro ⟨⟨h1, h4, h5⟩, ⟨h9, h6⟩, ⟨h3, h7⟩, h2⟩
          exact ⟨h1, h2, h3, ⟨h4, h5⟩, h6, h7, Or.inr (by rw [h9])⟩

theorem assignEnv_inj : ∀ (chain : List (Nat × Nat)) (n : Nat)
    (A A' : List (Bytes × Bytes × Bytes))
    (env env' : (Nat → Option Bytes) × (Nat → Option Bytes)), Distinct n chain →
    A.length = chain.length → A'.length = chain.length → Meets A → Meets A' →
    (∀ i ∈ n :: chain.map Prod.snd, (assignEnv n chain A env).1 i = (assignEnv n chain A' env').1 i) →
    (∀ j ∈ chain.map Prod.fst, (assignEnv n chain A env).2 j = (assignEnv n chain A' env').2 j) →
    A = A' := by
  intro chain
  induction chain with
  | nil =>
    intro n A A' env env' _ hl hl' _ _ _ _
    rw [List.length_eq_zero.mp hl, List.length_eq_zero.mp hl']
  | cons x rest ih =>
    obtain ⟨e, d⟩ := x
    intro n A A' env env' hd hl hl' hm hm' hn he
    cases A with
    | nil => simp at hl
    | cons t ts =>
      cases A' with
      | nil => simp at hl'
      | cons t' ts' =>
        simp only [List.length_cons, Nat.add_right_cancel_iff] at hl hl'
        have hmt : Meets ts := by
          cases ts with
          | nil => trivial
          | cons u us => exact hm.2
        have hmt' : Meets ts' := by
          cases ts' with
          | nil => trivial
          | cons u us => exact hm'.2
        simp only [assignEnv] at hn he
        have hts : ts = ts' := ih d ts ts' _ _ (distinct_tail hd) hl hl' hmt hmt'
          (fun i hi => hn i (List.mem_cons_of_mem _ hi))
          (fun j hj => he j (List.mem_cons_of_mem _ hj))
        subst hts
        obtain ⟨hd1, hd2⟩ := hd
        simp only [List.map_cons, List.nodup_cons, List.mem_cons, not_or] at hd1 hd2
        have hnd : n ≠ d := hd1.1.1
        -- the subject
        have f1 := (assignEnv_frame rest d ts (bindEnv env n e d (tripletOf t))).1 n
          (by simp only [List.mem_cons, not_or]; exact ⟨hnd, hd1.1.2⟩)
        have f1' := (assignEnv_frame rest d ts (bindEnv env' n e d (tripletOf t'))).1 n
          (by simp only [List.mem_cons, not_or]; exact ⟨hnd, hd1.1.2⟩)
        have hs := hn n (by simp)
        rw [f1, f1'] at hs
        simp only [bindEnv, tripletOf, Function.update_noteq hnd, Function.update_same,
          Option.some.injEq] at hs
        -- the predicate
        have f2 := (assignEnv_frame rest d ts (bindEnv env n e d (tripletOf t))).2 e hd2.1
        have f2' := (assignEnv_frame rest d ts (bindEnv env' n e d (tripletOf t'))).2 e hd2.1
        have hp := he e (by simp)
        rw [f2, f2'] at hp
        simp only [bindEnv, tripletOf, Function.update_same, Option.some.injEq] at hp
        -- the object
        have ho : t.2.2 = t'.2.2 := by
          cases ts with
          | nil =>
            have hrest : rest = [] := List.length_eq_zero.mp hl.symm
            subst hrest
            have := hn d (by simp)
            simpa [assignEnv, bindEnv, tripletOf] using this
          | cons u us => rw [hm.1, hm'.1]
        obtain ⟨a, b, c⟩ := t
        obtain ⟨a', b', c'⟩ := t'
        simp only at hs hp ho
        rw [hs, hp, ho]

theorem assignChain_withBindings (g0 : Graph) : ∀ (chain : List (Nat × Nat)) (n : Nat)
    (A : List (Bytes × Bytes × Bytes)) (env : (Nat → Option Bytes) × (Nat → Option Bytes)),
    assignChain n chain A (withBindings g0 env.1 env.2)
      = withBindings g0 (assignEnv n chain A env).1 (assignEnv n chain A env).2 := by
  intro chain
  induction chain with
  | nil => intro n A env; cases A <;> rfl
  | cons x rest ih =>
    obtain ⟨e, d⟩ := x
    intro n A env
    cases A with
    | nil => rfl
    | cons t ts =>
      simp only [assignChain, assignEnv]
      have := bind_withBindings g0 env n e d (tripletOf t)
      simp only [tripletOf] at this
      rw [this]
      exact ih d ts _

theorem withBindings_inj (g0 : Graph) (ν ρ ν' ρ' : Nat → Option Bytes)
    (h : withBindings g0 ν ρ = withBindings g0 ν' ρ') :
    (∀ i, i < g0.nodes.length → ν i = ν' i) ∧ (∀ j, j < g0.edges.length → ρ j = ρ' j) := by
  constructor
  · intro i hi
    have h1 : (withBindings g0 ν ρ).nodes[i]? = (withBindings g0 ν' ρ').nodes[i]? := by rw [h]
    rw [nodes_withBindings, nodes_withBindings, List.getElem?_eq_getElem hi] at h1
    simp only [Option.map_some', Option.some.injEq] at h1
    exact congrArg Node.id h1
  · intro j hj
    have h1 : (withBindings g0 ν ρ).edges[j]? = (withBindings g0 ν' ρ').edges[j]? := by rw [h]
    rw [edges_withBindings, edges_withBindings, List.getElem?_eq_getElem hj] at h1
    simp only [Option.map_some', Option.some.injEq] at h1
    exact congrArg Edge.relationship h1

theorem isChainFrom_valid (g : Graph) : ∀ (chain : List (Nat × Nat)) (n : Nat),
    IsChainFrom g n chain →
    (∀ i ∈ n :: chain.map Prod.snd, i < g.nodes.length) ∧
      (∀ j ∈ chain.map Prod.fst, j < g.edges.length) := by
  intro chain
  induction chain with
  | nil =>
    intro n h
    obtain ⟨nd, hn, _⟩ := h
    refine ⟨?_, by simp⟩
    intro i hi
    simp only [List.map_nil, List.mem_singleton] at hi
    subst hi
    by_contra hc
    rw [List.getElem?_eq_none (by omega)] at hn
    exact Option.noConfusion hn
  | cons x rest ih =>
    obtain ⟨e, d⟩ := x
    intro n h
    obtain ⟨nd, ed, hn, _, he, _, _, hrest⟩ := h
    obtain ⟨h1, h2⟩ := ih d hrest
    constructor
    · intro i hi
      simp only [List.map_cons, List.mem_cons] at hi
      rcases hi with h | h
      · subst h
        by_contra hc
        rw [List.getElem?_eq_none (by omega)] at hn
        exact Option.noConfusion hn
      · exact h1 i (by simp only [List.mem_cons]; exact h)
    · intro j hj
      simp only [List.map_cons, List.mem_cons] at hj
      rcases hj with h | h
      · subst h
        by_contra hc
        rw [List.getElem?_eq_none (by omega)] at he
        exact Option.noConfusion he
      · exact h2 j h

/-! ## The assignments a traversal of several chains reaches -/

theorem forestNodes_cons (p : Nat) (chain : List (Nat × Nat))
    (rest : List (Nat × List (Nat × Nat))) :
    forestNodes ((p, chain) :: rest) = (p :: chain.map Prod.snd) ++ forestNodes rest := by
  simp [forestNodes]

theorem forestEdges_cons (p : Nat) (chain : List (Nat × Nat))
    (rest : List (Nat × List (Nat × Nat))) :
    forestEdges ((p, chain) :: rest) = chain.map Prod.fst ++ forestEdges rest := by
  simp [forestEdges]

theorem forest_split {p : Nat} {chain : List (Nat × Nat)} {rest : List (Nat × List (Nat × Nat))}
    (hn : (forestNodes ((p, chain) :: rest)).Nodup)
    (he : (forestEdges ((p, chain) :: rest)).Nodup) :
    Distinct p chain ∧ (forestNodes rest).Nodup ∧ (forestEdges rest).Nodup ∧
      (∀ i ∈ forestNodes rest, i ∉ p :: chain.map Prod.snd) ∧
      (∀ j ∈ forestEdges rest, j ∉ chain.map Prod.fst) := by
  rw [forestNodes_cons] at hn
  rw [forestEdges_cons] at he
  obtain ⟨n1, n2, n3⟩ := List.nodup_append.mp hn
  obtain ⟨e1, e2, e3⟩ := List.nodup_append.mp he
  exact ⟨⟨n1, e1⟩, n2, e2, fun i hi hc => n3 hc hi, fun j hj hc => e3 hc hj⟩

theorem forestEnvs_iff (db : KeySpace) (graph : Bytes) (T : List (Bytes × Bytes × Bytes))
    (hidx : IsHexastore db graph T) (hclean : ∀ t ∈ T, CleanTriple t) :
    ∀ (chains : List (Nat × List (Nat × Nat)))
      (env : (Nat → Option Bytes) × (Nat → Option Bytes)),
      (forestNodes chains).Nodup → (forestEdges chains).Nodup →
      (∀ i ∈ forestNodes chains, env.1 i = none) →
      (∀ j ∈ forestEdges chains, ∀ x, env.2 j = some x → CleanBytes x) →
      ∀ env', env' ∈ forestEnvs db graph chains env ↔
        ∃ As, ValidForest T chains As env ∧ env' = assignForestEnv chains As env := by
  intro chains
  induction chains with
  | nil =>
    intro env _ _ _ _ env'
    simp only [forestEnvs, List.mem_singleton]
    constructor
    · intro h; exact ⟨[], trivial, by rw [h]; rfl⟩
    · rintro ⟨As, hv, hA⟩
      cases As with
      | nil => rw [hA]; rfl
      | cons A As => exact absurd hv (by simp [ValidForest])
  | cons pc rest ih =>
    obtain ⟨p, chain⟩ := pc
    intro env hn he hunb hlab env'
    obtain ⟨hD, hn', he', hdn, hde⟩ := forest_split hn he
    have hready : Ready env p chain := by
      constructor
      · intro x hx
        rw [hunb p (by rw [forestNodes_cons]; simp)] at hx
        exact Option.noConfusion hx
      · intro ed hed
        constructor
        · exact hunb ed.2 (by rw [forestNodes_cons]; simp; exact Or.inr (Or.inl ⟨_, hed⟩))
        · intro x hx
          exact hlab ed.1 (by rw [forestEdges_cons]; simp; exact Or.inl ⟨_, hed⟩) x hx
    have hrest : ∀ A, (∀ i ∈ forestNodes rest, (assignEnv p chain A env).1 i = none) ∧
        (∀ j ∈ forestEdges rest, ∀ x, (assignEnv p chain A env).2 j = some x → CleanBytes x) := by
      intro A
      obtain ⟨f1, f2⟩ := assignEnv_frame chain p A env
      constructor
      · intro i hi
        rw [f1 i (hdn i hi)]
        exact hunb i (by rw [forestNodes_cons]; exact List.mem_append_right _ hi)
      · intro j hj x hx
        rw [f2 j (hde j hj)] at hx
        exact hlab j (by rw [forestEdges_cons]; exact List.mem_append_right _ hj) x hx
    simp only [forestEnvs, List.mem_flatMap]
    constructor
    · rintro ⟨env1, h1, h2⟩
      obtain ⟨A, hv, rfl⟩ := (chainEnvs_iff db graph T hidx hclean chain p env hready hD env1).mp h1
      obtain ⟨As, hvs, hE⟩ := (ih _ hn' he' (hrest A).1 (hrest A).2 env').mp h2
      exact ⟨A :: As, ⟨hv, hvs⟩, hE⟩
    · rintro ⟨As, hv, hA⟩
      cases As with
      | nil => exact absurd hv (by simp [ValidForest])
      | cons A As =>
        obtain ⟨hv1, hv2⟩ := hv
        refine ⟨assignEnv p chain A env, ?_, ?_⟩
        · exact (chainEnvs_iff db graph T hidx hclean chain p env hready hD _).mpr ⟨A, hv1, rfl⟩
        · exact (ih _ hn' he' (hrest A).1 (hrest A).2 env').mpr ⟨As, hv2, hA⟩

theorem matchesForest_congr : ∀ (chains : List (Nat × List (Nat × Nat)))
    (As : List (List (Bytes × Bytes × Bytes))) (ρ ρ' : Nat → Option Bytes),
    (∀ j ∈ forestEdges chains, ρ' j = ρ j) →
    (MatchesForest ρ' chains As ↔ MatchesForest ρ chains As) := by
  intro chains
  induction chains with
  | nil => intro As ρ ρ' _; cases As <;> simp [MatchesForest]
  | cons pc rest ih =>
    obtain ⟨p, chain⟩ := pc
    intro As ρ ρ' h
    cases As with
    | nil => simp [MatchesForest]
    | cons A As =>
      simp only [MatchesForest]
      rw [matchesLabels_congr chain A ρ ρ'
          (fun j hj => h j (by rw [forestEdges_cons]; exact List.mem_append_left _ hj)),
        ih As ρ ρ' (fun j hj => h j (by rw [forestEdges_cons]; exact List.mem_append_right _ hj))]

theorem validForest_iff (T : List (Bytes × Bytes × Bytes)) :
    ∀ (chains : List (Nat × List (Nat × Nat))) (As : List (List (Bytes × Bytes × Bytes)))
      (env : (Nat → Option Bytes) × (Nat → Option Bytes)),
      (forestNodes chains).Nodup → (forestEdges chains).Nodup →
      (∀ i ∈ forestNodes chains, env.1 i = none) →
      (ValidForest T chains As env ↔
        (∀ A ∈ As, ∀ t ∈ A, t ∈ T) ∧ FitsForest chains As ∧ MatchesForest env.2 chains As) := by
  intro chains
  induction chains with
  | nil =>
    intro As env _ _ _
    cases As <;> simp [ValidForest, FitsForest, MatchesForest]
  | cons pc rest ih =>
    obtain ⟨p, chain⟩ := pc
    intro As env hn he hunb
    obtain ⟨hD, hn', he', hdn, hde⟩ := forest_split hn he
    cases As with
    | nil => simp [ValidForest, FitsForest]
    | cons A As =>
      obtain ⟨f1, f2⟩ := assignEnv_frame chain p A env
      have hunb' : ∀ i ∈ forestNodes rest, (assignEnv p chain A env).1 i = none := by
        intro i hi
        rw [f1 i (hdn i hi)]
        exact hunb i (by rw [forestNodes_cons]; exact List.mem_append_right _ hi)
      have hp : env.1 p = none := hunb p (by rw [forestNodes_cons]; simp)
      simp only [ValidForest, FitsForest, MatchesForest]
      rw [validPath_iff T chain p A env hD, ih As _ hn' he' hunb',
        matchesForest_congr rest As env.2 (assignEnv p chain A env).2
          (fun j hj => f2 j (hde j hj))]
      constructor
      · rintro ⟨⟨a1, a2, a3, _⟩, b1, b2, b3⟩
        refine ⟨?_, ⟨matchesLabels_length _ _ _ a3, a2, b2⟩, a3, b3⟩
        intro B hB
        rcases List.mem_cons.mp hB with h | h
        · rw [h]; exact a1
        · exact b1 B h
      · rintro ⟨c1, ⟨_, c2, c3⟩, c4, c5⟩
        exact ⟨⟨c1 A (List.mem_cons_self _ _), c2, c4, fun _ _ => Or.inl hp⟩,
          fun B hB => c1 B (List.mem_cons_of_mem _ hB), c3, c5⟩

theorem assignForestEnv_frame : ∀ (chains : List (Nat × List (Nat × Nat)))
    (As : List (List (Bytes × Bytes × Bytes)))
    (env : (Nat → Option Bytes) × (Nat → Option Bytes)),
    (∀ i, i ∉ forestNodes chains → (assignForestEnv chains As env).1 i = env.1 i) ∧
    (∀ j, j ∉ forestEdges chains → (assignForestEnv chains As env).2 j = env.2 j) := by
  intro chains
  induction chains with
  | nil => intro As env; cases As <;> exact ⟨fun _ _ => rfl, fun _ _ => rfl⟩
  | cons pc rest ih =>
    obtain ⟨p, chain⟩ := pc
    intro As env
    cases As with
    | nil => exact ⟨fun _ _ => rfl, fun _ _ => rfl⟩
    | cons A As =>
      obtain ⟨h1, h2⟩ := ih As (assignEnv p chain A env)
      obtain ⟨f1, f2⟩ := assignEnv_frame chain p A env
      simp only [assignForestEnv]
      constructor
      · intro i hi
        rw [forestNodes_cons, List.mem_append, not_or] at hi
        rw [h1 i hi.2, f1 i hi.1]
      · intro j hj
        rw [forestEdges_cons, List.mem_append, not_or] at hj
        rw [h2 j hj.2, f2 j hj.1]

theorem assignForestEnv_inj : ∀ (chains : List (Nat × List (Nat × Nat)))
    (As As' : List (List (Bytes × Bytes × Bytes)))
    (env env' : (Nat → Option Bytes) × (Nat → Option Bytes)),
    (forestNodes chains).Nodup → (forestEdges chains).Nodup →
    FitsForest chains As → FitsForest chains As' →
    (∀ i ∈ forestNodes chains,
      (assignForestEnv chains As env).1 i = (assignForestEnv chains As' env').1 i) →
    (∀ j ∈ forestEdges chains,
      (assignForestEnv chains As env).2 j = (assignForestEnv chains As' env').2 j) →
    As = As' := by
  intro chains
  induction chains with
  | nil =>
    intro As As' env env' _ _ hf hf' _ _
    cases As with
    | nil =>
      cases As' with
      | nil => rfl
      | cons _ _ => exact absurd hf' (by simp [FitsForest])
    | cons _ _ => exact absurd hf (by simp [FitsForest])
  | cons pc rest ih =>
    obtain ⟨p, chain⟩ := pc
    intro As As' env env' hn he hf hf' hnodes hedges
    obtain ⟨hD, hn', he', hdn, hde⟩ := forest_split hn he
    cases As with
    | nil => exact absurd hf (by simp [FitsForest])
    | cons A As =>
      cases As' with
      | nil => exact absurd hf' (by simp [FitsForest])
      | cons A' As' =>
        obtain ⟨l1, m1, r1⟩ := hf
        obtain ⟨l2, m2, r2⟩ := hf'
        obtain ⟨g1, g2⟩ := assignForestEnv_frame rest As (assignEnv p chain A env)
        obtain ⟨g1', g2'⟩ := assignForestEnv_frame rest As' (assignEnv p chain A' env')
        simp only [assignForestEnv] at hnodes hedges
        have hnot_n : ∀ i ∈ p :: chain.map Prod.snd, i ∉ forestNodes rest :=
          fun i hi hc => hdn i hc hi
        have hnot_e : ∀ j ∈ chain.map Prod.fst, j ∉ forestEdges rest :=
          fun j hj hc => hde j hc hj
        have hAA : A = A' := assignEnv_inj chain p A A' env env' hD l1 l2 m1 m2
          (fun i hi => by
            have := hnodes i (by rw [forestNodes_cons]; exact List.mem_append_left _ hi)
            rwa [g1 i (hnot_n i hi), g1' i (hnot_n i hi)] at this)
          (fun j hj => by
            have := hedges j (by rw [forestEdges_cons]; exact List.mem_append_left _ hj)
            rwa [g2 j (hnot_e j hj), g2' j (hnot_e j hj)] at this)
        subst hAA
        have hrest := ih As As' _ _ hn' he' r1 r2
          (fun i hi => hnodes i (by rw [forestNodes_cons]; exact List.mem_append_right _ hi))
          (fun j hj => hedges j (by rw [forestEdges_cons]; exact List.mem_append_right _ hj))
        rw [hrest]

theorem assignForest_withBindings (g0 : Graph) : ∀ (chains : List (Nat × List (Nat × Nat)))
    (As : List (List (Bytes × Bytes × Bytes)))
    (env : (Nat → Option Bytes) × (Nat → Option Bytes)),
    assignForest chains As (withBindings g0 env.1 env.2)
      = withBindings g0 (assignForestEnv chains As env).1 (assignForestEnv chains As env).2 := by
  intro chains
  induction chains with
  | nil => intro As env; cases As <;> rfl
  | cons pc rest ih =>
    obtain ⟨p, chain⟩ := pc
    intro As env
    cases As with
    | nil => rfl
    | cons A As =>
      simp only [assignForest, assignForestEnv]
      rw [assignChain_withBindings g0 chain p A env]
      exact ih As _

theorem forest_valid (g : Graph) : ∀ (chains : List (Nat × List (Nat × Nat))),
    (∀ pc ∈ chains, IsChainFrom g pc.1 pc.2) →
    (∀ i ∈ forestNodes chains, i < g.nodes.length) ∧
      (∀ j ∈ forestEdges chains, j < g.edges.length) := by
  intro chains
  induction chains with
  | nil => intro _; exact ⟨by simp [forestNodes], by simp [forestEdges]⟩
  | cons pc rest ih =>
    obtain ⟨p, chain⟩ := pc
    intro h
    obtain ⟨c1, c2⟩ := isChainFrom_valid g chain p (h (p, chain) (List.mem_cons_self _ _))
    obtain ⟨r1, r2⟩ := ih (fun pc hpc => h pc (List.mem_cons_of_mem _ hpc))
    constructor
    · intro i hi
      rw [forestNodes_cons] at hi
      rcases List.mem_append.mp hi with h | h
      · exact c1 i h
      · exact r1 i h
    · intro j hj
      rw [forestEdges_cons] at hj
      rcases List.mem_append.mp hj with h | h
      · exact c2 j h
      · exact r2 j h

/-! ## `QueryNode`: the claim -/

theorem addEdges_members (g : Bytes) (T : List (Bytes × Bytes × Bytes)) :
    ∀ (beyond : Nat → Nat → Nat → Nat) (db : KeySpace), RedisModule_KeyType (db g) ≠ .OTHER →
      (∀ t ∈ T, NulFree t) →
      RedisModule_KeyType (addEdges beyond db g T g) ≠ .OTHER ∧
      ∀ k, k ∈ zsetMembers (addEdges beyond db g T g) ↔
        k ∈ zsetMembers (db g) ∨ ∃ t ∈ T, k ∈ sixKeys t.1 t.2.1 t.2.2 := by
  induction T with
  | nil => intro beyond db h _; exact ⟨h, by simp [addEdges]⟩
  | cons t rest ih =>
    intro beyond db hno hnf
    have ht := hnf t (List.mem_cons_self _ _)
    have hstep : addEdges beyond db g (t :: rest)
        = addEdges (fun k => beyond (k + 1))
            (MGraph_AddEdge (beyond 0) db [str "graph.ADDEDGE", g, t.1, t.2.1, t.2.2]).1 g rest :=
      rfl
    rw [hstep, addEdge_ok (beyond 0) db _ g _ _ _ hno ht.1 ht.2.1 ht.2.2]
    have hno' := keyType_foldl_ZsetAdd (sixKeys t.1 t.2.1 t.2.2) (db g) hno
    obtain ⟨h1, h2⟩ := ih (fun k => beyond (k + 1))
      (setKey db g ((sixKeys t.1 t.2.1 t.2.2).foldl RedisModule_ZsetAdd (db g)))
      (by rw [setKey_same]; exact hno') (fun x hx => hnf x (List.mem_cons_of_mem _ hx))
    refine ⟨h1, fun k => ?_⟩
    rw [h2 k, setKey_same, mem_foldl_ZsetAdd _ _ _ hno]
    simp only [List.mem_cons, exists_eq_or_imp]
    tauto

/-- The index `ADDEDGE` builds on an empty keyspace from a list of edges whose
coordinates hold no NUL byte is the hexastore of these edges. -/
theorem isHexastore_addEdges (beyond : Nat → Nat → Nat → Nat) (g : Bytes)
    (T : List (Bytes × Bytes × Bytes)) (hnf : ∀ t ∈ T, NulFree t) :
    IsHexastore (addEdges beyond emptyDb g T) g T := by
  obtain ⟨h1, h2⟩ := addEdges_members g T beyond emptyDb
    (by simp [emptyDb, RedisModule_KeyType]) hnf
  refine ⟨h1, fun k => ?_⟩
  rw [h2 k]
  simp [emptyDb, zsetMembers]

/-- C1 (amended): on the hexastore of edges whose coordinates contain neither
`':'` nor a NUL byte nor the byte `0xFF`, for a pattern graph made of chains
of at least one edge each, with pairwise distinct, unbound nodes and pairwise
distinct edges (labels, where given, clean), whose first nodes are the nodes
of in-degree 0, for every filter tree of a non-aggregated query with unbounded
capacity: the traversal, started as `MGraph_Query` starts it from the last of
these nodes with the others on the stack of entry points, returns, leaves
bindings and stack as they were, and appends the projections of a list of
complete assignments. Every one of them gives each chain edge an edge of the
hexastore, neighbouring triples of a chain meeting in the node they share; and
an assignment `As` of triples to the edges of the chains, neighbouring triples
meeting, is among them if and only if every triple of `As` is an edge of the
hexastore, carries the label its pattern edge is bound to (if any), and the
filter tree is null or evaluates true on `As`. -/
theorem queryNode_chains_emit {F R C : Type} (ctx : QueryCtx F R C)
    (T : List (Bytes × Bytes × Bytes)) (hidx : IsHexastore ctx.db ctx.graphName T)
    (hclean : ∀ t ∈ T, CleanTriple t) (g : Graph) (p : Nat) (chain : List (Nat × Nat))
    (rest : List (Nat × List (Nat × Nat)))
    (hchains : ∀ pc ∈ (p, chain) :: rest, pc.2 ≠ [] ∧ IsChainFrom g pc.1 pc.2)
    (hnodes : (forestNodes ((p, chain) :: rest)).Nodup)
    (hedges : (forestEdges ((p, chain) :: rest)).Nodup)
    (hstart : Graph_GetNDegreeNodes g 0 = (rest.map Prod.fst).reverse ++ [p])
    (hunbound : ∀ i ∈ forestNodes ((p, chain) :: rest), idOf g i = none)
    (hlabels : ∀ j ∈ forestEdges ((p, chain) :: rest), ∀ x, relOf g j = some x → CleanBytes x)
    (rs : ResultSet) (hlim : rs.limit = none) (hagg : rs.aggregated = false) (cache : C)
    (fuel : Nat) (hfuel : (forestEdges ((p, chain) :: rest)).length ≤ fuel) :
    ∃ (st' : QueryState C) (states : List Graph),
      startTraversal ctx fuel g rs cache = .ok st' ∧ st'.g = g ∧
      st'.entryPoints = (rest.map Prod.fst).reverse ∧ st'.cache = cache ∧
      st'.returnedSet.records
        = rs.records ++ states.map (ctx.ReturnClause_RetrivePropValues ctx.returnTree) ∧
      (∀ s ∈ states, ∃ As, FitsForest ((p, chain) :: rest) As ∧ (∀ A ∈ As, ∀ t ∈ A, t ∈ T) ∧
        s = assignForest ((p, chain) :: rest) As g) ∧
      ∀ As : List (List (Bytes × Bytes × Bytes)), FitsForest ((p, chain) :: rest) As →
        (assignForest ((p, chain) :: rest) As g ∈ states ↔
          (∀ A ∈ As, ∀ t ∈ A, t ∈ T) ∧ MatchesForest (relOf g) ((p, chain) :: rest) As ∧
            (ctx.filterTree = none ∨ ∃ f, ctx.filterTree = some f ∧
              ctx.applyFilters (assignForest ((p, chain) :: rest) As g) f = true)) := by
  have hself := withBindings_self g
  have hparse := hexastore_parses ctx.db ctx.graphName T hidx hclean
  have hrun := queryNode_forest ctx g hparse rest p chain hchains fuel hfuel (idOf g, relOf g) rs
    cache hlim hagg
  simp only [hself] at hrun
  have hiff := forestEnvs_iff ctx.db ctx.graphName T hidx hclean ((p, chain) :: rest)
    (idOf g, relOf g) hnodes hedges hunbound hlabels
  have hvalid := fun As => validForest_iff T ((p, chain) :: rest) As (idOf g, relOf g) hnodes
    hedges hunbound
  have hpass : ∀ s : Graph, passesFilter ctx s = true ↔
      (ctx.filterTree = none ∨ ∃ f, ctx.filterTree = some f ∧ ctx.applyFilters s f = true) := by
    intro s
    unfold passesFilter
    cases ctx.filterTree with
    | none => simp
    | some f => simp
  have hassign : ∀ As, assignForest ((p, chain) :: rest) As g
      = withBindings g (assignForestEnv ((p, chain) :: rest) As (idOf g, relOf g)).1
          (assignForestEnv ((p, chain) :: rest) As (idOf g, relOf g)).2 := by
    intro As
    have := assignForest_withBindings g ((p, chain) :: rest) As (idOf g, relOf g)
    rw [← this]
    simp only [hself]
  have hrun' := hrun
  rw [show QueryNode ctx fuel p ⟨g, (rest.map Prod.fst).reverse, rs, cache⟩
      = startTraversal ctx fuel g rs cache by
    unfold startTraversal
    simp [hstart]] at hrun'
  refine ⟨_, ((forestEnvs ctx.db ctx.graphName ((p, chain) :: rest) (idOf g, relOf g)).filter
      (fun env => passesFilter ctx (withBindings g env.1 env.2))).map
      (fun env => withBindings g env.1 env.2), hrun', rfl, rfl, rfl, ?_, ?_, ?_⟩
  · simp [emitted, List.map_map, Function.comp]
  · intro s hs
    simp only [List.mem_map, List.mem_filter] at hs
    obtain ⟨env', ⟨hmem, _⟩, rfl⟩ := hs
    obtain ⟨As, hv, hE⟩ := (hiff env').mp hmem
    obtain ⟨v1, v2, _⟩ := (hvalid As).mp hv
    exact ⟨As, v2, v1, by rw [hassign As, hE]⟩
  · intro As hfit
    simp only [List.mem_map, List.mem_filter]
    constructor
    · rintro ⟨env', ⟨hmem, hp⟩, heq⟩
      obtain ⟨As', hv, hE⟩ := (hiff env').mp hmem
      obtain ⟨v1, v2, v3⟩ := (hvalid As').mp hv
      rw [hassign As, hE] at heq
      obtain ⟨w1, w2⟩ := withBindings_inj g _ _ _ _ heq
      obtain ⟨c1, c2⟩ := forest_valid g ((p, chain) :: rest) (fun pc hpc => (hchains pc hpc).2)
      have hAA : As' = As := assignForestEnv_inj ((p, chain) :: rest) As' As _ _ hnodes hedges
        v2 hfit (fun i hi => w1 i (c1 i hi)) (fun j hj => w2 j (c2 j hj))
      subst hAA
      refine ⟨v1, v3, (hpass _).mp ?_⟩
      rw [hassign As', ← hE]
      exact hp
    · rintro ⟨h1, h2, h3⟩
      have hv : ValidForest T ((p, chain) :: rest) As (idOf g, relOf g) :=
        (hvalid As).mpr ⟨h1, hfit, h2⟩
      refine ⟨assignForestEnv ((p, chain) :: rest) As (idOf g, relOf g),
        ⟨(hiff _).mpr ⟨As, hv, rfl⟩, ?_⟩, (hassign As).symm⟩
      rw [← hassign As]
      exact (hpass _).mpr h3

/-- C1 on the pattern `(a)-[e1]->(b), (c)-[e2]->(d)` of two chains over the
edges `(x, r, y)` and `(u, s, v)`: the traversal starts at `c` with `a` on the
stack, returns and leaves bindings and stack as they were; its four records
are those of the four assignments of an edge to `e1` and an edge to `e2`. -/
theorem queryNode_chains_emit_witness :
    IsHexastore twoEdgeDb (str "g") [(str "x", str "r", str "y"), (str "u", str "s", str "v")] ∧
      BuildGraph NewGraph twoChainsPattern = .ok twoChainsGraph ∧
      Graph_GetNDegreeNodes twoChainsGraph 0 = [0, 2] ∧
      (∃ st', startTraversal (snapshotCtx twoEdgeDb (str "g")) 2 twoChainsGraph
          ⟨[], none, false⟩ () = .ok st' ∧ st'.g = twoChainsGraph ∧ st'.entryPoints = [0]) ∧
      startTraversal (snapshotCtx twoEdgeDb (str "g")) 2 twoChainsGraph ⟨[], none, false⟩ ()
        = .ok ⟨twoChainsGraph, [0],
            ⟨[snapshot (assignForest [(2, [(1, 3)]), (0, [(0, 1)])]
                  [[(str "u", str "s", str "v")], [(str "u", str "s", str "v")]] twoChainsGraph),
                snapshot (assignForest [(2, [(1, 3)]), (0, [(0, 1)])]
                  [[(str "u", str "s", str "v")], [(str "x", str "r", str "y")]] twoChainsGraph),
                snapshot (assignForest [(2, [(1, 3)]), (0, [(0, 1)])]
                  [[(str "x", str "r", str "y")], [(str "u", str "s", str "v")]] twoChainsGraph),
                snapshot (assignForest [(2, [(1, 3)]), (0, [(0, 1)])]
                  [[(str "x", str "r", str "y")], [(str "x", str "r", str "y")]] twoChainsGraph)],
              none, false⟩, ()⟩ :=
  have hidx : IsHexastore twoEdgeDb (str "g")
      [(str "x", str "r", str "y"), (str "u", str "s", str "v")] :=
    isHexastore_addEdges _ _ _ (by decide)
  ⟨hidx, by rfl, by decide,
    (queryNode_chains_emit (snapshotCtx twoEdgeDb (str "g")) _ hidx (by decide) twoChainsGraph
      2 [(1, 3)] [(0, [(0, 1)])]
      (by
        intro pc hpc
        simp only [List.mem_cons, List.mem_singleton, List.not_mem_nil, or_false] at hpc
        rcases hpc with h | h <;> subst h
        · exact ⟨by simp, ⟨_, _, rfl, rfl, rfl, rfl, rfl, _, rfl, rfl⟩⟩
        · exact ⟨by simp, ⟨_, _, rfl, rfl, rfl, rfl, rfl, _, rfl, rfl⟩⟩)
      (by decide) (by decide) (by decide) (by decide)
      (by
        intro j hj x hx
        have hr : relOf twoChainsGraph j = none := by
          simp only [forestEdges, List.flatMap_cons, List.flatMap_nil, List.map_cons,
            List.map_nil, List.append_nil, List.singleton_append, List.mem_cons,
            List.mem_singleton, List.not_mem_nil, or_false] at hj
          rcases hj with h | h <;> subst h <;> rfl
        rw [hr] at hx
        exact Option.noConfusion hx)
      ⟨[], none, false⟩ rfl rfl () 2 (by decide)).elim
      (fun st' h => h.elim (fun _ h => ⟨st', h.1, h.2.1, h.2.2.1⟩)),
    by rfl⟩

/-- C1 (counterexample): in the pattern `(a)<-[e1]-(b)-[e2]->(c)` the node `b`,
the only node of in-degree 0, has two outgoing edges, and `QueryNode` binds
them one after the other, never both. On the hexastore of the single edge
`(x, r, y)` the assignment of `(x, r, y)` to both pattern edges has all its
triples in the hexastore and there is no filter, yet its projection is not
among the two records appended, in each of which one edge is unbound. -/
theorem queryNode_fork_misses_assignment :
    BuildGraph NewGraph forkPattern = .ok forkGraph ∧
      Graph_GetNDegreeNodes forkGraph 0 = [1] ∧
      (snapshotCtx oneEdgeDb (str "g")).filterTree = none ∧
      (∀ k ∈ hexastoreTriplets (noBytes 0) (str "x") (str "r") (str "y"),
        k ∈ zsetMembers (oneEdgeDb (str "g"))) ∧
      startTraversal (snapshotCtx oneEdgeDb (str "g")) 4 forkGraph ⟨[], none, false⟩ ()
        = .ok ⟨forkGraph, [],
            ⟨[[some (str "y"), some (str "x"), none, some (str "r"), none],
                [none, some (str "x"), some (str "y"), none, some (str "r")]], none, false⟩, ()⟩ ∧
      snapshot (bindEdge (bindEdge forkGraph 1 0 0 (str "x", str "r", str "y")) 1 1 2
          (str "x", str "r", str "y"))
        = [some (str "y"), some (str "x"), some (str "y"), some (str "r"), some (str "r")] ∧
      snapshot (bindEdge (bindEdge forkGraph 1 0 0 (str "x", str "r", str "y")) 1 1 2
          (str "x", str "r", str "y"))
        ∉ [[some (str "y"), some (str "x"), none, some (str "r"), none],
            [none, some (str "x"), some (str "y"), none, some (str "r")]] :=
  ⟨by rfl, by decide, rfl, by decide, by rfl, by rfl, by decide⟩

/-- Why the amended C1 asks for coordinates without `':'`: on the hexastore of
the single edge `(a:b, c, d)` the pattern `(x)-[e]->(y)` yields one record, and
it is that of the triple `(a, b, c:d)`, which is not an edge of the hexastore. -/
theorem queryNode_colon_coordinate :
    BuildGraph NewGraph [nodeEntity "x", linkEntity "e" none .N_LEFT_TO_RIGHT, nodeEntity "y"]
        = .ok oneHopGraph ∧
      startTraversal (snapshotCtx colonDb (str "g")) 4 oneHopGraph ⟨[], none, false⟩ ()
        = .ok ⟨oneHopGraph, [],
            ⟨[[some (str "a"), some (str "c:d"), some (str "b")]], none, false⟩, ()⟩ ∧
      str "spo:a:b:c:d" ∈ zsetMembers (colonDb (str "g")) ∧
      ¬ (∀ k ∈ hexastoreTriplets (noBytes 0) (str "a") (str "b") (str "c:d"),
        k ∈ zsetMembers (colonDb (str "g"))) :=
  ⟨by rfl, by rfl, by decide, by decide⟩

/-- Why the amended C1 asks for coordinates without the byte `0xFF`: on the
hexastore of the single edge whose subject is `0xFF 0x01` the pattern
`(x)-[e]->(y)` yields no record, because the key lies above the upper bound of
the range scan. -/
theorem queryNode_ff_coordinate :
    (∀ k ∈ hexastoreTriplets (noBytes 0) [255, 1] (str "r") (str "b"), k ∈ zsetMembers (ffDb (str "g"))) ∧
      queryTriplet ffDb (str "g") ⟨none, none, none⟩ = [] ∧
      startTraversal (snapshotCtx ffDb (str "g")) 4 oneHopGraph ⟨[], none, false⟩ ()
        = .ok ⟨oneHopGraph, [], ⟨[], none, false⟩, ()⟩ :=
  ⟨by decide, by rfl, by rfl⟩

/-- Why the amended C1 asks for chains that do not meet: the chains of
`(a)-[e1:r]->(b)-[e2:r]->(c)<-[e3:r]-(d)` meet in `c`. The traversal starts at
`d`, binds `e3`, goes on from the entry point `a` and comes to `e2` with `b`,
the label and `c` bound; the scan of `spo:v:r:w` also yields the edge
`(v, r, wx)` and binds `c` anew. The second record is that of an assignment
that gives `e3` the triple `(g, r, wx)`, which is not an edge of the index. -/
theorem queryNode_join_rebinds :
    BuildGraph NewGraph joinPattern = .ok joinGraph ∧
      Graph_GetNDegreeNodes joinGraph 0 = [0, 3] ∧
      startTraversal (snapshotCtx joinDb (str "g")) 3 joinGraph ⟨[], none, false⟩ ()
        = .ok ⟨joinGraph, [0],
            ⟨[[some (str "u"), some (str "v"), some (str "w"), some (str "g"),
                  some (str "r"), some (str "r"), some (str "r")],
                [some (str "u"), some (str "v"), some (str "wx"), some (str "g"),
                  some (str "r"), some (str "r"), some (str "r")],
                [some (str "u"), some (str "v"), some (str "w"), some (str "v"),
                  some (str "r"), some (str "r"), some (str "r")],
                [some (str "u"), some (str "v"), some (str "wx"), some (str "v"),
                  some (str "r"), some (str "r"), some (str "r")],
                [some (str "u"), some (str "v"), some (str "wx"), some (str "v"),
                  some (str "r"), some (str "r"), some (str "r")]], none, false⟩, ()⟩ ∧
      IsHexastore joinDb (str "g")
        [(str "u", str "r", str "v"), (str "v", str "r", str "w"), (str "v", str "r", str "wx"),
          (str "g", str "r", str "w")] ∧
      (str "g", str "r", str "wx") ∉
        [(str "u", str "r", str "v"), (str "v", str "r", str "w"), (str "v", str "r", str "wx"),
          (str "g", str "r", str "w")] :=
  ⟨by rfl, by decide, by rfl, isHexastore_addEdges _ _ _ (by decide), by decide⟩

/-- Why the amended C1 asks for coordinates without a NUL byte: on the index
that holds the six keys of the edge `(a, r, b\0x)` the pattern `(x)-[e]->(y)`
yields one record, in which `y` is bound to the C string `b`; `(a, r, b)` is
not the edge the keys were made of. -/
theorem queryNode_nul_coordinate :
    (∀ k, k ∈ zsetMembers (nulObjectDb (str "g")) ↔ k ∈ sixKeys (str "a") (str "r") [98, 0, 120]) ∧
      startTraversal (snapshotCtx nulObjectDb (str "g")) 4 oneHopGraph ⟨[], none, false⟩ ()
        = .ok ⟨oneHopGraph, [],
            ⟨[[some (str "a"), some (str "b"), some (str "r")]], none, false⟩, ()⟩ ∧
      (str "b" : Bytes) ≠ [98, 0, 120] := by
  refine ⟨fun k => ?_, by rfl, by decide⟩
  have h := mem_foldl_ZsetAdd (sixKeys (str "a") (str "r") [98, 0, 120]) none k
    (by simp [RedisModule_KeyType])
  simp only [nulObjectDb, setKey_same]
  rw [h]
  simp [zsetMembers]

/-! ## Naming of anonymous entities -/

theorem anonymousCount_append (l r : List AST_GraphEntity) :
    anonymousCount (l ++ r) = anonymousCount l + anonymousCount r := by
  simp [anonymousCount]

theorem nameLoop_counter (l : List AST_GraphEntity) (k : Nat) :
    (_nameAnonymousNodes l k).2 = k + anonymousCount l := by
  induction l generalizing k with
  | nil => simp [_nameAnonymousNodes, anonymousCount]
  | cons e l ih =>
    by_cases h : e.alias_ = none
    · simp [_nameAnonymousNodes, h, ih, anonymousCount]; omega
    · simp [_nameAnonymousNodes, h, ih, anonymousCount]

theorem nameLoop_length (l : List AST_GraphEntity) (k : Nat) :
    (_nameAnonymousNodes l k).1.length = l.length := by
  induction l generalizing k with
  | nil => simp [_nameAnonymousNodes]
  | cons e l ih =>
    by_cases h : e.alias_ = none
    · simp [_nameAnonymousNodes, h, ih]
    · simp [_nameAnonymousNodes, h, ih]

theorem nameLoop_getElem (l : List AST_GraphEntity) (k i : Nat) (e : AST_GraphEntity)
    (he : l[i]? = some e) :
    (_nameAnonymousNodes l k).1[i]? = some
      (if e.alias_ = none then
        { e with alias_ := some ("anon_" ++ toString (k + anonymousCount (l.take i))) }
      else e) := by
  induction l generalizing k i with
  | nil => simp at he
  | cons x l ih =>
    cases i with
    | zero =>
      simp only [List.getElem?_cons_zero, Option.some.injEq] at he
      subst he
      by_cases h : x.alias_ = none
      · simp [_nameAnonymousNodes, h, anonymousCount]
      · simp [_nameAnonymousNodes, h]
    | succ i =>
      simp only [List.getElem?_cons_succ] at he
      by_cases h : x.alias_ = none
      · simp only [_nameAnonymousNodes, h, if_true, List.getElem?_cons_succ]
        rw [ih (k + 1) i he]
        have hc : k + 1 + anonymousCount (l.take i) = k + anonymousCount ((x :: l).take (i + 1)) := by
          simp [anonymousCount, h]; omega
        rw [hc]
      · simp only [_nameAnonymousNodes, h, if_false, List.getElem?_cons_succ]
        rw [ih k i he]
        simp [anonymousCount, h]

theorem nameLoop_alias (l : List AST_GraphEntity) (k : Nat) :
    ∀ e ∈ (_nameAnonymousNodes l k).1, e.alias_ ≠ none := by
  induction l generalizing k with
  | nil => simp [_nameAnonymousNodes]
  | cons x l ih =>
    by_cases h : x.alias_ = none
    · simp only [_nameAnonymousNodes, h, if_true, List.mem_cons]
      rintro e (rfl | he)
      · simp
      · exact ih _ e he
    · simp only [_nameAnonymousNodes, h, if_false, List.mem_cons]
      rintro e (rfl | he)
      · exact h
      · exact ih _ e he

theorem matchEntities_nameAnonymousNodes (ast : AST_QueryExpressionNode) :
    matchEntities (nameAnonymousNodes ast) = (_nameAnonymousNodes (matchEntities ast) 0).1 := by
  cases hm : ast.matchNode <;> simp [matchEntities, nameAnonymousNodes, hm, _nameAnonymousNodes]

theorem createEntities_nameAnonymousNodes (ast : AST_QueryExpressionNode) :
    createEntities (nameAnonymousNodes ast)
      = (_nameAnonymousNodes (createEntities ast) (anonymousCount (matchEntities ast))).1 := by
  cases hm : ast.matchNode <;> cases hc : ast.createNode <;>
    simp [createEntities, matchEntities, nameAnonymousNodes, hm, hc, _nameAnonymousNodes,
      nameLoop_counter, anonymousCount]

/-- C11: `nameAnonymousNodes` keeps the clauses that are present and the
number of their entities, leaves the where, delete and return clauses alone,
and rewrites the entity at position `i` of the match entities followed by the
create entities to `namedAt`: an entity with an alias is kept, the `k`-th
entity without one (counting from 0 through both clauses) gets the alias
`anon_k`; afterwards no entity of either clause has a null alias. -/
theorem nameAnonymousNodes_names (ast : AST_QueryExpressionNode) :
    (nameAnonymousNodes ast).matchNode.isSome = ast.matchNode.isSome ∧
      (nameAnonymousNodes ast).createNode.isSome = ast.createNode.isSome ∧
      (nameAnonymousNodes ast).whereNode = ast.whereNode ∧
      (nameAnonymousNodes ast).deleteNode = ast.deleteNode ∧
      (nameAnonymousNodes ast).returnNode = ast.returnNode ∧
      (matchEntities (nameAnonymousNodes ast)).length = (matchEntities ast).length ∧
      (createEntities (nameAnonymousNodes ast)).length = (createEntities ast).length ∧
      (∀ (i : Nat) (e : AST_GraphEntity),
        (matchEntities ast ++ createEntities ast)[i]? = some e →
          (matchEntities (nameAnonymousNodes ast) ++ createEntities (nameAnonymousNodes ast))[i]?
            = some (namedAt (matchEntities ast ++ createEntities ast) i e)) ∧
      ∀ e ∈ matchEntities (nameAnonymousNodes ast) ++ createEntities (nameAnonymousNodes ast),
        e.alias_ ≠ none := by
  refine ⟨?_, ?_, rfl, rfl, rfl, ?_, ?_, ?_, ?_⟩
  · cases hm : ast.matchNode <;> simp [nameAnonymousNodes, hm]
  · cases hc : ast.createNode <;> simp [nameAnonymousNodes, hc]
  · rw [matchEntities_nameAnonymousNodes, nameLoop_length]
  · rw [createEntities_nameAnonymousNodes, nameLoop_length]
  · intro i e he
    rw [matchEntities_nameAnonymousNodes, createEntities_nameAnonymousNodes]
    by_cases hi : i < (matchEntities ast).length
    · rw [List.getElem?_append_left hi] at he
      rw [List.getElem?_append_left (by rw [nameLoop_length]; exact hi),
        nameLoop_getElem _ _ _ _ he]
      simp [namedAt, List.take_append_of_le_length (Nat.le_of_lt hi)]
    · have hi' : (matchEntities ast).length ≤ i := Nat.le_of_not_lt hi
      rw [List.getElem?_append_right hi'] at he
      rw [List.getElem?_append_right (by rw [nameLoop_length]; exact hi'), nameLoop_length,
        nameLoop_getElem _ _ _ _ he]
      simp [namedAt, List.take_append_eq_append_take, List.take_of_length_le hi',
        anonymousCount_append]
  · intro e he
    rw [matchEntities_nameAnonymousNodes, createEntities_nameAnonymousNodes] at he
    rcases List.mem_append.mp he with h | h
    · exact nameLoop_alias _ _ e h
    · exact nameLoop_alias _ _ e h

/-- The naming pass on `MATCH ()-[]->(b) CREATE ()`: the aliases become
`anon_0`, `anon_1`, `b` and `anon_2`. -/
theorem nameAnonymousNodes_example :
    (matchEntities (nameAnonymousNodes
        ⟨some ⟨[⟨none, none, none, .N_ENTITY, .N_DIR_UNKNOWN⟩,
          ⟨none, none, none, .N_LINK, .N_LEFT_TO_RIGHT⟩, nodeEntity "b"]⟩, none,
          some ⟨[⟨none, none, none, .N_ENTITY, .N_DIR_UNKNOWN⟩]⟩, none, none⟩)).map
        (fun e => e.alias_) = [some "anon_0", some "anon_1", some "b"] ∧
      (createEntities (nameAnonymousNodes
        ⟨some ⟨[⟨none, none, none, .N_ENTITY, .N_DIR_UNKNOWN⟩,
          ⟨none, none, none, .N_LINK, .N_LEFT_TO_RIGHT⟩, nodeEntity "b"]⟩, none,
          some ⟨[⟨none, none, none, .N_ENTITY, .N_DIR_UNKNOWN⟩]⟩, none, none⟩)).map
        (fun e => e.alias_) = [some "anon_2"] :=
  ⟨by decide, by decide⟩

/-! ## Lifting of inline properties -/

theorem foldl_inlineEntityProperties (alias_ : Option String) (pairs : List (SIValue × SIValue))
    (w : Option AST_WhereNode) :
    pairs.foldl (inlineEntityProperties alias_) w
      = liftedWhere w (pairs.map (fun pair =>
          AST_FilterNode.constantPredicate (alias_.getD "") pair.1.keyName .EQ pair.2)) := by
  induction pairs generalizing w with
  | nil => cases w <;> rfl
  | cons p ps ih =>
    rw [List.foldl_cons, ih]
    cases w with
    | none =>
      cases ps <;>
        simp [inlineEntityProperties, liftedWhere, conjoin, New_AST_WhereNode,
          New_AST_ConstantPredicateNode]
    | some w =>
      cases ps <;>
        simp [inlineEntityProperties, liftedWhere, conjoin, New_AST_ConditionNode,
          New_AST_ConstantPredicateNode]

theorem conjoin_append (r : AST_FilterNode) (ps qs : List AST_FilterNode) :
    conjoin r (ps ++ qs) = conjoin (conjoin r ps) qs := by
  induction ps generalizing r with
  | nil => rfl
  | cons p ps ih => simp [conjoin, ih]

theorem liftedWhere_append (w : Option AST_WhereNode) (ps qs : List AST_FilterNode) :
    liftedWhere (liftedWhere w ps) qs = liftedWhere w (ps ++ qs) := by
  cases ps with
  | nil => cases w <;> rfl
  | cons p ps =>
    cases qs with
    | nil => cases w <;> simp [liftedWhere]
    | cons q qs => cases w <;> simp [liftedWhere, conjoin, conjoin_append]

theorem foldl_inlineProperties (entities : List AST_GraphEntity) (w : Option AST_WhereNode) :
    entities.foldl
        (fun w entity =>
          match entity.properties with
          | none => w
          | some properties =>
            (propertyPairs properties).foldl (inlineEntityProperties entity.alias_) w) w
      = liftedWhere w (inlinePredicates entities) := by
  induction entities generalizing w with
  | nil => cases w <;> rfl
  | cons e es ih =>
    rw [List.foldl_cons, ih]
    cases hp : e.properties with
    | none => simp [inlinePredicates, hp]
    | some properties =>
      simp only [foldl_inlineEntityProperties, liftedWhere_append]
      simp [inlinePredicates, hp]

/-- C12: for an AST with a match clause, `inlineProperties` leaves as where
clause `liftedWhere` of the old one and the predicates `alias.key = value` of
all inline properties in entity and then property order: the left-nested
conjunction under the old root `r` when a where clause existed, the
left-nested conjunction starting with `p_1` (just `p_1` when there is one
predicate) in a new where clause when none existed, and the old where clause
when there is no predicate; the other clauses are not touched. -/
theorem inlineProperties_where (ast : AST_QueryExpressionNode) (m : AST_MatchNode)
    (hm : ast.matchNode = some m) :
    (inlineProperties ast).whereNode
        = liftedWhere ast.whereNode (inlinePredicates m.graphEntities) ∧
      (inlineProperties ast).matchNode = ast.matchNode ∧
      (inlineProperties ast).createNode = ast.createNode ∧
      (inlineProperties ast).deleteNode = ast.deleteNode ∧
      (inlineProperties ast).returnNode = ast.returnNode := by
  have hwhere : (inlineProperties ast).whereNode
      = liftedWhere ast.whereNode (inlinePredicates m.graphEntities) := by
    simp only [inlineProperties, hm]
    exact foldl_inlineProperties m.graphEntities ast.whereNode
  refine ⟨hwhere, ?_, ?_, ?_, ?_⟩
  · simp only [inlineProperties, hm]
  · simp only [inlineProperties, hm]
  · simp only [inlineProperties, hm]
  · simp only [inlineProperties, hm]

/-- C12 on `MATCH (a {name: 'alice', age: 30})-[e]->(b {name: 'bob'})` without
a where clause: the new root is `AND(AND(a.name = 'alice', a.age = 30),
b.name = 'bob')`. -/
theorem inlineProperties_where_witness :
    (inlineProperties ⟨some ⟨inlinePattern⟩, none, none, none, none⟩).whereNode
        = some ⟨.condition
            (.condition (.constantPredicate "a" "name" .EQ (.stringval "alice")) .AND
              (.constantPredicate "a" "age" .EQ (.numval 30))) .AND
            (.constantPredicate "b" "name" .EQ (.stringval "bob"))⟩ ∧
      (inlineProperties ⟨some ⟨inlinePattern⟩, none, none, none, none⟩).matchNode
        = some ⟨inlinePattern⟩ :=
  ⟨(inlineProperties_where ⟨some ⟨inlinePattern⟩, none, none, none, none⟩ ⟨inlinePattern⟩
      rfl).1.trans (by decide),
    (inlineProperties_where ⟨some ⟨inlinePattern⟩, none, none, none, none⟩ ⟨inlinePattern⟩
      rfl).2.1⟩

/-- Without a match clause `inlineProperties` returns at once. -/
theorem inlineProperties_no_match (ast : AST_QueryExpressionNode) (hm : ast.matchNode = none) :
    inlineProperties ast = ast := by
  simp [inlineProperties, hm]

/-! ## Aggregation classification -/

mutual
theorem containsAggregation_exp {A : Type} (Agg_GetFunc : String → Option A) :
    ∀ exp : AST_ArithmeticExpressionNode,
      _ContainsAggregation Agg_GetFunc exp = true ↔
        ReferencesAggregation (fun f => (Agg_GetFunc f).isSome = true) exp
  | .constant v => by
    simp only [_ContainsAggregation, Bool.false_eq_true, false_iff]
    intro h; cases h
  | .variadic a p => by
    simp only [_ContainsAggregation, Bool.false_eq_true, false_iff]
    intro h; cases h
  | .op function args => by
    have ih := containsAggregation_args Agg_GetFunc args
    constructor
    · intro h
      simp only [_ContainsAggregation] at h
      by_cases hf : (Agg_GetFunc function).isSome = true
      · exact .atRoot function args hf
      · simp only [hf, Bool.false_eq_true, if_false] at h
        obtain ⟨a, ha, hr⟩ := ih.mp h
        exact .inArgument function args a ha hr
    · intro h
      simp only [_ContainsAggregation]
      cases h with
      | atRoot _ _ hf => simp [hf]
      | inArgument _ _ a ha hr =>
        by_cases hf : (Agg_GetFunc function).isSome = true
        · simp [hf]
        · simp only [hf, Bool.false_eq_true, if_false]
          exact ih.mpr ⟨a, ha, hr⟩
theorem containsAggregation_args {A : Type} (Agg_GetFunc : String → Option A) :
    ∀ args : List AST_ArithmeticExpressionNode,
      _ContainsAggregationArgs Agg_GetFunc args = true ↔
        ∃ a ∈ args, ReferencesAggregation (fun f => (Agg_GetFunc f).isSome = true) a
  | [] => by simp [_ContainsAggregationArgs]
  | child_exp :: rest => by
    have ih1 := containsAggregation_exp Agg_GetFunc child_exp
    have ih2 := containsAggregation_args Agg_GetFunc rest
    simp only [_ContainsAggregationArgs, List.mem_cons, exists_eq_or_imp, ← ih1]
    by_cases h : _ContainsAggregation Agg_GetFunc child_exp = true
    · simp [h]
    · simp only [h, Bool.false_eq_true, if_false, false_or]
      exact ih2
end

theorem scanReturnElements_iff {A : Type} (Agg_GetFunc : String → Option A)
    (l : List AST_ReturnElementNode) :
    scanReturnElements Agg_GetFunc l = true ↔
      ∃ e ∈ l, ReferencesAggregation (fun f => (Agg_GetFunc f).isSome = true) e.exp := by
  induction l with
  | nil => simp [scanReturnElements]
  | cons x l ih =>
    simp only [scanReturnElements, List.mem_cons, exists_eq_or_imp,
      ← containsAggregation_exp Agg_GetFunc x.exp]
    by_cases h : _ContainsAggregation Agg_GetFunc x.exp = true
    · simp [h]
    · simp only [h, Bool.false_eq_true, if_false, false_or]
      exact ih

/-- C13: for every AST and every aggregation registry,
`ReturnClause_ContainsAggregation` returns true exactly when there is a return
clause and the expression tree of one of its elements contains, at some depth,
an operator node whose function name the registry knows; without a return
clause it returns false. -/
theorem returnClause_containsAggregation_iff {A : Type} (Agg_GetFunc : String → Option A)
    (ast : AST_QueryExpressionNode) :
    (ReturnClause_ContainsAggregation Agg_GetFunc ast = true ↔
        ∃ r, ast.returnNode = some r ∧ ∃ e ∈ r.returnElements,
          ReferencesAggregation (fun f => (Agg_GetFunc f).isSome = true) e.exp) ∧
      (ast.returnNode = none → ReturnClause_ContainsAggregation Agg_GetFunc ast = false) := by
  constructor
  · cases hr : ast.returnNode with
    | none => simp [ReturnClause_ContainsAggregation, hr]
    | some r => simp [ReturnClause_ContainsAggregation, hr, scanReturnElements_iff]
  · intro hr
    simp [ReturnClause_ContainsAggregation, hr]

/-- The classification of `RETURN a, add(1, count(b))` and of `RETURN a,
add(1, b.age)` under a registry that knows `count` and `sum`. -/
theorem returnClause_containsAggregation_example :
    ReturnClause_ContainsAggregation countSumRegistry
        ⟨none, none, none, none, some ⟨[⟨.variadic "a" none, none⟩,
          ⟨.op "add" [.constant (.numval 1), .op "count" [.variadic "b" none]], none⟩]⟩⟩
        = true ∧
      ReturnClause_ContainsAggregation countSumRegistry
        ⟨none, none, none, none, some ⟨[⟨.variadic "a" none, none⟩,
          ⟨.op "add" [.constant (.numval 1), .variadic "b" (some "age")], none⟩]⟩⟩
        = false :=
  ⟨by decide, by decide⟩

/-! ## The byte order and registries -/

theorem findCollapsedEntity_named (a : String) (entities : List AST_GraphEntity)
    (hnamed : ∀ ge ∈ entities, ge.alias_ ≠ none) :
    findCollapsedEntity a entities
      = .ok (entities.find? (fun ge => decide (ge.alias_ = some a))) := by
  induction entities with
  | nil => rfl
  | cons ge rest ih =>
    have ih' := ih (fun x hx => hnamed x (List.mem_cons_of_mem _ hx))
    cases hge : ge.alias_ with
    | none => exact absurd hge (hnamed ge (List.mem_cons_self _ _))
    | some b =>
      by_cases hb : b = a
      · simp [findCollapsedEntity, hge, hb, List.find?_cons]
      · simp [findCollapsedEntity, hge, hb, List.find?_cons, ih']

/-- The expansion of `RETURN a AS x, b.name` for `(a:Person)`, whose registry
received `name` before `age`: `a.age AS x, a.name AS x, b.name`. -/
theorem expandCollapsedNodes_example :
    ReturnClause_ExpandCollapsedNodes (personStores ["name", "age"]) collapsedQuery (str "g")
      = .ok ⟨[⟨.variadic "a" (some "age"), some "x"⟩, ⟨.variadic "a" (some "name"), some "x"⟩,
          ⟨.variadic "b" (some "name"), none⟩], [], []⟩ := by
  rfl

/-! ## A collapsed return element without an entity -/

theorem findCollapsedEntity_unknown (a : String) (entities : List AST_GraphEntity)
    (hnamed : ∀ ge ∈ entities, ge.alias_ ≠ none)
    (ha : ∀ ge ∈ entities, ge.alias_ ≠ some a) :
    findCollapsedEntity a entities = .ok none := by
  rw [findCollapsedEntity_named a entities hnamed]
  congr 1
  exact List.find?_eq_none.mpr (fun ge hge => by simpa using ha ge hge)

theorem expandLoop_unknown (h : LabelStoreHost) (graphName : Bytes)
    (ast : AST_QueryExpressionNode) (m : AST_MatchNode) (old : List AST_ReturnElementNode)
    (hm : ast.matchNode = some m) (hnamed : ∀ ge ∈ m.graphEntities, ge.alias_ ≠ none)
    (pre : List AST_ReturnElementNode) (e : AST_ReturnElementNode)
    (post : List AST_ReturnElementNode) (a : String)
    (hpre : ∀ x ∈ pre, ∀ b, collapsedAlias x.exp = some b →
      ∃ ge, m.graphEntities.find? (fun ge => decide (ge.alias_ = some b)) = some ge ∧
        ∀ label, ge.label = some label →
          (h.LabelStore_Get (storeType ge) graphName label).isSome = true)
    (he : collapsedAlias e.exp = some a) (ha : ∀ ge ∈ m.graphEntities, ge.alias_ ≠ some a)
    (i : Nat) (expanded : List AST_ReturnElementNode) (freed : List Nat) :
    ∃ freed', expandLoop h graphName ast old (pre ++ e :: post) i expanded freed
      = .ok ⟨old, freed', ["Error, could not find collapsed entity\n"]⟩ := by
  induction pre generalizing i expanded freed with
  | nil =>
    exact ⟨freed, by
      simp only [List.nil_append, expandLoop, he, hm,
        findCollapsedEntity_unknown a _ hnamed ha]⟩
  | cons x pre ih =>
    have hpre' : ∀ y ∈ pre, ∀ b, collapsedAlias y.exp = some b →
        ∃ ge, m.graphEntities.find? (fun ge => decide (ge.alias_ = some b)) = some ge ∧
          ∀ label, ge.label = some label →
            (h.LabelStore_Get (storeType ge) graphName label).isSome = true :=
      fun y hy => hpre y (List.mem_cons_of_mem _ hy)
    cases hc : collapsedAlias x.exp with
    | none =>
      obtain ⟨f, hf⟩ := ih hpre' (i + 1) (expanded ++ [x]) freed
      exact ⟨f, by rw [List.cons_append]; simp only [expandLoop, hc]; exact hf⟩
    | some b =>
      obtain ⟨ge, hfind, hstore⟩ := hpre x (List.mem_cons_self _ _) b hc
      cases hl : ge.label with
      | none =>
        obtain ⟨f, hf⟩ := ih hpre' (i + 1)
          (expanded ++ (((h.LabelStore_Get_ALL (storeType ge) graphName).take 128).foldl
            (fun properties s =>
              match s.label with
              | none => properties
              | some _ => s.properties.foldl raxInsert properties) raxNew).map (fun prop =>
              New_AST_ReturnElementNode
                (New_AST_AR_EXP_VariableOperandNode (ge.alias_.getD "") (some prop)) x.alias_))
          (freed ++ [i])
        exact ⟨f, by
          rw [List.cons_append]
          simp only [expandLoop, hc, hm, findCollapsedEntity_named b _ hnamed, hfind,
            collapsedProperties, hl]
          exact hf⟩
      | some label =>
        cases hs : h.LabelStore_Get (storeType ge) graphName label with
        | none =>
          have := hstore label hl
          rw [hs] at this
          exact absurd this (by decide)
        | some store =>
          obtain ⟨f, hf⟩ := ih hpre' (i + 1)
            (expanded ++ store.properties.map (fun prop =>
              New_AST_ReturnElementNode
                (New_AST_AR_EXP_VariableOperandNode (ge.alias_.getD "") (some prop)) x.alias_))
            (freed ++ [i])
          exact ⟨f, by
            rw [List.cons_append]
            simp only [expandLoop, hc, hm, findCollapsedEntity_named b _ hnamed, hfind,
              collapsedProperties, hl, hs]
            exact hf⟩

/-- C15, the failing input: when a collapsed return element names an alias
that no entity of the match clause has (and the collapsed elements before it
name entities whose label, if any, has a label store),
`ReturnClause_ExpandCollapsedNodes` prints one line and returns. No error
reaches the caller: the outcome is that of a call that ran to its end, and the
return clause is not overridden, so that it still holds the collapsed elements
the scan has freed on its way. -/
theorem expandCollapsedNodes_unknown_alias (h : LabelStoreHost) (graphName : Bytes)
    (ast : AST_QueryExpressionNode) (r : AST_ReturnNode) (m : AST_MatchNode)
    (pre : List AST_ReturnElementNode) (e : AST_ReturnElementNode)
    (post : List AST_ReturnElementNode) (a : String)
    (hr : ast.returnNode = some r) (hm : ast.matchNode = some m)
    (hnamed : ∀ ge ∈ m.graphEntities, ge.alias_ ≠ none)
    (hsplit : r.returnElements = pre ++ e :: post)
    (hpre : ∀ x ∈ pre, ∀ b, collapsedAlias x.exp = some b →
      ∃ ge, m.graphEntities.find? (fun ge => decide (ge.alias_ = some b)) = some ge ∧
        ∀ label, ge.label = some label →
          (h.LabelStore_Get (storeType ge) graphName label).isSome = true)
    (he : collapsedAlias e.exp = some a) (ha : ∀ ge ∈ m.graphEntities, ge.alias_ ≠ some a) :
    ∃ freed, ReturnClause_ExpandCollapsedNodes h ast graphName
      = .ok ⟨r.returnElements, freed, ["Error, could not find collapsed entity\n"]⟩ := by
  obtain ⟨f, hf⟩ := expandLoop_unknown h graphName ast m r.returnElements hm hnamed pre e post a
    hpre he ha 0 [] []
  exact ⟨f, by simp only [ReturnClause_ExpandCollapsedNodes, hr]; rw [hsplit] at hf ⊢; exact hf⟩

/-- C15 on `MATCH (a:Person)-[e]->(b) RETURN a, zz, b.name`. -/
theorem expandCollapsedNodes_unknown_alias_witness :
    ∃ freed, ReturnClause_ExpandCollapsedNodes (personStores ["name"]) unknownAliasQuery (str "g")
      = .ok ⟨[⟨.variadic "a" none, none⟩, ⟨.variadic "zz" none, none⟩,
          ⟨.variadic "b" (some "name"), none⟩], freed,
          ["Error, could not find collapsed entity\n"]⟩ :=
  expandCollapsedNodes_unknown_alias (personStores ["name"]) (str "g") unknownAliasQuery
    ⟨[⟨.variadic "a" none, none⟩, ⟨.variadic "zz" none, none⟩,
      ⟨.variadic "b" (some "name"), none⟩]⟩
    ⟨[⟨some "a", some "Person", none, .N_ENTITY, .N_DIR_UNKNOWN⟩,
      linkEntity "e" none .N_LEFT_TO_RIGHT, nodeEntity "b"]⟩
    [⟨.variadic "a" none, none⟩] ⟨.variadic "zz" none, none⟩ [⟨.variadic "b" (some "name"), none⟩]
    "zz" rfl rfl (by decide) rfl
    (by
      intro x hx b hb
      simp only [List.mem_singleton] at hx
      subst hx
      simp only [collapsedAlias, Option.some.injEq] at hb
      subst hb
      refine ⟨⟨some "a", some "Person", none, .N_ENTITY, .N_DIR_UNKNOWN⟩, by decide, ?_⟩
      intro label hl
      simp only [Option.some.injEq] at hl
      subst hl
      decide)
    rfl (by decide)

/-- C15 on `MATCH (a:Person) RETURN zz`: the call does not end in an error. It
returns like a call that ran to its end, the return clause still is `zz`, and
all there is of the failure is a printed line. -/
theorem expandCollapsedNodes_no_error :
    ReturnClause_ExpandCollapsedNodes (personStores ["name"]) missingAliasQuery (str "g")
      = .ok ⟨[⟨.variadic "zz" none, none⟩], [],
          ["Error, could not find collapsed entity\n"]⟩ := by
  rfl

/-! ## Group keys -/

theorem cString_append_zero (a r : Bytes) (h : ∀ x ∈ a, x ≠ 0) : cString (a ++ 0 :: r) = a := by
  induction a with
  | nil => simp [cString, List.takeWhile]
  | cons x a ih =>
    have hx : x ≠ 0 := h x (List.mem_cons_self _ _)
    have ih' := ih (fun y hy => h y (List.mem_cons_of_mem _ hy))
    unfold cString at ih' ⊢
    simpa [List.takeWhile, hx] using ih'

theorem strlen_padded (a : Bytes) (k : Nat) (h : ∀ x ∈ a, x ≠ 0) :
    strlen (a ++ List.replicate (k + 1) 0) = some a.length := by
  unfold strlen
  rw [List.replicate_succ, cString_append_zero a _ h]
  simp

theorem strcat_padded (a s : Bytes) (k : Nat) (h : ∀ x ∈ a, x ≠ 0)
    (hk : (cString s).length + 1 ≤ k) :
    strcat (a ++ List.replicate k 0) s
      = some ((a ++ cString s) ++ List.replicate (k - (cString s).length) 0) := by
  obtain ⟨j, rfl⟩ : ∃ j, k = (cString s).length + 1 + j := ⟨k - ((cString s).length + 1), by omega⟩
  have hlen : strlen (a ++ List.replicate ((cString s).length + 1 + j) 0) = some a.length := by
    have := strlen_padded a ((cString s).length + j) h
    rwa [show (cString s).length + j + 1 = (cString s).length + 1 + j by omega] at this
  unfold strcat
  rw [hlen]
  simp only [List.length_append, List.length_singleton, List.length_replicate]
  rw [if_pos (by omega)]
  congr 1
  have h1 : List.take a.length (a ++ List.replicate ((cString s).length + 1 + j) 0) = a := by
    simp
  have h2 : List.drop (a.length + ((cString s).length + 1))
      (a ++ List.replicate ((cString s).length + 1 + j) 0) = List.replicate j 0 := by
    rw [List.drop_append_eq_append_drop]
    simp
  rw [h1, h2]
  have h3 : (cString s).length + 1 + j - (cString s).length = j + 1 := by omega
  rw [h3, List.replicate_succ]
  simp

theorem trailedWith_nulFree (d : Bytes) (l : List Bytes) (hd : ∀ x ∈ d, x ≠ 0)
    (hl : ∀ s ∈ l, ∀ x ∈ s, x ≠ 0) : ∀ x ∈ trailedWith d l, x ≠ 0 := by
  induction l with
  | nil => simp [trailedWith]
  | cons s l ih =>
    intro x hx
    simp only [trailedWith, List.mem_append] at hx
    rcases hx with (hx | hx) | hx
    · exact hl s (List.mem_cons_self _ _) x hx
    · exact hd x hx
    · exact ih (fun t ht => hl t (List.mem_cons_of_mem _ ht)) x hx

theorem length_trailedWith (d : Bytes) (l : List Bytes) :
    (trailedWith d l).length = (l.map List.length).sum + d.length * l.length := by
  induction l with
  | nil => simp [trailedWith]
  | cons s l ih =>
    simp only [trailedWith, List.length_append, ih, List.map_cons, List.sum_cons,
      List.length_cons, Nat.mul_succ]
    omega

theorem length_cString_le (b : Bytes) : (cString b).length ≤ b.length := by
  unfold cString
  exact (List.takeWhile_sublist _).length_le

theorem sum_length_cString_le (l : List Bytes) :
    ((l.map cString).map List.length).sum ≤ (l.map List.length).sum := by
  induction l with
  | nil => simp
  | cons s l ih =>
    simp only [List.map_cons, List.sum_cons]
    have := length_cString_le s
    omega

theorem concatLoop_padded (d : Bytes) (l : List Bytes) (a : Bytes) (k : Nat)
    (h : ∀ x ∈ a, x ≠ 0)
    (hk : (trailedWith (cString d) (l.map cString)).length + 1 ≤ k) :
    concatLoop d l (a ++ List.replicate k 0)
      = some ((a ++ trailedWith (cString d) (l.map cString))
          ++ List.replicate (k - (trailedWith (cString d) (l.map cString)).length) 0) := by
  induction l generalizing a k with
  | nil => simp [concatLoop, trailedWith]
  | cons s l ih =>
    simp only [List.map_cons, trailedWith, List.length_append] at hk
    have h1 := strcat_padded a s k h (by omega)
    have ha1 : ∀ x ∈ a ++ cString s, x ≠ 0 := by
      intro x hx
      rcases List.mem_append.mp hx with hx | hx
      · exact h x hx
      · exact cString_nulFree s x hx
    have h2 := strcat_padded (a ++ cString s) d (k - (cString s).length) ha1 (by omega)
    have ha2 : ∀ x ∈ (a ++ cString s) ++ cString d, x ≠ 0 := by
      intro x hx
      rcases List.mem_append.mp hx with hx | hx
      · exact ha1 x hx
      · exact cString_nulFree d x hx
    have h3 := ih ((a ++ cString s) ++ cString d) (k - (cString s).length - (cString d).length)
      ha2 (by omega)
    simp only [concatLoop, h1, h2, h3, List.map_cons, trailedWith, List.length_append]
    congr 1
    simp only [List.append_assoc]
    congr 5
    omega

theorem trailedWith_eq_joinWith (d : Bytes) (s : Bytes) (l : List Bytes) :
    trailedWith d (s :: l) = joinWith d (s :: l) ++ d := by
  induction l generalizing s with
  | nil => simp [trailedWith, joinWith]
  | cons t l ih =>
    rw [trailedWith, ih t]
    simp [joinWith]

theorem joinWith_nulFree (d : Bytes) (l : List Bytes) (hd : ∀ x ∈ d, x ≠ 0)
    (hl : ∀ s ∈ l, ∀ x ∈ s, x ≠ 0) : ∀ x ∈ joinWith d l, x ≠ 0 := by
  cases l with
  | nil => simp [joinWith]
  | cons s l =>
    intro x hx
    have := trailedWith_nulFree d (s :: l) hd hl x
    rw [trailedWith_eq_joinWith] at this
    exact this (List.mem_append_left _ hx)

/-- The group key `_concatRMStrings` leaves for a vector that is not empty: the
C strings of its elements joined with the C string of the delimiter. -/
theorem concatRMStrings_eq (s : Bytes) (l : List Bytes) (d : Bytes) :
    _concatRMStrings (s :: l) d = .ok (joinWith (cString d) ((s :: l).map cString)) := by
  have hbound : (trailedWith (cString d) ((s :: l).map cString)).length + 1
      ≤ concatLength (s :: l) d := by
    rw [length_trailedWith, concatLength, List.length_map]
    have := sum_length_cString_le (s :: l)
    omega
  have hloop := concatLoop_padded d (s :: l) [] (concatLength (s :: l) d) (by simp) hbound
  simp only [List.nil_append] at hloop
  obtain ⟨j, hj⟩ : ∃ j, concatLength (s :: l) d
      - (trailedWith (cString d) ((s :: l).map cString)).length = j + 1 :=
    ⟨concatLength (s :: l) d - (trailedWith (cString d) ((s :: l).map cString)).length - 1,
      by omega⟩
  rw [hj] at hloop
  have hfree : ∀ x ∈ trailedWith (cString d) ((s :: l).map cString), x ≠ 0 :=
    trailedWith_nulFree _ _ (cString_nulFree d) (by
      intro t ht
      obtain ⟨u, _, rfl⟩ := List.mem_map.mp ht
      exact cString_nulFree u)
  have hjoinfree : ∀ x ∈ joinWith (cString d) ((s :: l).map cString), x ≠ 0 :=
    joinWith_nulFree _ _ (cString_nulFree d) (by
      intro t ht
      obtain ⟨u, _, rfl⟩ := List.mem_map.mp ht
      exact cString_nulFree u)
  have hlen := strlen_padded (trailedWith (cString d) ((s :: l).map cString)) j hfree
  have htr := trailedWith_eq_joinWith (cString d) (cString s) (l.map cString)
  rw [← List.map_cons] at htr
  have hidx : terminatorIndex (trailedWith (cString d) ((s :: l).map cString)
      ++ List.replicate (j + 1) 0) d
      = some (joinWith (cString d) ((s :: l).map cString)).length := by
    unfold terminatorIndex
    rw [hlen, htr, List.length_append]
    simp
  unfold _concatRMStrings
  simp only [hloop, hidx]
  rw [if_pos (by rw [htr]; simp only [List.length_append, List.length_replicate]; omega)]
  congr 1
  rw [htr, List.append_assoc, List.set_append_right _ _ (Nat.le_refl _), Nat.sub_self]
  cases hcd : cString d ++ List.replicate (j + 1) 0 with
  | nil => simp at hcd
  | cons y ys =>
    rw [List.set_cons_zero]
    exact cString_append_zero _ _ hjoinfree

/-! ## The aggregation cache -/

theorem stepLoop_spec {R A V : Type} (host : AggregationHost R A V) (vals : List Bytes) (i : Nat)
    (funcs : List A) (h : i + vals.length ≤ funcs.length) :
    ∃ funcs', stepLoop host vals i funcs = some funcs' ∧ funcs'.length = funcs.length ∧
      ∀ (j : Nat) (c : A), funcs[j]? = some c →
        funcs'[j]? = some (stepWith host c (if i ≤ j then vals[j - i]? else none)) := by
  induction vals generalizing i funcs with
  | nil =>
    refine ⟨funcs, rfl, rfl, fun j c hc => ?_⟩
    simp [stepWith, hc]
  | cons v rest ih =>
    simp only [List.length_cons] at h
    have hi : i < funcs.length := by omega
    obtain ⟨funcs', h1, h2, h3⟩ :=
      ih (i + 1) (funcs.set i (host.Agg_Step funcs[i] (host.SI_ParseValue v) 1))
        (by simp only [List.length_set]; omega)
    refine ⟨funcs', ?_, by simpa using h2, fun j c hc => ?_⟩
    · simp only [stepLoop, List.getElem?_eq_getElem hi, h1]
    · by_cases hj : j = i
      · subst hj
        have hc' : funcs[j] = c := by
          rw [List.getElem?_eq_getElem hi] at hc
          exact Option.some.inj hc
        rw [h3 j (host.Agg_Step funcs[j] (host.SI_ParseValue v) 1)
          (by simp [List.getElem?_set_self, hi])]
        simp [stepWith, hc']
      · rw [h3 j c (by rw [List.getElem?_set_ne (Ne.symm hj)]; exact hc)]
        by_cases hij : i ≤ j
        · have h4 : i + 1 ≤ j := by omega
          obtain ⟨d, rfl⟩ : ∃ d, j = i + 1 + d := ⟨j - (i + 1), by omega⟩
          have e1 : i + 1 + d - (i + 1) = d := by omega
          have e2 : i + 1 + d - i = d + 1 := by omega
          simp only [h4, hij, if_true, e1, e2, List.getElem?_cons_succ]
        · have h4 : ¬ (i + 1 ≤ j) := by omega
          simp only [h4, hij, if_false]

theorem cacheGroupGet_none {A : Type} (cache : GroupCache A) (k : Bytes) :
    CacheGroupGet cache k = none ↔ ∀ entry ∈ cache, entry.1 ≠ k := by
  induction cache with
  | nil => simp [CacheGroupGet]
  | cons e rest ih =>
    by_cases h : e.1 = k
    · simp [CacheGroupGet, h]
    · simp [CacheGroupGet, h, ih]

theorem cacheGroupGet_some {A : Type} (cache : GroupCache A) (k : Bytes) (grp : Group A)
    (h : CacheGroupGet cache k = some grp) : (k, grp) ∈ cache := by
  induction cache with
  | nil => simp [CacheGroupGet] at h
  | cons e rest ih =>
    by_cases he : e.1 = k
    · simp only [CacheGroupGet, he, if_true, Option.some.injEq] at h
      subst h
      subst he
      exact List.mem_cons_self _ _
    · simp only [CacheGroupGet, he, if_false] at h
      exact List.mem_cons_of_mem _ (ih h)

theorem cacheGroupGet_append {A : Type} (cache : GroupCache A) (k : Bytes) (grp : Group A)
    (h : CacheGroupGet cache k = none) : CacheGroupGet (cache ++ [(k, grp)]) k = some grp := by
  induction cache with
  | nil => simp [CacheGroupGet]
  | cons e rest ih =>
    by_cases he : e.1 = k
    · simp [CacheGroupGet, he] at h
    · simp only [CacheGroupGet, he, if_false] at h
      simp only [List.cons_append, CacheGroupGet, he, if_false]
      exact ih h

theorem cacheUpdate_keys {A : Type} (cache : GroupCache A) (k : Bytes) (grp : Group A) :
    (cacheUpdate cache k grp).map (fun entry => entry.1) = cache.map (fun entry => entry.1) := by
  induction cache with
  | nil => rfl
  | cons e rest ih =>
    by_cases he : e.1 = k
    · simp [cacheUpdate, he]
    · simp [cacheUpdate, he, ih]

theorem mem_cacheUpdate {A : Type} (cache : GroupCache A) (k : Bytes) (grp : Group A)
    (hk : ∃ entry ∈ cache, entry.1 = k)
    (hnodup : (cache.map (fun entry => entry.1)).Nodup) (x : Bytes × Group A) :
    x ∈ cacheUpdate cache k grp ↔ x = (k, grp) ∨ (x ∈ cache ∧ x.1 ≠ k) := by
  induction cache with
  | nil => simp at hk
  | cons e rest ih =>
    simp only [List.map_cons, List.nodup_cons, List.mem_map, not_exists, not_and] at hnodup
    by_cases he : e.1 = k
    · simp only [cacheUpdate, he, if_true, List.mem_cons]
      constructor
      · rintro (h | h)
        · exact Or.inl h
        · refine Or.inr ⟨Or.inr h, fun hx => ?_⟩
          exact hnodup.1 x h (by rw [hx, he])
      · rintro (h | ⟨h | h, hne⟩)
        · exact Or.inl h
        · subst h
          exact absurd he hne
        · exact Or.inr h
    · have hk' : ∃ entry ∈ rest, entry.1 = k := by
        obtain ⟨y, hy, hyk⟩ := hk
        rcases List.mem_cons.mp hy with rfl | hy
        · exact absurd hyk he
        · exact ⟨y, hy, hyk⟩
      simp only [cacheUpdate, he, if_false, List.mem_cons, ih hk' hnodup.2]
      constructor
      · rintro (h | h | ⟨h, hne⟩)
        · subst h
          exact Or.inr ⟨Or.inl rfl, he⟩
        · exact Or.inl h
        · exact Or.inr ⟨Or.inr h, hne⟩
      · rintro (h | ⟨h | h, hne⟩)
        · exact Or.inr (Or.inl h)
        · exact Or.inl h
        · exact Or.inr (Or.inr ⟨h, hne⟩)

theorem cString_comma : cString (str ",") = str "," := by decide

theorem concatRMStrings_groupKey (keys : List Bytes) (h : keys ≠ []) :
    _concatRMStrings keys (str ",") = .ok (groupKeyString keys) := by
  cases keys with
  | nil => exact absurd rfl h
  | cons s l => rw [concatRMStrings_eq, cString_comma]; rfl

theorem stepsOf_append {R A V : Type} (host : AggregationHost R A V) (returnTree : R) (i : Nat)
    (fresh : A) (l : List Graph) (g : Graph) :
    stepsOf host returnTree i fresh (l ++ [g])
      = stepWith host (stepsOf host returnTree i fresh l)
          (host.ReturnClause_RetriveGroupAggVals returnTree g)[i]? := by
  simp [stepsOf, List.foldl_append]

theorem aggregateRecord_inv {R A V : Type} (host : AggregationHost R A V) (returnTree : R)
    (done : List Graph) (cache : GroupCache A) (g : Graph)
    (hinv : CacheInv host returnTree done cache)
    (hkeys : host.ReturnClause_RetriveGroupKeys returnTree g ≠ [])
    (hvals : (host.ReturnClause_RetriveGroupAggVals returnTree g).length
      = (host.ReturnClause_GetAggFuncs returnTree).length) :
    ∃ cache', _aggregateRecord host returnTree g cache = .ok cache' ∧
      CacheInv host returnTree (done ++ [g]) cache' := by
  obtain ⟨hnodup, hcover, hgroups⟩ := hinv
  obtain ⟨k, hk⟩ : ∃ k, k = groupKeyString (host.ReturnClause_RetriveGroupKeys returnTree g) :=
    ⟨_, rfl⟩
  have hconcat := concatRMStrings_groupKey _ hkeys
  rw [← hk] at hconcat
  cases hget : CacheGroupGet cache k with
  | none =>
    have habsent := (cacheGroupGet_none cache k).mp hget
    obtain ⟨funcs', hs1, hs2, hs3⟩ := stepLoop_spec host
      (host.ReturnClause_RetriveGroupAggVals returnTree g) 0
      (host.ReturnClause_GetAggFuncs returnTree) (by omega)
    have hget' := cacheGroupGet_append cache k
      (NewGroup (host.ReturnClause_RetriveGroupKeys returnTree g)
        (host.ReturnClause_GetAggFuncs returnTree)) hget
    have hnodup' : ((cache ++ [(k, NewGroup (host.ReturnClause_RetriveGroupKeys returnTree g)
        (host.ReturnClause_GetAggFuncs returnTree))]).map (fun entry => entry.1)).Nodup := by
      rw [List.map_append, List.map_singleton]
      refine List.Nodup.append hnodup (List.nodup_singleton _) ?_
      intro x hx hx'
      rw [List.mem_singleton] at hx'
      subst hx'
      obtain ⟨y, hy, hyk⟩ := List.mem_map.mp hx
      exact habsent y hy hyk
    have hmem := mem_cacheUpdate
      (cache ++ [(k, NewGroup (host.ReturnClause_RetriveGroupKeys returnTree g)
        (host.ReturnClause_GetAggFuncs returnTree))]) k
      ⟨host.ReturnClause_RetriveGroupKeys returnTree g, funcs'⟩
      ⟨_, List.mem_append_right _ (List.mem_singleton_self _), rfl⟩ hnodup'
    refine ⟨cacheUpdate (cache ++ [(k, NewGroup (host.ReturnClause_RetriveGroupKeys returnTree g)
        (host.ReturnClause_GetAggFuncs returnTree))]) k
      ⟨host.ReturnClause_RetriveGroupKeys returnTree g, funcs'⟩, ?_, ?_, ?_, ?_⟩
    · simp only [_aggregateRecord, hconcat, hget, CacheGroupAdd, hget', NewGroup, hs1]
      simp only [NewGroup] at hget'
      simp only [hget']
      simp only [hs1]
    · rw [cacheUpdate_keys]
      exact hnodup'
    · intro g' hg'
      rcases List.mem_append.mp hg' with hg' | hg'
      · obtain ⟨entry, he, hek⟩ := hcover g' hg'
        exact ⟨entry, (hmem entry).mpr (Or.inr ⟨List.mem_append_left _ he, habsent entry he⟩),
          hek⟩
      · rw [List.mem_singleton] at hg'
        subst hg'
        exact ⟨_, (hmem _).mpr (Or.inl rfl), hk⟩
    · intro entry he
      rcases (hmem entry).mp he with rfl | ⟨he', hne⟩
      · refine ⟨⟨g, List.mem_append_right _ (List.mem_singleton_self _), hk.symm, rfl⟩, hs2, ?_⟩
        intro i fresh hfresh
        have hfilter : done.filter (fun g' => decide (groupKeyString
            (host.ReturnClause_RetriveGroupKeys returnTree g') = k)) = [] := by
          rw [List.filter_eq_nil_iff]
          intro g' hg' hkg
          obtain ⟨entry, he, hek⟩ := hcover g' hg'
          exact habsent entry he (by rw [hek]; simpa using hkg)
        rw [List.filter_append, hfilter]
        simp only [List.nil_append, List.filter_cons, ← hk, decide_True, if_true, List.filter_nil]
        rw [hs3 i fresh hfresh]
        simp [stepsOf]
      · have hec : entry ∈ cache := by
          rcases List.mem_append.mp he' with h | h
          · exact h
          · rw [List.mem_singleton] at h
            subst h
            exact absurd rfl hne
        obtain ⟨⟨g0, hg0, h1, h2⟩, hlen, hsteps⟩ := hgroups entry hec
        refine ⟨⟨g0, List.mem_append_left _ hg0, h1, h2⟩, hlen, ?_⟩
        intro i fresh hfresh
        rw [hsteps i fresh hfresh, List.filter_append]
        have : ([g].filter (fun g' => decide (groupKeyString
            (host.ReturnClause_RetriveGroupKeys returnTree g') = entry.1))) = [] := by
          simp only [List.filter_cons, ← hk, List.filter_nil]
          rw [if_neg (by simpa using Ne.symm hne)]
        rw [this, List.append_nil]
  | some grp =>
    have hin := cacheGroupGet_some cache k grp hget
    obtain ⟨⟨g0, hg0, h01, h02⟩, hlen0, hsteps0⟩ := hgroups (k, grp) hin
    obtain ⟨funcs', hs1, hs2, hs3⟩ := stepLoop_spec host
      (host.ReturnClause_RetriveGroupAggVals returnTree g) 0 grp.aggregationFunctions
      (by simp only at hlen0; omega)
    have hmem := mem_cacheUpdate cache k ⟨grp.keys, funcs'⟩ ⟨_, hin, rfl⟩ hnodup
    refine ⟨cacheUpdate cache k ⟨grp.keys, funcs'⟩, ?_, ?_, ?_, ?_⟩
    · simp only [_aggregateRecord, hconcat, hget, hs1]
    · rw [cacheUpdate_keys]
      exact hnodup
    · intro g' hg'
      have hex : ∃ entry ∈ cache, entry.1
          = groupKeyString (host.ReturnClause_RetriveGroupKeys returnTree g') := by
        rcases List.mem_append.mp hg' with hg' | hg'
        · exact hcover g' hg'
        · rw [List.mem_singleton] at hg'
          subst hg'
          exact ⟨(k, grp), hin, hk⟩
      obtain ⟨entry, he, hek⟩ := hex
      by_cases hkk : entry.1 = k
      · exact ⟨_, (hmem _).mpr (Or.inl rfl), by rw [← hek, hkk]⟩
      · exact ⟨entry, (hmem entry).mpr (Or.inr ⟨he, hkk⟩), hek⟩
    · intro entry he
      rcases (hmem entry).mp he with rfl | ⟨he', hne⟩
      · refine ⟨⟨g0, List.mem_append_left _ hg0, h01, h02⟩, by simpa using hs2.trans hlen0, ?_⟩
        intro i fresh hfresh
        have hold := hsteps0 i fresh hfresh
        simp only at hold
        rw [List.filter_append]
        simp only [List.filter_cons, ← hk, decide_True, if_true, List.filter_nil]
        rw [stepsOf_append, hs3 i _ hold]
        simp
      · obtain ⟨⟨g1, hg1, h1, h2⟩, hlen, hsteps⟩ := hgroups entry he'
        refine ⟨⟨g1, List.mem_append_left _ hg1, h1, h2⟩, hlen, ?_⟩
        intro i fresh hfresh
        rw [hsteps i fresh hfresh, List.filter_append]
        have : ([g].filter (fun g' => decide (groupKeyString
            (host.ReturnClause_RetriveGroupKeys returnTree g') = entry.1))) = [] := by
          simp only [List.filter_cons, ← hk, List.filter_nil]
          rw [if_neg (by simpa using Ne.symm hne)]
        rw [this, List.append_nil]

theorem aggregateAll_inv {R A V : Type} (host : AggregationHost R A V) (returnTree : R)
    (rest done : List Graph) (cache : GroupCache A)
    (hinv : CacheInv host returnTree done cache)
    (hkeys : ∀ g ∈ rest, host.ReturnClause_RetriveGroupKeys returnTree g ≠ [])
    (hvals : ∀ g ∈ rest, (host.ReturnClause_RetriveGroupAggVals returnTree g).length
      = (host.ReturnClause_GetAggFuncs returnTree).length) :
    ∃ cache', aggregateAll host returnTree rest cache = .ok cache' ∧
      CacheInv host returnTree (done ++ rest) cache' := by
  induction rest generalizing done cache with
  | nil => exact ⟨cache, rfl, by simpa using hinv⟩
  | cons g rest ih =>
    obtain ⟨c1, h1, h2⟩ := aggregateRecord_inv host returnTree done cache g hinv
      (hkeys g (List.mem_cons_self _ _)) (hvals g (List.mem_cons_self _ _))
    obtain ⟨c2, h3, h4⟩ := ih (done ++ [g]) c1 h2
      (fun x hx => hkeys x (List.mem_cons_of_mem _ hx))
      (fun x hx => hvals x (List.mem_cons_of_mem _ hx))
    refine ⟨c2, ?_, by simpa using h4⟩
    simp only [aggregateAll, h1, h3]

/-! ## Groups of an aggregated query -/

theorem cacheInv_clear {R A V : Type} (host : AggregationHost R A V) (returnTree : R) :
    CacheInv host returnTree [] (CacheGroupClear : GroupCache A) := by
  refine ⟨by simp [CacheGroupClear], by simp, by simp [CacheGroupClear]⟩

theorem cacheInv_length {R A V : Type} (host : AggregationHost R A V) (returnTree : R)
    (gs : List Graph) (cache : GroupCache A) (hinv : CacheInv host returnTree gs cache) :
    cache.length = ((gs.map (fun g =>
      groupKeyString (host.ReturnClause_RetriveGroupKeys returnTree g))).dedup).length := by
  obtain ⟨hnodup, hcover, hgroups⟩ := hinv
  rw [← List.length_map cache (fun entry => entry.1)]
  refine List.Perm.length_eq ((List.perm_ext_iff_of_nodup hnodup (List.nodup_dedup _)).mpr ?_)
  intro k
  rw [List.mem_dedup, List.mem_map, List.mem_map]
  constructor
  · rintro ⟨entry, he, rfl⟩
    obtain ⟨⟨g, hg, h1, _⟩, _⟩ := hgroups entry he
    exact ⟨g, hg, h1⟩
  · rintro ⟨g, hg, rfl⟩
    obtain ⟨entry, he, hek⟩ := hcover g hg
    exact ⟨entry, he, hek⟩

theorem dedup_length_map_of_injOn {α β : Type} [DecidableEq α] [DecidableEq β] (f : α → β)
    (l : List α) (hinj : ∀ a ∈ l, ∀ b ∈ l, f a = f b → a = b) :
    ((l.map f).dedup).length = (l.dedup).length := by
  have hnodup : (l.dedup.map f).Nodup :=
    List.Nodup.map_on (fun a ha b hb hab =>
      hinj a (List.mem_dedup.mp ha) b (List.mem_dedup.mp hb) hab) (List.nodup_dedup l)
  rw [← List.length_map l.dedup f]
  refine List.Perm.length_eq ((List.perm_ext_iff_of_nodup (List.nodup_dedup _) hnodup).mpr ?_)
  intro b
  simp only [List.mem_dedup, List.mem_map]

/-- C16, amended: for assignments whose group-key tuples are not empty and of
which no two distinct ones give the same comma-joined string (and for which
there is one value to aggregate per aggregation function), running
`_aggregateRecord` once per assignment on the cleared cache leaves as many
groups as there are distinct group-key tuples among the assignments: every
tuple has its group, every group has the tuple of an assignment and is stored
under its joined string, and the aggregation context at every position of a
group is the fresh context after one `Agg_Step` per assignment of the group,
in the order of the assignments and with their values at this position. -/
theorem aggregateAll_groups {R A V : Type} (host : AggregationHost R A V) (returnTree : R)
    (gs : List Graph)
    (hkeys : ∀ g ∈ gs, host.ReturnClause_RetriveGroupKeys returnTree g ≠ [])
    (hvals : ∀ g ∈ gs, (host.ReturnClause_RetriveGroupAggVals returnTree g).length
      = (host.ReturnClause_GetAggFuncs returnTree).length)
    (hinj : ∀ g ∈ gs, ∀ g' ∈ gs,
      groupKeyString (host.ReturnClause_RetriveGroupKeys returnTree g)
          = groupKeyString (host.ReturnClause_RetriveGroupKeys returnTree g') →
        host.ReturnClause_RetriveGroupKeys returnTree g
          = host.ReturnClause_RetriveGroupKeys returnTree g') :
    ∃ cache : GroupCache A,
      aggregateAll host returnTree gs CacheGroupClear = .ok cache ∧
        cache.length
          = ((gs.map (host.ReturnClause_RetriveGroupKeys returnTree)).dedup).length ∧
        (∀ g ∈ gs, ∃ entry ∈ cache,
          entry.2.keys = host.ReturnClause_RetriveGroupKeys returnTree g) ∧
        ∀ entry ∈ cache,
          (∃ g ∈ gs, host.ReturnClause_RetriveGroupKeys returnTree g = entry.2.keys) ∧
            entry.1 = groupKeyString entry.2.keys ∧
            entry.2.aggregationFunctions.length
              = (host.ReturnClause_GetAggFuncs returnTree).length ∧
            ∀ (i : Nat) (fresh : A),
              (host.ReturnClause_GetAggFuncs returnTree)[i]? = some fresh →
                entry.2.aggregationFunctions[i]? = some (stepsOf host returnTree i fresh
                  (gs.filter (fun g =>
                    decide (host.ReturnClause_RetriveGroupKeys returnTree g = entry.2.keys)))) := by
  obtain ⟨cache, hrun, hinv⟩ := aggregateAll_inv host returnTree gs [] CacheGroupClear
    (cacheInv_clear host returnTree) hkeys hvals
  rw [List.nil_append] at hinv
  have hlen := cacheInv_length host returnTree gs cache hinv
  obtain ⟨_, hcover, hgroups⟩ := hinv
  refine ⟨cache, hrun, ?_, ?_, ?_⟩
  · rw [hlen, ← dedup_length_map_of_injOn groupKeyString
      (gs.map (host.ReturnClause_RetriveGroupKeys returnTree)), List.map_map]
    · rfl
    · intro a ha b hb hab
      obtain ⟨g, hg, rfl⟩ := List.mem_map.mp ha
      obtain ⟨g', hg', rfl⟩ := List.mem_map.mp hb
      exact hinj g hg g' hg' hab
  · intro g hg
    obtain ⟨entry, he, hek⟩ := hcover g hg
    obtain ⟨⟨g0, hg0, h1, h2⟩, _⟩ := hgroups entry he
    exact ⟨entry, he, by rw [← h2]; exact hinj g0 hg0 g hg (by rw [h1, hek])⟩
  · intro entry he
    obtain ⟨⟨g0, hg0, h1, h2⟩, hl, hsteps⟩ := hgroups entry he
    refine ⟨⟨g0, hg0, h2⟩, by rw [← h1, h2], hl, ?_⟩
    intro i fresh hfresh
    rw [hsteps i fresh hfresh]
    congr 2
    apply List.filter_congr
    intro g hg
    congr 1
    apply propext
    constructor
    · intro hk
      rw [← h2]
      exact hinj g hg g0 hg0 (by rw [hk, h1])
    · intro ht
      rw [← h1, ← h2] at *
      rw [ht]

/-- C16 on the edges `(alice, likes, x)`, `(alice, likes, y)`, `(bob, likes,
x)` with `RETURN a, count(b)`: two groups, `alice` with count 2 and `bob` with
count 1. -/
theorem aggregateAll_groups_witness :
    aggregateAll countHost () likesAssignments CacheGroupClear
        = .ok [(str "alice", ⟨[str "alice"], [2]⟩), (str "bob", ⟨[str "bob"], [1]⟩)] ∧
      ∃ cache : GroupCache Nat,
        aggregateAll countHost () likesAssignments CacheGroupClear = .ok cache ∧
          cache.length = 2 :=
  ⟨by decide,
    (aggregateAll_groups countHost () likesAssignments (by decide) (by decide)
      (by decide)).imp (fun _ h => ⟨h.1, h.2.1.trans (by decide)⟩)⟩

/-- The aggregated query `MATCH (a)-[e]->(b) RETURN a, count(b)` on `likesDb`:
the traversal visits the assignments `likesAssignments` and leaves the groups
`alice` with count 2 and `bob` with count 1, in this order. -/
theorem aggregation_scenario :
    startTraversal (aggregatingCtx countHost likesDb (str "g") ()) 4 oneHopGraph
        ⟨[], none, true⟩ (.ok CacheGroupClear)
      = .ok ⟨oneHopGraph, [], ⟨[], none, true⟩,
          .ok [(str "alice", ⟨[str "alice"], [2]⟩), (str "bob", ⟨[str "bob"], [1]⟩)]⟩ := by
  rfl

/-- C16 as stated fails on the edges `(x,y, r, z)` and `(x, r, y,z)` with
`RETURN a, b, count(e)`: the two assignments have the distinct group-key
tuples `("x,y", "z")` and `("x", "y,z")`, yet the cache holds one group after
both have been aggregated, also when the traversal does it. -/
theorem aggregateAll_comma_merges_groups :
    ((commaAssignments.map (pairCountHost.ReturnClause_RetriveGroupKeys ())).dedup).length = 2 ∧
      aggregateAll pairCountHost () commaAssignments CacheGroupClear
        = .ok [(str "x,y,z", ⟨[str "x,y", str "z"], [2]⟩)] ∧
      startTraversal (aggregatingCtx pairCountHost commaDb (str "g") ()) 4 oneHopGraph
          ⟨[], none, true⟩ (.ok CacheGroupClear)
        = .ok ⟨oneHopGraph, [], ⟨[], none, true⟩,
            .ok [(str "x,y,z", ⟨[str "x,y", str "z"], [2]⟩)]⟩ :=
  ⟨by decide, by decide, by rfl⟩

/-! ## The joined string -/

theorem joinWith_eq_intercalate (d : Bytes) : ∀ l : List Bytes, joinWith d l = d.intercalate l
  | [] => by simp [joinWith, List.intercalate]
  | [s] => by simp [joinWith, List.intercalate]
  | s :: t :: rest => by
    have ih := joinWith_eq_intercalate d (t :: rest)
    simp only [joinWith, ih, List.intercalate, List.intersperse, List.flatten_cons,
      List.append_assoc]

/-- C17: for a vector of NUL-free strings that is not empty and a delimiter (a
C string), `_concatRMStrings` returns, and `*concat` then holds the strings in
vector order with the delimiter between consecutive ones and none after the
last, which is `List.intercalate`. -/
theorem concatRMStrings_joins (rmStrings : List Bytes) (delimiter : Bytes)
    (hne : rmStrings ≠ []) (hfree : ∀ s ∈ rmStrings, ∀ x ∈ s, x ≠ 0)
    (hdelimiter : ∀ x ∈ delimiter, x ≠ 0) :
    _concatRMStrings rmStrings delimiter = .ok (joinWith delimiter rmStrings) ∧
      joinWith delimiter rmStrings = delimiter.intercalate rmStrings := by
  refine ⟨?_, joinWith_eq_intercalate delimiter rmStrings⟩
  cases rmStrings with
  | nil => exact absurd rfl hne
  | cons s l =>
    have hmap : (s :: l).map cString = (s :: l).map id :=
      List.map_congr_left (fun t ht => cString_of_nulFree t (hfree t ht))
    rw [concatRMStrings_eq, cString_of_nulFree delimiter hdelimiter, hmap, List.map_id]

/-- C17 on the key values `alice` and `x` with the delimiter `,`. -/
theorem concatRMStrings_joins_witness :
    _concatRMStrings [str "alice", str "x"] (str ",") = .ok (str "alice,x") :=
  (concatRMStrings_joins [str "alice", str "x"] (str ",") (by decide) (by decide)
    (by decide)).1.trans (by decide)

/-! ## Colliding group keys -/

/-- C18: the distinct group-key tuples `("a,b", "c")` and `("a", "b,c")` get
the same group-key string `a,b,c` from `_concatRMStrings` with the delimiter
`,`; `_aggregateRecord` creates the group for an assignment with the first
tuple and finds this group for an assignment with the second, so that the one
group holds the steps of both. -/
theorem groupKey_collision :
    [str "a,b", str "c"] ≠ [str "a", str "b,c"] ∧
      _concatRMStrings [str "a,b", str "c"] (str ",") = .ok (str "a,b,c") ∧
      _concatRMStrings [str "a", str "b,c"] (str ",") = .ok (str "a,b,c") ∧
      collisionAssignments.map (pairCountHost.ReturnClause_RetriveGroupKeys ())
        = [[str "a,b", str "c"], [str "a", str "b,c"]] ∧
      _aggregateRecord pairCountHost () (bindEdge oneHopGraph 0 0 1 (str "a,b", str "r", str "c"))
          CacheGroupClear
        = .ok [(str "a,b,c", ⟨[str "a,b", str "c"], [1]⟩)] ∧
      _aggregateRecord pairCountHost () (bindEdge oneHopGraph 0 0 1 (str "a", str "r", str "b,c"))
          [(str "a,b,c", ⟨[str "a,b", str "c"], [1]⟩)]
        = .ok [(str "a,b,c", ⟨[str "a,b", str "c"], [2]⟩)] ∧
      aggregateAll pairCountHost () collisionAssignments CacheGroupClear
        = .ok [(str "a,b,c", ⟨[str "a,b", str "c"], [2]⟩)] :=
  ⟨by decide, by decide, by decide, by decide, by decide, by decide, by decide⟩

/-! ## The bounds of the range scan -/

/-- C19: for every triplet, `queryTriplet` scans the range whose bounds are
`queryTripletBounds`: `min` is `[` followed by `TripletToString`, but `max` is
`[`, `TripletToString`, the byte `0xFF` and a further byte, the terminator
`0x00`; `max` is two bytes longer than `min` and differs from `[`,
`TripletToString`, `0xFF`. -/
theorem queryTriplet_max_has_terminator (db : KeySpace) (graph : Bytes) (triplet : Triplet) :
    queryTriplet db graph triplet
        = (match RedisModule_ZsetFirstInLexRange (db graph) (queryTripletBounds triplet).1
            (queryTripletBounds triplet).2 with
          | none => []
          | some cursor => cursor) ∧
      (queryTripletBounds triplet).1 = [91] ++ TripletToString triplet ∧
      (queryTripletBounds triplet).2 = [91] ++ TripletToString triplet ++ [255, 0] ∧
      (queryTripletBounds triplet).2 ≠ [91] ++ TripletToString triplet ++ [255] ∧
      (queryTripletBounds triplet).2.length = (queryTripletBounds triplet).1.length + 2 := by
  have hmin : (queryTripletBounds triplet).1 = [91] ++ TripletToString triplet := by
    simp [queryTripletBounds]
  have hmax : (queryTripletBounds triplet).2 = [91] ++ TripletToString triplet ++ [255, 0] := by
    simp only [queryTripletBounds]
    exact List.take_of_length_le (by simp)
  refine ⟨?_, hmin, hmax, ?_, ?_⟩
  · rw [hmin, hmax]
    rfl
  · rw [hmax]
    intro h
    have := congrArg List.length h
    simp at this
  · rw [hmin, hmax]
    simp

/-- The bounds for the triplet without a bound coordinate: `min` is `[spo:`,
`max` is `[spo:` followed by `0xFF 0x00`. A member `spo:` `0xFF 0x00` of the
sorted set is inside the range that is scanned, and above `spo:` `0xFF`. -/
theorem queryTriplet_bounds_example :
    queryTripletBounds ⟨none, none, none⟩ = (str "[spo:", str "[spo:" ++ [255, 0]) ∧
      queryTriplet ffNulDb (str "g") ⟨none, none, none⟩ = [str "spo:" ++ [255, 0]] ∧
      belowMax (.inclusive (str "spo:" ++ [255])) (str "spo:" ++ [255, 0]) = false :=
  ⟨by decide, by decide, by decide⟩

/-! ## The group key of an empty vector -/

/-- C20: for the empty key vector and the delimiter `,`, `_concatRMStrings`
allocates one byte, and the index `strlen(*concat) - strlen(delimiter)` at
which it writes the terminator is `2 ^ 64 - 1`, which is not inside the
buffer: the write is a fault, in `_aggregateRecord` and in the traversal of
`MATCH (a)-[e]->(b) RETURN count(b)` as well. -/
theorem concatRMStrings_empty_vector :
    concatLength [] (str ",") = 1 ∧
      concatLoop (str ",") [] (List.replicate (concatLength [] (str ",")) 0) = some [0] ∧
      terminatorIndex [0] (str ",") = some (2 ^ 64 - 1) ∧
      ¬ (2 ^ 64 - 1 < concatLength [] (str ",")) ∧
      _concatRMStrings [] (str ",") = .fault ∧
      _aggregateRecord countOnlyHost ()
          (bindEdge oneHopGraph 0 0 1 (str "alice", str "likes", str "x")) CacheGroupClear
        = .fault ∧
      startTraversal (aggregatingCtx countOnlyHost likesDb (str "g") ()) 4 oneHopGraph
          ⟨[], none, true⟩ (.ok CacheGroupClear)
        = .ok ⟨oneHopGraph, [], ⟨[], none, true⟩, .fault⟩ :=
  ⟨by decide, by decide, by decide, by decide, by decide, by decide, by rfl⟩

/-- With an empty delimiter the terminator of the empty key vector is written
at index 0, inside the buffer, and the string is empty. -/
theorem concatRMStrings_empty_delimiter : _concatRMStrings [] [] = .ok [] := by
  decide

/-! ## Freshness of the generated aliases -/

theorem digitChar_value : ∀ m, m < 10 → (Nat.digitChar m).toNat - 48 = m := by decide

theorem foldl_toDigitsCore (fuel : Nat) : ∀ (n : Nat) (ds : List Char), n < fuel →
    (Nat.toDigitsCore 10 fuel n ds).foldl (fun acc c => acc * 10 + (c.toNat - 48)) 0
      = ds.foldl (fun acc c => acc * 10 + (c.toNat - 48)) n := by
  induction fuel with
  | zero => intro n ds h; omega
  | succ fuel ih =>
    intro n ds h
    have hd := digitChar_value (n % 10) (Nat.mod_lt _ (by decide))
    by_cases h0 : n / 10 = 0
    · simp only [Nat.toDigitsCore, h0, if_true, List.foldl_cons, Nat.zero_mul, Nat.zero_add, hd]
      congr 1
      omega
    · simp only [Nat.toDigitsCore, h0, if_false]
      rw [ih (n / 10) _ (by omega)]
      simp only [List.foldl_cons, hd]
      congr 1
      omega

/-- The decimal notation of a natural number determines the number. -/
theorem toString_nat_injective (a b : Nat) (h : toString a = toString b) : a = b := by
  have h1 : (Nat.toDigits 10 a) = (Nat.toDigits 10 b) := by
    have := congrArg String.data h
    simpa [toString, Nat.repr] using this
  have ha := foldl_toDigitsCore (a + 1) a [] (by omega)
  have hb := foldl_toDigitsCore (b + 1) b [] (by omega)
  simp only [List.foldl_nil] at ha hb
  unfold Nat.toDigits at h1
  rw [← ha, ← hb, h1]

theorem anon_injective (a b : Nat) (h : "anon_" ++ toString a = "anon_" ++ toString b) :
    a = b := by
  apply toString_nat_injective
  have := congrArg String.data h
  simp only [String.data_append] at this
  exact String.ext (List.append_cancel_left this)

theorem anonymousCount_take_lt (l : List AST_GraphEntity) (i j : Nat) (e : AST_GraphEntity)
    (he : l[i]? = some e) (hanon : e.alias_ = none) (hij : i < j) :
    anonymousCount (l.take i) < anonymousCount (l.take j) := by
  have hi : i < l.length := by
    by_contra hc
    rw [List.getElem?_eq_none (by omega)] at he
    exact Option.noConfusion he
  have h1 : l.take (i + 1) = l.take i ++ [e] := by
    rw [List.take_succ, he]
    rfl
  have h2 : l.take j = l.take (i + 1) ++ (l.take j).drop (i + 1) := by
    have := (List.take_append_drop (i + 1) (l.take j)).symm
    rwa [List.take_take, Nat.min_eq_left (by omega)] at this
  rw [h2, h1, anonymousCount_append, anonymousCount_append]
  simp [anonymousCount, hanon]
  omega

theorem nameAnonymousNodes_getElem (ast : AST_QueryExpressionNode) (i : Nat)
    (e : AST_GraphEntity) (he : (matchEntities ast ++ createEntities ast)[i]? = some e) :
    (matchEntities (nameAnonymousNodes ast) ++ createEntities (nameAnonymousNodes ast))[i]?
      = some (namedAt (matchEntities ast ++ createEntities ast) i e) := by
  rw [matchEntities_nameAnonymousNodes, createEntities_nameAnonymousNodes]
  by_cases hi : i < (matchEntities ast).length
  · rw [List.getElem?_append_left hi] at he
    rw [List.getElem?_append_left (by rw [nameLoop_length]; exact hi),
      nameLoop_getElem _ _ _ _ he]
    simp [namedAt, List.take_append_of_le_length (Nat.le_of_lt hi)]
  · have hi' : (matchEntities ast).length ≤ i := Nat.le_of_not_lt hi
    rw [List.getElem?_append_right hi'] at he
    rw [List.getElem?_append_right (by rw [nameLoop_length]; exact hi'), nameLoop_length,
      nameLoop_getElem _ _ _ _ he]
    simp [namedAt, List.take_append_eq_append_take, List.take_of_length_le hi',
      anonymousCount_append]

/-- C25, amended: after `nameAnonymousNodes` the entity at a position `i` that
had no alias carries `anon_k`, `k` being the number of entities without an
alias before it, and the entity at another position `j` carries the same alias
exactly when the user had written this very alias `anon_k` for it. Two
generated aliases therefore never coincide, and a generated alias is new unless
the user wrote an alias of the generated form. -/
theorem nameAnonymousNodes_fresh (ast : AST_QueryExpressionNode) (i j : Nat)
    (ei ej : AST_GraphEntity)
    (hi : (matchEntities ast ++ createEntities ast)[i]? = some ei)
    (hj : (matchEntities ast ++ createEntities ast)[j]? = some ej)
    (hij : i ≠ j) (hanon : ei.alias_ = none) :
    ∃ ei' ej' : AST_GraphEntity,
      (matchEntities (nameAnonymousNodes ast) ++ createEntities (nameAnonymousNodes ast))[i]?
          = some ei' ∧
        (matchEntities (nameAnonymousNodes ast) ++ createEntities (nameAnonymousNodes ast))[j]?
          = some ej' ∧
        ei'.alias_ = some ("anon_" ++ toString
          (anonymousCount ((matchEntities ast ++ createEntities ast).take i))) ∧
        (ei'.alias_ = ej'.alias_ ↔
          ej.alias_ = some ("anon_" ++ toString
            (anonymousCount ((matchEntities ast ++ createEntities ast).take i)))) := by
  refine ⟨_, _, nameAnonymousNodes_getElem ast i ei hi, nameAnonymousNodes_getElem ast j ej hj,
    by simp [namedAt, hanon], ?_⟩
  cases hja : ej.alias_ with
  | none =>
    simp only [namedAt, hanon, hja, if_true, Option.some.injEq]
    constructor
    · intro h
      have hk := anon_injective _ _ h
      rcases Nat.lt_or_gt_of_ne hij with hlt | hgt
      · have := anonymousCount_take_lt _ i j ei hi hanon hlt
        omega
      · have := anonymousCount_take_lt _ j i ej hj hja hgt
        omega
    · intro h
      exact absurd h (by simp)
  | some a =>
    have hne : ¬ ej.alias_ = none := by rw [hja]; simp
    have hnj : (namedAt (matchEntities ast ++ createEntities ast) j ej).alias_ = some a := by
      unfold namedAt
      rw [if_neg hne]
      exact hja
    have hni : (namedAt (matchEntities ast ++ createEntities ast) i ei).alias_
        = some ("anon_" ++ toString
          (anonymousCount ((matchEntities ast ++ createEntities ast).take i))) := by
      simp only [namedAt, hanon, if_true]
    rw [hni, hnj]
    exact eq_comm

/-- C25 on `MATCH ()-[]->(b) CREATE ()` at the positions 0 and 3: the
generated aliases `anon_0` and `anon_2` differ. -/
theorem nameAnonymousNodes_fresh_witness :
    ∃ ei' ej' : AST_GraphEntity,
      (matchEntities (nameAnonymousNodes
          ⟨some ⟨[⟨none, none, none, .N_ENTITY, .N_DIR_UNKNOWN⟩,
            ⟨none, none, none, .N_LINK, .N_LEFT_TO_RIGHT⟩, nodeEntity "b"]⟩, none,
            some ⟨[⟨none, none, none, .N_ENTITY, .N_DIR_UNKNOWN⟩]⟩, none, none⟩)
        ++ createEntities (nameAnonymousNodes
          ⟨some ⟨[⟨none, none, none, .N_ENTITY, .N_DIR_UNKNOWN⟩,
            ⟨none, none, none, .N_LINK, .N_LEFT_TO_RIGHT⟩, nodeEntity "b"]⟩, none,
            some ⟨[⟨none, none, none, .N_ENTITY, .N_DIR_UNKNOWN⟩]⟩, none, none⟩))[0]?
          = some ei' ∧
        (matchEntities (nameAnonymousNodes
          ⟨some ⟨[⟨none, none, none, .N_ENTITY, .N_DIR_UNKNOWN⟩,
            ⟨none, none, none, .N_LINK, .N_LEFT_TO_RIGHT⟩, nodeEntity "b"]⟩, none,
            some ⟨[⟨none, none, none, .N_ENTITY, .N_DIR_UNKNOWN⟩]⟩, none, none⟩)
        ++ createEntities (nameAnonymousNodes
          ⟨some ⟨[⟨none, none, none, .N_ENTITY, .N_DIR_UNKNOWN⟩,
            ⟨none, none, none, .N_LINK, .N_LEFT_TO_RIGHT⟩, nodeEntity "b"]⟩, none,
            some ⟨[⟨none, none, none, .N_ENTITY, .N_DIR_UNKNOWN⟩]⟩, none, none⟩))[3]?
          = some ej' ∧
        ei'.alias_ = some "anon_0" ∧ ej'.alias_ = some "anon_2" :=
  (nameAnonymousNodes_fresh
    ⟨some ⟨[⟨none, none, none, .N_ENTITY, .N_DIR_UNKNOWN⟩,
      ⟨none, none, none, .N_LINK, .N_LEFT_TO_RIGHT⟩, nodeEntity "b"]⟩, none,
      some ⟨[⟨none, none, none, .N_ENTITY, .N_DIR_UNKNOWN⟩]⟩, none, none⟩
    0 3 ⟨none, none, none, .N_ENTITY, .N_DIR_UNKNOWN⟩ ⟨none, none, none, .N_ENTITY, .N_DIR_UNKNOWN⟩
    rfl rfl (by decide) rfl).imp (fun _ h => h.imp (fun _ h2 =>
      ⟨h2.1, h2.2.1, h2.2.2.1.trans (by decide), by
        have h3 := h2.2.1
        simp only [matchEntities, createEntities, nameAnonymousNodes, _nameAnonymousNodes] at h3
        have h4 : some _ = some _ := h3
        injection h4 with h4
        rw [← h4]
        decide⟩))

/-- C25 as stated fails on `MATCH (anon_0)-[e]->()`: the node without an
alias gets `anon_0`, the alias the user wrote for the first node, and
`BuildGraph` then builds one node with an edge to itself. -/
theorem nameAnonymousNodes_reuses_user_alias :
    (matchEntities (nameAnonymousNodes userAnonQuery)).map (fun e => e.alias_)
        = [some "anon_0", some "e", some "anon_0"] ∧
      (matchEntities userAnonQuery).map (fun e => e.alias_) = [some "anon_0", some "e", none] ∧
      BuildGraph NewGraph (matchEntities (nameAnonymousNodes userAnonQuery))
        = .ok ⟨[⟨some "anon_0", none, none, [], [0], [0]⟩],
            [⟨some "e", some 0, some 0, none, none, []⟩]⟩ :=
  ⟨by decide, by decide, by decide⟩

/-! ## The frame of `QueryNode` -/

/-- What a run leaves alone: the pattern graph with its bindings and the
entry-points stack. -/
theorem advance_frame {F R C : Type} (ctx : QueryCtx F R C)
    (recur : Nat → QueryState C → Outcome (QueryState C))
    (hrec : ∀ m s s', recur m s = .ok s' → s'.g = s.g ∧ s'.entryPoints = s.entryPoints)
    (dest : Nat) (st st' : QueryState C) (h : advance ctx recur dest st = .ok st') :
    st'.g = st.g ∧ st'.entryPoints = st.entryPoints := by
  unfold advance at h
  cases hd : st.g.nodes[dest]? with
  | none => rw [hd] at h; exact Outcome.noConfusion h
  | some destNode =>
    rw [hd] at h
    simp only at h
    by_cases hout : destNode.outgoingEdges.length > 0
    · rw [if_pos hout] at h
      exact hrec dest st st' h
    · rw [if_neg hout] at h
      by_cases hep : st.entryPoints.length > 0
      · rw [if_pos hep] at h
        cases hlast : st.entryPoints.getLast? with
        | none => rw [hlast] at h; exact Outcome.noConfusion h
        | some entryPoint =>
          rw [hlast] at h
          simp only at h
          cases hr : recur entryPoint { st with entryPoints := st.entryPoints.dropLast } with
          | ok s1 =>
            rw [hr] at h
            simp only [Outcome.ok.injEq] at h
            obtain ⟨h1, h2⟩ := hrec _ _ _ hr
            subst h
            refine ⟨h1, ?_⟩
            simp only at h2 ⊢
            rw [h2]
            exact List.dropLast_append_getLast? entryPoint hlast
          | fault => rw [hr] at h; exact Outcome.noConfusion h
          | outOfFuel => rw [hr] at h; exact Outcome.noConfusion h
      · rw [if_neg hep] at h
        split at h
        · split at h
          · simp only [Outcome.ok.injEq] at h; subst h; exact ⟨rfl, rfl⟩
          · simp only [Outcome.ok.injEq] at h; subst h; exact ⟨rfl, rfl⟩
        · simp only [Outcome.ok.injEq] at h; subst h; exact ⟨rfl, rfl⟩

theorem cursorLoop_frame {F R C : Type} (ctx : QueryCtx F R C)
    (recur : Nat → QueryState C → Outcome (QueryState C))
    (hrec : ∀ m s s', recur m s = .ok s' → s'.g = s.g ∧ s'.entryPoints = s.entryPoints)
    (g0 : Graph) (n e d : Nat) (env : (Nat → Option Bytes) × (Nat → Option Bytes)) :
    ∀ (keys : List Bytes) (env' : (Nat → Option Bytes) × (Nat → Option Bytes))
      (st st' : QueryState C),
      AgreeOff env env' n e d → st.g = withBindings g0 env'.1 env'.2 →
      cursorLoop ctx recur n e d keys st = .ok st' →
      ∃ env'', AgreeOff env env'' n e d ∧ st'.g = withBindings g0 env''.1 env''.2 ∧
        st'.entryPoints = st.entryPoints := by
  intro keys
  induction keys with
  | nil =>
    intro env' st st' hag hg h
    simp only [cursorLoop, Outcome.ok.injEq] at h
    subst h
    exact ⟨env', hag, hg, rfl⟩
  | cons k rest ih =>
    intro env' st st' hag hg h
    unfold cursorLoop at h
    by_cases hfull : ResultSet_Full st.returnedSet = true
    · rw [if_pos hfull] at h
      simp only [Outcome.ok.injEq] at h
      subst h
      exact ⟨env', hag, hg, rfl⟩
    · rw [if_neg hfull] at h
      cases hk : tripletOfKey k with
      | none =>
        rw [hk] at h
        simp only [Outcome.ok.injEq] at h
        subst h
        exact ⟨env', hag, hg, rfl⟩
      | some result =>
        rw [hk] at h
        simp only at h
        cases ha : advance ctx recur d
            { st with g := ((st.g.setNodeId n result.subject).setRelationship e
              result.predicate).setNodeId d result.object } with
        | ok s1 =>
          rw [ha] at h
          simp only at h
          obtain ⟨h1, h2⟩ := advance_frame ctx recur hrec d _ _ ha
          simp only at h1 h2
          have hg1 : s1.g = withBindings g0 (bindEnv env n e d result).1
              (bindEnv env n e d result).2 := by
            rw [h1, hg, bind_withBindings, bindEnv_agree env env' n e d result hag]
          obtain ⟨env'', hag'', hg'', hep''⟩ :=
            ih (bindEnv env n e d result) s1 st' (agreeOff_bindEnv env n e d result) hg1 h
          exact ⟨env'', hag'', hg'', hep''.trans h2⟩
        | fault => rw [ha] at h; exact Outcome.noConfusion h
        | outOfFuel => rw [ha] at h; exact Outcome.noConfusion h

theorem restore_bindings (g : Graph) (src edge dest : Nat) (srcNode destNode : Node) (ed : Edge)
    (hs : g.nodes[src]? = some srcNode) (hd : g.nodes[dest]? = some destNode)
    (he : g.edges[edge]? = some ed) (env : (Nat → Option Bytes) × (Nat → Option Bytes))
    (hag : AgreeOff (idOf g, relOf g) env src edge dest) :
    (((withBindings g env.1 env.2).setNodeId src srcNode.id).setRelationship edge
        ed.relationship).setNodeId dest destNode.id = g := by
  have h1 : srcNode.id = (idOf g, relOf g).1 src := by simp [idOf, nodeId, hs]
  have h2 : destNode.id = (idOf g, relOf g).1 dest := by simp [idOf, nodeId, hd]
  have h3 : ed.relationship = (idOf g, relOf g).2 edge := by simp [relOf, he]
  obtain ⟨r1, r2⟩ := restore_agree (idOf g, relOf g) env src edge dest hag
  rw [setNodeId_withBindings, setRelationship_withBindings, setNodeId_withBindings, h1, h2, h3,
    r1, r2]
  exact withBindings_self g

theorem edgeLoop_frame {F R C : Type} (ctx : QueryCtx F R C)
    (recur : Nat → QueryState C → Outcome (QueryState C))
    (hrec : ∀ m s s', recur m s = .ok s' → s'.g = s.g ∧ s'.entryPoints = s.entryPoints)
    (src : Nat) :
    ∀ (edges : List Nat) (st st' : QueryState C),
      edgeLoop ctx recur src edges st = .ok st' →
      st'.g = st.g ∧ st'.entryPoints = st.entryPoints := by
  intro edges
  induction edges with
  | nil =>
    intro st st' h
    simp only [edgeLoop, Outcome.ok.injEq] at h
    subst h
    exact ⟨rfl, rfl⟩
  | cons edge rest ih =>
    intro st st' h
    unfold edgeLoop at h
    by_cases hfull : ResultSet_Full st.returnedSet = true
    · rw [if_pos hfull] at h
      simp only [Outcome.ok.injEq] at h
      subst h
      exact ⟨rfl, rfl⟩
    · rw [if_neg hfull] at h
      cases he : st.g.edges[edge]? with
      | none => rw [he] at h; exact Outcome.noConfusion h
      | some ed =>
        rw [he] at h
        simp only at h
        cases hdest : ed.dest with
        | none => rw [hdest] at h; exact Outcome.noConfusion h
        | some dest =>
          rw [hdest] at h
          simp only at h
          cases hs : st.g.nodes[src]? with
          | none => rw [hs] at h; exact Outcome.noConfusion h
          | some srcNode =>
            cases hd : st.g.nodes[dest]? with
            | none => rw [hs, hd] at h; exact Outcome.noConfusion h
            | some destNode =>
              rw [hs, hd] at h
              simp only at h
              cases hc : cursorLoop ctx recur src edge dest
                  (queryTriplet ctx.db ctx.graphName (TripletFromEdge st.g ed)) st with
              | ok s1 =>
                rw [hc] at h
                simp only at h
                obtain ⟨env, hag, hg1, hep1⟩ := cursorLoop_frame ctx recur hrec st.g src edge dest
                  (idOf st.g, relOf st.g) _ (idOf st.g, relOf st.g) st s1
                  (agreeOff_refl _ _ _ _) (withBindings_self st.g).symm hc
                have hrestore : ((s1.g.setNodeId src srcNode.id).setRelationship edge
                    ed.relationship).setNodeId dest destNode.id = st.g := by
                  rw [hg1]
                  exact restore_bindings st.g src edge dest srcNode destNode ed hs hd he env hag
                rw [hrestore] at h
                obtain ⟨h1, h2⟩ := ih _ st' h
                exact ⟨h1, h2.trans hep1⟩
              | fault => rw [hc] at h; exact Outcome.noConfusion h
              | outOfFuel => rw [hc] at h; exact Outcome.noConfusion h

theorem queryNode_frame_aux {F R C : Type} (ctx : QueryCtx F R C) :
    ∀ (fuel n : Nat) (st st' : QueryState C), QueryNode ctx fuel n st = .ok st' →
      st'.g = st.g ∧ st'.entryPoints = st.entryPoints := by
  intro fuel
  induction fuel with
  | zero => intro n st st' h; exact Outcome.noConfusion h
  | succ fuel ih =>
    intro n st st' h
    unfold QueryNode at h
    cases hn : st.g.nodes[n]? with
    | none => rw [hn] at h; exact Outcome.noConfusion h
    | some src =>
      rw [hn] at h
      exact edgeLoop_frame ctx (QueryNode ctx fuel) (ih) n src.outgoingEdges st st' h

/-- C21: a call of `QueryNode` that returns leaves the pattern graph, with the
id binding of every node and the relationship binding of every edge, and the
entry-points stack, with its contents and their order, exactly as they were on
entry; the result set and the aggregation cache are all that can differ. -/
theorem queryNode_frame {F R C : Type} (ctx : QueryCtx F R C) (fuel n : Nat)
    (st st' : QueryState C) (h : QueryNode ctx fuel n st = .ok st') :
    st'.g = st.g ∧ st'.entryPoints = st.entryPoints ∧
      (∀ i, idOf st'.g i = idOf st.g i) ∧ (∀ j, relOf st'.g j = relOf st.g j) ∧
      st' = { st with returnedSet := st'.returnedSet, cache := st'.cache } := by
  obtain ⟨h1, h2⟩ := queryNode_frame_aux ctx fuel n st st' h
  refine ⟨h1, h2, fun i => by rw [h1], fun j => by rw [h1], ?_⟩
  cases st'
  simp only at h1 h2
  subst h1 h2
  rfl

/-- C21 on the two-hop pattern `(x)-[:r]->(y)-[:r]->(z)` and the index of the
edges `(a, r, b)`, `(b, r, c)`, `(a, r, c)`: the run returns with one more
record, and the state it returns has the pattern graph and the stack of the
call. -/
theorem queryNode_frame_witness :
    ∃ st' : QueryState Unit,
      QueryNode (snapshotCtx threeEdgeDb (str "g")) 4 0 ⟨twoHopGraph, [], ⟨[], none, false⟩, ()⟩
          = .ok st' ∧
        st'.g = twoHopGraph ∧ st'.entryPoints = [] ∧ st'.returnedSet.records.length = 1 :=
  ⟨⟨twoHopGraph, [],
      ⟨[[some (str "a"), some (str "b"), some (str "c"), some (str "r"), some (str "r")]],
        none, false⟩, ()⟩, by rfl,
    (queryNode_frame (snapshotCtx threeEdgeDb (str "g")) 4 0
      ⟨twoHopGraph, [], ⟨[], none, false⟩, ()⟩
      ⟨twoHopGraph, [],
        ⟨[[some (str "a"), some (str "b"), some (str "c"), some (str "r"), some (str "r")]],
          none, false⟩, ()⟩ (by rfl)).1,
    (queryNode_frame (snapshotCtx threeEdgeDb (str "g")) 4 0
      ⟨twoHopGraph, [], ⟨[], none, false⟩, ()⟩
      ⟨twoHopGraph, [],
        ⟨[[some (str "a"), some (str "b"), some (str "c"), some (str "r"), some (str "r")]],
          none, false⟩, ()⟩ (by rfl)).2.1, rfl⟩

/-! ## The capacity of the result set -/

theorem respectsCapacity_refl {C : Type} (st st' : QueryState C)
    (h1 : st'.returnedSet = st.returnedSet) (h2 : st'.cache = st.cache) :
    RespectsCapacity st st' := by
  refine ⟨by rw [h1], by rw [h1], ⟨[], by rw [h1]; simp⟩, fun _ => ⟨h1, h2⟩, ?_⟩
  intro cap _ hle
  rw [h1]
  exact hle

theorem respectsCapacity_trans {C : Type} (st s1 s2 : QueryState C)
    (h1 : RespectsCapacity st s1) (h2 : RespectsCapacity s1 s2) : RespectsCapacity st s2 := by
  obtain ⟨a1, a2, ⟨x, a3⟩, a4, a5⟩ := h1
  obtain ⟨b1, b2, ⟨y, b3⟩, b4, b5⟩ := h2
  refine ⟨b1.trans a1, b2.trans a2, ⟨x ++ y, by rw [b3, a3, List.append_assoc]⟩, ?_, ?_⟩
  · intro hfull
    obtain ⟨c1, c2⟩ := a4 hfull
    obtain ⟨d1, d2⟩ := b4 (by rw [c1]; exact hfull)
    exact ⟨d1.trans c1, d2.trans c2⟩
  · intro cap hcap hle
    exact b5 cap (a1.trans hcap) (a5 cap hcap hle)

theorem respectsCapacity_congr {C : Type} (st st0 s1 s2 : QueryState C)
    (h : RespectsCapacity st s1) (hr : st0.returnedSet = st.returnedSet)
    (hc : st0.cache = st.cache) (hr2 : s2.returnedSet = s1.returnedSet)
    (hc2 : s2.cache = s1.cache) : RespectsCapacity st0 s2 := by
  unfold RespectsCapacity at h ⊢
  rw [hr, hc, hr2, hc2]
  exact h

theorem advance_capacity {F R C : Type} (ctx : QueryCtx F R C)
    (recur : Nat → QueryState C → Outcome (QueryState C))
    (hrec : ∀ m s s', recur m s = .ok s' → RespectsCapacity s s')
    (dest : Nat) (st st' : QueryState C) (hfull : ResultSet_Full st.returnedSet = false)
    (h : advance ctx recur dest st = .ok st') : RespectsCapacity st st' := by
  unfold advance at h
  cases hd : st.g.nodes[dest]? with
  | none => rw [hd] at h; exact Outcome.noConfusion h
  | some destNode =>
    rw [hd] at h
    simp only at h
    by_cases hout : destNode.outgoingEdges.length > 0
    · rw [if_pos hout] at h
      exact hrec dest st st' h
    · rw [if_neg hout] at h
      by_cases hep : st.entryPoints.length > 0
      · rw [if_pos hep] at h
        cases hlast : st.entryPoints.getLast? with
        | none => rw [hlast] at h; exact Outcome.noConfusion h
        | some entryPoint =>
          rw [hlast] at h
          simp only at h
          cases hr : recur entryPoint { st with entryPoints := st.entryPoints.dropLast } with
          | ok s1 =>
            rw [hr] at h
            simp only [Outcome.ok.injEq] at h
            subst h
            exact respectsCapacity_congr _ _ _ _ (hrec _ _ _ hr) rfl rfl rfl rfl
          | fault => rw [hr] at h; exact Outcome.noConfusion h
          | outOfFuel => rw [hr] at h; exact Outcome.noConfusion h
      · rw [if_neg hep] at h
        split at h
        · split at h
          · simp only [Outcome.ok.injEq] at h
            subst h
            refine ⟨rfl, rfl, ⟨[], by simp⟩, fun hf => ?_, fun cap _ hle => hle⟩
            rw [hfull] at hf
            exact absurd hf (by decide)
          · simp only [Outcome.ok.injEq] at h
            subst h
            refine ⟨rfl, rfl, ⟨[_], rfl⟩, fun hf => ?_, fun cap hcap hle => ?_⟩
            · rw [hfull] at hf
              exact absurd hf (by decide)
            · simp only [ResultSet_Full, hcap, decide_eq_false_iff_not, Nat.not_le] at hfull
              simp only [ResultSet_AddRecord, List.length_append, List.length_singleton]
              omega
        · simp only [Outcome.ok.injEq] at h
          subst h
          exact respectsCapacity_refl _ _ rfl rfl

theorem cursorLoop_capacity {F R C : Type} (ctx : QueryCtx F R C)
    (recur : Nat → QueryState C → Outcome (QueryState C))
    (hrec : ∀ m s s', recur m s = .ok s' → RespectsCapacity s s') (n e d : Nat) :
    ∀ (keys : List Bytes) (st st' : QueryState C),
      cursorLoop ctx recur n e d keys st = .ok st' → RespectsCapacity st st' := by
  intro keys
  induction keys with
  | nil =>
    intro st st' h
    simp only [cursorLoop, Outcome.ok.injEq] at h
    subst h
    exact respectsCapacity_refl _ _ rfl rfl
  | cons k rest ih =>
    intro st st' h
    unfold cursorLoop at h
    by_cases hfull : ResultSet_Full st.returnedSet = true
    · rw [if_pos hfull] at h
      simp only [Outcome.ok.injEq] at h
      subst h
      exact respectsCapacity_refl _ _ rfl rfl
    · rw [if_neg hfull] at h
      cases hk : tripletOfKey k with
      | none =>
        rw [hk] at h
        simp only [Outcome.ok.injEq] at h
        subst h
        exact respectsCapacity_refl _ _ rfl rfl
      | some result =>
        rw [hk] at h
        simp only at h
        cases ha : advance ctx recur d
            { st with g := ((st.g.setNodeId n result.subject).setRelationship e
              result.predicate).setNodeId d result.object } with
        | ok s1 =>
          rw [ha] at h
          simp only at h
          have h1 := advance_capacity ctx recur hrec d _ s1 (by simpa using hfull) ha
          exact respectsCapacity_trans _ _ _
            (respectsCapacity_congr _ _ _ _ h1 rfl rfl rfl rfl) (ih s1 st' h)
        | fault => rw [ha] at h; exact Outcome.noConfusion h
        | outOfFuel => rw [ha] at h; exact Outcome.noConfusion h

theorem edgeLoop_capacity {F R C : Type} (ctx : QueryCtx F R C)
    (recur : Nat → QueryState C → Outcome (QueryState C))
    (hrec : ∀ m s s', recur m s = .ok s' → RespectsCapacity s s') (src : Nat) :
    ∀ (edges : List Nat) (st st' : QueryState C),
      edgeLoop ctx recur src edges st = .ok st' → RespectsCapacity st st' := by
  intro edges
  induction edges with
  | nil =>
    intro st st' h
    simp only [edgeLoop, Outcome.ok.injEq] at h
    subst h
    exact respectsCapacity_refl _ _ rfl rfl
  | cons edge rest ih =>
    intro st st' h
    unfold edgeLoop at h
    by_cases hfull : ResultSet_Full st.returnedSet = true
    · rw [if_pos hfull] at h
      simp only [Outcome.ok.injEq] at h
      subst h
      exact respectsCapacity_refl _ _ rfl rfl
    · rw [if_neg hfull] at h
      cases he : st.g.edges[edge]? with
      | none => rw [he] at h; exact Outcome.noConfusion h
      | some ed =>
        rw [he] at h
        simp only at h
        cases hdest : ed.dest with
        | none => rw [hdest] at h; exact Outcome.noConfusion h
        | some dest =>
          rw [hdest] at h
          simp only at h
          cases hs : st.g.nodes[src]? with
          | none => rw [hs] at h; exact Outcome.noConfusion h
          | some srcNode =>
            cases hd : st.g.nodes[dest]? with
            | none => rw [hs, hd] at h; exact Outcome.noConfusion h
            | some destNode =>
              rw [hs, hd] at h
              simp only at h
              cases hc : cursorLoop ctx recur src edge dest
                  (queryTriplet ctx.db ctx.graphName (TripletFromEdge st.g ed)) st with
              | ok s1 =>
                rw [hc] at h
                simp only at h
                have h1 := cursorLoop_capacity ctx recur hrec src edge dest _ st s1 hc
                have h2 := ih _ st' h
                exact respectsCapacity_trans _ _ _ h1
                  (respectsCapacity_congr _ _ _ _ h2 rfl rfl rfl rfl)
              | fault => rw [hc] at h; exact Outcome.noConfusion h
              | outOfFuel => rw [hc] at h; exact Outcome.noConfusion h

theorem queryNode_capacity_aux {F R C : Type} (ctx : QueryCtx F R C) :
    ∀ (fuel n : Nat) (st st' : QueryState C), QueryNode ctx fuel n st = .ok st' →
      RespectsCapacity st st' := by
  intro fuel
  induction fuel with
  | zero => intro n st st' h; exact Outcome.noConfusion h
  | succ fuel ih =>
    intro n st st' h
    unfold QueryNode at h
    cases hn : st.g.nodes[n]? with
    | none => rw [hn] at h; exact Outcome.noConfusion h
    | some src =>
      rw [hn] at h
      exact edgeLoop_capacity ctx (QueryNode ctx fuel) ih n src.outgoingEdges st st' h

/-- C22: a call of `QueryNode` that returns has only appended records to the
result set and has kept its capacity; when the result set held at most its
capacity of records on entry it holds at most its capacity on return, and when
`ResultSet_Full` held on entry the result set and the cache are untouched. At
every level the cursor loop and the edge loop return at once, without a step,
when they find the result set full. -/
theorem queryNode_capacity {F R C : Type} (ctx : QueryCtx F R C) (fuel n : Nat)
    (st st' : QueryState C) (h : QueryNode ctx fuel n st = .ok st') :
    st'.returnedSet.limit = st.returnedSet.limit ∧
      (∃ appended, st'.returnedSet.records = st.returnedSet.records ++ appended) ∧
      (∀ cap, st.returnedSet.limit = some cap → st.returnedSet.records.length ≤ cap →
        st'.returnedSet.records.length ≤ cap) ∧
      (ResultSet_Full st.returnedSet = true →
        st'.returnedSet = st.returnedSet ∧ st'.cache = st.cache) ∧
      (∀ (recur : Nat → QueryState C → Outcome (QueryState C)) (src edge dest : Nat)
        (cursor : List Bytes) (s : QueryState C), ResultSet_Full s.returnedSet = true →
          cursorLoop ctx recur src edge dest cursor s = .ok s) ∧
      ∀ (recur : Nat → QueryState C → Outcome (QueryState C)) (src : Nat) (edges : List Nat)
        (s : QueryState C), ResultSet_Full s.returnedSet = true →
          edgeLoop ctx recur src edges s = .ok s := by
  obtain ⟨h1, _, h3, h4, h5⟩ := queryNode_capacity_aux ctx fuel n st st' h
  refine ⟨h1, h3, h5, h4, ?_, ?_⟩
  · intro recur src edge dest cursor s hfull
    cases cursor with
    | nil => rfl
    | cons k rest => simp only [cursorLoop, hfull, if_true]
  · intro recur src edges s hfull
    cases edges with
    | nil => rfl
    | cons e rest => simp only [edgeLoop, hfull, if_true]

/-- C22 on the pattern `(x)-[e]->(y)` and the index of three `likes` edges
with a result set of capacity 1: the run returns after one record. -/
theorem queryNode_capacity_witness :
    ∃ st' : QueryState Unit,
      QueryNode (snapshotCtx likesDb (str "g")) 4 0 ⟨oneHopGraph, [], ⟨[], some 1, false⟩, ()⟩
          = .ok st' ∧
        st'.returnedSet.records.length ≤ 1 ∧
        st'.returnedSet.records = [[some (str "alice"), some (str "x"), some (str "likes")]] :=
  ⟨⟨oneHopGraph, [],
      ⟨[[some (str "alice"), some (str "x"), some (str "likes")]], some 1, false⟩, ()⟩, by rfl,
    (queryNode_capacity (snapshotCtx likesDb (str "g")) 4 0
      ⟨oneHopGraph, [], ⟨[], some 1, false⟩, ()⟩
      ⟨oneHopGraph, [],
        ⟨[[some (str "alice"), some (str "x"), some (str "likes")]], some 1, false⟩, ()⟩
      (by rfl)).2.2.1 1 rfl (by decide), rfl⟩

/-! ## The record of recursion paths does not change the run -/

theorem advance_erase {F R C : Type} (ctx : QueryCtx F R C)
    (recur : Nat → QueryState C → Outcome (QueryState C))
    (recurT : Nat → QueryState (C × List (List Nat)) →
      Outcome (QueryState (C × List (List Nat))))
    (hrec : ∀ m s, eraseTrace (recurT m s) = recur m (forgetTrace s))
    (dest : Nat) (st : QueryState (C × List (List Nat))) :
    eraseTrace (advance (tracingCtx ctx) recurT dest st)
      = advance ctx recur dest (forgetTrace st) := by
  unfold advance
  simp only [forgetTrace]
  cases hd : st.g.nodes[dest]? with
  | none => rfl
  | some destNode =>
    simp only
    by_cases hout : destNode.outgoingEdges.length > 0
    · rw [if_pos hout, if_pos hout]
      exact hrec dest st
    · rw [if_neg hout, if_neg hout]
      by_cases hep : st.entryPoints.length > 0
      · rw [if_pos hep, if_pos hep]
        cases hlast : st.entryPoints.getLast? with
        | none => rfl
        | some entryPoint =>
          simp only
          have h := hrec entryPoint { st with entryPoints := st.entryPoints.dropLast }
          simp only [forgetTrace] at h
          rw [← h]
          cases recurT entryPoint { st with entryPoints := st.entryPoints.dropLast } <;> rfl
      · rw [if_neg hep, if_neg hep]
        simp only [tracingCtx]
        split
        · split <;> rfl
        · rfl

theorem cursorLoop_erase {F R C : Type} (ctx : QueryCtx F R C)
    (recur : Nat → QueryState C → Outcome (QueryState C))
    (recurT : Nat → QueryState (C × List (List Nat)) →
      Outcome (QueryState (C × List (List Nat))))
    (hrec : ∀ m s, eraseTrace (recurT m s) = recur m (forgetTrace s))
    (src edge dest : Nat) :
    ∀ (keys : List Bytes) (st : QueryState (C × List (List Nat))),
      eraseTrace (cursorLoop (tracingCtx ctx) recurT src edge dest keys st)
        = cursorLoop ctx recur src edge dest keys (forgetTrace st) := by
  intro keys
  induction keys with
  | nil => intro st; rfl
  | cons k rest ih =>
    intro st
    unfold cursorLoop
    by_cases hfull : ResultSet_Full st.returnedSet = true
    · have hfull' : ResultSet_Full (forgetTrace st).returnedSet = true := hfull
      rw [if_pos hfull, if_pos hfull']
      rfl
    · have hfull' : ¬ ResultSet_Full (forgetTrace st).returnedSet = true := hfull
      rw [if_neg hfull, if_neg hfull']
      cases hk : tripletOfKey k with
      | none => rfl
      | some result =>
        simp only
        have h := advance_erase ctx recur recurT hrec dest
          { st with g := ((st.g.setNodeId src result.subject).setRelationship edge
            result.predicate).setNodeId dest result.object }
        simp only [forgetTrace] at h ⊢
        rw [← h]
        cases ha : advance (tracingCtx ctx) recurT dest
            { st with g := ((st.g.setNodeId src result.subject).setRelationship edge
              result.predicate).setNodeId dest result.object } with
        | ok s1 => exact ih s1
        | fault => rfl
        | outOfFuel => rfl

theorem edgeLoop_erase {F R C : Type} (ctx : QueryCtx F R C)
    (recur : Nat → QueryState C → Outcome (QueryState C))
    (recurT : Nat → QueryState (C × List (List Nat)) →
      Outcome (QueryState (C × List (List Nat))))
    (hrec : ∀ m s, eraseTrace (recurT m s) = recur m (forgetTrace s)) (src : Nat) :
    ∀ (edges : List Nat) (st : QueryState (C × List (List Nat))),
      eraseTrace (edgeLoop (tracingCtx ctx) recurT src edges st)
        = edgeLoop ctx recur src edges (forgetTrace st) := by
  intro edges
  induction edges with
  | nil => intro st; rfl
  | cons edge rest ih =>
    intro st
    unfold edgeLoop
    by_cases hfull : ResultSet_Full st.returnedSet = true
    · have hfull' : ResultSet_Full (forgetTrace st).returnedSet = true := hfull
      rw [if_pos hfull, if_pos hfull']
      rfl
    · have hfull' : ¬ ResultSet_Full (forgetTrace st).returnedSet = true := hfull
      rw [if_neg hfull, if_neg hfull']
      simp only [forgetTrace]
      cases he : st.g.edges[edge]? with
      | none => rfl
      | some ed =>
        simp only
        cases hdest : ed.dest with
        | none => rfl
        | some dest =>
          simp only
          cases hs : st.g.nodes[src]? with
          | none => rfl
          | some srcNode =>
            cases hd : st.g.nodes[dest]? with
            | none => rfl
            | some destNode =>
              simp only
              have h := cursorLoop_erase ctx recur recurT hrec src edge dest
                (queryTriplet ctx.db ctx.graphName (TripletFromEdge st.g ed)) st
              simp only [forgetTrace] at h
              have hdb : (tracingCtx ctx).db = ctx.db := rfl
              have hgn : (tracingCtx ctx).graphName = ctx.graphName := rfl
              rw [hdb, hgn, ← h]
              cases hc : cursorLoop (tracingCtx ctx) recurT src edge dest
                  (queryTriplet ctx.db ctx.graphName (TripletFromEdge st.g ed)) st with
              | ok s1 =>
                simp only [eraseTrace]
                exact ih _
              | fault => rfl
              | outOfFuel => rfl

/-- The edge loop continues after its first edge as it does on the rest. -/
theorem edgeLoop_cons {F R C : Type} (ctx : QueryCtx F R C)
    (recur : Nat → QueryState C → Outcome (QueryState C)) (src edge : Nat) (rest : List Nat)
    (st : QueryState C) (hfull : ResultSet_Full st.returnedSet = false) :
    edgeLoop ctx recur src (edge :: rest) st
      = match edgeLoop ctx recur src [edge] st with
        | .ok st' => edgeLoop ctx recur src rest st'
        | .fault => .fault
        | .outOfFuel => .outOfFuel := by
  have hf : ¬ ResultSet_Full st.returnedSet = true := by simp [hfull]
  rw [edgeLoop, edgeLoop]
  rw [if_neg hf, if_neg hf]
  cases he : st.g.edges[edge]? with
  | none => rfl
  | some ed =>
    simp only
    cases hdest : ed.dest with
    | none => rfl
    | some dest =>
      simp only
      cases hs : st.g.nodes[src]? with
      | none => rfl
      | some srcNode =>
        cases hd : st.g.nodes[dest]? with
        | none => rfl
        | some destNode =>
          simp only
          cases hc : cursorLoop ctx recur src edge dest
              (queryTriplet ctx.db ctx.graphName (TripletFromEdge st.g ed)) st with
          | ok s1 => simp only [edgeLoop]
          | fault => rfl
          | outOfFuel => rfl

theorem tracedEdges_erase {F R C : Type} (ctx : QueryCtx F R C)
    (recur : Nat → QueryState C → Outcome (QueryState C))
    (recurT : List Nat → Nat → QueryState (C × List (List Nat)) →
      Outcome (QueryState (C × List (List Nat))))
    (hrec : ∀ p m s, eraseTrace (recurT p m s) = recur m (forgetTrace s))
    (path : List Nat) (src : Nat) :
    ∀ (edges : List Nat) (st : QueryState (C × List (List Nat))),
      eraseTrace (tracedEdges ctx recurT path src edges st)
        = edgeLoop ctx recur src edges (forgetTrace st) := by
  intro edges
  induction edges with
  | nil => intro st; rfl
  | cons edge rest ih =>
    intro st
    by_cases hfull : ResultSet_Full st.returnedSet = true
    · have hfull' : ResultSet_Full (forgetTrace st).returnedSet = true := hfull
      rw [tracedEdges, if_pos hfull]
      conv => rhs; rw [edgeLoop, if_pos hfull']
      rfl
    · have hfull' : ResultSet_Full (forgetTrace st).returnedSet = false := by
        simpa [forgetTrace] using hfull
      rw [tracedEdges, if_neg hfull, edgeLoop_cons ctx recur src edge rest _ hfull']
      have h := edgeLoop_erase ctx recur (recurT (path ++ [edge])) (hrec (path ++ [edge])) src
        [edge] (noteTrace st (path ++ [edge]))
      have hn : forgetTrace (noteTrace st (path ++ [edge])) = forgetTrace st := rfl
      rw [hn] at h
      rw [← h]
      cases hc : edgeLoop (tracingCtx ctx) (recurT (path ++ [edge])) src [edge]
          (noteTrace st (path ++ [edge])) with
      | ok s1 =>
        simp only [eraseTrace]
        exact ih s1
      | fault => rfl
      | outOfFuel => rfl

/-- Without the record of recursion paths, `QueryNodeTraced` is `QueryNode`. -/
theorem queryNodeTraced_erase {F R C : Type} (ctx : QueryCtx F R C) :
    ∀ (fuel : Nat) (path : List Nat) (n : Nat) (st : QueryState (C × List (List Nat))),
      eraseTrace (QueryNodeTraced ctx fuel path n st) = QueryNode ctx fuel n (forgetTrace st) := by
  intro fuel
  induction fuel with
  | zero => intro path n st; rfl
  | succ fuel ih =>
    intro path n st
    unfold QueryNodeTraced QueryNode
    simp only [forgetTrace]
    cases hn : st.g.nodes[n]? with
    | none => rfl
    | some src =>
      exact tracedEdges_erase ctx (QueryNode ctx fuel) (QueryNodeTraced ctx fuel) ih path n
        src.outgoingEdges st

/-! ## Termination of `QueryNode` on acyclic pattern graphs -/

theorem sameShape_nodes (g0 g : Graph) (h : SameShape g0 g) (j : Nat) (nd : Node)
    (hj : g0.nodes[j]? = some nd) :
    ∃ nd', g.nodes[j]? = some nd' ∧ nd'.outgoingEdges = nd.outgoingEdges := by
  obtain ⟨ν, ρ, rfl⟩ := h
  rw [nodes_withBindings, hj]
  exact ⟨_, rfl, rfl⟩

theorem sameShape_edges (g0 g : Graph) (h : SameShape g0 g) (j : Nat) (ed : Edge)
    (hj : g0.edges[j]? = some ed) :
    ∃ ed', g.edges[j]? = some ed' ∧ ed'.dest = ed.dest ∧ ed'.src = ed.src := by
  obtain ⟨ν, ρ, rfl⟩ := h
  rw [edges_withBindings, hj]
  exact ⟨_, rfl, rfl, rfl⟩

theorem sameShape_setNodeId (g0 g : Graph) (h : SameShape g0 g) (n : Nat) (a : Option Bytes) :
    SameShape g0 (g.setNodeId n a) := by
  obtain ⟨ν, ρ, rfl⟩ := h
  exact ⟨_, _, setNodeId_withBindings g0 ν ρ n a⟩

theorem sameShape_setRelationship (g0 g : Graph) (h : SameShape g0 g) (e : Nat)
    (r : Option Bytes) : SameShape g0 (g.setRelationship e r) := by
  obtain ⟨ν, ρ, rfl⟩ := h
  exact ⟨_, _, setRelationship_withBindings g0 ν ρ e r⟩

theorem sameShape_self (g : Graph) : SameShape g g :=
  ⟨idOf g, relOf g, (withBindings_self g).symm⟩

theorem advance_total {F R C : Type} (ctx : QueryCtx F R C)
    (recur : Nat → QueryState C → Outcome (QueryState C))
    (hframe : ∀ m s s', recur m s = .ok s' → s'.g = s.g ∧ s'.entryPoints = s.entryPoints)
    (Qc : C → C → Prop) (hQrefl : ∀ c, Qc c c)
    (hQagg : ∀ g c, Qc c (ctx._aggregateRecord ctx.returnTree g c))
    (g0 : Graph) (dest : Nat) (dn : Node) (hdn : g0.nodes[dest]? = some dn) (eps : List Nat)
    (hdest : dn.outgoingEdges.length > 0 → ∀ s, SameShape g0 s.g → s.entryPoints = eps →
      ∃ s', recur dest s = .ok s' ∧ Qc s.cache s'.cache)
    (hpop : ∀ p eps', eps = eps' ++ [p] → ∀ s, SameShape g0 s.g → s.entryPoints = eps' →
      ∃ s', recur p s = .ok s' ∧ Qc s.cache s'.cache)
    (st : QueryState C) (hshape : SameShape g0 st.g) (hep : st.entryPoints = eps) :
    ∃ st', advance ctx recur dest st = .ok st' ∧ st'.g = st.g ∧
      st'.entryPoints = st.entryPoints ∧ Qc st.cache st'.cache := by
  obtain ⟨dn', hdn', hout'⟩ := sameShape_nodes g0 st.g hshape dest dn hdn
  have key : ∃ st', advance ctx recur dest st = .ok st' ∧ Qc st.cache st'.cache := by
    unfold advance
    rw [hdn']
    simp only [hout']
    by_cases hout : dn.outgoingEdges.length > 0
    · rw [if_pos hout]
      exact hdest hout st hshape hep
    · rw [if_neg hout]
      by_cases hlen : st.entryPoints.length > 0
      · rw [if_pos hlen]
        cases hlast : st.entryPoints.getLast? with
        | none =>
          have := List.getLast?_eq_none_iff.mp hlast
          rw [this] at hlen
          exact absurd hlen (by simp)
        | some entryPoint =>
          simp only
          have hsplit : eps = st.entryPoints.dropLast ++ [entryPoint] := by
            rw [← hep]
            exact (List.dropLast_append_getLast? entryPoint hlast).symm
          obtain ⟨s1, hs1, hq⟩ := hpop entryPoint st.entryPoints.dropLast hsplit
            { st with entryPoints := st.entryPoints.dropLast } hshape rfl
          rw [hs1]
          exact ⟨_, rfl, hq⟩
      · rw [if_neg hlen]
        split
        · split
          · exact ⟨_, rfl, hQagg _ _⟩
          · exact ⟨_, rfl, hQrefl _⟩
        · exact ⟨_, rfl, hQrefl _⟩
  obtain ⟨st', h1, h2⟩ := key
  obtain ⟨h3, h4⟩ := advance_frame ctx recur hframe dest st st' h1
  exact ⟨st', h1, h3, h4, h2⟩

theorem cursorLoop_total {F R C : Type} (ctx : QueryCtx F R C)
    (recur : Nat → QueryState C → Outcome (QueryState C))
    (hframe : ∀ m s s', recur m s = .ok s' → s'.g = s.g ∧ s'.entryPoints = s.entryPoints)
    (Qc : C → C → Prop) (hQrefl : ∀ c, Qc c c) (hQtrans : ∀ a b c, Qc a b → Qc b c → Qc a c)
    (hQagg : ∀ g c, Qc c (ctx._aggregateRecord ctx.returnTree g c))
    (g0 : Graph) (src edge dest : Nat) (dn : Node) (hdn : g0.nodes[dest]? = some dn)
    (eps : List Nat)
    (hdest : dn.outgoingEdges.length > 0 → ∀ s, SameShape g0 s.g → s.entryPoints = eps →
      ∃ s', recur dest s = .ok s' ∧ Qc s.cache s'.cache)
    (hpop : ∀ p eps', eps = eps' ++ [p] → ∀ s, SameShape g0 s.g → s.entryPoints = eps' →
      ∃ s', recur p s = .ok s' ∧ Qc s.cache s'.cache) :
    ∀ (keys : List Bytes) (st : QueryState C), SameShape g0 st.g → st.entryPoints = eps →
      ∃ st', cursorLoop ctx recur src edge dest keys st = .ok st' ∧ SameShape g0 st'.g ∧
        st'.entryPoints = eps ∧ Qc st.cache st'.cache := by
  intro keys
  induction keys with
  | nil => intro st hshape hep; exact ⟨st, rfl, hshape, hep, hQrefl _⟩
  | cons k rest ih =>
    intro st hshape hep
    unfold cursorLoop
    by_cases hfull : ResultSet_Full st.returnedSet = true
    · rw [if_pos hfull]
      exact ⟨st, rfl, hshape, hep, hQrefl _⟩
    · rw [if_neg hfull]
      cases hk : tripletOfKey k with
      | none => exact ⟨st, rfl, hshape, hep, hQrefl _⟩
      | some result =>
        simp only
        have hshape1 : SameShape g0 (((st.g.setNodeId src result.subject).setRelationship edge
            result.predicate).setNodeId dest result.object) :=
          sameShape_setNodeId _ _ (sameShape_setRelationship _ _
            (sameShape_setNodeId _ _ hshape _ _) _ _) _ _
        obtain ⟨s1, h1, h2, h3, h4⟩ := advance_total ctx recur hframe Qc hQrefl hQagg g0 dest dn
          hdn eps hdest hpop
          { st with g := ((st.g.setNodeId src result.subject).setRelationship edge
            result.predicate).setNodeId dest result.object } hshape1 hep
        rw [h1]
        simp only
        obtain ⟨s2, k1, k2, k3, k4⟩ := ih s1 (by rw [h2]; exact hshape1) (by rw [h3]; exact hep)
        exact ⟨s2, k1, k2, k3, hQtrans _ _ _ h4 k4⟩

theorem edgeLoop_total {F R C : Type} (ctx : QueryCtx F R C)
    (recur : Nat → QueryState C → Outcome (QueryState C))
    (hframe : ∀ m s s', recur m s = .ok s' → s'.g = s.g ∧ s'.entryPoints = s.entryPoints)
    (Qc : C → C → Prop) (hQrefl : ∀ c, Qc c c) (hQtrans : ∀ a b c, Qc a b → Qc b c → Qc a c)
    (hQagg : ∀ g c, Qc c (ctx._aggregateRecord ctx.returnTree g c))
    (g0 : Graph) (src : Nat) (sn : Node) (hsn : g0.nodes[src]? = some sn) (eps : List Nat)
    (hpop : ∀ p eps', eps = eps' ++ [p] → ∀ s, SameShape g0 s.g → s.entryPoints = eps' →
      ∃ s', recur p s = .ok s' ∧ Qc s.cache s'.cache) :
    ∀ (edges : List Nat),
      (∀ e ∈ edges, ∃ (ed : Edge) (d : Nat) (dn : Node), g0.edges[e]? = some ed ∧
        ed.dest = some d ∧ g0.nodes[d]? = some dn ∧
        (dn.outgoingEdges.length > 0 → ∀ s, SameShape g0 s.g → s.entryPoints = eps →
          ∃ s', recur d s = .ok s' ∧ Qc s.cache s'.cache)) →
      ∀ (st : QueryState C), SameShape g0 st.g → st.entryPoints = eps →
      ∃ st', edgeLoop ctx recur src edges st = .ok st' ∧ SameShape g0 st'.g ∧
        st'.entryPoints = eps ∧ Qc st.cache st'.cache := by
  intro edges
  induction edges with
  | nil => intro _ st hshape hep; exact ⟨st, rfl, hshape, hep, hQrefl _⟩
  | cons edge rest ih =>
    intro hedges st hshape hep
    unfold edgeLoop
    by_cases hfull : ResultSet_Full st.returnedSet = true
    · rw [if_pos hfull]
      exact ⟨st, rfl, hshape, hep, hQrefl _⟩
    · rw [if_neg hfull]
      obtain ⟨ed, d, dn, he, hd, hdn, hdest⟩ := hedges edge (List.mem_cons_self _ _)
      obtain ⟨ed', he', hd', _⟩ := sameShape_edges g0 st.g hshape edge ed he
      obtain ⟨sn', hsn', _⟩ := sameShape_nodes g0 st.g hshape src sn hsn
      obtain ⟨dn', hdn', _⟩ := sameShape_nodes g0 st.g hshape d dn hdn
      rw [he']
      simp only [hd', hd, hsn', hdn']
      obtain ⟨s1, h1, h2, h3, h4⟩ := cursorLoop_total ctx recur hframe Qc hQrefl hQtrans hQagg g0
        src edge d dn hdn eps hdest hpop
        (queryTriplet ctx.db ctx.graphName (TripletFromEdge st.g ed')) st hshape hep
      rw [h1]
      simp only
      have hshape2 : SameShape g0 (((s1.g.setNodeId src sn'.id).setRelationship edge
          ed'.relationship).setNodeId d dn'.id) :=
        sameShape_setNodeId _ _ (sameShape_setRelationship _ _
          (sameShape_setNodeId _ _ h2 _ _) _ _) _ _
      obtain ⟨s2, k1, k2, k3, k4⟩ := ih
        (fun e he => hedges e (List.mem_cons_of_mem _ he))
        { s1 with g := ((s1.g.setNodeId src sn'.id).setRelationship edge
          ed'.relationship).setNodeId d dn'.id } hshape2 h3
      exact ⟨s2, k1, k2, k3, hQtrans _ _ _ h4 k4⟩

theorem queryNode_total {F R C : Type} (ctx : QueryCtx F R C) (g0 : Graph) (rank : Nat → Nat)
    (hwf : WellFormedPattern g0) (hrank : RankedBy g0 rank) :
    ∀ (fuel n : Nat) (eps : List Nat) (st : QueryState C) (nd : Node),
      g0.nodes[n]? = some nd → (∀ p ∈ eps, ∃ pd, g0.nodes[p]? = some pd) →
      depthBound rank n eps ≤ fuel → SameShape g0 st.g → st.entryPoints = eps →
      ∃ st', QueryNode ctx fuel n st = .ok st' ∧ True := by
  intro fuel
  induction fuel with
  | zero =>
    intro n eps st nd _ _ hb _ _
    simp only [depthBound] at hb
    omega
  | succ fuel ih =>
    intro n eps st nd hn heps hb hshape hep
    obtain ⟨nd', hn', hout'⟩ := sameShape_nodes g0 st.g hshape n nd hn
    unfold QueryNode
    rw [hn']
    simp only [hout']
    have hpop : ∀ p eps', eps = eps' ++ [p] → ∀ s, SameShape g0 s.g → s.entryPoints = eps' →
        ∃ s', QueryNode ctx fuel p s = .ok s' ∧ True := by
      intro p eps' hsplit s hs hse
      obtain ⟨pd, hpd⟩ := heps p (by rw [hsplit]; simp)
      refine ih p eps' s pd hpd (fun q hq => heps q (by rw [hsplit]; simp [hq])) ?_ hs hse
      simp only [depthBound, hsplit, List.map_append, List.sum_append, List.map_cons,
        List.map_nil, List.sum_cons, List.sum_nil] at hb ⊢
      omega
    obtain ⟨st', h1, _, _, _⟩ := edgeLoop_total ctx (QueryNode ctx fuel)
      (queryNode_frame_aux ctx fuel) (fun _ _ => True) (fun _ => trivial)
      (fun _ _ _ _ _ => trivial) (fun _ _ => trivial) g0 n nd hn eps hpop nd.outgoingEdges
      (by
        intro e he
        obtain ⟨ed, d, dn, h1, _, h3, h4⟩ := hwf n nd hn e he
        refine ⟨ed, d, dn, h1, h3, h4, ?_⟩
        intro _ s hs hse
        have hlt := hrank n nd e ed d hn he h1 h3
        refine ih d eps s dn h4 heps ?_ hs hse
        simp only [depthBound] at hb ⊢
        omega)
      st hshape hep
    exact ⟨st', h1, trivial⟩

theorem nodup_bounded_length (l : List Nat) (bound : Nat) (hl : l.Nodup)
    (hb : ∀ x ∈ l, x < bound) : l.length ≤ bound := by
  have hsub : l ⊆ List.range bound := fun x hx => List.mem_range.mpr (hb x hx)
  have := (List.subperm_of_subset hl hsub).length_le
  simpa using this

theorem pathInv_extend (g0 : Graph) (rank : Nat → Nat) (hwf : WellFormedPattern g0)
    (hrank : RankedBy g0 rank) (path : List Nat) (n : Nat) (nd : Node) (e : Nat) (ed : Edge)
    (d : Nat) (hinv : PathInv g0 rank path n) (hn : g0.nodes[n]? = some nd)
    (he : e ∈ nd.outgoingEdges) (hed : g0.edges[e]? = some ed) (hsrc : ed.src = some n)
    (hdest : ed.dest = some d) : PathInv g0 rank (path ++ [e]) d := by
  obtain ⟨h1, h2, h3⟩ := hinv
  have hlt := hrank n nd e ed d hn he hed hdest
  have hnotin : e ∉ path := by
    intro hmem
    obtain ⟨m, md, hm, hem, hr⟩ := h3 e hmem
    obtain ⟨ed', _, _, hed', hsrc', _, _⟩ := hwf m md hm e hem
    rw [hed] at hed'
    injection hed' with hed'
    subst hed'
    rw [hsrc] at hsrc'
    injection hsrc' with hsrc'
    subst hsrc'
    exact Nat.lt_irrefl _ hr
  have hebound : e < g0.edges.length := by
    by_contra hc
    rw [List.getElem?_eq_none (by omega)] at hed
    exact Option.noConfusion hed
  refine ⟨?_, ?_, ?_⟩
  · refine List.Nodup.append h1 (List.nodup_singleton e) ?_
    intro x hx hx'
    rw [List.mem_singleton] at hx'
    subst hx'
    exact hnotin hx
  · intro x hx
    rcases List.mem_append.mp hx with hx | hx
    · exact h2 x hx
    · rw [List.mem_singleton] at hx
      subst hx
      exact hebound
  · intro x hx
    rcases List.mem_append.mp hx with hx | hx
    · obtain ⟨m, md, hm, hem, hr⟩ := h3 x hx
      exact ⟨m, md, hm, hem, Nat.lt_trans hlt hr⟩
    · rw [List.mem_singleton] at hx
      subst hx
      exact ⟨n, nd, hn, he, hlt⟩

theorem pathInv_length (g0 : Graph) (rank : Nat → Nat) (hwf : WellFormedPattern g0)
    (hrank : RankedBy g0 rank) (path : List Nat) (n : Nat) (nd : Node)
    (hinv : PathInv g0 rank path n) (hn : g0.nodes[n]? = some nd)
    (hout : nd.outgoingEdges.length > 0) : path.length + 1 ≤ g0.edges.length := by
  cases hl : nd.outgoingEdges with
  | nil => rw [hl] at hout; exact absurd hout (by simp)
  | cons e rest =>
    have he : e ∈ nd.outgoingEdges := by rw [hl]; exact List.mem_cons_self _ _
    obtain ⟨ed, d, _, hed, hsrc, hdest, _⟩ := hwf n nd hn e he
    obtain ⟨k1, k2, _⟩ := pathInv_extend g0 rank hwf hrank path n nd e ed d hinv hn he hed hsrc
      hdest
    have := nodup_bounded_length (path ++ [e]) g0.edges.length k1 k2
    simpa using this

theorem queryNodeTraced_frame {F R C : Type} (ctx : QueryCtx F R C) (fuel : Nat)
    (path : List Nat) (m : Nat) (s s' : QueryState (C × List (List Nat)))
    (h : QueryNodeTraced ctx fuel path m s = .ok s') :
    s'.g = s.g ∧ s'.entryPoints = s.entryPoints := by
  have h1 := queryNodeTraced_erase ctx fuel path m s
  rw [h] at h1
  exact queryNode_frame_aux ctx fuel m (forgetTrace s) (forgetTrace s') h1.symm

theorem logOK_refl {C : Type} (edgeCount : Nat) (c : C × List (List Nat)) :
    LogOK edgeCount c c := fun _ hp => Or.inl hp

theorem logOK_trans {C : Type} (edgeCount : Nat) (a b c : C × List (List Nat))
    (h1 : LogOK edgeCount a b) (h2 : LogOK edgeCount b c) : LogOK edgeCount a c := by
  intro p hp
  rcases h2 p hp with h | h
  · exact h1 p h
  · exact Or.inr h

theorem tracedEdges_total {F R C : Type} (ctx : QueryCtx F R C) (g0 : Graph)
    (rank : Nat → Nat) (hwf : WellFormedPattern g0) (hrank : RankedBy g0 rank) (fuel : Nat)
    (ih : ∀ (path : List Nat) (n : Nat) (st : QueryState (C × List (List Nat))) (nd : Node),
      g0.nodes[n]? = some nd → PathInv g0 rank path n → SameShape g0 st.g →
      st.entryPoints = [] → g0.edges.length ≤ fuel + path.length → 1 ≤ fuel →
      ∃ st', QueryNodeTraced ctx fuel path n st = .ok st' ∧
        LogOK g0.edges.length st.cache st'.cache)
    (path : List Nat) (n : Nat) (nd : Node) (hn : g0.nodes[n]? = some nd)
    (hinv : PathInv g0 rank path n) (hfuel : g0.edges.length ≤ fuel + 1 + path.length) :
    ∀ (edges : List Nat), (∀ e ∈ edges, e ∈ nd.outgoingEdges) →
      ∀ (st : QueryState (C × List (List Nat))), SameShape g0 st.g → st.entryPoints = [] →
      ∃ st', tracedEdges ctx (QueryNodeTraced ctx fuel) path n edges st = .ok st' ∧
        SameShape g0 st'.g ∧ st'.entryPoints = [] ∧
        LogOK g0.edges.length st.cache st'.cache := by
  intro edges
  induction edges with
  | nil => intro _ st hshape hep; exact ⟨st, rfl, hshape, hep, logOK_refl _ _⟩
  | cons edge rest ihe =>
    intro hsub st hshape hep
    unfold tracedEdges
    by_cases hfull : ResultSet_Full st.returnedSet = true
    · rw [if_pos hfull]
      exact ⟨st, rfl, hshape, hep, logOK_refl _ _⟩
    · rw [if_neg hfull]
      have he : edge ∈ nd.outgoingEdges := hsub edge (List.mem_cons_self _ _)
      obtain ⟨ed, d, dn, hed, hsrc, hdest, hdn⟩ := hwf n nd hn edge he
      have hinv' := pathInv_extend g0 rank hwf hrank path n nd edge ed d hinv hn he hed hsrc hdest
      obtain ⟨s1, h1, h2, h3, h4⟩ := edgeLoop_total (tracingCtx ctx)
        (QueryNodeTraced ctx fuel (path ++ [edge]))
        (queryNodeTraced_frame ctx fuel (path ++ [edge]))
        (LogOK g0.edges.length) (logOK_refl _) (logOK_trans _)
        (fun _ _ _ hp => Or.inl hp) g0 n nd hn []
        (fun _ eps' hsplit => absurd hsplit (by simp)) [edge]
        (by
          intro e hmem
          rw [List.mem_singleton] at hmem
          subst hmem
          refine ⟨ed, d, dn, hed, hdest, hdn, ?_⟩
          intro hout s hs hse
          have hlen := pathInv_length g0 rank hwf hrank (path ++ [e]) d dn hinv' hdn hout
          simp only [List.length_append, List.length_singleton] at hlen
          exact ih (path ++ [e]) d s dn hdn hinv' hs hse
            (by simp only [List.length_append, List.length_singleton]; omega) (by omega))
        (noteTrace st (path ++ [edge])) hshape hep
      rw [h1]
      simp only
      obtain ⟨s2, k1, k2, k3, k4⟩ := ihe (fun e he => hsub e (List.mem_cons_of_mem _ he)) s1 h2 h3
      refine ⟨s2, k1, k2, k3, logOK_trans _ _ _ _ ?_ (logOK_trans _ _ _ _ h4 k4)⟩
      intro p hp
      simp only [noteTrace, List.mem_append, List.mem_singleton] at hp
      rcases hp with hp | hp
      · exact Or.inl hp
      · subst hp
        exact Or.inr ⟨hinv'.1, hinv'.2.1⟩

theorem queryNodeTraced_total {F R C : Type} (ctx : QueryCtx F R C) (g0 : Graph)
    (rank : Nat → Nat) (hwf : WellFormedPattern g0) (hrank : RankedBy g0 rank) :
    ∀ (fuel : Nat) (path : List Nat) (n : Nat) (st : QueryState (C × List (List Nat)))
      (nd : Node), g0.nodes[n]? = some nd → PathInv g0 rank path n → SameShape g0 st.g →
      st.entryPoints = [] → g0.edges.length ≤ fuel + path.length → 1 ≤ fuel →
      ∃ st', QueryNodeTraced ctx fuel path n st = .ok st' ∧
        LogOK g0.edges.length st.cache st'.cache := by
  intro fuel
  induction fuel with
  | zero => intro _ _ _ _ _ _ _ _ _ h; omega
  | succ fuel ih =>
    intro path n st nd hn hinv hshape hep hfuel _
    obtain ⟨nd', hn', hout'⟩ := sameShape_nodes g0 st.g hshape n nd hn
    unfold QueryNodeTraced
    rw [hn']
    simp only [hout']
    obtain ⟨st', h1, _, _, h4⟩ := tracedEdges_total ctx g0 rank hwf hrank fuel ih path n nd hn
      hinv (by omega) nd.outgoingEdges (fun _ h => h) st hshape hep
    exact ⟨st', h1, h4⟩

theorem twoHopGraph_wellFormed : WellFormedPattern twoHopGraph := by
  intro n nd h e he
  have hlt : n < 3 := by
    by_contra hc
    rw [List.getElem?_eq_none (by simpa [twoHopGraph] using hc)] at h
    exact Option.noConfusion h
  interval_cases n <;> simp only [twoHopGraph, List.getElem?_cons_zero, List.getElem?_cons_succ,
    Option.some.injEq] at h <;> subst h <;>
    simp only [List.mem_singleton, List.not_mem_nil] at he <;> subst he <;>
    exact ⟨_, _, _, rfl, rfl, rfl, rfl⟩

theorem twoHopGraph_ranked : RankedBy twoHopGraph (fun i => 2 - i) := by
  intro n nd e ed d h he hed hd
  have hlt : n < 3 := by
    by_contra hc
    rw [List.getElem?_eq_none (by simpa [twoHopGraph] using hc)] at h
    exact Option.noConfusion h
  interval_cases n <;> simp only [twoHopGraph, List.getElem?_cons_zero, List.getElem?_cons_succ,
    Option.some.injEq] at h <;> subst h <;>
    simp only [List.mem_singleton, List.not_mem_nil] at he <;> subst he <;>
    simp only [twoHopGraph, List.getElem?_cons_zero, List.getElem?_cons_succ,
      Option.some.injEq] at hed <;> subst hed <;>
    simp only [Option.some.injEq] at hd <;> subst hd <;> decide

theorem convergingGraph_wellFormed : WellFormedPattern convergingGraph := by
  intro n nd h e he
  have hlt : n < 6 := by
    by_contra hc
    rw [List.getElem?_eq_none (by simpa [convergingGraph] using hc)] at h
    exact Option.noConfusion h
  interval_cases n <;> simp only [convergingGraph, List.getElem?_cons_zero,
    List.getElem?_cons_succ, Option.some.injEq] at h <;> subst h <;>
    simp only [List.mem_cons, List.mem_singleton, List.not_mem_nil, or_false] at he
  · subst he; exact ⟨_, _, _, rfl, rfl, rfl, rfl⟩
  · subst he; exact ⟨_, _, _, rfl, rfl, rfl, rfl⟩
  · subst he; exact ⟨_, _, _, rfl, rfl, rfl, rfl⟩
  · subst he; exact ⟨_, _, _, rfl, rfl, rfl, rfl⟩
  · rcases he with rfl | rfl
    · exact ⟨_, _, _, rfl, rfl, rfl, rfl⟩
    · exact ⟨_, _, _, rfl, rfl, rfl, rfl⟩

theorem convergingGraph_ranked :
    RankedBy convergingGraph (fun i => if i = 5 then 5 else 4 - i) := by
  intro n nd e ed d h he hed hd
  have hlt : n < 6 := by
    by_contra hc
    rw [List.getElem?_eq_none (by simpa [convergingGraph] using hc)] at h
    exact Option.noConfusion h
  interval_cases n <;> simp only [convergingGraph, List.getElem?_cons_zero,
    List.getElem?_cons_succ, Option.some.injEq] at h <;> subst h <;>
    simp only [List.mem_cons, List.mem_singleton, List.not_mem_nil, or_false] at he
  · subst he
    simp only [convergingGraph, List.getElem?_cons_zero, Option.some.injEq] at hed
    subst hed
    simp only [Option.some.injEq] at hd
    subst hd
    decide
  · subst he
    simp only [convergingGraph, List.getElem?_cons_zero, List.getElem?_cons_succ,
      Option.some.injEq] at hed
    subst hed
    simp only [Option.some.injEq] at hd
    subst hd
    decide
  · subst he
    simp only [convergingGraph, List.getElem?_cons_zero, List.getElem?_cons_succ,
      Option.some.injEq] at hed
    subst hed
    simp only [Option.some.injEq] at hd
    subst hd
    decide
  · subst he
    simp only [convergingGraph, List.getElem?_cons_zero, List.getElem?_cons_succ,
      Option.some.injEq] at hed
    subst hed
    simp only [Option.some.injEq] at hd
    subst hd
    decide
  · rcases he with rfl | rfl
    · simp only [convergingGraph, List.getElem?_cons_zero, List.getElem?_cons_succ,
        Option.some.injEq] at hed
      subst hed
      simp only [Option.some.injEq] at hd
      subst hd
      decide
    · simp only [convergingGraph, List.getElem?_cons_zero, List.getElem?_cons_succ,
        Option.some.injEq] at hed
      subst hed
      simp only [Option.some.injEq] at hd
      subst hd
      decide

/-- C23 (amended): on a well-formed pattern graph without a cycle (`rank` falls
along every edge) and any index, `QueryNode` returns from every node as soon as
the recursion may go `depthBound rank n entryPoints` levels deep, a bound that
counts the paths from the start node and from every entry point still on the
stack. With an empty stack, as many levels as the pattern has edges (one level
if it has none) are enough, no recursion path of the run holds an edge twice
or more edges than the pattern has, and the run with the record of paths is
the run of `QueryNode`. -/
theorem queryNode_terminates {F R C : Type} (ctx : QueryCtx F R C) (g : Graph)
    (rank : Nat → Nat) (hwf : WellFormedPattern g) (hrank : RankedBy g rank)
    (n : Nat) (nd : Node) (hn : g.nodes[n]? = some nd) (entryPoints : List Nat)
    (heps : ∀ p ∈ entryPoints, ∃ pd, g.nodes[p]? = some pd) (rs : ResultSet) (cache : C) :
    (∀ fuel, depthBound rank n entryPoints ≤ fuel →
      ∃ st', QueryNode ctx fuel n ⟨g, entryPoints, rs, cache⟩ = .ok st') ∧
    (∀ fuel, g.edges.length ≤ fuel → 1 ≤ fuel →
      ∃ st', QueryNodeTraced ctx fuel [] n ⟨g, [], rs, (cache, [])⟩ = .ok st' ∧
        QueryNode ctx fuel n ⟨g, [], rs, cache⟩ = .ok (forgetTrace st') ∧
        ∀ p ∈ st'.cache.2, p.Nodup ∧ p.length ≤ g.edges.length) := by
  refine ⟨?_, ?_⟩
  · intro fuel hfuel
    obtain ⟨st', h, _⟩ := queryNode_total ctx g rank hwf hrank fuel n entryPoints
      ⟨g, entryPoints, rs, cache⟩ nd hn heps hfuel (sameShape_self g) rfl
    exact ⟨st', h⟩
  · intro fuel hfuel hone
    have hinv : PathInv g rank [] n :=
      ⟨List.nodup_nil, fun e he => absurd he (List.not_mem_nil e),
        fun e he => absurd he (List.not_mem_nil e)⟩
    obtain ⟨st', h, hlog⟩ := queryNodeTraced_total ctx g rank hwf hrank fuel [] n
      ⟨g, [], rs, (cache, [])⟩ nd hn hinv (sameShape_self g) rfl (by simpa using hfuel) hone
    refine ⟨st', h, ?_, ?_⟩
    · have he := queryNodeTraced_erase ctx fuel [] n ⟨g, [], rs, (cache, [])⟩
      rw [h] at he
      exact he.symm
    · intro p hp
      rcases hlog p hp with hnil | ⟨hnd, hb⟩
      · exact absurd hnil (List.not_mem_nil p)
      · exact ⟨hnd, nodup_bounded_length p g.edges.length hnd hb⟩

theorem queryNode_terminates_witness :
    ∃ st', QueryNodeTraced (snapshotCtx threeEdgeDb (str "g")) 2 [] 0
        ⟨twoHopGraph, [], ⟨[], none, false⟩, ((), [])⟩ = .ok st' ∧
      QueryNode (snapshotCtx threeEdgeDb (str "g")) 2 0
        ⟨twoHopGraph, [], ⟨[], none, false⟩, ()⟩ = .ok (forgetTrace st') ∧
      ∀ p ∈ st'.cache.2, p.Nodup ∧ p.length ≤ twoHopGraph.edges.length :=
  (queryNode_terminates (snapshotCtx threeEdgeDb (str "g")) twoHopGraph (fun i => 2 - i)
    twoHopGraph_wellFormed twoHopGraph_ranked 0 _ rfl [] (fun p hp => absurd hp (List.not_mem_nil p))
    ⟨[], none, false⟩ ()).2 2 (by decide) (by decide)

/-- C23 (counterexample): the pattern
`(a)-[e1]->(b)-[e2]->(c)-[e3]->(f)-[e4]->(h)<-[e5]-(d)-[e6]->(b)` has six edges
and no cycle, and its entry points are `a` and `d`. On the index with the one
edge `(v, r, v)` the traversal of `MGraph_Query`, which starts at `d` with `a`
on the stack, runs out of seven levels of recursion and needs eight; the
recursion path put on record last, the one that reaches the eighth level, is
`e6 e2 e3 e4 e1 e2 e3 e4`, on which `e2`, `e3` and `e4` occur twice. -/
theorem queryNode_converging_depth :
    BuildGraph NewGraph convergingPattern = .ok convergingGraph ∧
      WellFormedPattern convergingGraph ∧ Acyclic convergingGraph ∧
      convergingGraph.edges.length = 6 ∧
      Graph_GetNDegreeNodes convergingGraph 0 = [0, 5] ∧
      startTraversal (snapshotCtx loopDb (str "g")) 6 convergingGraph ⟨[], none, false⟩ () =
        .outOfFuel ∧
      startTraversal (snapshotCtx loopDb (str "g")) 7 convergingGraph ⟨[], none, false⟩ () =
        .outOfFuel ∧
      (∃ st', startTraversal (snapshotCtx loopDb (str "g")) 8 convergingGraph
        ⟨[], none, false⟩ () = .ok st' ∧ st'.returnedSet.records.length = 2) ∧
      ∃ st', QueryNodeTraced (snapshotCtx loopDb (str "g")) 8 [] 5
          ⟨convergingGraph, [0], ⟨[], none, false⟩, ((), [])⟩ = .ok st' ∧
        st'.cache.2.getLast? = some [5, 1, 2, 3, 0, 1, 2, 3] ∧
        ¬ ([5, 1, 2, 3, 0, 1, 2, 3] : List Nat).Nodup ∧
        ([5, 1, 2, 3, 0, 1, 2, 3] : List Nat).length = 8 :=
  ⟨rfl, convergingGraph_wellFormed, ⟨_, convergingGraph_ranked⟩, rfl, by decide, by rfl, by rfl,
    ⟨_, by rfl, by rfl⟩, ⟨_, by rfl, by rfl, by decide, rfl⟩⟩

/-! ## `QueryNode`: the order of the records of a chain -/

theorem sixKeys_tag (s p o k k' : Bytes) (hk : k ∈ sixKeys s p o) (hk' : k' ∈ sixKeys s p o)
    (h : k.take 4 = k'.take 4) : k = k' := by
  simp only [sixKeys, List.mem_cons, List.mem_singleton, List.not_mem_nil, or_false, str_spo,
    str_sop, str_pso, str_pos, str_osp, str_ops, str_colon, List.append_assoc, List.cons_append,
    List.nil_append] at hk hk'
  rcases hk with h1 | h1 | h1 | h1 | h1 | h1 <;> rcases hk' with h2 | h2 | h2 | h2 | h2 | h2 <;>
    subst h1 <;> subst h2 <;> first | rfl | (simp [List.take] at h)

theorem tripletToString_length (pat : Triplet) : 4 ≤ (TripletToString pat).length := by
  obtain ⟨a, b, c⟩ := pat
  cases a <;> cases b <;> cases c <;>
    simp [TripletToString, str_spo, str_sop, str_pso, str_pos, str_osp, str_ops]

/-- In a scan of a clean hexastore no two keys parse to the same triplet. -/
theorem scan_injective (db : KeySpace) (graph : Bytes) (T : List (Bytes × Bytes × Bytes))
    (hidx : IsHexastore db graph T) (hclean : ∀ t ∈ T, CleanTriple t) (pat : Triplet)
    (k k' : Bytes) (hk : k ∈ queryTriplet db graph pat) (hk' : k' ∈ queryTriplet db graph pat)
    (h : tripletOfKey k = tripletOfKey k') : k = k' := by
  obtain ⟨hty, hmem⟩ := hidx
  rw [mem_queryTriplet _ _ _ _ hty] at hk hk'
  obtain ⟨t, ht, h6⟩ := (hmem k).mp hk.1
  obtain ⟨t', ht', h6'⟩ := (hmem k').mp hk'.1
  obtain ⟨s, p, o⟩ := t
  obtain ⟨s', p', o'⟩ := t'
  rw [tripletOfKey_sixKeys s p o k (hclean _ ht) h6,
    tripletOfKey_sixKeys s' p' o' k' (hclean _ ht') h6'] at h
  simp only [Option.some.injEq, Triplet.mk.injEq] at h
  obtain ⟨rfl, rfl, rfl⟩ := h
  obtain ⟨r, hr⟩ := starts_of_inRange _ _ hk.2
  obtain ⟨r', hr'⟩ := starts_of_inRange _ _ hk'.2
  refine sixKeys_tag s p o k k' h6 h6' ?_
  rw [hr, hr', List.take_append_of_le_length (tripletToString_length pat),
    List.take_append_of_le_length (tripletToString_length pat)]

/-- A key of a clean hexastore parses to the edge it was made of. -/
theorem tripleOfKey_member (db : KeySpace) (graph : Bytes) (T : List (Bytes × Bytes × Bytes))
    (hidx : IsHexastore db graph T) (hclean : ∀ t ∈ T, CleanTriple t) (k : Bytes)
    (hk : k ∈ zsetMembers (db graph)) :
    ∃ t ∈ T, tripletOfKey k = some (tripletOf t) ∧ tripleOfKey k = some t := by
  obtain ⟨t, ht, h6⟩ := (hidx.2 k).mp hk
  obtain ⟨s, p, o⟩ := t
  have h := tripletOfKey_sixKeys s p o k (hclean _ ht) h6
  exact ⟨(s, p, o), ht, h, by simp only [tripleOfKey, h]; rfl⟩

theorem filterMap_tripletOfKey (l : List Bytes)
    (h : ∀ k ∈ l, ∃ t, tripletOfKey k = some (tripletOf t) ∧ tripleOfKey k = some t) :
    l.filterMap tripletOfKey = (l.filterMap tripleOfKey).map tripletOf := by
  induction l with
  | nil => rfl
  | cons k ks ih =>
    obtain ⟨t, h1, h2⟩ := h k (List.mem_cons_self _ _)
    rw [List.filterMap_cons_some h1, List.filterMap_cons_some h2, List.map_cons,
      ih (fun k hk => h k (List.mem_cons_of_mem _ hk))]

theorem scan_triples (db : KeySpace) (graph : Bytes) (T : List (Bytes × Bytes × Bytes))
    (hidx : IsHexastore db graph T) (hclean : ∀ t ∈ T, CleanTriple t) (pat : Triplet) :
    (queryTriplet db graph pat).filterMap tripletOfKey
      = ((queryTriplet db graph pat).filterMap tripleOfKey).map tripletOf := by
  refine filterMap_tripletOfKey _ (fun k hk => ?_)
  obtain ⟨t, _, h1, h2⟩ := tripleOfKey_member db graph T hidx hclean k
    (queryTriplet_subset db graph pat k hk)
  exact ⟨t, h1, h2⟩

theorem tripletOf_injective : Function.Injective tripletOf := by
  intro t u h
  obtain ⟨a, b, c⟩ := t
  obtain ⟨a', b', c'⟩ := u
  simp only [tripletOf, Triplet.mk.injEq, Option.some.injEq] at h
  obtain ⟨rfl, rfl, rfl⟩ := h
  rfl

/-- The bindings the traversal of a chain reaches are those of the assignments
of `chainPaths`, in the same order. -/
theorem chainEnvs_eq_paths (db : KeySpace) (graph : Bytes) (T : List (Bytes × Bytes × Bytes))
    (hidx : IsHexastore db graph T) (hclean : ∀ t ∈ T, CleanTriple t) :
    ∀ (chain : List (Nat × Nat)) (n : Nat) (env : (Nat → Option Bytes) × (Nat → Option Bytes)),
      chainEnvs db graph n chain env
        = (chainPaths db graph n chain env).map (fun A => assignEnv n chain A env) := by
  intro chain
  induction chain with
  | nil => intro n env; rfl
  | cons x rest ih =>
    obtain ⟨e, d⟩ := x
    intro n env
    simp only [chainEnvs, chainPaths]
    rw [scan_triples db graph T hidx hclean, List.flatMap_map, List.map_flatMap]
    congr 1
    funext t
    rw [ih d, List.map_map]
    rfl

/-- The assignments of `chainPaths` are the valid ones. -/
theorem chainPaths_iff (db : KeySpace) (graph : Bytes) (T : List (Bytes × Bytes × Bytes))
    (hidx : IsHexastore db graph T) (hclean : ∀ t ∈ T, CleanTriple t) :
    ∀ (chain : List (Nat × Nat)) (n : Nat) (env : (Nat → Option Bytes) × (Nat → Option Bytes)),
      Ready env n chain → Distinct n chain →
      ∀ A, A ∈ chainPaths db graph n chain env ↔ ValidPath T n chain A env := by
  intro chain
  induction chain with
  | nil =>
    intro n env _ _ A
    cases A with
    | nil => simp [chainPaths, ValidPath]
    | cons t ts => simp [chainPaths, ValidPath]
  | cons x rest ih =>
    obtain ⟨e, d⟩ := x
    intro n env hr hd A
    have hdn : env.1 d = none := (hr.2 (e, d) (List.mem_cons_self _ _)).1
    have hcl_e : ∀ x, env.2 e = some x → CleanBytes x := (hr.2 (e, d) (List.mem_cons_self _ _)).2
    have hscan : ∀ t, t ∈ (queryTriplet db graph ⟨env.1 n, env.2 e, none⟩).filterMap tripleOfKey ↔
        t ∈ T ∧ (env.1 n = none ∨ env.1 n = some t.1) ∧ (env.2 e = none ∨ env.2 e = some t.2.1) := by
      intro t
      have h := scan_spec db graph T hidx hclean (env.1 n) (env.2 e) hr.1 hcl_e (tripletOf t)
      rw [scan_triples db graph T hidx hclean, List.mem_map_of_injective tripletOf_injective] at h
      rw [h]
      constructor
      · rintro ⟨u, hu, heq, h1, h2⟩
        have := tripletOf_injective heq
        subst this
        exact ⟨hu, h1, h2⟩
      · rintro ⟨h0, h1, h2⟩
        exact ⟨t, h0, rfl, h1, h2⟩
    simp only [chainPaths, List.mem_flatMap, List.mem_map, hdn]
    constructor
    · rintro ⟨t, ht, ts, hts, rfl⟩
      obtain ⟨h0, h1, h2⟩ := (hscan t).mp ht
      exact ⟨h0, h1, h2, (ih d _ (ready_step t hr hd (hclean t h0)) (distinct_tail hd) ts).mp hts⟩
    · intro hv
      cases A with
      | nil => exact absurd hv (by simp [ValidPath])
      | cons t ts =>
        obtain ⟨h0, h1, h2, hv'⟩ := hv
        exact ⟨t, (hscan t).mpr ⟨h0, h1, h2⟩, ts,
          (ih d _ (ready_step t hr hd (hclean t h0)) (distinct_tail hd) ts).mpr hv', rfl⟩

theorem scanBefore_irrefl (db : KeySpace) (graph : Bytes) (T : List (Bytes × Bytes × Bytes))
    (hidx : IsHexastore db graph T) (hclean : ∀ t ∈ T, CleanTriple t) :
    ∀ (chain : List (Nat × Nat)) (n : Nat) (env : (Nat → Option Bytes) × (Nat → Option Bytes))
      (A : List (Bytes × Bytes × Bytes)), ¬ ScanBefore db graph n chain env A A := by
  intro chain
  induction chain with
  | nil => intro n env A h; simp [ScanBefore] at h
  | cons x rest ih =>
    obtain ⟨e, d⟩ := x
    intro n env A h
    cases A with
    | nil => simp [ScanBefore] at h
    | cons t ts =>
      simp only [ScanBefore, true_and] at h
      rcases h with ⟨k, hk, k', hk', h1, h2, hlt⟩ | h
      · obtain ⟨u, _, hu1, hu2⟩ := tripleOfKey_member db graph T hidx hclean k
          (queryTriplet_subset db graph _ k hk)
        obtain ⟨u', _, hu1', hu2'⟩ := tripleOfKey_member db graph T hidx hclean k'
          (queryTriplet_subset db graph _ k' hk')
        rw [h1] at hu2
        rw [h2] at hu2'
        injection hu2 with hu2
        injection hu2' with hu2'
        subst hu2
        subst hu2'
        have hkk : k = k' := scan_injective db graph T hidx hclean _ k k' hk hk' (by rw [hu1, hu1'])
        subst hkk
        rw [lexLt_irrefl] at hlt
        exact Bool.noConfusion hlt
      · exact ih d _ ts h

theorem queryTriplet_sorted (db : KeySpace) (graph : Bytes)
    (hwf : ZSetWF (zsetMembers (db graph))) (pat : Triplet) :
    (queryTriplet db graph pat).Pairwise (fun a b => lexLt a b = true) := by
  unfold queryTriplet RedisModule_ZsetFirstInLexRange
  simp only
  split
  · exact List.Pairwise.nil
  · rename_i cursor hc
    split at hc
    · rename_i l lo hi hv _ _
      injection hc with hc
      subst hc
      rw [hv] at hwf
      exact List.Pairwise.filter _ hwf
    · exact Option.noConfusion hc

/-- The assignments of `chainPaths` stand in the lexicographic order of the
cursor scans. -/
theorem chainPaths_pairwise (db : KeySpace) (graph : Bytes)
    (hwf : ZSetWF (zsetMembers (db graph))) :
    ∀ (chain : List (Nat × Nat)) (n : Nat) (env : (Nat → Option Bytes) × (Nat → Option Bytes)),
      (chainPaths db graph n chain env).Pairwise (ScanBefore db graph n chain env) := by
  intro chain
  induction chain with
  | nil => intro n env; exact List.pairwise_singleton _ _
  | cons x rest ih =>
    obtain ⟨e, d⟩ := x
    intro n env
    simp only [chainPaths]
    rw [List.pairwise_flatMap]
    constructor
    · intro t _
      rw [List.pairwise_map]
      refine List.Pairwise.imp ?_ (ih d (bindEnv env n e d (tripletOf t)))
      intro a b hab
      exact Or.inr ⟨rfl, hab⟩
    · have hs := List.Pairwise.and_mem.mp (queryTriplet_sorted db graph hwf ⟨env.1 n, env.2 e, env.1 d⟩)
      refine List.Pairwise.filterMap tripleOfKey ?_ hs
      rintro k k' ⟨hk, hk', hlt⟩ t ht u hu a ha b hb
      obtain ⟨ts, _, rfl⟩ := List.mem_map.mp ha
      obtain ⟨us, _, rfl⟩ := List.mem_map.mp hb
      exact Or.inl ⟨k, hk, k', hk', ht, hu, hlt⟩

theorem chainPaths_nodup (db : KeySpace) (graph : Bytes) (T : List (Bytes × Bytes × Bytes))
    (hidx : IsHexastore db graph T) (hclean : ∀ t ∈ T, CleanTriple t)
    (hwf : ZSetWF (zsetMembers (db graph))) (chain : List (Nat × Nat)) (n : Nat)
    (env : (Nat → Option Bytes) × (Nat → Option Bytes)) :
    (chainPaths db graph n chain env).Nodup := by
  refine List.Pairwise.imp ?_ (chainPaths_pairwise db graph hwf chain n env)
  intro a b hab heq
  subst heq
  exact scanBefore_irrefl db graph T hidx hclean chain n env a hab

/-- C24 (amended): on the hexastore of edges whose coordinates contain neither
`':'` nor a NUL byte nor the byte `0xFF`, kept as a sorted set, for a pattern
graph that is a linear chain of at least one edge with pairwise distinct,
unbound nodes (the labels, where given, clean as well), without a filter, for
a non-aggregated query with unbounded capacity: `QueryNode`, started at the first node with no
other entry points, returns, leaves the bindings as they were, and appends
the projections of the assignments of `chainPaths`, one record each, in
their order. No assignment occurs twice among them; an assignment is among
them if and only if it gives every chain edge an edge of the hexastore that
carries the label of the chain edge, neighbouring triples meeting in the node
they share; and they stand in the lexicographic order of the cursor scans,
each scan ordered by its keys in the sorted set. -/
theorem queryNode_chain_order {F R C : Type} (ctx : QueryCtx F R C)
    (T : List (Bytes × Bytes × Bytes)) (hidx : IsHexastore ctx.db ctx.graphName T)
    (hclean : ∀ t ∈ T, CleanTriple t) (hwf : ZSetWF (zsetMembers (ctx.db ctx.graphName)))
    (g : Graph) (n e d : Nat) (chain : List (Nat × Nat))
    (hchain : IsChainFrom g n ((e, d) :: chain))
    (hdist : (n :: d :: chain.map Prod.snd).Nodup ∧ (e :: chain.map Prod.fst).Nodup)
    (hunbound : ∀ i ∈ n :: d :: chain.map Prod.snd, idOf g i = none)
    (hlabels : ∀ j ∈ e :: chain.map Prod.fst, ∀ x, relOf g j = some x → CleanBytes x)
    (hfilter : ctx.filterTree = none)
    (rs : ResultSet) (hlim : rs.limit = none) (hagg : rs.aggregated = false) (cache : C)
    (fuel : Nat) (hfuel : chain.length + 1 ≤ fuel) :
    QueryNode ctx fuel n ⟨g, [], rs, cache⟩
        = .ok ⟨g, [],
            { rs with records := (rs.records ++
                (chainPaths ctx.db ctx.graphName n ((e, d) :: chain) (idOf g, relOf g)).map
                  (fun A => ctx.ReturnClause_RetrivePropValues ctx.returnTree
                    (assignChain n ((e, d) :: chain) A g))) },
            cache⟩ ∧
      (chainPaths ctx.db ctx.graphName n ((e, d) :: chain) (idOf g, relOf g)).Nodup ∧
      (∀ A : List (Bytes × Bytes × Bytes),
        A ∈ chainPaths ctx.db ctx.graphName n ((e, d) :: chain) (idOf g, relOf g) ↔
          A.length = chain.length + 1 ∧ Meets A ∧ (∀ t ∈ A, t ∈ T) ∧
            MatchesLabels (relOf g) ((e, d) :: chain) A) ∧
      (chainPaths ctx.db ctx.graphName n ((e, d) :: chain) (idOf g, relOf g)).Pairwise
        (ScanBefore ctx.db ctx.graphName n ((e, d) :: chain) (idOf g, relOf g)) := by
  have hD : Distinct n ((e, d) :: chain) := hdist
  have hself := withBindings_self g
  have hparse := hexastore_parses ctx.db ctx.graphName T hidx hclean
  have hrun := queryNode_chain ctx g hparse chain n e d hchain fuel hfuel (idOf g, relOf g) rs
    cache hlim hagg
  simp only [hself] at hrun
  have hready : Ready (idOf g, relOf g) n ((e, d) :: chain) := by
    constructor
    · intro x hx
      rw [show (idOf g, relOf g).1 n = idOf g n from rfl, hunbound n (by simp)] at hx
      exact Option.noConfusion hx
    · intro ed hed
      constructor
      · exact hunbound ed.2 (List.mem_cons_of_mem _ (List.mem_map_of_mem Prod.snd hed))
      · intro x hx
        exact hlabels ed.1 (List.mem_map_of_mem Prod.fst hed) x hx
  have hassign : ∀ A, assignChain n ((e, d) :: chain) A g
      = withBindings g (assignEnv n ((e, d) :: chain) A (idOf g, relOf g)).1
          (assignEnv n ((e, d) :: chain) A (idOf g, relOf g)).2 := by
    intro A
    have := assignChain_withBindings g ((e, d) :: chain) n A (idOf g, relOf g)
    rw [← this]
    simp only [hself]
  have hemit : emitted ctx g (chainEnvs ctx.db ctx.graphName n ((e, d) :: chain) (idOf g, relOf g))
      = (chainPaths ctx.db ctx.graphName n ((e, d) :: chain) (idOf g, relOf g)).map
          (fun A => ctx.ReturnClause_RetrivePropValues ctx.returnTree
            (assignChain n ((e, d) :: chain) A g)) := by
    rw [chainEnvs_eq_paths ctx.db ctx.graphName T hidx hclean]
    simp only [emitted, passesFilter, hfilter, List.filter_true, List.map_map]
    refine List.map_congr_left (fun A _ => ?_)
    simp only [Function.comp, hassign A]
  refine ⟨?_, chainPaths_nodup ctx.db ctx.graphName T hidx hclean hwf _ n _, ?_,
    chainPaths_pairwise ctx.db ctx.graphName hwf _ n _⟩
  · rw [hrun, hemit]
  · intro A
    rw [chainPaths_iff ctx.db ctx.graphName T hidx hclean _ n _ hready hD A,
      validPath_iff T ((e, d) :: chain) n A _ hD]
    constructor
    · rintro ⟨h1, h2, h3, _⟩
      exact ⟨by simpa using matchesLabels_length _ _ _ h3, h2, h1, h3⟩
    · rintro ⟨_, h2, h1, h3⟩
      exact ⟨h1, h2, h3, fun _ _ => Or.inl (hunbound n (by simp))⟩

theorem threeEdgeDb_sorted : ZSetWF (zsetMembers (threeEdgeDb (str "g"))) := by
  unfold ZSetWF
  decide

/-- C24 on the two-hop pattern `(x)-[:r]->(y)-[:r]->(z)` over the edges
`(a,r,b)`, `(b,r,c)`, `(a,r,c)`: the one assignment is `(a,r,b)`, `(b,r,c)`, and
the one record is that of the tuple `(a, b, c)`. -/
theorem queryNode_chain_order_witness :
    chainPaths threeEdgeDb (str "g") 0 [(0, 1), (1, 2)] (idOf twoHopGraph, relOf twoHopGraph)
        = [[(str "a", str "r", str "b"), (str "b", str "r", str "c")]] ∧
      QueryNode (snapshotCtx threeEdgeDb (str "g")) 2 0 ⟨twoHopGraph, [], ⟨[], none, false⟩, ()⟩
        = .ok ⟨twoHopGraph, [],
            ⟨[[some (str "a"), some (str "b"), some (str "c"), some (str "r"), some (str "r")]],
              none, false⟩, ()⟩ ∧
      (∀ A : List (Bytes × Bytes × Bytes),
        A ∈ chainPaths threeEdgeDb (str "g") 0 [(0, 1), (1, 2)]
            (idOf twoHopGraph, relOf twoHopGraph) ↔
          A.length = 2 ∧ Meets A ∧
            (∀ t ∈ A, t ∈ [(str "a", str "r", str "b"), (str "b", str "r", str "c"),
              (str "a", str "r", str "c")]) ∧
            MatchesLabels (relOf twoHopGraph) [(0, 1), (1, 2)] A) :=
  ⟨by rfl, by rfl,
    (queryNode_chain_order (snapshotCtx threeEdgeDb (str "g"))
      [(str "a", str "r", str "b"), (str "b", str "r", str "c"), (str "a", str "r", str "c")]
      (isHexastore_addEdges _ _ _ (by decide)) (by decide) threeEdgeDb_sorted twoHopGraph 0 0 1 [(1, 2)]
      ⟨_, _, rfl, rfl, rfl, rfl, rfl, _, _, rfl, rfl, rfl, rfl, rfl, _, rfl, rfl⟩
      (by decide) (by decide)
      (by
        intro j hj x hx
        have hr : relOf twoHopGraph j = some (str "r") := by
          simp only [List.map_cons, List.map_nil, List.mem_cons, List.mem_singleton,
            List.not_mem_nil, or_false] at hj
          rcases hj with h | h <;> subst h <;> rfl
        rw [hr] at hx
        injection hx with hx
        subst hx
        decide)
      rfl ⟨[], none, false⟩ rfl rfl () 2 (by decide)).2.2.1⟩

/-- C24 (counterexample): the index after `ADDEDGE g a:b c d` is the hexastore
of the one edge `(a:b, c, d)`, and the pattern `(x)-[e:c]->(y)` is a chain of
one labelled edge. The one tuple `(v0, v1)` with `(v0, c, v1)` an edge of the
index is `(a:b, d)`; `QueryNode`, started at `x` with no other entry points,
no filter and unbounded capacity, emits one record, and it is that of the
tuple `(a, b:d)`: the scan of `pso:c:` yields the key `pso:c:a:b:d`, which
parses to the subject `a` and the object `b:d`. -/
theorem queryNode_chain_colon_tuple :
    BuildGraph NewGraph labelledHopPattern = .ok labelledHopGraph ∧
      IsChainFrom labelledHopGraph 0 [(0, 1)] ∧
      IsHexastore colonDb (str "g") [(str "a:b", str "c", str "d")] ∧
      zsetMembers (colonDb (str "g"))
        = [str "ops:d:c:a:b", str "osp:d:a:b:c", str "pos:c:d:a:b", str "pso:c:a:b:d",
            str "sop:a:b:d:c", str "spo:a:b:c:d"] ∧
      queryTriplet colonDb (str "g") ⟨none, some (str "c"), none⟩ = [str "pso:c:a:b:d"] ∧
      QueryNode (snapshotCtx colonDb (str "g")) 1 0 ⟨labelledHopGraph, [], ⟨[], none, false⟩, ()⟩
        = .ok ⟨labelledHopGraph, [],
            ⟨[[some (str "a"), some (str "b:d"), some (str "c")]], none, false⟩, ()⟩ ∧
      snapshot (assignChain 0 [(0, 1)] [(str "a:b", str "c", str "d")] labelledHopGraph)
        = [some (str "a:b"), some (str "d"), some (str "c")] ∧
      (str "a", str "c", str "b:d") ∉ [(str "a:b", str "c", str "d")] :=
  ⟨by rfl, ⟨_, _, rfl, rfl, rfl, rfl, rfl, _, rfl, rfl⟩, isHexastore_addEdges _ _ _ (by decide), by rfl, by rfl,
    by rfl, by rfl, by decide⟩
end RedisGraph
